import Mathlib

/-! # Malloc-Lab: boundary-tag allocator `mm.c`

A shallow embedding of `src/mm.c`.  The arena is a map from byte addresses to
8-byte little-endian words; every access the allocator makes is word-sized and
word-aligned, `memcpy` being the one byte-granular operation.  Pointers and
`size_t` values are natural numbers below `2^64`; arithmetic that can wrap is
reduced modulo `2^64` explicitly.

`struct header_f` is `h_prev` at offset 0, `h_next` at offset 8 and `h_size` at
offset 16 (`HEADER_SIZE = 24`); `struct footer_f` is the single word `f_header`
(`FOOTER_SIZE = 8`).
-/

namespace MallocLab

/-- Number of values of a 64-bit word. -/
def W : Nat := 18446744073709551616

/-- Constant `sizeof(struct header_f)`. -/
def HEADER_SIZE : Nat := 24

/-- Constant `sizeof(struct footer_f)`. -/
def FOOTER_SIZE : Nat := 8

/-- Modelled from the spec: the arena provider (`memlib`), which is not part of
the source given.  `lo` is `current_low()`, `brk` the one-past-the-end address
of the committed arena, `cap` the address the arena cannot grow beyond.
`hiOff` fixes what `mem_heap_hi()` reports: `brk - hiOff`, so `hiOff = 1` is
"address of the last committed byte" and `hiOff = 0` is "one past the end".
`enomem` records that a growth request has failed.  `mem` is the content of
memory, one 8-byte word per byte address. -/
structure Heap where
  lo : Nat
  brk : Nat
  cap : Nat
  hiOff : Nat
  enomem : Bool
  mem : Nat → Nat

/-- Pointer addition, wrapping at `2^64`. -/
def padd (a b : Nat) : Nat := (a + b) % W

/-- Pointer or `size_t` subtraction, wrapping at `2^64`. -/
def psub (a b : Nat) : Nat := (a + (W - b % W)) % W

/-- Word read at address `a`. -/
def rd (h : Heap) (a : Nat) : Nat := h.mem a

/-- Word write of `v` at address `a`. -/
def wr (h : Heap) (a v : Nat) : Heap :=
  { h with mem := fun x => if x = a then v else h.mem x }

/-- Macro `ALIGN(size)`: `(size + 7) & ~7` on `size_t`. -/
def ALIGN (size : Nat) : Nat := (size + 7) % W / 8 * 8

/-- Macro `ALIGN_DOWN(size)`: `size & ~7`. -/
def ALIGN_DOWN (size : Nat) : Nat := size / 8 * 8

/-- Expression `x & ~1`: the payload size with the tag bit masked off. -/
def untag (x : Nat) : Nat := x / 2 * 2

/-- Expression `x & 1`: the tag bit (1 = free). -/
def tagBit (x : Nat) : Nat := x % 2

/-- Expression `x | 1`: the size word with the free tag set. -/
def setTag (x : Nat) : Nat := x / 2 * 2 + 1

/-- Modelled from the spec: `mem_heap_lo()` of the arena provider. -/
def mem_heap_lo (h : Heap) : Nat := h.lo

/-- Modelled from the spec: `mem_heap_hi()` of the arena provider. -/
def mem_heap_hi (h : Heap) : Nat := h.brk - h.hiOff

/-- Modelled from the spec: `mem_sbrk(incr)` of the arena provider.  It extends
the arena by `incr` bytes and returns the previous high mark, or signals failure
by returning `(void*)-1` and leaving the arena as it was. -/
def mem_sbrk (h : Heap) (incr : Nat) : Nat × Heap :=
  if h.brk + incr ≤ h.cap then (h.brk, { h with brk := h.brk + incr })
  else (W - 1, { h with enomem := true })

/-- Macro `END_OF_PROLOGUE`: `mem_heap_lo() + 2*HEADER_SIZE`. -/
def END_OF_PROLOGUE (h : Heap) : Nat := padd (mem_heap_lo h) (2 * HEADER_SIZE)

/-- Field `b->h_prev`. -/
def h_prev (h : Heap) (b : Nat) : Nat := rd h b

/-- Field `b->h_next`. -/
def h_next (h : Heap) (b : Nat) : Nat := rd h (padd b 8)

/-- Field `b->h_size`. -/
def h_size (h : Heap) (b : Nat) : Nat := rd h (padd b 16)

/-- Assignment `b->h_prev = v`. -/
def set_prev (h : Heap) (b v : Nat) : Heap := wr h b v

/-- Assignment `b->h_next = v`. -/
def set_next (h : Heap) (b v : Nat) : Heap := wr h (padd b 8) v

/-- Assignment `b->h_size = v`. -/
def set_size (h : Heap) (b v : Nat) : Heap := wr h (padd b 16) v

/-- Function `getPrevPhyBlk`. -/
def getPrevPhyBlk (h : Heap) (thisBlk : Nat) : Nat :=
  let prevFooter := psub thisBlk FOOTER_SIZE
  if prevFooter < END_OF_PROLOGUE h then 0 else rd h prevFooter

/-- Function `getNextPhyBlk`. -/
def getNextPhyBlk (h : Heap) (thisBlk : Nat) : Nat :=
  let payloadSize := untag (h_size h thisBlk)
  let thisBlkSize := padd (padd HEADER_SIZE payloadSize) FOOTER_SIZE
  let nextPhyBlk := padd thisBlk thisBlkSize
  if padd nextPhyBlk HEADER_SIZE > mem_heap_hi h then 0 else nextPhyBlk

/-- Function `removeFromList`. -/
def removeFromList (h : Heap) (thisBlk : Nat) : Heap :=
  if h_next h thisBlk ≠ 0 then
    let h1 := set_prev h (h_next h thisBlk) (h_prev h thisBlk)
    set_next h1 (h_prev h1 thisBlk) (h_next h1 thisBlk)
  else
    let allocBasep := mem_heap_lo h
    let h1 := set_prev h allocBasep (h_prev h thisBlk)
    set_next h1 (h_prev h1 thisBlk) (mem_heap_lo h1)

/-- Function `addToAllocList`. -/
def addToAllocList (h : Heap) (thisBlk : Nat) : Heap :=
  let h1 := set_next h thisBlk (mem_heap_lo h)
  let h2 := set_prev h1 thisBlk (h_prev h1 (h_next h1 thisBlk))
  let h3 := set_next h2 (h_prev h2 thisBlk) thisBlk
  set_prev h3 (h_next h3 thisBlk) thisBlk

/-- Function `addToFreeList`. -/
def addToFreeList (h : Heap) (thisBlk : Nat) : Heap :=
  let h1 := set_next h thisBlk (padd (mem_heap_lo h) HEADER_SIZE)
  let h2 := set_prev h1 thisBlk (h_prev h1 (h_next h1 thisBlk))
  let h3 := set_next h2 (h_prev h2 thisBlk) thisBlk
  set_prev h3 (h_next h3 thisBlk) thisBlk

/-- Function `mm_init`; the result is the returned status and the heap. -/
def mm_init (h : Heap) : Nat × Heap :=
  let (p, h0) := mem_sbrk h (3 * HEADER_SIZE + FOOTER_SIZE)
  let allocBasep := p
  let h1 := set_prev h0 allocBasep allocBasep
  let h2 := set_next h1 allocBasep allocBasep
  let p1 := padd p HEADER_SIZE
  let freeBasep := p1
  let h3 := set_prev h2 freeBasep freeBasep
  let h4 := set_next h3 freeBasep freeBasep
  let p2 := padd p1 HEADER_SIZE
  let freeHeader := p2
  let h5 := set_size h4 freeHeader 1
  let p3 := padd p2 HEADER_SIZE
  let freeFooter := p3
  let h6 := wr h5 freeFooter freeHeader
  (0, addToFreeList h6 freeHeader)

/-- Function `sbrkBlk`. -/
def sbrkBlk (h : Heap) (req_size : Nat) : Nat × Heap :=
  let lastFooter := ALIGN_DOWN (mem_heap_hi h)
  let lastHeader := rd h lastFooter
  let current_size := untag (h_size h lastHeader)
  if tagBit (h_size h lastHeader) ≠ 0 then
    let h1 := removeFromList h lastHeader
    let needed_size := psub req_size current_size
    let h2 := (mem_sbrk h1 needed_size).2
    let h3 := set_size h2 lastHeader req_size
    let lastFooter2 := ALIGN_DOWN (mem_heap_hi h3)
    let h4 := wr h3 lastFooter2 lastHeader
    (lastHeader, addToAllocList h4 lastHeader)
  else
    let (new_header, h1) := mem_sbrk h (ALIGN (padd (padd req_size FOOTER_SIZE) HEADER_SIZE))
    let new_footer := padd (padd new_header HEADER_SIZE) req_size
    let h2 := set_size h1 new_header req_size
    let h3 := addToAllocList h2 new_header
    (new_header, wr h3 new_footer new_header)

/-- Body of the first-fit loop of `mm_malloc`, applied to a candidate that was
not skipped (source lines 270-296). -/
def mallocFit (h : Heap) (size this : Nat) : Nat × Heap :=
  let chunkSize := padd (padd size HEADER_SIZE) FOOTER_SIZE
  let minFreeSize := 8 + HEADER_SIZE + FOOTER_SIZE
  let currentFreeSize := padd (padd (untag (h_size h this)) HEADER_SIZE) FOOTER_SIZE
  if padd chunkSize minFreeSize ≤ currentFreeSize then
    let h1 := set_size h this (psub (untag (h_size h this)) chunkSize)
    let h2 := set_size h1 this (setTag (h_size h1 this))
    let newChunkHeader := psub (padd this currentFreeSize) chunkSize
    let newChunkFooter := padd (padd newChunkHeader HEADER_SIZE) size
    let freeFooter := psub newChunkHeader FOOTER_SIZE
    let h3 := addToAllocList h2 newChunkHeader
    let h4 := set_size h3 newChunkHeader size
    let h5 := wr h4 freeFooter this
    let h6 := wr h5 newChunkFooter newChunkHeader
    (padd newChunkHeader HEADER_SIZE, h6)
  else
    let h1 := removeFromList h this
    let h2 := addToAllocList h1 this
    let h3 := set_size h2 this (untag (h_size h2 this))
    (padd this HEADER_SIZE, h3)

/-- The first-fit loop of `mm_malloc` from candidate `this` on, with the
fall-through to `sbrkBlk`.  `fuel` bounds the number of iterations; `none` means
the bound was reached. -/
def mallocLoop (h : Heap) (size : Nat) : Nat → Nat → Option (Nat × Heap)
  | 0, _ => none
  | fuel + 1, this =>
    let freeBasep := padd (mem_heap_lo h) HEADER_SIZE
    if this = freeBasep then
      let r := sbrkBlk h size
      some (padd r.1 HEADER_SIZE, r.2)
    else if untag (h_size h this) < size then
      mallocLoop h size fuel (h_next h this)
    else some (mallocFit h size this)

/-- Function `mm_malloc`.  The loop is run for more iterations than the arena
has bytes, so that `none` arises only when the free list does not lead back to
its sentinel. -/
def mm_malloc (h : Heap) (size : Nat) : Option (Nat × Heap) :=
  let size := ALIGN size
  let allocBasep := mem_heap_lo h
  let freeBasep := padd allocBasep HEADER_SIZE
  mallocLoop h size (h.brk + 1) (h_next h freeBasep)

/-- Function `mm_coalesce`. -/
def mm_coalesce (h : Heap) (keptBlk : Nat) : Nat × Heap :=
  let nextBlk := getNextPhyBlk h keptBlk
  let h1 := removeFromList h keptBlk
  let h2 := removeFromList h1 nextBlk
  let h3 := set_size h2 keptBlk
    (padd (h_size h2 keptBlk)
      (padd (padd HEADER_SIZE (untag (h_size h2 nextBlk))) FOOTER_SIZE))
  let footerAddr := padd (padd keptBlk HEADER_SIZE) (untag (h_size h3 keptBlk))
  (keptBlk, wr h3 footerAddr keptBlk)

/-- Function `mm_free`. -/
def mm_free (h : Heap) (ptr : Nat) : Heap :=
  let thisBlk := psub ptr HEADER_SIZE
  let h1 := removeFromList h thisBlk
  let nextBlk := getNextPhyBlk h1 thisBlk
  let r1 : Nat × Heap :=
    if nextBlk ≠ 0 ∧ tagBit (h_size h1 nextBlk) ≠ 0 then mm_coalesce h1 thisBlk
    else (thisBlk, h1)
  let prevBlk := getPrevPhyBlk r1.2 r1.1
  let r2 : Nat × Heap :=
    if prevBlk ≠ 0 ∧ tagBit (h_size r1.2 prevBlk) ≠ 0 then mm_coalesce r1.2 prevBlk
    else r1
  let h3 := addToFreeList r2.2 r2.1
  if untag (h_size h3 r2.1) ≠ 0 then set_size h3 r2.1 (setTag (h_size h3 r2.1))
  else h3

/-- Macro `SIZE_T_SIZE`: `ALIGN(sizeof(size_t))`. -/
def SIZE_T_SIZE : Nat := ALIGN 8

/-- Library function `memcpy` on whole words: word `i < k` of the destination
receives word `i` of the source as it was in `h0`. -/
def memcpyWords (h0 : Heap) (dst src : Nat) : Nat → Heap → Heap
  | 0, h => h
  | k + 1, h =>
    wr (memcpyWords h0 dst src k h) (padd dst (8 * k)) (rd h0 (padd src (8 * k)))

/-- Library function `memcpy(dst, src, n)` for word-aligned `dst` and `src`:
`n / 8` whole words, then the low `n % 8` bytes of the next word. -/
def memcpy (h : Heap) (dst src n : Nat) : Heap :=
  let h1 := memcpyWords h dst src (n / 8) h
  if n % 8 = 0 then h1
  else
    let d := padd dst (n / 8 * 8)
    let s := padd src (n / 8 * 8)
    wr h1 d (rd h s % 256 ^ (n % 8) + rd h1 d / 256 ^ (n % 8) * 256 ^ (n % 8))

/-- Function `mm_realloc`. -/
def mm_realloc (h : Heap) (ptr size : Nat) : Option (Nat × Heap) :=
  match mm_malloc h size with
  | none => none
  | some (newptr, h1) =>
    if newptr = 0 then some (0, h1)
    else
      let copySize := rd h1 (psub ptr SIZE_T_SIZE)
      let copySize := if size < copySize then size else copySize
      let h2 := memcpy h1 newptr ptr copySize
      some (newptr, mm_free h2 ptr)

/-! ## Observations on a heap -/

/-- Nodes met when following `h_next` from `cur` until `sentinel` is reached, at
most `fuel` of them. -/
def walk (h : Heap) (sentinel : Nat) : Nat → Nat → List Nat
  | 0, _ => []
  | fuel + 1, cur =>
    if cur = sentinel then [] else cur :: walk h sentinel fuel (h_next h cur)

/-- Headers on the allocated list, in link order from the sentinel's `h_next`. -/
def allocList (h : Heap) : List Nat :=
  walk h (mem_heap_lo h) (h.brk + 1) (h_next h (mem_heap_lo h))

/-- Headers on the free list, in link order from the sentinel's `h_next`. -/
def freeList (h : Heap) : List Nat :=
  walk h (padd (mem_heap_lo h) HEADER_SIZE) (h.brk + 1)
    (h_next h (padd (mem_heap_lo h) HEADER_SIZE))

/-- Payload size of the block with header `b`: `b->h_size & ~1`. -/
def payloadSize (h : Heap) (b : Nat) : Nat := untag (h_size h b)

/-- Footer word of the block with header `b`, read where the header's size says
the payload ends. -/
def footerOf (h : Heap) (b : Nat) : Nat := rd h (padd (padd b HEADER_SIZE) (payloadSize h b))

/-! ## Reachable heaps -/

/-- An arena on which nothing has been committed yet: non-null, 8-aligned start,
`mem_heap_hi()` reporting the last committed byte, and a limit that leaves room
for a header below `2^64`, so that no pointer into the arena wraps. -/
def Fresh (h : Heap) : Prop :=
  0 < h.lo ∧ h.lo % 8 = 0 ∧ h.brk = h.lo ∧ h.cap + 24 < W ∧ h.hiOff = 1 ∧ h.enomem = false

/-- A request size whose rounded value plus header and footer is representable
in `size_t`, so that the growth `sbrkBlk` asks for is the size of the block it
builds. -/
def ValidSize (n : Nat) : Prop := n + 39 < W

/-- Heaps reachable from `mm_init` by valid calls whose request sizes satisfy
`S`, with every growth request granted, together with the live payload
addresses and the size each was requested with. -/
inductive ReachS (S : Nat → Prop) : Heap → List (Nat × Nat) → Prop
  | init (h0 : Heap) : Fresh h0 → (mm_init h0).2.enomem = false →
      ReachS S (mm_init h0).2 []
  | malloc (h h1 : Heap) (L : List (Nat × Nat)) (n p : Nat) :
      ReachS S h L → S n → mm_malloc h n = some (p, h1) → h1.enomem = false →
      ReachS S h1 ((p, n) :: L)
  | free (h : Heap) (L : List (Nat × Nat)) (p n : Nat) :
      ReachS S h L → (p, n) ∈ L →
      ReachS S (mm_free h p) (L.filter fun e => decide (e.1 ≠ p))
  | realloc (h h1 : Heap) (L : List (Nat × Nat)) (p n n1 q : Nat) :
      ReachS S h L → (p, n) ∈ L → S n1 → mm_realloc h p n1 = some (q, h1) →
      h1.enomem = false →
      ReachS S h1 ((q, n1) :: L.filter fun e => decide (e.1 ≠ p))

/-- Heaps reachable by valid calls whose request sizes are all at most
`2^64 - 40`, every growth request granted, with the live payload addresses. -/
def Reach (h : Heap) (L : List (Nat × Nat)) : Prop := ReachS ValidSize h L

/-- Heaps reachable from `mm_init` by valid calls whose request sizes are all at
most `2^64 - 40`, growth succeeding. -/
def Reachable (h : Heap) : Prop := ∃ L, Reach h L

/-- Heaps reachable by valid calls whose request sizes are all between 1 and
`2^64 - 40`, growth succeeding. -/
def ReachablePos (h : Heap) : Prop := ∃ L, ReachS (fun n => 1 ≤ n ∧ ValidSize n) h L

/-! ## The representation invariant -/

/-- A physical block: header address, payload size, tag bit. -/
structure Blk where
  addr : Nat
  size : Nat
  free : Bool

/-- The size word a block's header holds. -/
def Blk.word (b : Blk) : Nat := b.size + (if b.free then 1 else 0)

/-- Blocks `bs` tile the address range from `s` to `e`, each taking
`HEADER_SIZE + size + FOOTER_SIZE` bytes, with sizes multiples of 8. -/
def Tiles : Nat → List Blk → Nat → Prop
  | s, [], e => s = e
  | s, b :: r, e => b.addr = s ∧ b.size % 8 = 0 ∧ Tiles (b.addr + 32 + b.size) r e

/-- Nodes `a` then `b` are linked: `a->h_next = b` and `b->h_prev = a`. -/
def Lnk (h : Heap) (a b : Nat) : Prop := h.mem (a + 8) = b ∧ h.mem b = a

/-- The circular list anchored at sentinel `s` holds exactly `xs`, in order. -/
def Ring (h : Heap) (s : Nat) (xs : List Nat) : Prop :=
  List.Chain' (Lnk h) (s :: xs ++ [s])

/-- The logical content of a heap: the physical blocks in address order and the
two lists in link order. -/
structure Abs where
  blocks : List Blk
  al : List Nat
  fl : List Nat

/-- Heap `h` holds the layout `A.blocks` and the two rings `A.al`, `A.fl`, whose
nodes are headers of `A.blocks`.  This is what every intermediate state of an
operation satisfies; a block may be on neither list. -/
structure Core (h : Heap) (A : Abs) : Prop where
  lo_pos : 0 < h.lo
  lo_al : h.lo % 8 = 0
  brk_cap : h.brk ≤ h.cap
  cap_lt : h.cap + 24 < W
  hi : h.hiOff = 1
  ok : h.enomem = false
  tiles : Tiles (h.lo + 48) A.blocks h.brk
  ne : A.blocks ≠ []
  data : ∀ b ∈ A.blocks, h.mem (b.addr + 16) = b.word ∧ h.mem (b.addr + 24 + b.size) = b.addr
  ringA : Ring h h.lo A.al
  ringF : Ring h (h.lo + 24) A.fl
  nodup : (A.al ++ A.fl).Nodup
  sub : ∀ a ∈ A.al ++ A.fl, ∃ b ∈ A.blocks, b.addr = a

/-- Heap `h` represents `A`: every block is on exactly one list, a tagged block
is on the free list, and a free-list block of non-zero payload is tagged. -/
structure Rep (h : Heap) (A : Abs) extends Core h A : Prop where
  cover : ∀ b ∈ A.blocks, b.addr ∈ A.al ++ A.fl
  tagF : ∀ b ∈ A.blocks, b.free = true → b.addr ∈ A.fl
  tagS : ∀ b ∈ A.blocks, b.addr ∈ A.fl → b.size ≠ 0 → b.free = true

/-- The list nodes of a heap: the two sentinels and the block headers. -/
def nodes (h : Heap) (A : Abs) : List Nat :=
  h.lo :: (h.lo + 24) :: A.blocks.map Blk.addr

/-- Block `x`, on neither list, still carries the links of the allocated-list
position it was removed from: its neighbours there are now linked to each
other. -/
def Stale (h : Heap) (A : Abs) (x : Nat) : Prop :=
  h.mem x ∈ h.lo :: A.al ∧ h.mem (x + 8) ∈ h.lo :: A.al ∧ Lnk h (h.mem x) (h.mem (x + 8))

/-- Any two distinct addresses of `l` are at least a header apart. -/
def Sep24 (l : List Nat) : Prop := ∀ a ∈ l, ∀ b ∈ l, a = b ∨ a + 24 ≤ b ∨ b + 24 ≤ a

/-- Payload words of allocated blocks of `A` are the same in `h1` as in `h`. -/
def PayloadFrame (h h1 : Heap) (A : Abs) : Prop :=
  ∀ d ∈ A.blocks, d.addr ∈ A.al → ∀ a, d.addr + 24 ≤ a → a < d.addr + 24 + d.size →
    h1.mem a = h.mem a

/-- The first-fit candidate for an aligned request `N`: the first header in
free-list order whose payload size is at least `N`. -/
def firstFit (h : Heap) (N : Nat) : Option Nat :=
  (freeList h).find? fun t => decide (N ≤ payloadSize h t)

/-- What a granted `mm_malloc h n = (p, h1)` establishes: `h1` represents `A1`,
whose allocated list is that of `A` followed by the returned block; the block's
payload size is the rounded request or up to 39 bytes more; blocks that were
allocated keep their place, size and payload words. -/
structure MallocPost (h : Heap) (A : Abs) (n p : Nat) (h1 : Heap) (A1 : Abs) : Prop where
  rep : Rep h1 A1
  hdr : ∃ b ∈ A1.blocks, b.addr + 24 = p ∧ A1.al = A.al ++ [b.addr] ∧
    ALIGN n ≤ b.size ∧ b.size < ALIGN n + 40 ∧ b.free = false
  keep : ∀ d ∈ A.blocks, d.addr ∈ A.al → d ∈ A1.blocks
  frame : PayloadFrame h h1 A
  lo : h1.lo = h.lo
  brk : h.brk ≤ h1.brk

/-- Address `a` holds metadata of layout `A`: a link field of a sentinel or
header, a size word, or a footer. -/
def Meta (h : Heap) (A : Abs) (a : Nat) : Prop :=
  (∃ y ∈ nodes h A, a = y ∨ a = y + 8) ∨
  (∃ d ∈ A.blocks, a = d.addr + 16 ∨ a = d.addr + 24 + d.size)

/-- Heap `h1` differs from `h` at metadata addresses of `A` only. -/
def MetaFrame (h h1 : Heap) (A : Abs) : Prop := ∀ a, ¬ Meta h A a → h1.mem a = h.mem a

/-- An intermediate state of `mm_free`: block `x` is on neither list, every
other block is on one, and the tags of the others agree with their list. -/
structure Mid (h : Heap) (A : Abs) (x : Nat) : Prop where
  core : Core h A
  blk : ∃ k ∈ A.blocks, k.addr = x
  orph : x ∉ A.al ++ A.fl
  cover : ∀ d ∈ A.blocks, d.addr ≠ x → d.addr ∈ A.al ++ A.fl
  tagF : ∀ d ∈ A.blocks, d.addr ≠ x → d.free = true → d.addr ∈ A.fl
  tagS : ∀ d ∈ A.blocks, d.addr ∈ A.fl → d.size ≠ 0 → d.free = true

/-- The last two statements of `mm_free`: link the surviving block into the
free list and tag it unless its payload size is zero. -/
def freeFinish (h : Heap) (thisBlk : Nat) : Heap :=
  let h3 := addToFreeList h thisBlk
  if untag (h_size h3 thisBlk) ≠ 0 then set_size h3 thisBlk (setTag (h_size h3 thisBlk))
  else h3

/-- The forward check of `mm_free` (source lines 329-332) applied after the
first unlink: the surviving block and the heap. -/
def freeFwd (h1 : Heap) (thisBlk : Nat) : Nat × Heap :=
  let nextBlk := getNextPhyBlk h1 thisBlk
  if nextBlk ≠ 0 ∧ tagBit (h_size h1 nextBlk) ≠ 0 then mm_coalesce h1 thisBlk
  else (thisBlk, h1)

/-- The backward check of `mm_free` (source lines 333-336). -/
def freeBwd (r1 : Nat × Heap) : Nat × Heap :=
  let prevBlk := getPrevPhyBlk r1.2 r1.1
  if prevBlk ≠ 0 ∧ tagBit (h_size r1.2 prevBlk) ≠ 0 then mm_coalesce r1.2 prevBlk
  else r1

/-- What `mm_free h (x + 24)` establishes for an allocated block `x`: the result
represents `A1`, whose allocated list is that of `A` without `x`; the other
allocated blocks keep their place and size; only metadata words change. -/
structure FreePost (h : Heap) (A : Abs) (x : Nat) (h1 : Heap) (A1 : Abs) : Prop where
  rep : Rep h1 A1
  al : ∃ xs1 xs2, A.al = xs1 ++ x :: xs2 ∧ A1.al = xs1 ++ xs2
  keep : ∀ d ∈ A.blocks, d.addr ∈ A.al → d.addr ≠ x → d ∈ A1.blocks
  frame : MetaFrame h h1 A
  lo : h1.lo = h.lo
  brk : h1.brk = h.brk

/-- No two physically adjacent blocks are both tagged free. -/
def NoAdj (bs : List Blk) : Prop :=
  List.Chain' (fun b d => ¬ (b.free = true ∧ d.free = true)) bs

/-- The logical effect of a granted `mm_malloc` of aligned size `N`: reuse of a
whole free block, split of a free block, extension of a free last block, or a
new block appended after an allocated last block. -/
inductive MStep (N : Nat) : Abs → Abs → Prop
  | reuse (A : Abs) (pre post : List Blk) (b : Blk) (xs1 xs2 : List Nat) :
      A.blocks = pre ++ b :: post → A.fl = xs1 ++ b.addr :: xs2 →
      N ≤ b.size → b.size < N + 40 →
      MStep N A ⟨pre ++ ⟨b.addr, b.size, false⟩ :: post, A.al ++ [b.addr], xs1 ++ xs2⟩
  | split (A : Abs) (pre post : List Blk) (b : Blk) :
      A.blocks = pre ++ b :: post → b.addr ∈ A.fl → b.free = true → N + 40 ≤ b.size →
      MStep N A ⟨pre ++ ⟨b.addr, b.size - N - 32, true⟩ ::
        ⟨b.addr + b.size - N, N, false⟩ :: post, A.al ++ [b.addr + b.size - N], A.fl⟩
  | extend (A : Abs) (pre : List Blk) (b : Blk) (xs1 xs2 : List Nat) :
      A.blocks = pre ++ [b] → b.free = true → A.fl = xs1 ++ b.addr :: xs2 → b.size < N →
      MStep N A ⟨pre ++ [⟨b.addr, N, false⟩], A.al ++ [b.addr], xs1 ++ xs2⟩
  | append (A : Abs) (pre : List Blk) (b : Blk) :
      A.blocks = pre ++ [b] → b.free = false →
      MStep N A ⟨A.blocks ++ [⟨b.addr + 32 + b.size, N, false⟩],
        A.al ++ [b.addr + 32 + b.size], A.fl⟩

/-- The logical effect of `mm_free` on allocated block `x`: no merge, merge with
the successor, merge into the predecessor, or both. -/
inductive FStep (x : Nat) : Abs → Abs → Prop
  | nn (A : Abs) (pre post : List Blk) (b : Blk) (xs1 xs2 : List Nat) :
      b.addr = x → A.blocks = pre ++ b :: post → A.al = xs1 ++ b.addr :: xs2 →
      b.free = false →
      (∀ d ∈ post.head?, d.free = false) → (∀ e ∈ pre.getLast?, e.free = false) →
      FStep x A ⟨pre ++ ⟨b.addr, b.size, decide (b.size ≠ 0)⟩ :: post, xs1 ++ xs2,
        A.fl ++ [b.addr]⟩
  | fn (A : Abs) (pre post : List Blk) (b d : Blk) (xs1 xs2 ys1 ys2 : List Nat) :
      b.addr = x → A.blocks = pre ++ b :: d :: post → A.al = xs1 ++ b.addr :: xs2 →
      d.free = true → A.fl = ys1 ++ d.addr :: ys2 → (∀ e ∈ pre.getLast?, e.free = false) →
      FStep x A ⟨pre ++ ⟨b.addr, b.size + 32 + d.size, true⟩ :: post, xs1 ++ xs2,
        ys1 ++ ys2 ++ [b.addr]⟩
  | nb (A : Abs) (pre post : List Blk) (e b : Blk) (xs1 xs2 ys1 ys2 : List Nat) :
      b.addr = x → A.blocks = pre ++ e :: b :: post → A.al = xs1 ++ b.addr :: xs2 →
      e.free = true → A.fl = ys1 ++ e.addr :: ys2 → (∀ d ∈ post.head?, d.free = false) →
      FStep x A ⟨pre ++ ⟨e.addr, e.size + 32 + b.size, true⟩ :: post, xs1 ++ xs2,
        ys1 ++ ys2 ++ [e.addr]⟩
  | fb (A : Abs) (pre post : List Blk) (e b d : Blk)
      (xs1 xs2 ys1 ys2 zs1 zs2 : List Nat) :
      b.addr = x → A.blocks = pre ++ e :: b :: d :: post → A.al = xs1 ++ b.addr :: xs2 →
      e.free = true → d.free = true → A.fl = ys1 ++ d.addr :: ys2 →
      ys1 ++ ys2 = zs1 ++ e.addr :: zs2 →
      FStep x A ⟨pre ++ ⟨e.addr, e.size + 32 + (b.size + 32 + d.size), true⟩ :: post,
        xs1 ++ xs2, zs1 ++ zs2 ++ [e.addr]⟩

/-- The live list `L` and the allocated list of `A` name the same blocks, and
each live block has the size its request was served with. -/
def Live (A : Abs) (L : List (Nat × Nat)) : Prop :=
  (∀ x, x ∈ A.al ↔ ∃ n, (x + 24, n) ∈ L) ∧
  (∀ p n, (p, n) ∈ L → ∃ b ∈ A.blocks, b.addr + 24 = p ∧ ALIGN n ≤ b.size ∧
    b.size < ALIGN n + 40)

/-- Every zero-payload block of `bs` is the block the initializer created. -/
def ZeroOnly (lo : Nat) (bs : List Blk) : Prop := ∀ b ∈ bs, b.size = 0 → b.addr = lo + 48

/-- Headers met when walking the arena physically from `a`: each step advances
by `HEADER_SIZE + (h_size & ~1) + FOOTER_SIZE`.  The result is `none` when the
walk steps over the arena end instead of landing on it (or `fuel` runs out). -/
def physFrom (h : Heap) : Nat → Nat → Option (List Nat)
  | 0, _ => none
  | fuel + 1, a =>
    if a = h.brk then some []
    else if h.brk < a then none
    else (physFrom h fuel (a + HEADER_SIZE + payloadSize h a + FOOTER_SIZE)).map (a :: ·)

/-- The physical blocks of the arena, from the end of the sentinels to the
arena end. -/
def physBlocks (h : Heap) : Option (List Nat) :=
  physFrom h (h.brk + 1) (h.lo + 2 * HEADER_SIZE)

/-- A fresh arena at address 1000 with room for 99000 bytes. -/
def heap0 : Heap := ⟨1000, 1000, 100000, 1, false, fun _ => 0⟩

/-- A fresh arena at address 1000 with room for the initial 80 bytes only. -/
def heapFull : Heap := ⟨1000, 1000, 1080, 1, false, fun _ => 0⟩

/-- A fresh arena at address 1000 with room for 144 bytes: the initial layout
and two blocks of payload 16. -/
def heapTwo : Heap := ⟨1000, 1000, 1144, 1, false, fun _ => 0⟩

/-- A fresh arena whose provider reports `mem_heap_hi()` as one past the end. -/
def heapPast : Heap := ⟨1000, 1000, 100000, 0, false, fun _ => 0⟩

/-- The heap after `mm_init` on `heap0`. -/
def heapI : Heap := (mm_init heap0).2

/-- The heap after `mm_init(); a = mm_malloc(16)` on `heap0`; `a = 1072`. -/
def heapA : Heap := ((mm_malloc heapI 16).getD (0, heapI)).2

/-- The heap after `mm_init(); a = mm_malloc(16); b = mm_malloc(16)` on `heap0`;
`a = 1072`, `b = 1120`. -/
def heapAB : Heap := ((mm_malloc heapA 16).getD (0, heapA)).2

/-- The heap after `mm_init(); p = mm_malloc(0); mm_free(p)` on `heap0`;
`p = 1072`. -/
def heapZ : Heap := mm_free ((mm_malloc heapI 0).getD (0, heapI)).2 1072

/-- The heap after `mm_init(); mm_malloc(0); mm_malloc(0)` on `heap0`; the
calls return 1072 and 1104. -/
def heapZZ : Heap :=
  ((mm_malloc ((mm_malloc heapI 0).getD (0, heapI)).2 0).getD (0, heapI)).2

/-- The heap after `mm_init()` on `heapFull`: the arena is at its limit. -/
def heapFI : Heap := (mm_init heapFull).2

/-- The heap after `mm_init(); a = mm_malloc(16); b = mm_malloc(16); mm_free(b)`
on `heapTwo`; `a = 1072`, `b = 1120`, and the arena is at its limit. -/
def heapT : Heap :=
  mm_free ((mm_malloc ((mm_malloc (mm_init heapTwo).2 16).getD (0, heapTwo)).2 16).getD
    (0, heapTwo)).2 1120

/-- The heap after `mm_init()` on `heapPast`. -/
def heapPI : Heap := (mm_init heapPast).2

/-- Heap `h1` is `h` with node `x` linked in just before sentinel `s`: the four
link fields the insertion writes hold the new neighbours (`x->h_next = s`,
`s->h_prev = x`, old last `->h_next = x`, `x->h_prev =` old last), and every
other link field and every size field of layout `A` is as in `h`. -/
def TailInserted (h h1 : Heap) (A : Abs) (s x : Nat) : Prop :=
  h_next h1 x = s ∧ h_prev h1 s = x ∧ h_next h1 (h_prev h s) = x ∧
  h_prev h1 x = h_prev h s ∧
  (∀ y ∈ nodes h A, (y ≠ x → y ≠ s → h_prev h1 y = h_prev h y) ∧
    (y ≠ x → y ≠ h_prev h s → h_next h1 y = h_next h y)) ∧
  (∀ d ∈ A.blocks, h_size h1 d.addr = h_size h d.addr)

/-- The heap after `mm_init(); a = mm_malloc(16); b = mm_malloc(16); mm_free(a)`
on `heap0`. -/
def heapABf : Heap := mm_free heapAB 1072

/-- The heap after `mm_init(); a = mm_malloc(16); b = mm_malloc(16); mm_free(a);
c = mm_malloc(16)` on `heap0`; `c = 1072`. -/
def heapC : Heap := ((mm_malloc heapABf 16).getD (0, heapABf)).2

/-- The heap after `mm_init(); A = mm_malloc(0); B = mm_malloc(8)` on `heap0`;
`A = 1072` with payload 0 and `B = 1104` with payload 8 are physically
adjacent. -/
def heapZ8 : Heap :=
  ((mm_malloc ((mm_malloc heapI 0).getD (0, heapI)).2 8).getD (0, heapI)).2

/-- The heap after `mm_init(); a = mm_malloc(2^64 - 1)` on `heap0`; `a = 1072`. -/
def heapW : Heap := ((mm_malloc heapI (W - 1)).getD (0, heapI)).2

/-- The heap after `mm_init(); a = mm_malloc(2^64 - 1); b = mm_malloc(8)` on
`heap0`; `a = 1072`, `b = 1104`. -/
def heapW8 : Heap := ((mm_malloc heapW 8).getD (0, heapI)).2

/-- The heap after `mm_init(); a = mm_malloc(8)` on `heap0`; `a = 1072`. -/
def heapS : Heap := ((mm_malloc heapI 8).getD (0, heapI)).2

/-- The heap after `mm_init(); a = mm_malloc(8); b = mm_malloc(8)` on `heap0`;
`a = 1072`, `b = 1112`. -/
def heapSS : Heap := ((mm_malloc heapS 8).getD (0, heapI)).2

/-- The header that `mm_free` links into the free list when it releases the block
with header `x` of heap `h`, read off the heap before the call with the test of
the backward check (source lines 333-336): the physical predecessor of `x` when
that is tagged free (the backward merge keeps it), else `x` itself. -/
def survivorOf (h : Heap) (x : Nat) : Nat :=
  if getPrevPhyBlk h x ≠ 0 ∧ tagBit (h_size h (getPrevPhyBlk h x)) ≠ 0 then getPrevPhyBlk h x
  else x

/-- The address at which the block that `mm_free` leaves ends when it releases
header `x` of heap `h`, read off the heap before the call with the test of the
forward check (source lines 329-332): the end of the physical successor of `x`
when that is tagged free (the forward merge absorbs it), else the end of `x`'s
own block. -/
def spanEnd (h : Heap) (x : Nat) : Nat :=
  if getNextPhyBlk h x ≠ 0 ∧ tagBit (h_size h (getNextPhyBlk h x)) ≠ 0 then
    getNextPhyBlk h x + HEADER_SIZE + payloadSize h (getNextPhyBlk h x) + FOOTER_SIZE
  else x + HEADER_SIZE + payloadSize h x + FOOTER_SIZE

/-- Heaps reachable from `mm_init` by calls whose request sizes are any `size_t`
values, every growth request granted, with the live payload addresses. -/
def ReachAny (h : Heap) (L : List (Nat × Nat)) : Prop := ReachS (fun n => n < W) h L

/-- The heap after `mm_init(); a = mm_malloc(16); b = mm_malloc(2^64 - 32)` on
`heap0`; `a = 1072`, `b = 1120`; the growth request of the second call wraps to 0
bytes and is granted. -/
def heapO32 : Heap := ((mm_malloc heapA (W - 32)).getD (0, heapA)).2

/-- The heap after `mm_free(b)` on `heapO32`. -/
def heapO32b : Heap := mm_free heapO32 1120

/-- The heap after `mm_malloc(16)` on `heapO32b`; the call returns 1120. -/
def heapO32c : Heap := ((mm_malloc heapO32b 16).getD (0, heapO32b)).2

/-- The heap after `mm_init(); a = mm_malloc(16); b = mm_malloc(2^64 - 8)` on
`heap0`; `a = 1072`, `b = 1120`; the growth request of the second call wraps to
24 bytes and is granted. -/
def heapO8 : Heap := ((mm_malloc heapA (W - 8)).getD (0, heapA)).2

/-- The heap after `c = mm_malloc(16)` on `heapO8`; `c = 1144`. -/
def heapO8m : Heap := ((mm_malloc heapO8 16).getD (0, heapO8)).2

/-- The heap after `mm_init(); a = mm_malloc(16); b = mm_malloc(2^64 - 24)` on
`heap0`; `a = 1072`, `b = 1120`; the growth request of the second call wraps to 8
bytes and is granted. -/
def heapO24 : Heap := ((mm_malloc heapA (W - 24)).getD (0, heapA)).2

/-- The heap after `c = mm_malloc(8); d = mm_malloc(8)` on `heapO8`; `c = 1144`,
`d = 1184`. -/
def heapO8b : Heap :=
  ((mm_malloc ((mm_malloc heapO8 8).getD (0, heapO8)).2 8).getD (0, heapO8)).2

/-- The heap after `mm_free(d); mm_free(b)` on `heapO8b`. -/
def heapO8c : Heap := mm_free (mm_free heapO8b 1184) 1120

/-- The heap after `mm_malloc(1032)` on `heapO8c`; the call returns 1184. -/
def heapO8d : Heap := ((mm_malloc heapO8c 1032).getD (0, heapO8c)).2

/-- The heap after five calls `mm_malloc(16)` on the heap `mm_init` leaves on
`heap0`; they return 1072, 1120, 1168, 1216 and 1264. -/
def heapA5 : Heap :=
  ((mm_malloc ((mm_malloc ((mm_malloc heapAB 16).getD (0, heapAB)).2 16).getD
    (0, heapAB)).2 16).getD (0, heapAB)).2

/-- The heap after `mm_free(1072); mm_free(1216); mm_free(1120)` on `heapA5`. -/
def heapA5f : Heap := mm_free (mm_free (mm_free heapA5 1072) 1216) 1120

/-! ## Word arithmetic -/

theorem padd_eq {a b : Nat} (h : a + b < W) : padd a b = a + b := by
  unfold padd; exact Nat.mod_eq_of_lt h

theorem psub_eq {a b : Nat} (hb : b ≤ a) (ha : a < W) : psub a b = a - b := by
  unfold psub W at *; omega

theorem untag_word (s : Nat) (f : Bool) (hs : s % 8 = 0) :
    untag (s + (if f then 1 else 0)) = s := by
  unfold untag; cases f <;> simp <;> omega

theorem untag_even (s : Nat) (hs : s % 8 = 0) : untag s = s := by
  unfold untag; omega

theorem tagBit_word (s : Nat) (f : Bool) (hs : s % 8 = 0) :
    tagBit (s + (if f then 1 else 0)) = if f then 1 else 0 := by
  unfold tagBit; cases f <;> simp <;> omega

theorem setTag_word (s : Nat) (f : Bool) (hs : s % 8 = 0) :
    setTag (s + (if f then 1 else 0)) = s + 1 := by
  unfold setTag; cases f <;> simp <;> omega

theorem ALIGN_mod (n : Nat) : ALIGN n % 8 = 0 := by
  unfold ALIGN; omega

theorem ALIGN_of_valid {n : Nat} (h : ValidSize n) :
    n ≤ ALIGN n ∧ ALIGN n < n + 8 ∧ ALIGN n + 32 < W := by
  unfold ValidSize W at h; unfold ALIGN W; omega

/-! ## Reads and writes -/

@[simp] theorem wr_mem (h : Heap) (a v x : Nat) :
    (wr h a v).mem x = if x = a then v else h.mem x := rfl

@[simp] theorem wr_lo (h : Heap) (a v : Nat) : (wr h a v).lo = h.lo := rfl

@[simp] theorem wr_brk (h : Heap) (a v : Nat) : (wr h a v).brk = h.brk := rfl

@[simp] theorem wr_cap (h : Heap) (a v : Nat) : (wr h a v).cap = h.cap := rfl

@[simp] theorem wr_hiOff (h : Heap) (a v : Nat) : (wr h a v).hiOff = h.hiOff := rfl

@[simp] theorem wr_enomem (h : Heap) (a v : Nat) : (wr h a v).enomem = h.enomem := rfl

theorem wr_same (h : Heap) (a : Nat) : wr h a (h.mem a) = h := by
  cases h with
  | mk lo brk cap hiOff enomem mem =>
    simp only [wr, Heap.mk.injEq, true_and]
    funext x
    by_cases hx : x = a
    · simp [hx]
    · simp [hx]

/-! ## Tilings -/

theorem Tiles_append {s e : Nat} {l1 l2 : List Blk} :
    Tiles s (l1 ++ l2) e ↔ ∃ m, Tiles s l1 m ∧ Tiles m l2 e := by
  induction l1 generalizing s with
  | nil => simp [Tiles]
  | cons b r ih =>
    show (b.addr = s ∧ b.size % 8 = 0 ∧ Tiles (b.addr + 32 + b.size) (r ++ l2) e) ↔
      ∃ m, (b.addr = s ∧ b.size % 8 = 0 ∧ Tiles (b.addr + 32 + b.size) r m) ∧ Tiles m l2 e
    rw [ih]
    constructor
    · rintro ⟨h1, h2, m, h3, h4⟩
      exact ⟨m, ⟨h1, h2, h3⟩, h4⟩
    · rintro ⟨m, ⟨h1, h2, h3⟩, h4⟩
      exact ⟨h1, h2, m, h3, h4⟩

theorem Tiles_le {s e : Nat} {l : List Blk} (h : Tiles s l e) : s ≤ e := by
  induction l generalizing s with
  | nil => simp [Tiles] at h; omega
  | cons b r ih =>
    obtain ⟨h1, _, h3⟩ := h
    have := ih h3
    omega

theorem Tiles_mod {s e : Nat} {l : List Blk} (h : Tiles s l e) (hs : s % 8 = 0) :
    e % 8 = 0 := by
  induction l generalizing s with
  | nil => simp [Tiles] at h; omega
  | cons b r ih =>
    obtain ⟨h1, h2, h3⟩ := h
    exact ih h3 (by omega)

theorem Tiles_mem {s e : Nat} {l : List Blk} (h : Tiles s l e) {b : Blk} (hb : b ∈ l) :
    s ≤ b.addr ∧ b.addr + 32 + b.size ≤ e ∧ b.size % 8 = 0 ∧ (s % 8 = 0 → b.addr % 8 = 0) := by
  induction l generalizing s with
  | nil => simp at hb
  | cons c r ih =>
    obtain ⟨h1, h2, h3⟩ := h
    rcases List.mem_cons.1 hb with rfl | hr
    · have := Tiles_le h3
      refine ⟨by omega, by omega, h2, fun _ => by omega⟩
    · obtain ⟨a1, a2, a3, a4⟩ := ih h3 hr
      refine ⟨by omega, a2, a3, fun hs => a4 (by omega)⟩

theorem Tiles_sep {s e : Nat} {l : List Blk} (h : Tiles s l e) {b c : Blk}
    (hb : b ∈ l) (hc : c ∈ l) :
    b = c ∨ b.addr + 32 + b.size ≤ c.addr ∨ c.addr + 32 + c.size ≤ b.addr := by
  induction l generalizing s with
  | nil => simp at hb
  | cons d r ih =>
    obtain ⟨h1, h2, h3⟩ := h
    rcases List.mem_cons.1 hb with rfl | hbr <;> rcases List.mem_cons.1 hc with rfl | hcr
    · exact Or.inl rfl
    · have := (Tiles_mem h3 hcr).1
      exact Or.inr (Or.inl this)
    · have := (Tiles_mem h3 hbr).1
      exact Or.inr (Or.inr this)
    · exact ih h3 hbr hcr

theorem Tiles_addr_inj {s e : Nat} {l : List Blk} (h : Tiles s l e) {b c : Blk}
    (hb : b ∈ l) (hc : c ∈ l) (hbc : b.addr = c.addr) : b = c := by
  rcases Tiles_sep h hb hc with h1 | h1 | h1
  · exact h1
  · omega
  · omega

theorem Tiles_last {s e : Nat} {l : List Blk} (h : Tiles s l e) (hne : l ≠ []) :
    ∃ pre b, l = pre ++ [b] ∧ b.addr + 32 + b.size = e := by
  obtain ⟨pre, b, rfl⟩ := (List.eq_nil_or_concat l).resolve_left hne
  refine ⟨pre, b, by simp, ?_⟩
  rw [List.concat_eq_append, Tiles_append] at h
  obtain ⟨m, _, h2⟩ := h
  simp only [Tiles] at h2
  omega

/-! ## Rings -/

theorem Chain_frame {h h1 : Heap} {l : List Nat} (hc : List.Chain' (Lnk h) l)
    (hn : ∀ a ∈ l.dropLast, h1.mem (a + 8) = h.mem (a + 8))
    (hp : ∀ b ∈ l.tail, h1.mem b = h.mem b) : List.Chain' (Lnk h1) l := by
  induction l with
  | nil => exact List.chain'_nil
  | cons a r ih =>
    cases r with
    | nil => exact List.chain'_singleton a
    | cons b r =>
      rw [List.chain'_cons] at hc ⊢
      obtain ⟨⟨h1a, h1b⟩, h2⟩ := hc
      refine ⟨⟨?_, ?_⟩, ih h2 ?_ ?_⟩
      · rw [hn a (by simp), h1a]
      · rw [hp b (by simp), h1b]
      · intro c hc
        exact hn c (by simp only [List.dropLast_cons₂, List.mem_cons]; exact Or.inr hc)
      · intro c hc
        exact hp c (by simp only [List.tail_cons, List.mem_cons] at hc ⊢; exact Or.inr hc)

theorem Ring_congr {h h1 : Heap} {s : Nat} {xs : List Nat} (hr : Ring h s xs)
    (hm : ∀ a ∈ s :: xs, h1.mem a = h.mem a ∧ h1.mem (a + 8) = h.mem (a + 8)) :
    Ring h1 s xs := by
  unfold Ring at *
  apply Chain_frame hr
  · intro a ha
    have : a ∈ s :: xs := by
      have h2 := List.dropLast_subset _ ha
      simp only [List.cons_append, List.mem_cons, List.mem_append, List.mem_singleton] at h2
      simp only [List.mem_cons]
      tauto
    exact (hm a this).2
  · intro b hb
    have : b ∈ s :: xs := by
      simp only [List.cons_append, List.tail_cons, List.mem_append, List.mem_singleton] at hb
      simp only [List.mem_cons]
      tauto
    exact (hm b this).1

theorem Ring_nil_iff (h : Heap) (s : Nat) :
    Ring h s [] ↔ h.mem (s + 8) = s ∧ h.mem s = s := by
  simp [Ring, Lnk]

theorem Ring_decomp {h : Heap} {s x : Nat} {xs1 xs2 : List Nat}
    (hr : Ring h s (xs1 ++ x :: xs2)) :
    ∃ pre post, s :: xs1 = pre ++ [h.mem x] ∧ xs2 ++ [s] = h.mem (x + 8) :: post := by
  obtain ⟨pre, p, hpre⟩ : ∃ pre p, s :: xs1 = pre ++ [p] := by
    rcases List.eq_nil_or_concat (s :: xs1) with h0 | ⟨pre, p, h0⟩
    · simp at h0
    · exact ⟨pre, p, by simpa using h0⟩
  obtain ⟨n, post, hpost⟩ : ∃ n post, xs2 ++ [s] = n :: post := by
    cases xs2 with
    | nil => exact ⟨s, [], rfl⟩
    | cons a r => exact ⟨a, r ++ [s], rfl⟩
  have hL : s :: (xs1 ++ x :: xs2) ++ [s] = pre ++ p :: x :: n :: post := by
    have : s :: (xs1 ++ x :: xs2) ++ [s] = (s :: xs1) ++ x :: (xs2 ++ [s]) := by simp
    rw [this, hpre, hpost]; simp
  unfold Ring at hr
  rw [hL] at hr
  have h2 := (List.chain'_split.1 hr).2
  rw [List.chain'_cons, List.chain'_cons] at h2
  obtain ⟨⟨_, hp⟩, ⟨hn, _⟩, _⟩ := h2
  refine ⟨pre, post, ?_, ?_⟩
  · rw [hpre, hp]
  · rw [hpost, hn]

theorem Ring_remove {h h1 : Heap} {s x : Nat} {xs1 xs2 : List Nat}
    (hr : Ring h s (xs1 ++ x :: xs2))
    (hnd : (s :: (xs1 ++ x :: xs2)).Nodup)
    (hsep : Sep24 (s :: (xs1 ++ x :: xs2)))
    (hm : ∀ a, h1.mem a = if a = h.mem x + 8 then h.mem (x + 8)
      else if a = h.mem (x + 8) then h.mem x else h.mem a) :
    Ring h1 s (xs1 ++ xs2) := by
  obtain ⟨pre, post, hpre, hpost⟩ := Ring_decomp hr
  generalize hp : h.mem x = p at *
  generalize hn : h.mem (x + 8) = n at *
  have hL : s :: (xs1 ++ x :: xs2) ++ [s] = pre ++ p :: x :: n :: post := by
    have : s :: (xs1 ++ x :: xs2) ++ [s] = (s :: xs1) ++ x :: (xs2 ++ [s]) := by simp
    rw [this, hpre, hpost]; simp
  have hL1 : s :: (xs1 ++ xs2) ++ [s] = pre ++ p :: n :: post := by
    have : s :: (xs1 ++ xs2) ++ [s] = (s :: xs1) ++ (xs2 ++ [s]) := by simp
    rw [this, hpre, hpost]; simp
  unfold Ring at hr ⊢
  rw [hL] at hr
  rw [hL1]
  obtain ⟨hc1, hc2⟩ := List.chain'_split.1 hr
  rw [List.chain'_cons, List.chain'_cons] at hc2
  obtain ⟨_, _, hc3⟩ := hc2
  -- membership facts
  have hmem_pre : ∀ a ∈ pre ++ [p], a ∈ s :: xs1 := fun a ha => hpre ▸ ha
  have hmem_post : ∀ a ∈ n :: post, a ∈ xs2 ++ [s] := fun a ha => hpost ▸ ha
  have hin1 : ∀ a ∈ s :: xs1, a ∈ s :: (xs1 ++ x :: xs2) := by
    intro a ha; simp only [List.mem_cons, List.mem_append] at ha ⊢; tauto
  have hin2 : ∀ a ∈ xs2 ++ [s], a ∈ s :: (xs1 ++ x :: xs2) := by
    intro a ha; simp only [List.mem_cons, List.mem_append, List.mem_singleton] at ha ⊢; tauto
  have hpin : p ∈ s :: (xs1 ++ x :: xs2) := hin1 p (hmem_pre p (by simp))
  have hnin : n ∈ s :: (xs1 ++ x :: xs2) := hin2 n (hmem_post n (by simp))
  have hndpre : (pre ++ [p]).Nodup := by
    rw [← hpre]
    have := hnd
    simp only [List.nodup_cons, List.mem_append, List.nodup_append, List.mem_cons] at this ⊢
    tauto
  have hndpost : (n :: post).Nodup := by
    rw [← hpost]
    have := hnd
    rw [List.nodup_cons] at this
    obtain ⟨h1, h2⟩ := this
    rw [List.nodup_append] at h2
    obtain ⟨_, h3, _⟩ := h2
    rw [List.nodup_cons] at h3
    rw [List.nodup_append]
    refine ⟨h3.2, by simp, ?_⟩
    intro a ha hb
    simp only [List.mem_singleton] at hb
    subst hb
    exact h1 (by simp [ha])
  -- elements of xs1 differ from elements of xs2 ++ [s] except for s at the end
  have hdisj : ∀ a ∈ xs1, ∀ b ∈ xs2, a ≠ b := by
    intro a ha b hb hab
    subst hab
    rw [List.nodup_cons, List.nodup_append] at hnd
    exact hnd.2.2.2 ha (List.mem_cons_of_mem _ hb)
  apply List.chain'_split.2
  constructor
  · apply Chain_frame hc1
    · intro a ha
      rw [List.dropLast_concat] at ha
      have hap : a ≠ p := by
        intro hap; subst hap
        rw [List.nodup_append] at hndpre
        exact hndpre.2.2 ha (by simp)
      have ha1 : a ∈ s :: (xs1 ++ x :: xs2) := hin1 a (hmem_pre a (by simp [ha]))
      rw [hm]
      have := hsep a ha1 n hnin
      have : a + 8 ≠ n := by omega
      simp [hap, this]
    · intro b hb
      have hb0 : b ∈ (s :: xs1).tail := by rw [hpre]; exact hb
      simp only [List.tail_cons] at hb0
      have hb1 : b ∈ s :: (xs1 ++ x :: xs2) := hin1 b (List.mem_cons_of_mem _ hb0)
      rw [hm]
      have h1 := hsep b hb1 p hpin
      have h2 : b ≠ p + 8 := by omega
      have h3 : b ≠ n := by
        intro hbn; subst hbn
        have := hmem_post b (by simp)
        simp only [List.mem_append, List.mem_singleton] at this
        rcases this with h4 | h4
        · exact hdisj b hb0 b h4 rfl
        · subst h4
          rw [List.nodup_cons] at hnd
          exact hnd.1 (by simp [hb0])
      simp [h2, h3]
  · rw [List.chain'_cons]
    refine ⟨⟨?_, ?_⟩, ?_⟩
    · rw [hm]; simp
    · rw [hm]
      have := hsep n hnin p hpin
      have : n ≠ p + 8 := by omega
      simp [this]
    · apply Chain_frame hc3
      · intro a ha
        have ha0 : a ∈ (xs2 ++ [s]).dropLast := by rw [hpost]; exact ha
        rw [List.dropLast_concat] at ha0
        have ha1 : a ∈ s :: (xs1 ++ x :: xs2) := by
          simp only [List.mem_cons, List.mem_append]; tauto
        rw [hm]
        have h1 : a ≠ p := by
          intro hap; subst hap
          have := hmem_pre a (by simp)
          rcases List.mem_cons.1 this with h4 | h4
          · subst h4
            rw [List.nodup_cons] at hnd
            exact hnd.1 (by simp [ha0])
          · exact hdisj a h4 a ha0 rfl
        have h2 := hsep a ha1 n hnin
        have h3 : a + 8 ≠ n := by omega
        simp [h1, h3]
      · intro b hb
        simp only [List.tail_cons] at hb
        have hb1 : b ∈ s :: (xs1 ++ x :: xs2) := hin2 b (hmem_post b (by simp [hb]))
        rw [hm]
        have h1 := hsep b hb1 p hpin
        have h2 : b ≠ p + 8 := by omega
        have h3 : b ≠ n := by
          intro hbn; subst hbn
          rw [List.nodup_cons] at hndpost
          exact hndpost.1 hb
        simp [h2, h3]

theorem Ring_last {h : Heap} {s : Nat} {xs : List Nat} (hr : Ring h s xs) :
    ∃ pre, s :: xs = pre ++ [h.mem s] ∧ h.mem (h.mem s + 8) = s := by
  obtain ⟨pre, l, hpre⟩ : ∃ pre l, s :: xs = pre ++ [l] := by
    rcases List.eq_nil_or_concat (s :: xs) with h0 | ⟨pre, l, h0⟩
    · simp at h0
    · exact ⟨pre, l, by simpa using h0⟩
  unfold Ring at hr
  have hL : s :: xs ++ [s] = pre ++ l :: [s] := by
    have : s :: xs ++ [s] = (s :: xs) ++ [s] := by simp
    rw [this, hpre]; simp
  rw [hL] at hr
  have h2 := (List.chain'_split.1 hr).2
  rw [List.chain'_cons] at h2
  obtain ⟨⟨h3, h4⟩, _⟩ := h2
  exact ⟨pre, by rw [hpre, h4], by rw [h4, h3]⟩

theorem Ring_add {h h1 : Heap} {s x : Nat} {xs : List Nat}
    (hr : Ring h s xs) (hnd : (s :: xs).Nodup) (hx : x ∉ s :: xs)
    (hsep : Sep24 (x :: s :: xs))
    (hm : ∀ a, h1.mem a = if a = s then x else if a = h.mem s + 8 then x
      else if a = x then h.mem s else if a = x + 8 then s else h.mem a) :
    Ring h1 s (xs ++ [x]) := by
  obtain ⟨pre, hpre, _⟩ := Ring_last hr
  generalize hl : h.mem s = l at *
  have hlin : l ∈ s :: xs := by rw [hpre]; simp
  have hsin : s ∈ x :: s :: xs := by simp
  have hxin : x ∈ x :: s :: xs := by simp
  have hxl : x ≠ l := fun e => hx (e ▸ hlin)
  have hxs : x ≠ s := fun e => hx (by simp [e])
  have hL : s :: xs ++ [s] = pre ++ l :: [s] := by
    have : s :: xs ++ [s] = (s :: xs) ++ [s] := by simp
    rw [this, hpre]; simp
  have hL1 : s :: (xs ++ [x]) ++ [s] = pre ++ l :: x :: [s] := by
    have : s :: (xs ++ [x]) ++ [s] = (s :: xs) ++ x :: [s] := by simp
    rw [this, hpre]; simp
  unfold Ring at hr ⊢
  rw [hL] at hr
  rw [hL1]
  have hc1 := (List.chain'_split.1 hr).1
  have hndpre : (pre ++ [l]).Nodup := hpre ▸ hnd
  apply List.chain'_split.2
  constructor
  · apply Chain_frame hc1
    · intro a ha
      rw [List.dropLast_concat] at ha
      have hal : a ≠ l := by
        intro e; subst e
        rw [List.nodup_append] at hndpre
        exact hndpre.2.2 ha (by simp)
      have ha1 : a ∈ s :: xs := by rw [hpre]; simp [ha]
      have ha2 : a ∈ x :: s :: xs := List.mem_cons_of_mem _ ha1
      have hax : a ≠ x := fun e => hx (e ▸ ha1)
      have h1 := hsep a ha2 s hsin
      have h2 := hsep a ha2 x hxin
      rw [hm]
      have e1 : a + 8 ≠ s := by omega
      have e2 : a + 8 ≠ x := by omega
      simp [e1, e2, hal, hax]
    · intro b hb
      have hb0 : b ∈ (s :: xs).tail := by rw [hpre]; exact hb
      simp only [List.tail_cons] at hb0
      have hb1 : b ∈ s :: xs := List.mem_cons_of_mem _ hb0
      have hb2 : b ∈ x :: s :: xs := List.mem_cons_of_mem _ hb1
      have hbs : b ≠ s := by
        intro e; subst e
        rw [List.nodup_cons] at hnd
        exact hnd.1 hb0
      have hbx : b ≠ x := fun e => hx (e ▸ hb1)
      have h1 := hsep b hb2 l (List.mem_cons_of_mem _ hlin)
      have h2 := hsep b hb2 x hxin
      rw [hm]
      have e1 : b ≠ l + 8 := by omega
      have e2 : b ≠ x + 8 := by omega
      simp [hbs, hbx, e1, e2]
  · have h1 := hsep l (List.mem_cons_of_mem _ hlin) s hsin
    have h2 := hsep x hxin s hsin
    have h3 := hsep x hxin l (List.mem_cons_of_mem _ hlin)
    rw [List.chain'_cons, List.chain'_cons]
    refine ⟨⟨?_, ?_⟩, ⟨?_, ?_⟩, List.chain'_singleton _⟩
    · rw [hm]
      have e1 : l + 8 ≠ s := by omega
      simp [e1]
    · rw [hm]
      have e1 : x ≠ l + 8 := by omega
      simp [hxs, e1]
    · rw [hm]
      have e1 : x + 8 ≠ s := by omega
      have e2 : x + 8 ≠ l + 8 := by omega
      simp [e1, e2]
    · rw [hm]; simp

theorem walk_chain {h : Heap} {s : Nat} (ys : List Nat) (a fuel : Nat)
    (hc : List.Chain' (Lnk h) (a :: ys ++ [s])) (hs : s ∉ ys) (ha : a + 8 < W)
    (hw : ∀ y ∈ ys, y + 8 < W) (hf : ys.length < fuel) :
    walk h s fuel (h_next h a) = ys := by
  induction ys generalizing a fuel with
  | nil =>
    simp only [List.cons_append, List.nil_append, List.chain'_cons, Lnk] at hc
    cases fuel with
    | zero => simp at hf
    | succ f =>
      simp [walk, h_next, rd, padd_eq ha, hc.1.1]
  | cons y r ih =>
    simp only [List.cons_append, List.chain'_cons] at hc
    cases fuel with
    | zero => simp at hf
    | succ f =>
      have hys : y ≠ s := fun e => hs (by simp [e])
      have hn : h_next h a = y := by simp [h_next, rd, padd_eq ha, hc.1.1]
      rw [hn, walk, if_neg hys]
      congr 1
      apply ih y f
      · simpa using hc.2
      · exact fun e => hs (List.mem_cons_of_mem _ e)
      · exact hw y (by simp)
      · exact fun z hz => hw z (List.mem_cons_of_mem _ hz)
      · simpa using hf

/-! ## The list primitives as explicit writes -/

theorem removeFromList_eq (h : Heap) (x : Nat) (hn0 : h.mem (x + 8) ≠ 0)
    (hx : x + 8 < W) (hp : h.mem x + 8 < W)
    (h1 : h.mem (x + 8) ≠ x) (h2 : h.mem (x + 8) ≠ x + 8) :
    removeFromList h x =
      wr (wr h (h.mem (x + 8)) (h.mem x)) (h.mem x + 8) (h.mem (x + 8)) := by
  have e1 : x ≠ h.mem (x + 8) := fun e => h1 e.symm
  have e2 : x + 8 ≠ h.mem (x + 8) := fun e => h2 e.symm
  simp [removeFromList, h_next, h_prev, rd, set_prev, set_next, padd_eq hx, padd_eq hp,
    hn0, e1, e2]

theorem removeFromList_mem (h : Heap) (x : Nat) (hn0 : h.mem (x + 8) ≠ 0)
    (hx : x + 8 < W) (hp : h.mem x + 8 < W)
    (h1 : h.mem (x + 8) ≠ x) (h2 : h.mem (x + 8) ≠ x + 8) (a : Nat) :
    (removeFromList h x).mem a = if a = h.mem x + 8 then h.mem (x + 8)
      else if a = h.mem (x + 8) then h.mem x else h.mem a := by
  rw [removeFromList_eq h x hn0 hx hp h1 h2]; simp

theorem addToAllocList_eq (h : Heap) (x : Nat) (hx : x + 8 < W) (hl : h.mem h.lo + 8 < W)
    (h1 : h.lo ≠ x + 8) (h2 : h.mem h.lo ≠ x) :
    addToAllocList h x =
      wr (wr (wr (wr h (x + 8) h.lo) x (h.mem h.lo)) (h.mem h.lo + 8) x) h.lo x := by
  have e2 : x + 8 ≠ h.mem h.lo + 8 := by omega
  simp [addToAllocList, h_next, h_prev, rd, set_prev, set_next, padd_eq hx, padd_eq hl,
    mem_heap_lo, h1, e2]

theorem addToFreeList_eq (h : Heap) (x : Nat) (hx : x + 8 < W)
    (hl : h.mem (h.lo + 24) + 8 < W) (hs : h.lo + 24 < W)
    (h1 : h.lo + 24 ≠ x + 8) (h2 : h.mem (h.lo + 24) ≠ x) :
    addToFreeList h x =
      wr (wr (wr (wr h (x + 8) (h.lo + 24)) x (h.mem (h.lo + 24)))
        (h.mem (h.lo + 24) + 8) x) (h.lo + 24) x := by
  have e2 : x + 8 ≠ h.mem (h.lo + 24) + 8 := by omega
  simp [addToFreeList, h_next, h_prev, rd, set_prev, set_next, padd_eq hx, padd_eq hl,
    mem_heap_lo, HEADER_SIZE, padd_eq hs, h1, e2]

theorem addToAllocList_mem (h : Heap) (x : Nat) (hx : x + 8 < W) (hl : h.mem h.lo + 8 < W)
    (h1 : h.lo ≠ x + 8) (h2 : h.mem h.lo ≠ x) (a : Nat) :
    (addToAllocList h x).mem a = if a = h.lo then x else if a = h.mem h.lo + 8 then x
      else if a = x then h.mem h.lo else if a = x + 8 then h.lo else h.mem a := by
  rw [addToAllocList_eq h x hx hl h1 h2]; simp

theorem addToFreeList_mem (h : Heap) (x : Nat) (hx : x + 8 < W)
    (hl : h.mem (h.lo + 24) + 8 < W) (hs : h.lo + 24 < W)
    (h1 : h.lo + 24 ≠ x + 8) (h2 : h.mem (h.lo + 24) ≠ x) (a : Nat) :
    (addToFreeList h x).mem a = if a = h.lo + 24 then x
      else if a = h.mem (h.lo + 24) + 8 then x
      else if a = x then h.mem (h.lo + 24) else if a = x + 8 then h.lo + 24 else h.mem a := by
  rw [addToFreeList_eq h x hx hl hs h1 h2]; simp

/-! ## Consequences of the invariant -/

theorem Sep24_mono {l l1 : List Nat} (hs : Sep24 l) (hsub : ∀ a ∈ l1, a ∈ l) : Sep24 l1 :=
  fun a ha b hb => hs a (hsub a ha) b (hsub b hb)

theorem Core.brk_ge {h : Heap} {A : Abs} (c : Core h A) : h.lo + 80 ≤ h.brk := by
  obtain ⟨b, hb⟩ := List.exists_mem_of_ne_nil _ c.ne
  have := Tiles_mem c.tiles hb
  omega

theorem Core.brk_lt {h : Heap} {A : Abs} (c : Core h A) : h.brk < W := by
  have h1 := c.brk_cap
  have h2 := c.cap_lt
  omega

theorem Core.cap_lt1 {h : Heap} {A : Abs} (c : Core h A) : h.cap < W := by
  have h2 := c.cap_lt
  omega

theorem Core.brk_mod {h : Heap} {A : Abs} (c : Core h A) : h.brk % 8 = 0 :=
  Tiles_mod c.tiles (by have := c.lo_al; omega)

theorem Core.blk {h : Heap} {A : Abs} (c : Core h A) {b : Blk} (hb : b ∈ A.blocks) :
    h.lo + 48 ≤ b.addr ∧ b.addr + 32 + b.size ≤ h.brk ∧ b.size % 8 = 0 ∧ b.addr % 8 = 0 := by
  obtain ⟨h1, h2, h3, h4⟩ := Tiles_mem c.tiles hb
  exact ⟨h1, h2, h3, h4 (by have := c.lo_al; omega)⟩

theorem Core.node_mem {h : Heap} {A : Abs} {y : Nat} :
    y ∈ nodes h A ↔ y = h.lo ∨ y = h.lo + 24 ∨ ∃ b ∈ A.blocks, b.addr = y := by
  simp [nodes]

theorem Core.node_bd {h : Heap} {A : Abs} (c : Core h A) {y : Nat} (hy : y ∈ nodes h A) :
    0 < y ∧ h.lo ≤ y ∧ y + 24 ≤ h.brk ∧ y + 24 < W ∧ y % 8 = 0 := by
  have h1 := c.brk_ge
  have h2 := c.brk_lt
  have h3 := c.lo_pos
  have h4 := c.lo_al
  rcases Core.node_mem.1 hy with rfl | rfl | ⟨b, hb, rfl⟩
  · omega
  · omega
  · have := c.blk hb
    omega

theorem Core.sep {h : Heap} {A : Abs} (c : Core h A) : Sep24 (nodes h A) := by
  intro y hy z hz
  rcases Core.node_mem.1 hy with rfl | rfl | ⟨b, hb, rfl⟩ <;>
    rcases Core.node_mem.1 hz with rfl | rfl | ⟨d, hd, rfl⟩
  · omega
  · omega
  · have := c.blk hd; omega
  · omega
  · omega
  · have := c.blk hd; omega
  · have := c.blk hb; omega
  · have := c.blk hb; omega
  · rcases Tiles_sep c.tiles hb hd with e | e | e
    · left; rw [e]
    · omega
    · omega

theorem Core.al_node {h : Heap} {A : Abs} (c : Core h A) {y : Nat} (hy : y ∈ h.lo :: A.al) :
    y ∈ nodes h A := by
  rcases List.mem_cons.1 hy with rfl | hy
  · simp [nodes]
  · obtain ⟨b, hb, rfl⟩ := c.sub y (List.mem_append_left _ hy)
    exact Core.node_mem.2 (Or.inr (Or.inr ⟨b, hb, rfl⟩))

theorem Core.fl_node {h : Heap} {A : Abs} (c : Core h A) {y : Nat}
    (hy : y ∈ (h.lo + 24) :: A.fl) : y ∈ nodes h A := by
  rcases List.mem_cons.1 hy with rfl | hy
  · simp [nodes]
  · obtain ⟨b, hb, rfl⟩ := c.sub y (List.mem_append_right _ hy)
    exact Core.node_mem.2 (Or.inr (Or.inr ⟨b, hb, rfl⟩))

theorem Core.blk_node {h : Heap} {A : Abs} {b : Blk} (hb : b ∈ A.blocks) :
    b.addr ∈ nodes h A :=
  Core.node_mem.2 (Or.inr (Or.inr ⟨b, hb, rfl⟩))

/-- A link field of a node is never the size word or the footer of a block. -/
theorem Core.node_data {h : Heap} {A : Abs} (c : Core h A) {y : Nat} (hy : y ∈ nodes h A)
    {b : Blk} (hb : b ∈ A.blocks) :
    y ≠ b.addr + 16 ∧ y + 8 ≠ b.addr + 16 ∧ y ≠ b.addr + 24 + b.size ∧
      y + 8 ≠ b.addr + 24 + b.size := by
  have h1 := c.blk hb
  rcases Core.node_mem.1 hy with rfl | rfl | ⟨d, hd, rfl⟩
  · omega
  · omega
  · rcases Tiles_sep c.tiles hb hd with e | e | e
    · subst e; omega
    · have := c.blk hd; omega
    · omega

theorem Core.al_nodup {h : Heap} {A : Abs} (c : Core h A) : (h.lo :: A.al).Nodup := by
  rw [List.nodup_cons]
  refine ⟨?_, (List.nodup_append.1 c.nodup).1⟩
  intro hlo
  obtain ⟨b, hb, e⟩ := c.sub _ (List.mem_append_left _ hlo)
  have := c.blk hb
  omega

theorem Core.fl_nodup {h : Heap} {A : Abs} (c : Core h A) : ((h.lo + 24) :: A.fl).Nodup := by
  rw [List.nodup_cons]
  refine ⟨?_, (List.nodup_append.1 c.nodup).2.1⟩
  intro hlo
  obtain ⟨b, hb, e⟩ := c.sub _ (List.mem_append_right _ hlo)
  have := c.blk hb
  omega

theorem Core.al_fl_ne {h : Heap} {A : Abs} (c : Core h A) {y z : Nat}
    (hy : y ∈ h.lo :: A.al) (hz : z ∈ (h.lo + 24) :: A.fl) : y ≠ z := by
  intro e
  subst e
  rcases List.mem_cons.1 hy with e1 | e1 <;> rcases List.mem_cons.1 hz with e2 | e2
  · omega
  · obtain ⟨b, hb, e⟩ := c.sub _ (List.mem_append_right _ e2)
    have := c.blk hb
    omega
  · obtain ⟨b, hb, e⟩ := c.sub _ (List.mem_append_left _ e1)
    have := c.blk hb
    omega
  · exact (List.nodup_append.1 c.nodup).2.2 e1 e2

/-! ## Arena fields are untouched by the list primitives -/

@[simp] theorem removeFromList_lo (h : Heap) (x : Nat) : (removeFromList h x).lo = h.lo := by
  unfold removeFromList; split <;> rfl

@[simp] theorem removeFromList_brk (h : Heap) (x : Nat) : (removeFromList h x).brk = h.brk := by
  unfold removeFromList; split <;> rfl

@[simp] theorem removeFromList_cap (h : Heap) (x : Nat) : (removeFromList h x).cap = h.cap := by
  unfold removeFromList; split <;> rfl

@[simp] theorem removeFromList_hiOff (h : Heap) (x : Nat) :
    (removeFromList h x).hiOff = h.hiOff := by
  unfold removeFromList; split <;> rfl

@[simp] theorem removeFromList_enomem (h : Heap) (x : Nat) :
    (removeFromList h x).enomem = h.enomem := by
  unfold removeFromList; split <;> rfl

@[simp] theorem addToAllocList_lo (h : Heap) (x : Nat) : (addToAllocList h x).lo = h.lo := rfl

@[simp] theorem addToAllocList_brk (h : Heap) (x : Nat) : (addToAllocList h x).brk = h.brk := rfl

@[simp] theorem addToAllocList_cap (h : Heap) (x : Nat) : (addToAllocList h x).cap = h.cap := rfl

@[simp] theorem addToAllocList_hiOff (h : Heap) (x : Nat) :
    (addToAllocList h x).hiOff = h.hiOff := rfl

@[simp] theorem addToAllocList_enomem (h : Heap) (x : Nat) :
    (addToAllocList h x).enomem = h.enomem := rfl

@[simp] theorem addToFreeList_lo (h : Heap) (x : Nat) : (addToFreeList h x).lo = h.lo := rfl

@[simp] theorem addToFreeList_brk (h : Heap) (x : Nat) : (addToFreeList h x).brk = h.brk := rfl

@[simp] theorem addToFreeList_cap (h : Heap) (x : Nat) : (addToFreeList h x).cap = h.cap := rfl

@[simp] theorem addToFreeList_hiOff (h : Heap) (x : Nat) :
    (addToFreeList h x).hiOff = h.hiOff := rfl

@[simp] theorem addToFreeList_enomem (h : Heap) (x : Nat) :
    (addToFreeList h x).enomem = h.enomem := rfl

/-! ## Unlinking a ring node -/

theorem sep_ne {l : List Nat} (hs : Sep24 l) {a b : Nat} (ha : a ∈ l) (hb : b ∈ l)
    (hab : a ≠ b) : a + 8 ≠ b ∧ a ≠ b + 8 ∧ a + 8 ≠ b + 8 ∧ a + 16 ≠ b ∧ a ≠ b + 16 := by
  have := hs a ha b hb
  omega

theorem remove_generic {h : Heap} {A : Abs} (c : Core h A) {s x : Nat} {xs1 xs2 : List Nat}
    (hr : Ring h s (xs1 ++ x :: xs2)) (hnd : (s :: (xs1 ++ x :: xs2)).Nodup)
    (hsub : ∀ y ∈ s :: (xs1 ++ x :: xs2), y ∈ nodes h A) :
    (∀ a, (removeFromList h x).mem a = if a = h.mem x + 8 then h.mem (x + 8)
      else if a = h.mem (x + 8) then h.mem x else h.mem a) ∧
    h.mem x ∈ s :: xs1 ∧ h.mem (x + 8) ∈ xs2 ++ [s] ∧
    Ring (removeFromList h x) s (xs1 ++ xs2) := by
  obtain ⟨pre, post, hpre, hpost⟩ := Ring_decomp hr
  have hp : h.mem x ∈ s :: xs1 := by rw [hpre]; simp
  have hn : h.mem (x + 8) ∈ xs2 ++ [s] := by rw [hpost]; simp
  have hxin : x ∈ s :: (xs1 ++ x :: xs2) := by simp
  have hpin : h.mem x ∈ s :: (xs1 ++ x :: xs2) := by
    simp only [List.mem_cons, List.mem_append] at hp ⊢; tauto
  have hnin : h.mem (x + 8) ∈ s :: (xs1 ++ x :: xs2) := by
    simp only [List.mem_cons, List.mem_append, List.mem_singleton] at hn ⊢; tauto
  have hnx : h.mem (x + 8) ≠ x := by
    intro e
    rw [e] at hn
    rw [List.nodup_cons, List.nodup_append, List.nodup_cons] at hnd
    simp only [List.mem_append, List.mem_singleton] at hn
    rcases hn with h1 | h1
    · exact hnd.2.2.1.1 h1
    · exact hnd.1 (by simp [← h1])
  have hsep := Sep24_mono c.sep hsub
  have e1 := sep_ne hsep hnin hxin hnx
  have b1 := c.node_bd (hsub _ hxin)
  have b2 := c.node_bd (hsub _ hpin)
  have b3 := c.node_bd (hsub _ hnin)
  have hm := removeFromList_mem h x (by omega) (by omega) (by omega) hnx (by omega)
  exact ⟨hm, hp, hn, Ring_remove hr hnd hsep hm⟩

theorem remove_frame {h : Heap} {A : Abs} (c : Core h A) {s x : Nat} {xs1 xs2 : List Nat}
    (hr : Ring h s (xs1 ++ x :: xs2)) (hnd : (s :: (xs1 ++ x :: xs2)).Nodup)
    (hsub : ∀ y ∈ s :: (xs1 ++ x :: xs2), y ∈ nodes h A) :
    (∀ y ∈ nodes h A, y ∉ s :: (xs1 ++ xs2) →
      (removeFromList h x).mem y = h.mem y ∧ (removeFromList h x).mem (y + 8) = h.mem (y + 8)) ∧
    (∀ b ∈ A.blocks, (removeFromList h x).mem (b.addr + 16) = h.mem (b.addr + 16) ∧
      (removeFromList h x).mem (b.addr + 24 + b.size) = h.mem (b.addr + 24 + b.size)) ∧
    (∀ a, (∀ y ∈ nodes h A, a ≠ y ∧ a ≠ y + 8) → (removeFromList h x).mem a = h.mem a) := by
  obtain ⟨hm, hp, hn, _⟩ := remove_generic c hr hnd hsub
  have hpin : h.mem x ∈ s :: (xs1 ++ x :: xs2) := by
    simp only [List.mem_cons, List.mem_append] at hp ⊢; tauto
  have hnin : h.mem (x + 8) ∈ s :: (xs1 ++ x :: xs2) := by
    simp only [List.mem_cons, List.mem_append, List.mem_singleton] at hn ⊢; tauto
  have hp1 : h.mem x ∈ s :: (xs1 ++ xs2) := by
    simp only [List.mem_cons, List.mem_append] at hp ⊢; tauto
  have hn1 : h.mem (x + 8) ∈ s :: (xs1 ++ xs2) := by
    simp only [List.mem_cons, List.mem_append, List.mem_singleton] at hn ⊢; tauto
  refine ⟨?_, ?_, ?_⟩
  · intro y hy hy1
    have e1 : y ≠ h.mem x := fun e => hy1 (e ▸ hp1)
    have e2 : y ≠ h.mem (x + 8) := fun e => hy1 (e ▸ hn1)
    have s1 := sep_ne c.sep hy (hsub _ hpin) e1
    have s2 := sep_ne c.sep hy (hsub _ hnin) e2
    rw [hm, hm]
    have a1 : y ≠ h.mem x + 8 := by omega
    have a2 : y + 8 ≠ h.mem x + 8 := by omega
    have a3 : y + 8 ≠ h.mem (x + 8) := by omega
    simp [a1, a2, a3, e2]
  · intro b hb
    have d1 := c.node_data (hsub _ hpin) hb
    have d2 := c.node_data (hsub _ hnin) hb
    rw [hm, hm]
    have a1 : b.addr + 16 ≠ h.mem x + 8 := by omega
    have a2 : b.addr + 16 ≠ h.mem (x + 8) := by omega
    have a3 : b.addr + 24 + b.size ≠ h.mem x + 8 := by omega
    have a4 : b.addr + 24 + b.size ≠ h.mem (x + 8) := by omega
    simp [a1, a2, a3, a4]
  · intro a ha
    rw [hm]
    have a1 := (ha _ (hsub _ hpin)).2
    have a2 := (ha _ (hsub _ hnin)).1
    simp [a1, a2]

theorem Core.removeA {h : Heap} {A : Abs} (c : Core h A) {x : Nat} {xs1 xs2 : List Nat}
    (hal : A.al = xs1 ++ x :: xs2) :
    Core (removeFromList h x) ⟨A.blocks, xs1 ++ xs2, A.fl⟩ ∧
    Stale (removeFromList h x) ⟨A.blocks, xs1 ++ xs2, A.fl⟩ x ∧
    (∀ a, (∀ y ∈ nodes h A, a ≠ y ∧ a ≠ y + 8) → (removeFromList h x).mem a = h.mem a) := by
  have hr := c.ringA
  have hnd := c.al_nodup
  rw [hal] at hr hnd
  have hsub : ∀ y ∈ h.lo :: (xs1 ++ x :: xs2), y ∈ nodes h A := fun y hy =>
    c.al_node (hal ▸ hy)
  obtain ⟨hm, hp, hn, hring⟩ := remove_generic c hr hnd hsub
  obtain ⟨hf1, hf2, hf3⟩ := remove_frame c hr hnd hsub
  have hxn : x ∉ h.lo :: (xs1 ++ xs2) := by
    intro hx
    rw [List.nodup_cons, List.nodup_append, List.nodup_cons] at hnd
    rcases List.mem_cons.1 hx with e | e
    · exact hnd.1 (by simp [← e])
    · rcases List.mem_append.1 e with e | e
      · exact hnd.2.2.2 e (by simp)
      · exact hnd.2.2.1.1 e
  have hxin : x ∈ nodes h A := hsub x (by simp)
  have hflno : ∀ y ∈ (h.lo + 24) :: A.fl, y ∉ h.lo :: (xs1 ++ xs2) := by
    intro y hy hy1
    have : y ∈ h.lo :: A.al := by
      rw [hal]; simp only [List.mem_cons, List.mem_append] at hy1 ⊢; tauto
    exact c.al_fl_ne this hy rfl
  refine ⟨⟨?_, ?_, ?_, ?_, ?_, ?_, ?_, ?_, ?_, ?_, ?_, ?_, ?_⟩, ⟨?_, ?_, ?_⟩, hf3⟩
  · simpa using c.lo_pos
  · simpa using c.lo_al
  · simpa using c.brk_cap
  · simpa using c.cap_lt
  · simpa using c.hi
  · simpa using c.ok
  · simpa using c.tiles
  · exact c.ne
  · intro b hb
    rw [(hf2 b hb).1, (hf2 b hb).2]
    exact c.data b hb
  · simpa using hring
  · simp only [removeFromList_lo]
    exact Ring_congr c.ringF fun a ha => hf1 a (c.fl_node ha) (hflno a ha)
  · have := c.nodup
    rw [hal] at this
    simp only [List.nodup_append, List.nodup_cons, List.mem_append, List.mem_cons,
      List.Disjoint] at this ⊢
    aesop
  · intro a ha
    apply c.sub
    rw [hal]
    simp only [List.mem_append, List.mem_cons] at ha ⊢
    tauto
  · simp only [removeFromList_lo]
    rw [(hf1 x hxin hxn).1]
    simp only [List.mem_cons, List.mem_append] at hp ⊢; tauto
  · simp only [removeFromList_lo]
    rw [(hf1 x hxin hxn).2]
    simp only [List.mem_cons, List.mem_append, List.mem_singleton] at hn ⊢; tauto
  · rw [(hf1 x hxin hxn).1, (hf1 x hxin hxn).2]
    have hr1 := hring
    obtain ⟨pre, post, hpre, hpost⟩ := Ring_decomp hr
    unfold Ring at hr1
    have hL1 : h.lo :: (xs1 ++ xs2) ++ [h.lo] = pre ++ h.mem x :: h.mem (x + 8) :: post := by
      have : h.lo :: (xs1 ++ xs2) ++ [h.lo] = (h.lo :: xs1) ++ (xs2 ++ [h.lo]) := by simp
      rw [this, hpre, hpost]; simp
    rw [hL1] at hr1
    have := (List.chain'_split.1 hr1).2
    rw [List.chain'_cons] at this
    exact this.1

theorem Core.removeF {h : Heap} {A : Abs} (c : Core h A) {x : Nat} {xs1 xs2 : List Nat}
    (hfl : A.fl = xs1 ++ x :: xs2) :
    Core (removeFromList h x) ⟨A.blocks, A.al, xs1 ++ xs2⟩ ∧
    (∀ y ∈ nodes h A, y ∉ (h.lo + 24) :: (xs1 ++ xs2) →
      (removeFromList h x).mem y = h.mem y ∧ (removeFromList h x).mem (y + 8) = h.mem (y + 8)) ∧
    (∀ a, (∀ y ∈ nodes h A, a ≠ y ∧ a ≠ y + 8) → (removeFromList h x).mem a = h.mem a) := by
  have hr := c.ringF
  have hnd := c.fl_nodup
  rw [hfl] at hr hnd
  have hsub : ∀ y ∈ (h.lo + 24) :: (xs1 ++ x :: xs2), y ∈ nodes h A := fun y hy =>
    c.fl_node (hfl ▸ hy)
  obtain ⟨hm, hp, hn, hring⟩ := remove_generic c hr hnd hsub
  obtain ⟨hf1, hf2, hf3⟩ := remove_frame c hr hnd hsub
  have halno : ∀ y ∈ h.lo :: A.al, y ∉ (h.lo + 24) :: (xs1 ++ xs2) := by
    intro y hy hy1
    have : y ∈ (h.lo + 24) :: A.fl := by
      rw [hfl]; simp only [List.mem_cons, List.mem_append] at hy1 ⊢; tauto
    exact c.al_fl_ne hy this rfl
  refine ⟨⟨?_, ?_, ?_, ?_, ?_, ?_, ?_, ?_, ?_, ?_, ?_, ?_, ?_⟩, hf1, hf3⟩
  · simpa using c.lo_pos
  · simpa using c.lo_al
  · simpa using c.brk_cap
  · simpa using c.cap_lt
  · simpa using c.hi
  · simpa using c.ok
  · simpa using c.tiles
  · exact c.ne
  · intro b hb
    rw [(hf2 b hb).1, (hf2 b hb).2]
    exact c.data b hb
  · simp only [removeFromList_lo]
    exact Ring_congr c.ringA fun a ha => hf1 a (c.al_node ha) (halno a ha)
  · simpa using hring
  · have := c.nodup
    rw [hfl] at this
    simp only [List.nodup_append, List.nodup_cons, List.mem_append, List.mem_cons,
      List.Disjoint] at this ⊢
    aesop
  · intro a ha
    apply c.sub
    rw [hfl]
    simp only [List.mem_append, List.mem_cons] at ha ⊢
    tauto

theorem Stale_frame {h h1 : Heap} {A A1 : Abs} {z : Nat} (hz : Stale h A z)
    (hal : A1.al = A.al) (hlo : h1.lo = h.lo)
    (hzf : h1.mem z = h.mem z ∧ h1.mem (z + 8) = h.mem (z + 8))
    (hfr : ∀ y ∈ h.lo :: A.al, h1.mem y = h.mem y ∧ h1.mem (y + 8) = h.mem (y + 8)) :
    Stale h1 A1 z := by
  obtain ⟨h2, h3, h4, h5⟩ := hz
  refine ⟨?_, ?_, ?_, ?_⟩
  · rw [hzf.1, hal, hlo]; exact h2
  · rw [hzf.2, hal, hlo]; exact h3
  · rw [hzf.1, hzf.2, (hfr _ h2).2]; exact h4
  · rw [hzf.1, hzf.2, (hfr _ h3).1]; exact h5

/-- Unlinking again a block whose old neighbours are linked to each other
changes nothing. -/
theorem removeFromList_stale {h : Heap} {A : Abs} (c : Core h A) {z : Nat}
    (hz : Stale h A z) (hzn : z ∈ nodes h A) (hza : z ∉ h.lo :: A.al) :
    removeFromList h z = h := by
  obtain ⟨h2, h3, h4, h5⟩ := hz
  have b1 := c.node_bd hzn
  have b2 := c.node_bd (c.al_node h2)
  have b3 := c.node_bd (c.al_node h3)
  have e1 : h.mem (z + 8) ≠ z := fun e => hza (e ▸ h3)
  have s1 := sep_ne c.sep (c.al_node h3) hzn e1
  rw [removeFromList_eq h z (by omega) (by omega) (by omega) e1 (by omega)]
  have e2 : wr h (h.mem (z + 8)) (h.mem z) = h := by
    conv_lhs => rw [← h5]
    exact wr_same h _
  rw [e2]
  conv_lhs => rw [← h4]
  exact wr_same h _

/-! ## Linking a block at the tail of a ring -/

theorem add_frame {h h1 : Heap} {A : Abs} (c : Core h A) {s l x : Nat}
    (hs : s ∈ nodes h A) (hl : l ∈ nodes h A) (hx : x ∈ nodes h A)
    (hm : ∀ a, h1.mem a = if a = s then x else if a = l + 8 then x
      else if a = x then l else if a = x + 8 then s else h.mem a) :
    (∀ y ∈ nodes h A, y ≠ s → y ≠ l → y ≠ x →
      h1.mem y = h.mem y ∧ h1.mem (y + 8) = h.mem (y + 8)) ∧
    (∀ b ∈ A.blocks, h1.mem (b.addr + 16) = h.mem (b.addr + 16) ∧
      h1.mem (b.addr + 24 + b.size) = h.mem (b.addr + 24 + b.size)) ∧
    (∀ a, (∀ y ∈ nodes h A, a ≠ y ∧ a ≠ y + 8) → h1.mem a = h.mem a) := by
  refine ⟨?_, ?_, ?_⟩
  · intro y hy e1 e2 e3
    have s1 := sep_ne c.sep hy hs e1
    have s2 := sep_ne c.sep hy hl e2
    have s3 := sep_ne c.sep hy hx e3
    rw [hm, hm]
    have a1 : y ≠ l + 8 := by omega
    have a2 : y ≠ x + 8 := by omega
    have a3 : y + 8 ≠ s := by omega
    have a4 : y + 8 ≠ l + 8 := by omega
    have a5 : y + 8 ≠ x := by omega
    have a6 : y + 8 ≠ x + 8 := by omega
    simp [e1, e3, a1, a2, a3, a4, a5, a6]
  · intro b hb
    have d1 := c.node_data hs hb
    have d2 := c.node_data hl hb
    have d3 := c.node_data hx hb
    rw [hm, hm]
    have a1 : b.addr + 16 ≠ s := by omega
    have a2 : b.addr + 16 ≠ l + 8 := by omega
    have a3 : b.addr + 16 ≠ x := by omega
    have a4 : b.addr + 16 ≠ x + 8 := by omega
    have a5 : b.addr + 24 + b.size ≠ s := by omega
    have a6 : b.addr + 24 + b.size ≠ l + 8 := by omega
    have a7 : b.addr + 24 + b.size ≠ x := by omega
    have a8 : b.addr + 24 + b.size ≠ x + 8 := by omega
    simp [a1, a2, a3, a4, a5, a6, a7, a8]
  · intro a ha
    rw [hm]
    have a1 := (ha _ hs).1
    have a2 := (ha _ hl).2
    have a3 := (ha _ hx).1
    have a4 := (ha _ hx).2
    simp [a1, a2, a3, a4]

theorem Core.addA {h : Heap} {A : Abs} (c : Core h A) {x : Nat}
    (hx : ∃ b ∈ A.blocks, b.addr = x) (hxn : x ∉ A.al ++ A.fl) :
    Core (addToAllocList h x) ⟨A.blocks, A.al ++ [x], A.fl⟩ ∧
    (∀ y ∈ nodes h A, y ∉ h.lo :: (A.al ++ [x]) →
      (addToAllocList h x).mem y = h.mem y ∧ (addToAllocList h x).mem (y + 8) = h.mem (y + 8)) ∧
    (∀ a, (∀ y ∈ nodes h A, a ≠ y ∧ a ≠ y + 8) → (addToAllocList h x).mem a = h.mem a) := by
  obtain ⟨pre, hpre, _⟩ := Ring_last c.ringA
  have hl : h.mem h.lo ∈ h.lo :: A.al := by rw [hpre]; simp
  have hln := c.al_node hl
  have hxnode : x ∈ nodes h A := Core.node_mem.2 (Or.inr (Or.inr hx))
  have hsn : h.lo ∈ nodes h A := by simp [nodes]
  have hxa : x ∉ h.lo :: A.al := by
    intro e
    rcases List.mem_cons.1 e with e | e
    · obtain ⟨b, hb, e1⟩ := hx
      have := c.blk hb
      omega
    · exact hxn (List.mem_append_left _ e)
  have hlx : h.mem h.lo ≠ x := fun e => hxa (e ▸ hl)
  have hxs : x ≠ h.lo := fun e => hxa (by simp [e])
  have b1 := c.node_bd hxnode
  have b2 := c.node_bd hln
  have s1 := sep_ne c.sep hxnode hsn hxs
  have hm := addToAllocList_mem h x (by omega) (by omega) (by omega) hlx
  obtain ⟨hf1, hf2, hf3⟩ := add_frame c hsn hln hxnode hm
  have hsep : Sep24 (x :: h.lo :: A.al) := by
    apply Sep24_mono c.sep
    intro a ha
    rcases List.mem_cons.1 ha with e | e
    · exact e ▸ hxnode
    · exact c.al_node e
  have hring := Ring_add c.ringA c.al_nodup hxa hsep hm
  refine ⟨⟨?_, ?_, ?_, ?_, ?_, ?_, ?_, ?_, ?_, ?_, ?_, ?_, ?_⟩, ?_, hf3⟩
  · simpa using c.lo_pos
  · simpa using c.lo_al
  · simpa using c.brk_cap
  · simpa using c.cap_lt
  · simpa using c.hi
  · simpa using c.ok
  · simpa using c.tiles
  · exact c.ne
  · intro b hb
    rw [(hf2 b hb).1, (hf2 b hb).2]
    exact c.data b hb
  · simpa using hring
  · simp only [addToAllocList_lo]
    refine Ring_congr c.ringF fun a ha => hf1 a (c.fl_node ha) ?_ ?_ ?_
    · exact fun e => c.al_fl_ne (List.mem_cons_self _ _) ha e.symm
    · exact fun e => c.al_fl_ne hl ha e.symm
    · intro e
      subst e
      rcases List.mem_cons.1 ha with e | e
      · obtain ⟨b, hb, e1⟩ := hx
        have := c.blk hb
        omega
      · exact hxn (List.mem_append_right _ e)
  · have := c.nodup
    simp only [List.mem_append, not_or] at hxn
    simp only [List.nodup_append, List.nodup_cons, List.mem_append, List.mem_cons,
      List.Disjoint, List.mem_singleton] at this ⊢
    aesop
  · intro a ha
    simp only [List.mem_append, List.mem_singleton] at ha
    rcases ha with (ha | ha) | ha
    · exact c.sub a (List.mem_append_left _ ha)
    · exact ha ▸ hx
    · exact c.sub a (List.mem_append_right _ ha)
  · intro y hy hy1
    have g1 : y ≠ h.lo := fun e => hy1 (by simp [e])
    have g2 : y ∉ A.al := fun e => hy1 (by simp [e])
    have g3 : y ≠ x := fun e => hy1 (by simp [e])
    refine hf1 y hy g1 ?_ g3
    intro e
    rcases List.mem_cons.1 hl with e1 | e1
    · exact g1 (e.trans e1)
    · exact g2 (e ▸ e1)

theorem Core.addF {h : Heap} {A : Abs} (c : Core h A) {x : Nat}
    (hx : ∃ b ∈ A.blocks, b.addr = x) (hxn : x ∉ A.al ++ A.fl) :
    Core (addToFreeList h x) ⟨A.blocks, A.al, A.fl ++ [x]⟩ ∧
    (∀ y ∈ nodes h A, y ∉ (h.lo + 24) :: (A.fl ++ [x]) →
      (addToFreeList h x).mem y = h.mem y ∧ (addToFreeList h x).mem (y + 8) = h.mem (y + 8)) ∧
    (∀ a, (∀ y ∈ nodes h A, a ≠ y ∧ a ≠ y + 8) → (addToFreeList h x).mem a = h.mem a) := by
  obtain ⟨pre, hpre, _⟩ := Ring_last c.ringF
  have hl : h.mem (h.lo + 24) ∈ (h.lo + 24) :: A.fl := by rw [hpre]; simp
  have hln := c.fl_node hl
  have hxnode : x ∈ nodes h A := Core.node_mem.2 (Or.inr (Or.inr hx))
  have hsn : h.lo + 24 ∈ nodes h A := by simp [nodes]
  have hxa : x ∉ (h.lo + 24) :: A.fl := by
    intro e
    rcases List.mem_cons.1 e with e | e
    · obtain ⟨b, hb, e1⟩ := hx
      have := c.blk hb
      omega
    · exact hxn (List.mem_append_right _ e)
  have hlx : h.mem (h.lo + 24) ≠ x := fun e => hxa (e ▸ hl)
  have hxs : x ≠ h.lo + 24 := fun e => hxa (by simp [e])
  have b1 := c.node_bd hxnode
  have b2 := c.node_bd hln
  have b3 := c.node_bd hsn
  have s1 := sep_ne c.sep hxnode hsn hxs
  have hm := addToFreeList_mem h x (by omega) (by omega) (by omega) (by omega) hlx
  obtain ⟨hf1, hf2, hf3⟩ := add_frame c hsn hln hxnode hm
  have hsep : Sep24 (x :: (h.lo + 24) :: A.fl) := by
    apply Sep24_mono c.sep
    intro a ha
    rcases List.mem_cons.1 ha with e | e
    · exact e ▸ hxnode
    · exact c.fl_node e
  have hring := Ring_add c.ringF c.fl_nodup hxa hsep hm
  refine ⟨⟨?_, ?_, ?_, ?_, ?_, ?_, ?_, ?_, ?_, ?_, ?_, ?_, ?_⟩, ?_, hf3⟩
  · simpa using c.lo_pos
  · simpa using c.lo_al
  · simpa using c.brk_cap
  · simpa using c.cap_lt
  · simpa using c.hi
  · simpa using c.ok
  · simpa using c.tiles
  · exact c.ne
  · intro b hb
    rw [(hf2 b hb).1, (hf2 b hb).2]
    exact c.data b hb
  · simp only [addToFreeList_lo]
    refine Ring_congr c.ringA fun a ha => hf1 a (c.al_node ha) ?_ ?_ ?_
    · exact fun e => c.al_fl_ne ha (List.mem_cons_self _ _) e
    · exact fun e => c.al_fl_ne ha hl e
    · intro e
      subst e
      rcases List.mem_cons.1 ha with e | e
      · obtain ⟨b, hb, e1⟩ := hx
        have := c.blk hb
        omega
      · exact hxn (List.mem_append_left _ e)
  · simpa using hring
  · have := c.nodup
    simp only [List.mem_append, not_or] at hxn
    simp only [List.nodup_append, List.nodup_cons, List.mem_append, List.mem_cons,
      List.Disjoint, List.mem_singleton] at this ⊢
    aesop
  · intro a ha
    simp only [List.mem_append, List.mem_singleton] at ha
    rcases ha with ha | ha | ha
    · exact c.sub a (List.mem_append_left _ ha)
    · exact c.sub a (List.mem_append_right _ ha)
    · exact ha ▸ hx
  · intro y hy hy1
    have g1 : y ≠ h.lo + 24 := fun e => hy1 (by simp [e])
    have g2 : y ∉ A.fl := fun e => hy1 (by simp [e])
    have g3 : y ≠ x := fun e => hy1 (by simp [e])
    refine hf1 y hy g1 ?_ g3
    intro e
    rcases List.mem_cons.1 hl with e1 | e1
    · exact g1 (e.trans e1)
    · exact g2 (e ▸ e1)

/-! ## Changing the layout between two addresses -/

theorem Core.relayout {h h1 : Heap} {A : Abs} (c : Core h A)
    {pre mid post mid1 : List Blk} {r0 r1 : Nat}
    (hbl : A.blocks = pre ++ mid ++ post)
    (ht0 : Tiles (h.lo + 48) pre r0) (ht2 : Tiles r1 post h.brk)
    (hlo : h1.lo = h.lo) (hcap : h1.cap = h.cap) (hhi : h1.hiOff = h.hiOff)
    (hen : h1.enomem = h.enomem) (hbrk : h1.brk ≤ h.cap)
    (hnew : Tiles r0 (mid1 ++ post) h1.brk) (hne : pre ++ mid1 ++ post ≠ [])
    (hlow : ∀ a, a < r0 → h1.mem a = h.mem a)
    (hhigh : ∀ a, r1 ≤ a → a < h.brk → h1.mem a = h.mem a)
    (hdata : ∀ b ∈ mid1, h1.mem (b.addr + 16) = b.word ∧ h1.mem (b.addr + 24 + b.size) = b.addr)
    (hmid : ∀ d ∈ mid, d.addr ∈ A.al ++ A.fl → (∃ d1 ∈ mid1, d1.addr = d.addr) ∧
      h1.mem d.addr = h.mem d.addr ∧ h1.mem (d.addr + 8) = h.mem (d.addr + 8)) :
    Core h1 ⟨pre ++ mid1 ++ post, A.al, A.fl⟩ := by
  have hr0 : h.lo + 48 ≤ r0 := Tiles_le ht0
  have hnode : ∀ y ∈ A.al ++ A.fl, h1.mem y = h.mem y ∧ h1.mem (y + 8) = h.mem (y + 8) := by
    intro y hy
    obtain ⟨d, hd, rfl⟩ := c.sub y hy
    rw [hbl] at hd
    simp only [List.mem_append] at hd
    rcases hd with (hd | hd) | hd
    · have := Tiles_mem ht0 hd
      exact ⟨hlow _ (by omega), hlow _ (by omega)⟩
    · exact (hmid d hd hy).2
    · have := Tiles_mem ht2 hd
      exact ⟨hhigh _ (by omega) (by omega), hhigh _ (by omega) (by omega)⟩
  refine ⟨?_, ?_, ?_, ?_, ?_, ?_, ?_, hne, ?_, ?_, ?_, c.nodup, ?_⟩
  · rw [hlo]; exact c.lo_pos
  · rw [hlo]; exact c.lo_al
  · rw [hcap]; exact hbrk
  · rw [hcap]; exact c.cap_lt
  · rw [hhi]; exact c.hi
  · rw [hen]; exact c.ok
  · rw [hlo]
    show Tiles (h.lo + 48) (pre ++ mid1 ++ post) h1.brk
    rw [List.append_assoc, Tiles_append]
    exact ⟨r0, ht0, hnew⟩
  · intro b hb
    simp only [List.mem_append] at hb
    rcases hb with (hb | hb) | hb
    · have := Tiles_mem ht0 hb
      rw [hlow _ (by omega), hlow _ (by omega)]
      exact c.data b (by rw [hbl]; simp [hb])
    · exact hdata b hb
    · have := Tiles_mem ht2 hb
      rw [hhigh _ (by omega) (by omega), hhigh _ (by omega) (by omega)]
      exact c.data b (by rw [hbl]; simp [hb])
  · rw [hlo]
    refine Ring_congr c.ringA fun a ha => ?_
    rcases List.mem_cons.1 ha with e | e
    · subst e
      exact ⟨hlow _ (by omega), hlow _ (by omega)⟩
    · exact hnode a (List.mem_append_left _ e)
  · rw [hlo]
    refine Ring_congr c.ringF fun a ha => ?_
    rcases List.mem_cons.1 ha with e | e
    · subst e
      exact ⟨hlow _ (by omega), hlow _ (by omega)⟩
    · exact hnode a (List.mem_append_right _ e)
  · intro a ha
    obtain ⟨d, hd, rfl⟩ := c.sub a ha
    rw [hbl] at hd
    simp only [List.mem_append] at hd
    show ∃ b ∈ pre ++ mid1 ++ post, b.addr = d.addr
    rcases hd with (hd | hd) | hd
    · exact ⟨d, by simp [hd], rfl⟩
    · obtain ⟨⟨d1, hd1, e⟩, _⟩ := hmid d hd ha
      exact ⟨d1, by simp [hd1], e⟩
    · exact ⟨d, by simp [hd], rfl⟩

theorem Core.split_at {h : Heap} {A : Abs} (c : Core h A) {pre mid post : List Blk}
    (hbl : A.blocks = pre ++ mid ++ post) :
    ∃ r0 r1, Tiles (h.lo + 48) pre r0 ∧ Tiles r0 mid r1 ∧ Tiles r1 post h.brk := by
  have := c.tiles
  rw [hbl, List.append_assoc, Tiles_append] at this
  obtain ⟨r0, h1, h2⟩ := this
  rw [Tiles_append] at h2
  obtain ⟨r1, h3, h4⟩ := h2
  exact ⟨r0, r1, h1, h3, h4⟩

/-! ## The initializer -/

theorem mm_init_fields (h0 : Heap) (hc : h0.brk + 80 ≤ h0.cap) :
    (mm_init h0).1 = 0 ∧ (mm_init h0).2.lo = h0.lo ∧ (mm_init h0).2.brk = h0.brk + 80 ∧
    (mm_init h0).2.cap = h0.cap ∧ (mm_init h0).2.hiOff = h0.hiOff ∧
    (mm_init h0).2.enomem = h0.enomem := by
  simp [mm_init, mem_sbrk, hc, HEADER_SIZE, FOOTER_SIZE, addToFreeList, set_prev, set_next,
    set_size, wr]

theorem mm_init_fail (h0 : Heap) (hc : ¬ h0.brk + 80 ≤ h0.cap) :
    (mm_init h0).2.enomem = true ∧ (mm_init h0).2.brk = h0.brk := by
  simp [mm_init, mem_sbrk, hc, HEADER_SIZE, FOOTER_SIZE, addToFreeList, set_prev, set_next,
    set_size, wr]

theorem mm_init_mem (h0 : Heap) (hf : Fresh h0) (hc : h0.lo + 80 ≤ h0.cap) (a : Nat) :
    (mm_init h0).2.mem a =
      if a = h0.lo + 24 then h0.lo + 48
      else if a = h0.lo + 32 then h0.lo + 48
      else if a = h0.lo + 48 then h0.lo + 24
      else if a = h0.lo + 56 then h0.lo + 24
      else if a = h0.lo + 72 then h0.lo + 48
      else if a = h0.lo + 64 then 1
      else if a = h0.lo + 8 then h0.lo
      else if a = h0.lo then h0.lo else h0.mem a := by
  obtain ⟨h1, h2, h3, h4, h5, h6⟩ := hf
  have e1 : h0.lo + 24 < W := by omega
  have e2 : h0.lo + 48 < W := by omega
  have e3 : h0.lo + 72 < W := by omega
  have e4 : h0.lo + 8 < W := by omega
  have e5 : h0.lo + 32 < W := by omega
  have e6 : h0.lo + 56 < W := by omega
  have e7 : h0.lo + 64 < W := by omega
  simp [mm_init, mem_sbrk, h3, hc, HEADER_SIZE, FOOTER_SIZE, addToFreeList, set_prev,
    set_next, set_size, h_prev, h_next, rd, mem_heap_lo, padd, Nat.mod_eq_of_lt, e1, e2, e3,
    e4, e5, e6, e7, Nat.add_assoc]
  split_ifs <;> rfl

theorem mm_init_rep (h0 : Heap) (hf : Fresh h0) (hok : (mm_init h0).2.enomem = false) :
    Rep (mm_init h0).2 ⟨[⟨h0.lo + 48, 0, true⟩], [], [h0.lo + 48]⟩ := by
  have hf0 := hf
  obtain ⟨h1, h2, h3, h4, h5, h6⟩ := hf
  have hc : h0.lo + 80 ≤ h0.cap := by
    by_contra hn
    have := (mm_init_fail h0 (by rw [h3]; exact hn)).1
    rw [this] at hok
    exact Bool.noConfusion hok
  obtain ⟨_, f1, f2, f3, f4, f5⟩ := mm_init_fields h0 (by rw [h3]; exact hc)
  have hm := mm_init_mem h0 hf0 hc
  refine ⟨⟨?_, ?_, ?_, ?_, ?_, ?_, ?_, by simp, ?_, ?_, ?_, by simp, ?_⟩, ?_, ?_, ?_⟩
  · rw [f1]; exact h1
  · rw [f1]; exact h2
  · rw [f2, f3, h3]; exact hc
  · rw [f3]; exact h4
  · rw [f4]; exact h5
  · rw [f5]; exact h6
  · rw [f1, f2, h3]
    simp [Tiles]
  · intro b hb
    simp only [List.mem_singleton] at hb
    subst hb
    simp [hm, Blk.word]
  · rw [f1, Ring_nil_iff, hm, hm]
    simp
  · rw [f1]
    simp only [Ring, List.cons_append, List.nil_append, List.chain'_cons, Lnk,
      List.chain'_singleton, and_true, hm]
    simp
  · intro a ha
    simp only [List.nil_append, List.mem_singleton] at ha
    exact ⟨_, List.mem_singleton.2 rfl, ha.symm⟩
  · intro b hb
    simp only [List.mem_singleton] at hb
    subst hb
    simp
  · intro b hb _
    simp only [List.mem_singleton] at hb
    subst hb
    simp
  · intro b hb _ hs
    simp only [List.mem_singleton] at hb
    subst hb
    simp at hs

/-! ## Reading block data -/

theorem Core.rd_size {h : Heap} {A : Abs} (c : Core h A) {b : Blk} (hb : b ∈ A.blocks) :
    h_size h b.addr = b.word ∧ payloadSize h b.addr = b.size ∧
    tagBit (h_size h b.addr) = (if b.free then 1 else 0) := by
  have h1 := c.blk hb
  have h2 := c.brk_lt
  have e : h_size h b.addr = b.word := by
    simp only [h_size, rd, padd_eq (show b.addr + 16 < W by omega)]
    exact (c.data b hb).1
  refine ⟨e, ?_, ?_⟩
  · rw [payloadSize, e, Blk.word, untag_word _ _ h1.2.2.1]
  · rw [e, Blk.word, tagBit_word _ _ h1.2.2.1]

theorem Core.settag {h : Heap} {A : Abs} (c : Core h A) {pre post : List Blk} {b : Blk}
    (hbl : A.blocks = pre ++ b :: post) (f : Bool) :
    Core (wr h (b.addr + 16) (b.size + if f then 1 else 0))
      ⟨pre ++ ⟨b.addr, b.size, f⟩ :: post, A.al, A.fl⟩ := by
  have hbl1 : A.blocks = pre ++ [b] ++ post := by simp [hbl]
  obtain ⟨r0, r1, t0, t1, t2⟩ := c.split_at hbl1
  simp only [Tiles] at t1
  obtain ⟨ta, tb, tc⟩ := t1
  have hbin : b ∈ A.blocks := by rw [hbl]; simp
  have key : Core (wr h (b.addr + 16) (b.size + if f then 1 else 0))
      ⟨pre ++ [⟨b.addr, b.size, f⟩] ++ post, A.al, A.fl⟩ := by
    refine @Core.relayout h (wr h (b.addr + 16) (b.size + if f then 1 else 0)) A c
      pre [b] post [⟨b.addr, b.size, f⟩] r0 r1 hbl1 t0 t2 rfl rfl rfl rfl c.brk_cap ?_
      (by simp) ?_ ?_ ?_ ?_
    · rw [Tiles_append]
      exact ⟨r1, ⟨ta, tb, tc⟩, t2⟩
    · intro a ha
      have : a ≠ b.addr + 16 := by omega
      simp [this]
    · intro a ha _
      have : a ≠ b.addr + 16 := by omega
      simp [this]
    · intro d hd
      simp only [List.mem_singleton] at hd
      subst hd
      simp only [wr_mem, if_true, Blk.word, true_and]
      have : b.addr + 24 + b.size ≠ b.addr + 16 := by omega
      simp only [this, if_false]
      exact (c.data b hbin).2
    · intro d hd _
      simp only [List.mem_singleton] at hd
      subst hd
      refine ⟨⟨_, List.mem_singleton.2 rfl, rfl⟩, ?_, ?_⟩
      · have : d.addr ≠ d.addr + 16 := by omega
        simp [this]
      · have : d.addr + 8 ≠ d.addr + 16 := by omega
        simp [this]
  simpa using key

/-! ## Payload addresses carry no metadata -/

theorem Core.payload_node {h : Heap} {A : Abs} (c : Core h A) {d : Blk} (hd : d ∈ A.blocks)
    {a : Nat} (h1 : d.addr + 24 ≤ a) (h2 : a < d.addr + 24 + d.size) :
    ∀ y ∈ nodes h A, a ≠ y ∧ a ≠ y + 8 := by
  intro y hy
  have b1 := c.blk hd
  rcases Core.node_mem.1 hy with rfl | rfl | ⟨e, he, rfl⟩
  · omega
  · omega
  · rcases Tiles_sep c.tiles hd he with e1 | e1 | e1
    · subst e1; omega
    · omega
    · have := c.blk he; omega

theorem Core.payload_data {h : Heap} {A : Abs} (c : Core h A) {d : Blk} (hd : d ∈ A.blocks)
    {a : Nat} (h1 : d.addr + 24 ≤ a) (h2 : a < d.addr + 24 + d.size) :
    ∀ b ∈ A.blocks, a ≠ b.addr + 16 ∧ a ≠ b.addr + 24 + b.size := by
  intro b hb
  rcases Tiles_sep c.tiles hd hb with e1 | e1 | e1
  · subst e1; omega
  · omega
  · omega

theorem Tiles_around {s e : Nat} {pre post : List Blk} {b : Blk}
    (h : Tiles s (pre ++ b :: post) e) :
    (∀ d ∈ pre, d.addr + 32 + d.size ≤ b.addr) ∧
    (∀ d ∈ post, b.addr + 32 + b.size ≤ d.addr) := by
  rw [Tiles_append] at h
  obtain ⟨m, h1, h2⟩ := h
  obtain ⟨h3, _, h4⟩ := h2
  constructor
  · intro d hd
    have := Tiles_mem h1 hd
    omega
  · intro d hd
    have := Tiles_mem h4 hd
    omega

theorem Core.around {h : Heap} {A : Abs} (c : Core h A) {pre post : List Blk} {b : Blk}
    (hbl : A.blocks = pre ++ b :: post) :
    (∀ d ∈ pre, d ∈ A.blocks ∧ d.addr ≠ b.addr ∧ d.addr + 32 + d.size ≤ b.addr) ∧
    (∀ d ∈ post, d ∈ A.blocks ∧ d.addr ≠ b.addr ∧ b.addr + 32 + b.size ≤ d.addr) := by
  have t := c.tiles
  rw [hbl] at t
  obtain ⟨h1, h2⟩ := Tiles_around t
  constructor
  · intro d hd
    have := h1 d hd
    exact ⟨by rw [hbl]; simp [hd], by omega, this⟩
  · intro d hd
    have := h2 d hd
    exact ⟨by rw [hbl]; simp [hd], by omega, this⟩

/-! ## Allocation by reusing a whole free block -/

theorem Rep.reuse {h : Heap} {A : Abs} (r : Rep h A) {b : Blk} {pre post : List Blk}
    {xs1 xs2 : List Nat} (hbl : A.blocks = pre ++ b :: post)
    (hfl : A.fl = xs1 ++ b.addr :: xs2) :
    Rep (set_size (addToAllocList (removeFromList h b.addr) b.addr) b.addr
        (untag (h_size (addToAllocList (removeFromList h b.addr) b.addr) b.addr)))
      ⟨pre ++ ⟨b.addr, b.size, false⟩ :: post, A.al ++ [b.addr], xs1 ++ xs2⟩ ∧
    PayloadFrame h (set_size (addToAllocList (removeFromList h b.addr) b.addr) b.addr
        (untag (h_size (addToAllocList (removeFromList h b.addr) b.addr) b.addr))) A := by
  have c := r.toCore
  have hbin : b ∈ A.blocks := by rw [hbl]; simp
  obtain ⟨c1, _, f1⟩ := c.removeF hfl
  have hnd := c.nodup
  have hxn : b.addr ∉ A.al ++ (xs1 ++ xs2) := by
    rw [hfl] at hnd
    simp only [List.nodup_append, List.nodup_cons, List.mem_append, List.mem_cons,
      List.Disjoint] at hnd
    simp only [List.mem_append, not_or]
    refine ⟨fun e => hnd.2.2 e (Or.inr (Or.inl rfl)), ?_, hnd.2.1.2.1.1⟩
    intro e
    exact hnd.2.1.2.2 e (Or.inl rfl)
  obtain ⟨c2, _, f2⟩ := c1.addA (x := b.addr) ⟨b, hbin, rfl⟩ hxn
  have hs := (c2.rd_size (b := b) hbin).1
  have bb := c.blk hbin
  have hW := c.brk_lt
  have c3 := c2.settag (A := ⟨A.blocks, A.al ++ [b.addr], xs1 ++ xs2⟩) hbl false
  have e3 : set_size (addToAllocList (removeFromList h b.addr) b.addr) b.addr
      (untag (h_size (addToAllocList (removeFromList h b.addr) b.addr) b.addr)) =
      wr (addToAllocList (removeFromList h b.addr) b.addr) (b.addr + 16)
        (b.size + if false = true then 1 else 0) := by
    rw [hs, Blk.word, untag_word _ _ bb.2.2.1, set_size, padd_eq (by omega)]
    simp
  rw [e3]
  obtain ⟨ar1, ar2⟩ := c.around hbl
  have hother : ∀ d ∈ pre ++ ⟨b.addr, b.size, false⟩ :: post,
      d = ⟨b.addr, b.size, false⟩ ∨ (d ∈ A.blocks ∧ d.addr ≠ b.addr) := by
    intro d hd
    simp only [List.mem_append, List.mem_cons] at hd
    rcases hd with hd | hd | hd
    · exact Or.inr ⟨(ar1 d hd).1, (ar1 d hd).2.1⟩
    · exact Or.inl hd
    · exact Or.inr ⟨(ar2 d hd).1, (ar2 d hd).2.1⟩
  refine ⟨⟨c3, ?_, ?_, ?_⟩, ?_⟩
  · intro d hd
    rcases hother d hd with e | ⟨e1, e2⟩
    · subst e; simp
    · have := r.cover d e1
      rw [hfl] at this
      simp only [List.mem_append, List.mem_cons] at this ⊢
      tauto
  · intro d hd hf
    rcases hother d hd with e | ⟨e1, e2⟩
    · subst e; simp at hf
    · have := r.tagF d e1 hf
      rw [hfl] at this
      simp only [List.mem_append, List.mem_cons] at this ⊢
      tauto
  · intro d hd hm hsz
    rcases hother d hd with e | ⟨e1, e2⟩
    · subst e
      exact absurd (List.mem_append_right _ hm) hxn
    · refine r.tagS d e1 ?_ hsz
      rw [hfl]
      simp only [List.mem_append, List.mem_cons] at hm ⊢
      tauto
  · intro d hd _ a ha1 ha2
    have n1 := c.payload_node hd ha1 ha2
    have n2 := c.payload_data hd ha1 ha2 b hbin
    simp only [wr_mem, n2.1, if_false]
    rw [f2 a (by simpa [nodes] using n1), f1 a n1]

/-! ## Allocation by splitting a free block -/

theorem Heap.ext1 {h h1 : Heap} (e1 : h.lo = h1.lo) (e2 : h.brk = h1.brk) (e3 : h.cap = h1.cap)
    (e4 : h.hiOff = h1.hiOff) (e5 : h.enomem = h1.enomem) (e6 : ∀ a, h.mem a = h1.mem a) :
    h = h1 := by
  cases h; cases h1
  simp only [Heap.mk.injEq]
  exact ⟨e1, e2, e3, e4, e5, funext e6⟩

theorem wr_wr (h : Heap) (a v v1 : Nat) : wr (wr h a v) a v1 = wr h a v1 := by
  refine Heap.ext1 rfl rfl rfl rfl rfl ?_
  intro x
  simp only [wr_mem]
  split_ifs <;> rfl

theorem addToAllocList_wr (h : Heap) (x a v : Nat) (hx : x + 8 < W)
    (hl : h.mem h.lo + 8 < W) (h1 : h.lo ≠ x + 8) (h2 : h.mem h.lo ≠ x)
    (a1 : a ≠ h.lo) (a2 : a ≠ h.mem h.lo + 8) (a3 : a ≠ x) (a4 : a ≠ x + 8) :
    wr (addToAllocList h x) a v = addToAllocList (wr h a v) x := by
  have g : (wr h a v).mem h.lo = h.mem h.lo := by
    have : h.lo ≠ a := fun e => a1 e.symm
    simp [this]
  refine Heap.ext1 rfl rfl rfl rfl rfl ?_
  intro y
  rw [addToAllocList_mem (wr h a v) x hx (by rw [wr_lo, g]; exact hl) (by rw [wr_lo]; exact h1)
    (by rw [wr_lo, g]; exact h2)]
  rw [wr_lo, g]
  simp only [wr_mem]
  rw [addToAllocList_mem h x hx hl h1 h2]
  by_cases hy : y = a
  · subst hy
    simp [a1, a2, a3, a4]
  · simp [hy]

theorem mallocFit_split_code (h : Heap) (N t P w c : Nat) (hw : h.mem (t + 16) = w)
    (hP : untag w = P) (hP8 : P % 8 = 0) (hN8 : N % 8 = 0) (hNP : N + 40 ≤ P)
    (hW : t + P + 32 < W) (hc : c + N = t + P) :
    mallocFit h N t = (c + 24,
      wr (wr (wr (addToAllocList (wr h (t + 16) (P - N - 32 + 1)) c) (c + 16) N)
        (c - 8) t) (t + P + 24) c) := by
  have hs : h_size h t = w := by simp [h_size, rd, padd_eq (show t + 16 < W by omega), hw]
  have e1 : padd (padd N HEADER_SIZE) FOOTER_SIZE = N + 32 := by
    simp only [HEADER_SIZE, FOOTER_SIZE]
    rw [padd_eq (show N + 24 < W by omega), padd_eq (by omega)]
  have e2 : padd (padd P HEADER_SIZE) FOOTER_SIZE = P + 32 := by
    simp only [HEADER_SIZE, FOOTER_SIZE]
    rw [padd_eq (show P + 24 < W by omega), padd_eq (by omega)]
  have e3 : padd (N + 32) (8 + HEADER_SIZE + FOOTER_SIZE) = N + 72 := by
    simp only [HEADER_SIZE, FOOTER_SIZE]
    rw [padd_eq (by omega)]
  have e4 : psub P (N + 32) = P - N - 32 := by rw [psub_eq (by omega) (by omega)]; omega
  have e5 : psub (padd t (P + 32)) (N + 32) = c := by
    rw [padd_eq (by omega), psub_eq (by omega) (by omega)]; omega
  have e6 : padd (padd c HEADER_SIZE) N = t + P + 24 := by
    simp only [HEADER_SIZE]
    rw [padd_eq (show c + 24 < W by omega), padd_eq (by omega)]; omega
  have e7 : psub c FOOTER_SIZE = c - 8 := by
    simp only [FOOTER_SIZE]; rw [psub_eq (by omega) (by omega)]
  have e8 : padd c HEADER_SIZE = c + 24 := by
    simp only [HEADER_SIZE]; rw [padd_eq (by omega)]
  have e9 : setTag (P - N - 32) = P - N - 32 + 1 := by unfold setTag; omega
  have e10 : padd t 16 = t + 16 := padd_eq (by omega)
  have e11 : padd c 16 = c + 16 := padd_eq (by omega)
  have hs1 : h_size (set_size h t (P - N - 32)) t = P - N - 32 := by
    simp [h_size, set_size, rd, e10]
  have k1 : mallocFit h N t =
      (padd (psub (padd t (P + 32)) (N + 32)) HEADER_SIZE,
        wr (wr (set_size (addToAllocList (set_size (set_size h t (psub P (N + 32))) t
          (setTag (h_size (set_size h t (psub P (N + 32))) t)))
          (psub (padd t (P + 32)) (N + 32))) (psub (padd t (P + 32)) (N + 32)) N)
          (psub (psub (padd t (P + 32)) (N + 32)) FOOTER_SIZE) t)
          (padd (padd (psub (padd t (P + 32)) (N + 32)) HEADER_SIZE) N)
          (psub (padd t (P + 32)) (N + 32))) := by
    unfold mallocFit
    simp only [hs, hP, e1, e2, e3]
    rw [if_pos (by omega)]
  rw [k1, e5, e6, e7, e8, e4, hs1, e9]
  simp only [set_size, e10, e11, wr_wr]

theorem split_reorder (h : Heap) (N t P c : Nat) (hNP : N + 40 ≤ P)
    (hW : t + P + 32 < W) (hlo : h.lo + 48 ≤ t) (hc : c + N = t + P)
    (hl1 : h.mem h.lo + 8 < W) (hl2 : h.mem h.lo ≠ c)
    (hl3 : h.mem h.lo + 8 ≠ c + 16) (hl4 : h.mem h.lo + 8 ≠ c - 8)
    (hl5 : h.mem h.lo + 8 ≠ t + P + 24) (v : Nat) :
    wr (wr (wr (addToAllocList (wr h (t + 16) v) c) (c + 16) N) (c - 8) t) (t + P + 24) c =
      addToAllocList (wr (wr (wr (wr h (t + 16) v) (c + 16) N) (c - 8) t) (t + P + 24) c) c := by
  have g1 : (wr h (t + 16) v).mem h.lo = h.mem h.lo := by
    have : h.lo ≠ t + 16 := by omega
    simp [this]
  rw [addToAllocList_wr _ c (c + 16) N (by omega) (by rw [wr_lo, g1]; exact hl1)
    (by rw [wr_lo]; omega) (by rw [wr_lo, g1]; exact hl2) (by rw [wr_lo]; omega)
    (by rw [wr_lo, g1]; omega) (by omega) (by omega)]
  have g2 : (wr (wr h (t + 16) v) (c + 16) N).mem h.lo = h.mem h.lo := by
    have : h.lo ≠ c + 16 := by omega
    simp only [wr_mem, if_neg this]; exact g1
  rw [addToAllocList_wr _ c (c - 8) t (by omega) (by rw [wr_lo, wr_lo, g2]; exact hl1)
    (by rw [wr_lo, wr_lo]; omega) (by rw [wr_lo, wr_lo, g2]; exact hl2)
    (by rw [wr_lo, wr_lo]; omega) (by rw [wr_lo, wr_lo, g2]; omega) (by omega) (by omega)]
  have g3 : (wr (wr (wr h (t + 16) v) (c + 16) N) (c - 8) t).mem h.lo = h.mem h.lo := by
    have : h.lo ≠ c - 8 := by omega
    simp only [wr_mem, if_neg this]; simpa using g2
  rw [addToAllocList_wr _ c (t + P + 24) c (by omega)
    (by rw [wr_lo, wr_lo, wr_lo, g3]; exact hl1)
    (by rw [wr_lo, wr_lo, wr_lo]; omega) (by rw [wr_lo, wr_lo, wr_lo, g3]; exact hl2)
    (by rw [wr_lo, wr_lo, wr_lo]; omega) (by rw [wr_lo, wr_lo, wr_lo, g3]; omega)
    (by omega) (by omega)]

theorem Core.split_data {h : Heap} {A : Abs} (c : Core h A) {pre post : List Blk} {b : Blk}
    (hbl : A.blocks = pre ++ b :: post) {N x : Nat} (hN8 : N % 8 = 0)
    (hNP : N + 40 ≤ b.size) (hx : x + N = b.addr + b.size) :
    Core (wr (wr (wr (wr h (b.addr + 16) (b.size - N - 32 + 1)) (x + 16) N) (x - 8) b.addr)
        (b.addr + b.size + 24) x)
      ⟨pre ++ ⟨b.addr, b.size - N - 32, true⟩ :: ⟨x, N, false⟩ :: post, A.al, A.fl⟩ ∧
    (∀ a, a < b.addr + 16 ∨ b.addr + b.size + 32 ≤ a →
      (wr (wr (wr (wr h (b.addr + 16) (b.size - N - 32 + 1)) (x + 16) N) (x - 8) b.addr)
        (b.addr + b.size + 24) x).mem a = h.mem a) := by
  have hbl1 : A.blocks = pre ++ [b] ++ post := by simp [hbl]
  obtain ⟨r0, r1, t0, t1, t2⟩ := c.split_at hbl1
  simp only [Tiles] at t1
  obtain ⟨ta, tb, tc⟩ := t1
  have hbin : b ∈ A.blocks := by rw [hbl]; simp
  have hfr : ∀ a, a < b.addr + 16 ∨ b.addr + b.size + 32 ≤ a →
      (wr (wr (wr (wr h (b.addr + 16) (b.size - N - 32 + 1)) (x + 16) N) (x - 8) b.addr)
        (b.addr + b.size + 24) x).mem a = h.mem a := by
    intro a ha
    have n1 : a ≠ b.addr + 16 := by omega
    have n2 : a ≠ x + 16 := by omega
    have n3 : a ≠ x - 8 := by omega
    have n4 : a ≠ b.addr + b.size + 24 := by omega
    simp [n1, n2, n3, n4]
  refine ⟨?_, hfr⟩
  have key := @Core.relayout h (wr (wr (wr (wr h (b.addr + 16) (b.size - N - 32 + 1))
      (x + 16) N) (x - 8) b.addr) (b.addr + b.size + 24) x) A c pre [b] post
      [⟨b.addr, b.size - N - 32, true⟩, ⟨x, N, false⟩] r0 r1 hbl1 t0 t2 rfl rfl rfl rfl
      c.brk_cap ?_ (by simp) ?_ ?_ ?_ ?_
  · simpa using key
  · rw [Tiles_append]
    refine ⟨r1, ?_, t2⟩
    simp only [Tiles]
    refine ⟨ta, by omega, by omega, by omega, by omega⟩
  · intro a ha
    exact hfr a (by omega)
  · intro a ha _
    exact hfr a (by omega)
  · intro d hd
    simp only [List.mem_cons, List.mem_singleton, List.not_mem_nil, or_false] at hd
    rcases hd with rfl | rfl
    · simp only [wr_mem, Blk.word]
      have n1 : b.addr + 16 ≠ b.addr + b.size + 24 := by omega
      have n2 : b.addr + 16 ≠ x - 8 := by omega
      have n3 : b.addr + 16 ≠ x + 16 := by omega
      have n4 : b.addr + 24 + (b.size - N - 32) ≠ b.addr + b.size + 24 := by omega
      have n5 : b.addr + 24 + (b.size - N - 32) = x - 8 := by omega
      have n6 : x - 8 ≠ b.addr + b.size + 24 := by omega
      simp [n1, n2, n3, n5, n6]
    · simp only [wr_mem, Blk.word]
      have n1 : x + 16 ≠ b.addr + b.size + 24 := by omega
      have n2 : x + 16 ≠ x - 8 := by omega
      have n5 : x + 24 + N = b.addr + b.size + 24 := by omega
      simp [n1, n2, n5]
  · intro d hd _
    simp only [List.mem_singleton] at hd
    subst hd
    refine ⟨⟨_, List.mem_cons_self _ _, rfl⟩, ?_, ?_⟩
    · exact hfr _ (by omega)
    · exact hfr _ (by omega)

theorem Rep.split {h : Heap} {A : Abs} (r : Rep h A) {pre post : List Blk} {b : Blk}
    (hbl : A.blocks = pre ++ b :: post) (hbf : b.addr ∈ A.fl) {N x : Nat} (hN8 : N % 8 = 0)
    (hNP : N + 40 ≤ b.size) (hx : x + N = b.addr + b.size) :
    (mallocFit h N b.addr).1 = x + 24 ∧
    Rep (mallocFit h N b.addr).2
      ⟨pre ++ ⟨b.addr, b.size - N - 32, true⟩ :: ⟨x, N, false⟩ :: post, A.al ++ [x], A.fl⟩ ∧
    PayloadFrame h (mallocFit h N b.addr).2 A := by
  have c := r.toCore
  have hbin : b ∈ A.blocks := by rw [hbl]; simp
  have bb := c.blk hbin
  have hW := c.brk_lt
  obtain ⟨cd, hfr⟩ := c.split_data hbl hN8 hNP hx
  -- the new header lies inside the payload of `b`
  have hxpay : ∀ y ∈ nodes h A, x ≠ y ∧ x ≠ y + 8 := c.payload_node hbin (by omega) (by omega)
  have hxpay2 : ∀ y ∈ nodes h A, x + 16 ≠ y ∧ x + 16 ≠ y + 8 :=
    c.payload_node hbin (by omega) (by omega)
  have hxpay3 : ∀ y ∈ nodes h A, x - 8 ≠ y ∧ x - 8 ≠ y + 8 :=
    c.payload_node hbin (by omega) (by omega)
  obtain ⟨pl, hpl, _⟩ := Ring_last c.ringA
  have hl : h.mem h.lo ∈ h.lo :: A.al := by rw [hpl]; simp
  have hln := c.al_node hl
  have bl := c.node_bd hln
  have dl := c.node_data hln hbin
  have hcode := mallocFit_split_code h N b.addr b.size b.word x (c.data b hbin).1
    (by rw [Blk.word, untag_word _ _ bb.2.2.1]) bb.2.2.1 hN8 hNP (by omega) hx
  have hre := split_reorder h N b.addr b.size x hNP (by omega) (by omega) hx (by omega)
    (fun e => (hxpay _ hln).1 e.symm) (fun e => (hxpay2 _ hln).2 e.symm)
    (fun e => (hxpay3 _ hln).2 e.symm) (by omega) (b.size - N - 32 + 1)
  rw [hcode, hre]
  have hxn : x ∉ A.al ++ A.fl := by
    intro e
    obtain ⟨d, hd, e1⟩ := c.sub x e
    exact (hxpay _ (Core.blk_node (h := h) hd)).1 e1.symm
  obtain ⟨c2, _, f2⟩ := cd.addA (x := x) ⟨⟨x, N, false⟩, by simp, rfl⟩ hxn
  obtain ⟨ar1, ar2⟩ := c.around hbl
  have hother : ∀ d ∈ pre ++ ⟨b.addr, b.size - N - 32, true⟩ :: ⟨x, N, false⟩ :: post,
      d = ⟨b.addr, b.size - N - 32, true⟩ ∨ d = ⟨x, N, false⟩ ∨ d ∈ A.blocks := by
    intro d hd
    simp only [List.mem_append, List.mem_cons] at hd
    rcases hd with hd | hd | hd | hd
    · exact Or.inr (Or.inr (ar1 d hd).1)
    · exact Or.inl hd
    · exact Or.inr (Or.inl hd)
    · exact Or.inr (Or.inr (ar2 d hd).1)
  have hxfl : x ∉ A.fl := fun e => hxn (List.mem_append_right _ e)
  refine ⟨rfl, ⟨c2, ?_, ?_, ?_⟩, ?_⟩
  · intro d hd
    show d.addr ∈ (A.al ++ [x]) ++ A.fl
    rcases hother d hd with e | e | e
    · rw [e]; exact List.mem_append_right _ hbf
    · rw [e]; exact List.mem_append_left _ (List.mem_append_right _ (List.mem_singleton.2 rfl))
    · rcases List.mem_append.1 (r.cover d e) with e1 | e1
      · exact List.mem_append_left _ (List.mem_append_left _ e1)
      · exact List.mem_append_right _ e1
  · intro d hd hf
    show d.addr ∈ A.fl
    rcases hother d hd with e | e | e
    · rw [e]; exact hbf
    · rw [e] at hf; exact Bool.noConfusion hf
    · exact r.tagF d e hf
  · intro d hd hm hsz
    have hm1 : d.addr ∈ A.fl := hm
    rcases hother d hd with e | e | e
    · rw [e]
    · rw [e] at hm1; exact absurd hm1 hxfl
    · exact r.tagS d e hm1 hsz
  · intro d hd hda a ha1 ha2
    have hdb : d ≠ b := by
      intro e
      subst e
      exact (List.nodup_append.1 c.nodup).2.2 hda hbf
    have hout : a < b.addr ∨ b.addr + b.size + 32 ≤ a := by
      rcases Tiles_sep c.tiles hd hbin with e | e | e
      · exact absurd e hdb
      · omega
      · omega
    have n1 := c.payload_node hd ha1 ha2
    rw [f2 a ?_, hfr a (by omega)]
    intro y hy
    simp only [nodes, wr_lo, List.map_append, List.map_cons, List.mem_cons, List.mem_append,
      List.mem_map] at hy
    rcases hy with e | e | ⟨z, hz, e⟩ | e | e | ⟨z, hz, e⟩
    · exact e ▸ n1 _ (by simp [nodes])
    · exact e ▸ n1 _ (by simp [nodes])
    · exact e ▸ n1 _ (Core.blk_node (ar1 z hz).1)
    · exact e ▸ n1 _ (Core.blk_node hbin)
    · subst e; omega
    · exact e ▸ n1 _ (Core.blk_node (ar2 z hz).1)

/-! ## Growing the arena -/

@[simp] theorem mem_sbrk_mem (h : Heap) (k : Nat) : (mem_sbrk h k).2.mem = h.mem := by
  unfold mem_sbrk; split <;> rfl

@[simp] theorem mem_sbrk_lo (h : Heap) (k : Nat) : (mem_sbrk h k).2.lo = h.lo := by
  unfold mem_sbrk; split <;> rfl

@[simp] theorem mem_sbrk_cap (h : Heap) (k : Nat) : (mem_sbrk h k).2.cap = h.cap := by
  unfold mem_sbrk; split <;> rfl

@[simp] theorem mem_sbrk_hiOff (h : Heap) (k : Nat) : (mem_sbrk h k).2.hiOff = h.hiOff := by
  unfold mem_sbrk; split <;> rfl

theorem mem_sbrk_ok (h : Heap) (k : Nat) (hk : h.brk + k ≤ h.cap) :
    (mem_sbrk h k).1 = h.brk ∧ (mem_sbrk h k).2.brk = h.brk + k ∧
    (mem_sbrk h k).2.enomem = h.enomem := by
  unfold mem_sbrk; rw [if_pos hk]; exact ⟨rfl, rfl, rfl⟩

theorem mem_sbrk_fail (h : Heap) (k : Nat) (hk : ¬ h.brk + k ≤ h.cap) :
    (mem_sbrk h k).1 = W - 1 ∧ (mem_sbrk h k).2.brk = h.brk ∧
    (mem_sbrk h k).2.enomem = true := by
  unfold mem_sbrk; rw [if_neg hk]; exact ⟨rfl, rfl, rfl⟩

theorem ALIGN_DOWN_hi (h : Heap) (h1 : h.hiOff = 1) (h2 : h.brk % 8 = 0) (h3 : 8 ≤ h.brk) :
    ALIGN_DOWN (mem_heap_hi h) = h.brk - 8 := by
  unfold ALIGN_DOWN mem_heap_hi; rw [h1]; omega

theorem ALIGN_pad (N : Nat) (h8 : N % 8 = 0) (hW : N + 32 < W) :
    ALIGN (padd (padd N FOOTER_SIZE) HEADER_SIZE) = N + 32 := by
  simp only [FOOTER_SIZE, HEADER_SIZE]
  rw [padd_eq (show N + 8 < W by omega), padd_eq (show N + 8 + 24 < W by omega)]
  unfold ALIGN W at *; omega

theorem Core.last {h : Heap} {A : Abs} (c : Core h A) :
    ∃ pre b, A.blocks = pre ++ [b] ∧ b.addr + 32 + b.size = h.brk ∧
      rd h (ALIGN_DOWN (mem_heap_hi h)) = b.addr := by
  obtain ⟨pre, b, h1, h2⟩ := Tiles_last c.tiles c.ne
  refine ⟨pre, b, h1, h2, ?_⟩
  have hb : b ∈ A.blocks := by rw [h1]; simp
  rw [ALIGN_DOWN_hi h c.hi c.brk_mod (by have := c.brk_ge; omega), rd]
  have := (c.data b hb).2
  rw [← this]
  congr 1
  omega

theorem sbrkBlk_append_code (h : Heap) (N t w : Nat) (hi : h.hiOff = 1)
    (hb8 : h.brk % 8 = 0) (hb : h.lo + 80 ≤ h.brk) (hcap : h.cap < W)
    (ht : h.mem (h.brk - 8) = t) (htW : t + 16 < W) (hw : h.mem (t + 16) = w)
    (htag : tagBit w = 0) (hN8 : N % 8 = 0) (hNW : N + 32 < W)
    (hok : h.brk + (N + 32) ≤ h.cap)
    (hl1 : h.mem h.lo + 8 < h.brk) :
    sbrkBlk h N = (h.brk,
      addToAllocList (wr (wr (mem_sbrk h (N + 32)).2 (h.brk + 16) N) (h.brk + 24 + N) h.brk)
        h.brk) := by
  obtain ⟨s1, s2, s3⟩ := mem_sbrk_ok h (N + 32) hok
  have hs : h_size h t = w := by simp [h_size, rd, padd_eq htW, hw]
  have e1 : rd h (ALIGN_DOWN (mem_heap_hi h)) = t := by
    rw [ALIGN_DOWN_hi h hi hb8 (by omega), rd, ht]
  have e2 : padd (padd h.brk HEADER_SIZE) N = h.brk + 24 + N := by
    simp only [HEADER_SIZE]
    rw [padd_eq (show h.brk + 24 < W by omega), padd_eq (by omega)]
  have e3 : padd h.brk 16 = h.brk + 16 := padd_eq (by omega)
  have k1 : sbrkBlk h N = ((mem_sbrk h (N + 32)).1,
      wr (addToAllocList (set_size (mem_sbrk h (N + 32)).2 (mem_sbrk h (N + 32)).1 N)
        (mem_sbrk h (N + 32)).1)
        (padd (padd (mem_sbrk h (N + 32)).1 HEADER_SIZE) N) (mem_sbrk h (N + 32)).1) := by
    unfold sbrkBlk
    simp only [e1, hs, htag, ALIGN_pad N hN8 hNW]
    rfl
  rw [k1, s1, e2, set_size, e3]
  rw [Prod.mk.injEq]
  refine ⟨rfl, ?_⟩
  have g1 : (wr (mem_sbrk h (N + 32)).2 (h.brk + 16) N).mem h.lo = h.mem h.lo := by
    have : h.lo ≠ h.brk + 16 := by omega
    simp [this]
  rw [addToAllocList_wr _ h.brk (h.brk + 24 + N) h.brk (by omega)
    (by rw [wr_lo, mem_sbrk_lo, g1]; omega) (by rw [wr_lo, mem_sbrk_lo]; omega)
    (by rw [wr_lo, mem_sbrk_lo, g1]; omega) (by rw [wr_lo, mem_sbrk_lo]; omega)
    (by rw [wr_lo, mem_sbrk_lo, g1]; omega) (by omega) (by omega)]

theorem Rep.append {h : Heap} {A : Abs} (r : Rep h A) {pre : List Blk} {b : Blk}
    (hbl : A.blocks = pre ++ [b]) (hfree : b.free = false) {N : Nat} (hN8 : N % 8 = 0)
    (hNW : N + 32 < W) (hok : h.brk + (N + 32) ≤ h.cap) :
    (sbrkBlk h N).1 = h.brk ∧ (sbrkBlk h N).2.brk = h.brk + (N + 32) ∧
    Rep (sbrkBlk h N).2 ⟨A.blocks ++ [⟨h.brk, N, false⟩], A.al ++ [h.brk], A.fl⟩ ∧
    PayloadFrame h (sbrkBlk h N).2 A := by
  have c := r.toCore
  have hbin : b ∈ A.blocks := by rw [hbl]; simp
  have bb := c.blk hbin
  have hW := c.brk_lt
  have hge := c.brk_ge
  obtain ⟨pre1, b1, hb1, hend, hrd⟩ := c.last
  have hbb : b1 = b := by
    rw [hbl] at hb1
    exact ((List.append_inj' hb1 rfl).2 ▸ rfl : [b1] = [b]) |> List.singleton_inj.1
  subst hbb
  rw [ALIGN_DOWN_hi h c.hi c.brk_mod (by omega), rd] at hrd
  obtain ⟨pl, hpl, _⟩ := Ring_last c.ringA
  have hl : h.mem h.lo ∈ h.lo :: A.al := by rw [hpl]; simp
  have bl := c.node_bd (c.al_node hl)
  obtain ⟨s1, s2, s3⟩ := mem_sbrk_ok h (N + 32) hok
  have hcode := sbrkBlk_append_code h N b1.addr b1.word c.hi c.brk_mod hge c.cap_lt1 hrd
    (by omega) (c.data b1 hbin).1 (by rw [Blk.word, tagBit_word _ _ bb.2.2.1, hfree]; rfl)
    hN8 hNW hok (by omega)
  rw [hcode]
  have hfr : ∀ a, a < h.brk → (wr (wr (mem_sbrk h (N + 32)).2 (h.brk + 16) N)
      (h.brk + 24 + N) h.brk).mem a = h.mem a := by
    intro a ha
    have n1 : a ≠ h.brk + 16 := by omega
    have n2 : a ≠ h.brk + 24 + N := by omega
    simp [n1, n2]
  have cd : Core (wr (wr (mem_sbrk h (N + 32)).2 (h.brk + 16) N) (h.brk + 24 + N) h.brk)
      ⟨A.blocks ++ [⟨h.brk, N, false⟩], A.al, A.fl⟩ := by
    have key := @Core.relayout h (wr (wr (mem_sbrk h (N + 32)).2 (h.brk + 16) N)
      (h.brk + 24 + N) h.brk) A c A.blocks [] [] [⟨h.brk, N, false⟩] h.brk h.brk (by simp)
      c.tiles (by simp [Tiles]) (by simp) (by simp) (by simp) (by simp [s3])
      (by simp [s2]; omega) ?_ (by simp) ?_ ?_ ?_ ?_
    · simpa using key
    · simp only [List.append_nil, Tiles, wr_brk, s2]
      refine ⟨trivial, hN8, by omega⟩
    · intro a ha
      exact hfr a ha
    · intro a ha hb
      omega
    · intro d hd
      simp only [List.mem_singleton] at hd
      subst hd
      simp only [wr_mem, Blk.word]
      have n1 : h.brk + 16 ≠ h.brk + 24 + N := by omega
      simp [n1]
    · intro d hd
      simp at hd
  have hxn : h.brk ∉ A.al ++ A.fl := by
    intro e
    obtain ⟨d, hd, e1⟩ := c.sub _ e
    have := c.blk hd
    omega
  obtain ⟨c2, _, f2⟩ := cd.addA (x := h.brk) ⟨⟨h.brk, N, false⟩, by simp, rfl⟩ hxn
  refine ⟨rfl, ?_, ⟨?_, ?_, ?_, ?_⟩, ?_⟩
  · simp [s2]
  · simpa using c2
  · intro d hd
    show d.addr ∈ (A.al ++ [h.brk]) ++ A.fl
    rcases List.mem_append.1 hd with e | e
    · rcases List.mem_append.1 (r.cover d e) with e1 | e1
      · exact List.mem_append_left _ (List.mem_append_left _ e1)
      · exact List.mem_append_right _ e1
    · rw [List.mem_singleton.1 e]
      exact List.mem_append_left _ (List.mem_append_right _ (List.mem_singleton.2 rfl))
  · intro d hd hf
    show d.addr ∈ A.fl
    rcases List.mem_append.1 hd with e | e
    · exact r.tagF d e hf
    · rw [List.mem_singleton.1 e] at hf; exact Bool.noConfusion hf
  · intro d hd hm hsz
    have hm1 : d.addr ∈ A.fl := hm
    rcases List.mem_append.1 hd with e | e
    · exact r.tagS d e hm1 hsz
    · rw [List.mem_singleton.1 e] at hm1
      exact absurd (List.mem_append_right _ hm1) hxn
  · intro d hd _ a ha1 ha2
    have bd := c.blk hd
    have n1 := c.payload_node hd ha1 ha2
    rw [f2 a ?_, hfr a (by omega)]
    intro y hy
    simp only [nodes, wr_lo, mem_sbrk_lo, List.map_append, List.map_cons, List.map_nil,
      List.mem_cons, List.mem_append, List.mem_map, List.mem_singleton] at hy
    rcases hy with e | e | ⟨z, hz, e⟩ | e
    · exact e ▸ n1 _ (by simp [nodes])
    · exact e ▸ n1 _ (by simp [nodes])
    · exact e ▸ n1 _ (Core.blk_node hz)
    · rcases e with e | e
      · rw [e]; omega
      · simp at e

theorem sbrkBlk_extend_code (h : Heap) (N t w P : Nat) (hi : h.hiOff = 1)
    (hb8 : h.brk % 8 = 0) (hb : h.lo + 80 ≤ h.brk) (_hcap : h.cap < W)
    (ht : h.mem (h.brk - 8) = t) (htW : t + 16 < W) (hw : h.mem (t + 16) = w)
    (htag : tagBit w ≠ 0) (hP : untag w = P) (hP8 : P % 8 = 0) (hPN : P < N)
    (hN8 : N % 8 = 0) (hNW : N < W) (hok : h.brk + (N - P) ≤ h.cap) :
    sbrkBlk h N = (t,
      addToAllocList (wr (wr (mem_sbrk (removeFromList h t) (N - P)).2 (t + 16) N)
        (h.brk + (N - P) - 8) t) t) := by
  obtain ⟨s1, s2, s3⟩ := mem_sbrk_ok (removeFromList h t) (N - P) (by simpa using hok)
  have hs : h_size h t = w := by simp [h_size, rd, padd_eq htW, hw]
  have e1 : rd h (ALIGN_DOWN (mem_heap_hi h)) = t := by
    rw [ALIGN_DOWN_hi h hi hb8 (by omega), rd, ht]
  have e2 : psub N P = N - P := psub_eq (by omega) hNW
  have e3 : padd t 16 = t + 16 := padd_eq htW
  have e4 : ALIGN_DOWN (mem_heap_hi (set_size (mem_sbrk (removeFromList h t) (N - P)).2 t N))
      = h.brk + (N - P) - 8 := by
    rw [ALIGN_DOWN_hi _ (by simp [set_size, hi]) (by simp [set_size, s2]; omega)
      (by simp [set_size, s2]; omega)]
    simp [set_size, s2]
  have k1 : sbrkBlk h N = (t,
      addToAllocList (wr (set_size (mem_sbrk (removeFromList h t) (psub N P)).2 t N)
        (ALIGN_DOWN (mem_heap_hi (set_size (mem_sbrk (removeFromList h t) (psub N P)).2 t N)))
        t) t) := by
    unfold sbrkBlk
    simp only [e1, hs, hP]
    rw [if_pos htag]
  rw [k1, e2, e4, set_size, e3]

theorem Rep.extend {h : Heap} {A : Abs} (r : Rep h A) {pre : List Blk} {b : Blk}
    {xs1 xs2 : List Nat} (hbl : A.blocks = pre ++ [b]) (hfree : b.free = true)
    (hfl : A.fl = xs1 ++ b.addr :: xs2) {N : Nat} (hN8 : N % 8 = 0) (hNW : N < W)
    (hPN : b.size < N) (hok : h.brk + (N - b.size) ≤ h.cap) :
    (sbrkBlk h N).1 = b.addr ∧ (sbrkBlk h N).2.brk = h.brk + (N - b.size) ∧
    Rep (sbrkBlk h N).2 ⟨pre ++ [⟨b.addr, N, false⟩], A.al ++ [b.addr], xs1 ++ xs2⟩ ∧
    PayloadFrame h (sbrkBlk h N).2 A := by
  have c := r.toCore
  have hbin : b ∈ A.blocks := by rw [hbl]; simp
  have bb := c.blk hbin
  have hW := c.brk_lt
  have hge := c.brk_ge
  obtain ⟨pre1, b1, hb1, hend, hrd⟩ := c.last
  have hbb : b1 = b := by
    rw [hbl] at hb1
    exact ((List.append_inj' hb1 rfl).2 ▸ rfl : [b1] = [b]) |> List.singleton_inj.1
  subst hbb
  rw [ALIGN_DOWN_hi h c.hi c.brk_mod (by omega), rd] at hrd
  have hcode := sbrkBlk_extend_code h N b1.addr b1.word b1.size c.hi c.brk_mod hge c.cap_lt1
    hrd (by omega) (c.data b1 hbin).1
    (by rw [Blk.word, tagBit_word _ _ bb.2.2.1, hfree]; simp)
    (by rw [Blk.word, untag_word _ _ bb.2.2.1]) bb.2.2.1 hPN hN8 hNW hok
  rw [hcode]
  obtain ⟨c1, _, f1⟩ := c.removeF hfl
  obtain ⟨s1, s2, s3⟩ := mem_sbrk_ok (removeFromList h b1.addr) (N - b1.size)
    (by simpa using hok)
  have hfr : ∀ a, a < b1.addr + 16 → (wr (wr (mem_sbrk (removeFromList h b1.addr)
      (N - b1.size)).2 (b1.addr + 16) N) (h.brk + (N - b1.size) - 8) b1.addr).mem a =
      (removeFromList h b1.addr).mem a := by
    intro a ha
    have n1 : a ≠ b1.addr + 16 := by omega
    have n2 : a ≠ h.brk + (N - b1.size) - 8 := by omega
    simp [n1, n2]
  have hbl1 : A.blocks = pre ++ [b1] ++ [] := by simp [hbl]
  obtain ⟨r0, r1, t0, t1, t2⟩ := c.split_at hbl1
  simp only [Tiles] at t1 t2
  obtain ⟨ta, tb, tc⟩ := t1
  have cd : Core (wr (wr (mem_sbrk (removeFromList h b1.addr) (N - b1.size)).2
      (b1.addr + 16) N) (h.brk + (N - b1.size) - 8) b1.addr)
      ⟨pre ++ [⟨b1.addr, N, false⟩], A.al, xs1 ++ xs2⟩ := by
    have key := @Core.relayout (removeFromList h b1.addr) (wr (wr (mem_sbrk
      (removeFromList h b1.addr) (N - b1.size)).2 (b1.addr + 16) N)
      (h.brk + (N - b1.size) - 8) b1.addr) ⟨A.blocks, A.al, xs1 ++ xs2⟩ c1 pre [b1] []
      [⟨b1.addr, N, false⟩] r0 r1 hbl1 (by simpa using t0) (by simp [Tiles, t2])
      (by simp) (by simp) (by simp) (by simp [s3])
      (by simp [s2]; omega) ?_ (by simp) ?_ ?_ ?_ ?_
    · simpa using key
    · simp only [List.append_nil, Tiles, wr_brk, s2, removeFromList_brk]
      refine ⟨ta, hN8, by omega⟩
    · intro a ha
      exact hfr a (by omega)
    · intro a ha hb
      simp only [removeFromList_brk] at hb
      omega
    · intro d hd
      simp only [List.mem_singleton] at hd
      subst hd
      simp only [wr_mem, Blk.word]
      have n1 : b1.addr + 16 ≠ h.brk + (N - b1.size) - 8 := by omega
      have n2 : b1.addr + 24 + N = h.brk + (N - b1.size) - 8 := by omega
      simp [n1, n2]
    · intro d hd _
      simp only [List.mem_singleton] at hd
      subst hd
      exact ⟨⟨_, List.mem_singleton.2 rfl, rfl⟩, hfr _ (by omega), hfr _ (by omega)⟩
  have hnd := c.nodup
  have hxn : b1.addr ∉ A.al ++ (xs1 ++ xs2) := by
    rw [hfl] at hnd
    simp only [List.nodup_append, List.nodup_cons, List.mem_append, List.mem_cons,
      List.Disjoint] at hnd
    simp only [List.mem_append, not_or]
    refine ⟨fun e => hnd.2.2 e (Or.inr (Or.inl rfl)), ?_, hnd.2.1.2.1.1⟩
    intro e
    exact hnd.2.1.2.2 e (Or.inl rfl)
  obtain ⟨c2, _, f2⟩ := cd.addA (x := b1.addr) ⟨⟨b1.addr, N, false⟩, by simp, rfl⟩ hxn
  obtain ⟨ar1, _⟩ := c.around (show A.blocks = pre ++ b1 :: [] from hbl)
  have hother : ∀ d ∈ pre ++ [⟨b1.addr, N, false⟩],
      d = ⟨b1.addr, N, false⟩ ∨ (d ∈ A.blocks ∧ d.addr ≠ b1.addr) := by
    intro d hd
    rcases List.mem_append.1 hd with e | e
    · exact Or.inr ⟨(ar1 d e).1, (ar1 d e).2.1⟩
    · exact Or.inl (List.mem_singleton.1 e)
  have hflmem : ∀ a, a ∈ A.fl → a ≠ b1.addr → a ∈ xs1 ++ xs2 := by
    intro a ha hne
    rw [hfl] at ha
    simp only [List.mem_append, List.mem_cons] at ha ⊢
    tauto
  have hflsub : ∀ a, a ∈ xs1 ++ xs2 → a ∈ A.fl := by
    intro a ha
    rw [hfl]
    simp only [List.mem_append, List.mem_cons] at ha ⊢
    tauto
  refine ⟨rfl, ?_, ⟨c2, ?_, ?_, ?_⟩, ?_⟩
  · simp [s2]
  · intro d hd
    show d.addr ∈ (A.al ++ [b1.addr]) ++ (xs1 ++ xs2)
    rcases hother d hd with e | ⟨e1, e2⟩
    · rw [e]
      exact List.mem_append_left _ (List.mem_append_right _ (List.mem_singleton.2 rfl))
    · rcases List.mem_append.1 (r.cover d e1) with e3 | e3
      · exact List.mem_append_left _ (List.mem_append_left _ e3)
      · exact List.mem_append_right _ (hflmem _ e3 e2)
  · intro d hd hf
    show d.addr ∈ xs1 ++ xs2
    rcases hother d hd with e | ⟨e1, e2⟩
    · rw [e] at hf; exact Bool.noConfusion hf
    · exact hflmem _ (r.tagF d e1 hf) e2
  · intro d hd hm hsz
    have hm1 : d.addr ∈ xs1 ++ xs2 := hm
    rcases hother d hd with e | ⟨e1, e2⟩
    · rw [e] at hm1
      exact absurd (List.mem_append_right _ hm1) hxn
    · exact r.tagS d e1 (hflsub _ hm1) hsz
  · intro d hd hda a ha1 ha2
    have hdb : d ≠ b1 := by
      intro e
      subst e
      exact (List.nodup_append.1 c.nodup).2.2 hda (by rw [hfl]; simp)
    have hout : a < b1.addr := by
      rcases Tiles_sep c.tiles hd hbin with e | e | e
      · exact absurd e hdb
      · omega
      · have := c.blk hd; omega
    have n1 := c.payload_node hd ha1 ha2
    rw [f2 a ?_, hfr a (by omega), f1 a n1]
    intro y hy
    simp only [nodes, wr_lo, mem_sbrk_lo, removeFromList_lo, List.map_append, List.map_cons,
      List.map_nil, List.mem_cons, List.mem_append, List.mem_map, List.mem_singleton] at hy
    rcases hy with e | e | ⟨z, hz, e⟩ | e
    · exact e ▸ n1 _ (by simp [nodes])
    · exact e ▸ n1 _ (by simp [nodes])
    · exact e ▸ n1 _ (Core.blk_node (ar1 z hz).1)
    · rcases e with e | e
      · exact e ▸ n1 _ (Core.blk_node hbin)
      · simp at e

/-! ## The lists as observed by walking the links -/

theorem nodup_length_le {l : List Nat} {n : Nat} (hnd : l.Nodup) (hlt : ∀ x ∈ l, x < n) :
    l.length ≤ n := by
  have h1 : l.toFinset ⊆ Finset.range n := by
    intro x hx
    rw [List.mem_toFinset] at hx
    exact Finset.mem_range.2 (hlt x hx)
  have h2 := Finset.card_le_card h1
  rw [List.toFinset_card_of_nodup hnd, Finset.card_range] at h2
  exact h2

theorem Core.fl_length {h : Heap} {A : Abs} (c : Core h A) : A.fl.length < h.brk + 1 := by
  have : A.fl.length ≤ h.brk := by
    apply nodup_length_le (List.nodup_append.1 c.nodup).2.1
    intro x hx
    have := c.node_bd (c.fl_node (List.mem_cons_of_mem _ hx))
    omega
  omega

theorem Core.al_length {h : Heap} {A : Abs} (c : Core h A) : A.al.length < h.brk + 1 := by
  have : A.al.length ≤ h.brk := by
    apply nodup_length_le (List.nodup_append.1 c.nodup).1
    intro x hx
    have := c.node_bd (c.al_node (List.mem_cons_of_mem _ hx))
    omega
  omega

theorem Core.freeList_eq {h : Heap} {A : Abs} (c : Core h A) : freeList h = A.fl := by
  have hW := c.brk_lt
  have hge := c.brk_ge
  have hs : padd (mem_heap_lo h) HEADER_SIZE = h.lo + 24 := by
    rw [mem_heap_lo, HEADER_SIZE, padd_eq (by omega)]
  unfold freeList
  rw [hs]
  apply walk_chain A.fl (h.lo + 24) (h.brk + 1) c.ringF
  · have := c.fl_nodup
    rw [List.nodup_cons] at this
    exact this.1
  · omega
  · intro y hy
    have := c.node_bd (c.fl_node (List.mem_cons_of_mem _ hy))
    omega
  · exact c.fl_length

theorem Core.allocList_eq {h : Heap} {A : Abs} (c : Core h A) : allocList h = A.al := by
  have hW := c.brk_lt
  have hge := c.brk_ge
  unfold allocList
  rw [mem_heap_lo]
  apply walk_chain A.al h.lo (h.brk + 1) c.ringA
  · have := c.al_nodup
    rw [List.nodup_cons] at this
    exact this.1
  · omega
  · intro y hy
    have := c.node_bd (c.al_node (List.mem_cons_of_mem _ hy))
    omega
  · exact c.al_length

/-! ## The first-fit loop -/

theorem mallocLoop_chain {h : Heap} {s : Nat} (N : Nat) (ys : List Nat) (a fuel : Nat)
    (hsl : padd (mem_heap_lo h) HEADER_SIZE = s)
    (hc : List.Chain' (Lnk h) (a :: ys ++ [s])) (hs : s ∉ ys) (ha : a + 8 < W)
    (hw : ∀ y ∈ ys, y + 8 < W) (hf : ys.length < fuel) :
    mallocLoop h N fuel (h_next h a) =
      match ys.find? (fun t => decide (N ≤ payloadSize h t)) with
      | some t => some (mallocFit h N t)
      | none => some (padd (sbrkBlk h N).1 HEADER_SIZE, (sbrkBlk h N).2) := by
  induction ys generalizing a fuel with
  | nil =>
    simp only [List.cons_append, List.nil_append, List.chain'_cons, Lnk] at hc
    cases fuel with
    | zero => simp at hf
    | succ f =>
      have hn : h_next h a = s := by simp [h_next, rd, padd_eq ha, hc.1.1]
      simp [mallocLoop, hn, hsl]
  | cons y r ih =>
    simp only [List.cons_append, List.chain'_cons] at hc
    cases fuel with
    | zero => simp at hf
    | succ f =>
      have hys : y ≠ s := fun e => hs (by simp [e])
      have hn : h_next h a = y := by simp [h_next, rd, padd_eq ha, hc.1.1]
      rw [hn, mallocLoop]
      simp only [hsl, if_neg hys]
      by_cases hfit : N ≤ payloadSize h y
      · have : ¬ untag (h_size h y) < N := by
          unfold payloadSize at hfit; omega
        rw [if_neg this, List.find?_cons]
        simp [hfit]
      · have : untag (h_size h y) < N := by
          unfold payloadSize at hfit; omega
        rw [if_pos this, List.find?_cons]
        simp only [hfit, decide_False]
        apply ih y f
        · simpa using hc.2
        · exact fun e => hs (List.mem_cons_of_mem _ e)
        · exact hw y (by simp)
        · exact fun z hz => hw z (List.mem_cons_of_mem _ hz)
        · simpa using hf

theorem Core.mm_malloc_eq {h : Heap} {A : Abs} (c : Core h A) (n : Nat) :
    mm_malloc h n =
      match firstFit h (ALIGN n) with
      | some t => some (mallocFit h (ALIGN n) t)
      | none => some (padd (sbrkBlk h (ALIGN n)).1 HEADER_SIZE, (sbrkBlk h (ALIGN n)).2) := by
  have hW := c.brk_lt
  have hge := c.brk_ge
  have hs : padd (mem_heap_lo h) HEADER_SIZE = h.lo + 24 := by
    rw [mem_heap_lo, HEADER_SIZE, padd_eq (by omega)]
  unfold mm_malloc firstFit
  rw [c.freeList_eq]
  simp only [hs]
  apply mallocLoop_chain (ALIGN n) A.fl (h.lo + 24) (h.brk + 1) hs c.ringF
  · have := c.fl_nodup
    rw [List.nodup_cons] at this
    exact this.1
  · omega
  · intro y hy
    have := c.node_bd (c.fl_node (List.mem_cons_of_mem _ hy))
    omega
  · exact c.fl_length

theorem mallocFit_reuse_code (h : Heap) (N t w P : Nat) (hw : h.mem (t + 16) = w)
    (hP : untag w = P) (hPN : P < N + 40) (hW : t + P + 32 < W) (hNW : N + 72 < W) :
    mallocFit h N t = (t + 24,
      set_size (addToAllocList (removeFromList h t) t) t
        (untag (h_size (addToAllocList (removeFromList h t) t) t))) := by
  have hs : h_size h t = w := by simp [h_size, rd, padd_eq (show t + 16 < W by omega), hw]
  have e1 : padd (padd N HEADER_SIZE) FOOTER_SIZE = N + 32 := by
    simp only [HEADER_SIZE, FOOTER_SIZE]
    rw [padd_eq (show N + 24 < W by omega), padd_eq (by omega)]
  have e2 : padd (padd P HEADER_SIZE) FOOTER_SIZE = P + 32 := by
    simp only [HEADER_SIZE, FOOTER_SIZE]
    rw [padd_eq (show P + 24 < W by omega), padd_eq (by omega)]
  have e3 : padd (N + 32) (8 + HEADER_SIZE + FOOTER_SIZE) = N + 72 := by
    simp only [HEADER_SIZE, FOOTER_SIZE]
    rw [padd_eq (by omega)]
  have e4 : padd t HEADER_SIZE = t + 24 := by
    simp only [HEADER_SIZE]; rw [padd_eq (by omega)]
  unfold mallocFit
  simp only [hs, hP, e1, e2, e3, e4]
  rw [if_neg (by omega)]

theorem sbrkBlk_fail_extend (h : Heap) (N : Nat)
    (htag : tagBit (h_size h (rd h (ALIGN_DOWN (mem_heap_hi h)))) ≠ 0)
    (hfail : ¬ h.brk + psub N (untag (h_size h (rd h (ALIGN_DOWN (mem_heap_hi h))))) ≤ h.cap) :
    (sbrkBlk h N).2.enomem = true := by
  unfold sbrkBlk
  simp only [htag, ne_eq, not_false_eq_true, if_true]
  simp only [addToAllocList_enomem, wr_enomem, set_size]
  exact (mem_sbrk_fail _ _ (by simpa using hfail)).2.2

theorem sbrkBlk_fail_append (h : Heap) (N : Nat)
    (htag : tagBit (h_size h (rd h (ALIGN_DOWN (mem_heap_hi h)))) = 0)
    (hfail : ¬ h.brk + ALIGN (padd (padd N FOOTER_SIZE) HEADER_SIZE) ≤ h.cap) :
    (sbrkBlk h N).2.enomem = true := by
  have := (mem_sbrk_fail h _ hfail).2.2
  unfold sbrkBlk
  simp only [htag, ne_eq, not_true_eq_false, if_false]
  simpa [set_size] using this

/-! ## `mm_malloc` preserves the invariant -/

theorem mallocFit_lo (h : Heap) (N t : Nat) : (mallocFit h N t).2.lo = h.lo := by
  simp only [mallocFit]
  split_ifs <;> simp [set_size]

theorem mallocFit_brk (h : Heap) (N t : Nat) : (mallocFit h N t).2.brk = h.brk := by
  simp only [mallocFit]
  split_ifs <;> simp [set_size]

theorem Rep.malloc_reuse {h : Heap} {A : Abs} (r : Rep h A) {b : Blk} {pre post : List Blk}
    {xs1 xs2 : List Nat} (hbl : A.blocks = pre ++ b :: post)
    (hfl : A.fl = xs1 ++ b.addr :: xs2) (n : Nat) (h1 : ALIGN n ≤ b.size)
    (h2 : b.size < ALIGN n + 40) :
    MallocPost h A n (mallocFit h (ALIGN n) b.addr).1 (mallocFit h (ALIGN n) b.addr).2
      ⟨pre ++ ⟨b.addr, b.size, false⟩ :: post, A.al ++ [b.addr], xs1 ++ xs2⟩ := by
  have c := r.toCore
  have hbin : b ∈ A.blocks := by rw [hbl]; simp
  have bb := c.blk hbin
  have hW := c.brk_lt
  have hcode := mallocFit_reuse_code h (ALIGN n) b.addr b.word b.size (c.data b hbin).1
    (by rw [Blk.word, untag_word _ _ bb.2.2.1]) h2 (by omega) (by omega)
  obtain ⟨r3, f3⟩ := r.reuse hbl hfl
  obtain ⟨ar1, ar2⟩ := c.around hbl
  rw [hcode]
  refine ⟨r3, ⟨⟨b.addr, b.size, false⟩, by simp, rfl, rfl, h1, h2, rfl⟩, ?_, f3, ?_, ?_⟩
  · intro d hd hda
    have hdb : d ≠ b := by
      intro e
      subst e
      exact (List.nodup_append.1 c.nodup).2.2 hda (by rw [hfl]; simp)
    rw [hbl] at hd
    simp only [List.mem_append, List.mem_cons] at hd ⊢
    tauto
  · simp [set_size]
  · simp [set_size]

theorem Rep.malloc_split {h : Heap} {A : Abs} (r : Rep h A) {b : Blk} {pre post : List Blk}
    (hbl : A.blocks = pre ++ b :: post) (hbf : b.addr ∈ A.fl) (n : Nat)
    (h2 : ALIGN n + 40 ≤ b.size) :
    MallocPost h A n (mallocFit h (ALIGN n) b.addr).1 (mallocFit h (ALIGN n) b.addr).2
      ⟨pre ++ ⟨b.addr, b.size - ALIGN n - 32, true⟩ ::
        ⟨b.addr + b.size - ALIGN n, ALIGN n, false⟩ :: post,
        A.al ++ [b.addr + b.size - ALIGN n], A.fl⟩ := by
  have c := r.toCore
  have hbin : b ∈ A.blocks := by rw [hbl]; simp
  obtain ⟨e1, r3, f3⟩ := r.split hbl hbf (ALIGN_mod n) h2
    (show b.addr + b.size - ALIGN n + ALIGN n = b.addr + b.size by omega)
  obtain ⟨ar1, ar2⟩ := c.around hbl
  refine ⟨r3, ⟨⟨b.addr + b.size - ALIGN n, ALIGN n, false⟩, by simp, e1.symm, rfl,
    Nat.le_refl _, Nat.lt_add_of_pos_right (by decide), rfl⟩, ?_, f3, mallocFit_lo _ _ _,
    ?_⟩
  · intro d hd hda
    have hdb : d ≠ b := by
      intro e
      subst e
      exact (List.nodup_append.1 c.nodup).2.2 hda hbf
    rw [hbl] at hd
    simp only [List.mem_append, List.mem_cons] at hd ⊢
    tauto
  · rw [mallocFit_brk]

theorem Rep.malloc_extend {h : Heap} {A : Abs} (r : Rep h A) {pre : List Blk} {b : Blk}
    {xs1 xs2 : List Nat} (hbl : A.blocks = pre ++ [b]) (hfree : b.free = true)
    (hfl : A.fl = xs1 ++ b.addr :: xs2) (n : Nat) (hv : ValidSize n)
    (hPN : b.size < ALIGN n) (hok : h.brk + (ALIGN n - b.size) ≤ h.cap) :
    MallocPost h A n (padd (sbrkBlk h (ALIGN n)).1 HEADER_SIZE) (sbrkBlk h (ALIGN n)).2
      ⟨pre ++ [⟨b.addr, ALIGN n, false⟩], A.al ++ [b.addr], xs1 ++ xs2⟩ := by
  have c := r.toCore
  have hbin : b ∈ A.blocks := by rw [hbl]; simp
  have bb := c.blk hbin
  have hW := c.brk_lt
  have hN := ALIGN_of_valid hv
  obtain ⟨e1, e2, r3, f3⟩ := r.extend hbl hfree hfl (ALIGN_mod n) (by omega) hPN hok
  obtain ⟨ar1, _⟩ := c.around (show A.blocks = pre ++ b :: [] from hbl)
  have elo : (sbrkBlk h (ALIGN n)).2.lo = h.lo := by
    have := r3.toCore.ringA
    have c3 := r3.toCore
    have t3 := c3.tiles
    have t0 := c.tiles
    rw [hbl, Tiles_append] at t0
    simp only [Tiles_append] at t3
    obtain ⟨m0, t0a, t0b⟩ := t0
    obtain ⟨m3, t3a, t3b⟩ := t3
    simp only [Tiles] at t0b t3b
    by_contra hne
    cases pre with
    | nil =>
      simp only [Tiles] at t0a t3a
      omega
    | cons p ps =>
      simp only [Tiles] at t0a t3a
      omega
  refine ⟨r3, ⟨⟨b.addr, ALIGN n, false⟩, by simp, ?_, rfl, Nat.le_refl _,
    Nat.lt_add_of_pos_right (by decide), rfl⟩, ?_, f3, elo, by omega⟩
  · rw [e1, HEADER_SIZE, padd_eq (by omega)]
  · intro d hd hda
    have hdb : d ≠ b := by
      intro e
      subst e
      exact (List.nodup_append.1 c.nodup).2.2 hda (by rw [hfl]; simp)
    rw [hbl] at hd
    simp only [List.mem_append, List.mem_singleton] at hd ⊢
    tauto

theorem Rep.malloc_append {h : Heap} {A : Abs} (r : Rep h A) {pre : List Blk} {b : Blk}
    (hbl : A.blocks = pre ++ [b]) (hfree : b.free = false) (n : Nat) (hv : ValidSize n)
    (hok : h.brk + (ALIGN n + 32) ≤ h.cap) :
    MallocPost h A n (padd (sbrkBlk h (ALIGN n)).1 HEADER_SIZE) (sbrkBlk h (ALIGN n)).2
      ⟨A.blocks ++ [⟨h.brk, ALIGN n, false⟩], A.al ++ [h.brk], A.fl⟩ := by
  have c := r.toCore
  have hW := c.brk_lt
  have hN := ALIGN_of_valid hv
  obtain ⟨e1, e2, r3, f3⟩ := r.append hbl hfree (ALIGN_mod n) hN.2.2 hok
  have elo : (sbrkBlk h (ALIGN n)).2.lo = h.lo := by
    have t3 := r3.toCore.tiles
    have t0 := c.tiles
    simp only [Tiles_append] at t3
    obtain ⟨m3, t3a, _⟩ := t3
    cases hb : A.blocks with
    | nil => exact absurd hb c.ne
    | cons p ps =>
      rw [hb] at t0 t3a
      simp only [Tiles] at t0 t3a
      omega
  have hcl := c.cap_lt
  refine ⟨r3, ⟨⟨h.brk, ALIGN n, false⟩, by simp, ?_, rfl, Nat.le_refl _,
    Nat.lt_add_of_pos_right (by decide), rfl⟩, ?_, f3, elo, by omega⟩
  · rw [e1, HEADER_SIZE, padd_eq (by omega)]
  · intro d hd _
    exact List.mem_append_left _ hd

theorem Rep.malloc {h : Heap} {A : Abs} (r : Rep h A) (n : Nat) (hv : ValidSize n) :
    ∃ p h1, mm_malloc h n = some (p, h1) ∧
      (h1.enomem = false → ∃ A1, MallocPost h A n p h1 A1 ∧ MStep (ALIGN n) A A1) := by
  have c := r.toCore
  have hN := ALIGN_of_valid hv
  rw [c.mm_malloc_eq n]
  unfold firstFit
  rw [c.freeList_eq]
  cases hfind : A.fl.find? (fun t => decide (ALIGN n ≤ payloadSize h t)) with
  | some t =>
    refine ⟨_, _, rfl, fun _ => ?_⟩
    have htf : t ∈ A.fl := List.mem_of_find?_eq_some hfind
    have hfit := List.find?_some hfind
    simp only [decide_eq_true_eq] at hfit
    obtain ⟨b, hb, rfl⟩ := c.sub t (List.mem_append_right _ htf)
    rw [(c.rd_size hb).2.1] at hfit
    obtain ⟨pre, post, hbl⟩ := List.append_of_mem hb
    obtain ⟨xs1, xs2, hfl⟩ := List.append_of_mem htf
    by_cases hsp : b.size < ALIGN n + 40
    · exact ⟨_, r.malloc_reuse hbl hfl n hfit hsp, MStep.reuse A pre post b xs1 xs2 hbl hfl
        hfit hsp⟩
    · exact ⟨_, r.malloc_split hbl htf n (by omega), MStep.split A pre post b hbl htf
        (r.tagS b hb htf (by omega)) (by omega)⟩
  | none =>
    refine ⟨_, _, rfl, fun hen => ?_⟩
    simp only at hen
    obtain ⟨pre, b, hbl, hend, hrd⟩ := c.last
    have hb : b ∈ A.blocks := by rw [hbl]; simp
    have bb := c.blk hb
    obtain ⟨q1, q2, q3⟩ := c.rd_size hb
    cases hfree : b.free with
    | true =>
      have hbf := r.tagF b hb hfree
      have hlt : b.size < ALIGN n := by
        have := List.find?_eq_none.1 hfind b.addr hbf
        simp only [decide_eq_true_eq] at this
        rw [q2] at this
        omega
      obtain ⟨xs1, xs2, hfl⟩ := List.append_of_mem hbf
      by_cases hok : h.brk + (ALIGN n - b.size) ≤ h.cap
      · exact ⟨_, r.malloc_extend hbl hfree hfl n hv hlt hok,
          MStep.extend A pre b xs1 xs2 hbl hfree hfl hlt⟩
      · exfalso
        have := sbrkBlk_fail_extend h (ALIGN n) (by rw [hrd, q3, hfree]; simp)
          (by
            rw [hrd, q1, Blk.word, untag_word _ _ bb.2.2.1, psub_eq (by omega) (by omega)]
            exact hok)
        rw [this] at hen
        exact Bool.noConfusion hen
    | false =>
      by_cases hok : h.brk + (ALIGN n + 32) ≤ h.cap
      · have st := MStep.append (N := ALIGN n) A pre b hbl hfree
        rw [hend] at st
        exact ⟨_, r.malloc_append hbl hfree n hv hok, st⟩
      · exfalso
        have := sbrkBlk_fail_append h (ALIGN n) (by rw [hrd, q3, hfree]; simp)
          (by rw [ALIGN_pad _ (ALIGN_mod n) hN.2.2]; exact hok)
        rw [this] at hen
        exact Bool.noConfusion hen

/-! ## Physical neighbours -/

theorem Core.next_phy {h : Heap} {A : Abs} (c : Core h A) {pre post : List Blk} {k d : Blk}
    (hbl : A.blocks = pre ++ k :: d :: post) :
    getNextPhyBlk h k.addr = d.addr ∧ d.addr = k.addr + 32 + k.size ∧ d.addr ≠ 0 := by
  have hk : k ∈ A.blocks := by rw [hbl]; simp
  have hd : d ∈ A.blocks := by rw [hbl]; simp
  have bk := c.blk hk
  have bd := c.blk hd
  have hW := c.brk_lt
  have t := c.tiles
  rw [hbl, Tiles_append] at t
  obtain ⟨m, _, t2⟩ := t
  simp only [Tiles] at t2
  have e : d.addr = k.addr + 32 + k.size := by omega
  refine ⟨?_, e, by omega⟩
  unfold getNextPhyBlk
  simp only [(c.rd_size hk).1, Blk.word, untag_word _ _ bk.2.2.1, HEADER_SIZE, FOOTER_SIZE,
    mem_heap_hi, c.hi]
  rw [padd_eq (show 24 + k.size < W by omega), padd_eq (show 24 + k.size + 8 < W by omega),
    padd_eq (show k.addr + (24 + k.size + 8) < W by omega),
    padd_eq (show k.addr + (24 + k.size + 8) + 24 < W by omega)]
  rw [if_neg (by omega)]
  omega

theorem Core.next_none {h : Heap} {A : Abs} (c : Core h A) {pre : List Blk} {k : Blk}
    (hbl : A.blocks = pre ++ [k]) : getNextPhyBlk h k.addr = 0 := by
  have hk : k ∈ A.blocks := by rw [hbl]; simp
  have bk := c.blk hk
  have hW := c.brk_lt
  have hcl := c.cap_lt
  have t := c.tiles
  rw [hbl, Tiles_append] at t
  obtain ⟨m, _, t2⟩ := t
  simp only [Tiles] at t2
  unfold getNextPhyBlk
  simp only [(c.rd_size hk).1, Blk.word, untag_word _ _ bk.2.2.1, HEADER_SIZE, FOOTER_SIZE,
    mem_heap_hi, c.hi]
  rw [padd_eq (show 24 + k.size < W by omega), padd_eq (show 24 + k.size + 8 < W by omega),
    padd_eq (show k.addr + (24 + k.size + 8) < W by omega)]
  have : k.addr + (24 + k.size + 8) = h.brk := by omega
  rw [this]
  have hbc := c.brk_cap
  rw [padd_eq (by omega), if_pos (by omega)]

theorem Core.prev_phy {h : Heap} {A : Abs} (c : Core h A) {pre post : List Blk} {e k : Blk}
    (hbl : A.blocks = pre ++ e :: k :: post) :
    getPrevPhyBlk h k.addr = e.addr ∧ k.addr = e.addr + 32 + e.size ∧ e.addr ≠ 0 := by
  have hk : k ∈ A.blocks := by rw [hbl]; simp
  have he : e ∈ A.blocks := by rw [hbl]; simp
  have bk := c.blk hk
  have be := c.blk he
  have hW := c.brk_lt
  have t := c.tiles
  rw [hbl, Tiles_append] at t
  obtain ⟨m, _, t2⟩ := t
  simp only [Tiles] at t2
  have e1 : k.addr = e.addr + 32 + e.size := by omega
  refine ⟨?_, e1, by omega⟩
  unfold getPrevPhyBlk END_OF_PROLOGUE
  simp only [FOOTER_SIZE, HEADER_SIZE, mem_heap_lo]
  rw [psub_eq (by omega) (by omega), padd_eq (by omega), if_neg (by omega), rd]
  have := (c.data e he).2
  rw [← this]
  congr 1
  omega

theorem Core.prev_none {h : Heap} {A : Abs} (c : Core h A) {post : List Blk} {k : Blk}
    (hbl : A.blocks = k :: post) : getPrevPhyBlk h k.addr = 0 := by
  have hk : k ∈ A.blocks := by rw [hbl]; simp
  have bk := c.blk hk
  have hW := c.brk_lt
  have t := c.tiles
  rw [hbl] at t
  simp only [Tiles] at t
  unfold getPrevPhyBlk END_OF_PROLOGUE
  simp only [FOOTER_SIZE, HEADER_SIZE, mem_heap_lo]
  rw [psub_eq (by omega) (by omega), padd_eq (by omega), if_pos (by omega)]

/-! ## Merging a block with its physical successor -/

theorem Core.merge {h : Heap} {A : Abs} (c : Core h A) {pre post : List Blk} {k d : Blk}
    (hbl : A.blocks = pre ++ k :: d :: post) (hd : d.addr ∉ A.al ++ A.fl) :
    Core (wr (wr h (k.addr + 16) (k.word + 32 + d.size))
        (k.addr + 24 + (k.size + 32 + d.size)) k.addr)
      ⟨pre ++ ⟨k.addr, k.size + 32 + d.size, k.free⟩ :: post, A.al, A.fl⟩ := by
  have hbl1 : A.blocks = pre ++ [k, d] ++ post := by simp [hbl]
  obtain ⟨r0, r1, t0, t1, t2⟩ := c.split_at hbl1
  simp only [Tiles] at t1
  obtain ⟨ta, tb, tc, td, te⟩ := t1
  have hkin : k ∈ A.blocks := by rw [hbl]; simp
  have hfr : ∀ a, a ≠ k.addr + 16 → a ≠ k.addr + 24 + (k.size + 32 + d.size) →
      (wr (wr h (k.addr + 16) (k.word + 32 + d.size))
        (k.addr + 24 + (k.size + 32 + d.size)) k.addr).mem a = h.mem a := by
    intro a n1 n2
    simp [n1, n2]
  have key := @Core.relayout h (wr (wr h (k.addr + 16) (k.word + 32 + d.size))
      (k.addr + 24 + (k.size + 32 + d.size)) k.addr) A c pre [k, d] post
      [⟨k.addr, k.size + 32 + d.size, k.free⟩] r0 r1 hbl1 t0 t2 rfl rfl rfl rfl
      c.brk_cap ?_ (by simp) ?_ ?_ ?_ ?_
  · simpa using key
  · rw [Tiles_append]
    refine ⟨r1, ?_, t2⟩
    simp only [Tiles]
    refine ⟨ta, by omega, by omega⟩
  · intro a ha
    exact hfr a (by omega) (by omega)
  · intro a ha _
    exact hfr a (by omega) (by omega)
  · intro x hx
    simp only [List.mem_singleton] at hx
    subst hx
    simp only [wr_mem, Blk.word]
    have n1 : k.addr + 16 ≠ k.addr + 24 + (k.size + 32 + d.size) := by omega
    simp only [if_neg n1, if_true, true_and]
    cases k.free <;> simp
    omega
  · intro x hx hxa
    simp only [List.mem_cons, List.mem_singleton, List.not_mem_nil, or_false] at hx
    rcases hx with rfl | rfl
    · exact ⟨⟨_, List.mem_singleton.2 rfl, rfl⟩, hfr _ (by omega) (by omega),
        hfr _ (by omega) (by omega)⟩
    · exact absurd hxa hd

theorem mm_coalesce_code (h : Heap) (k nxt wk wd s : Nat)
    (hn : getNextPhyBlk h k = nxt)
    (hwk : (removeFromList (removeFromList h k) nxt).mem (k + 16) = wk)
    (hwd : (removeFromList (removeFromList h k) nxt).mem (nxt + 16) = wd)
    (hk : k + 16 < W) (hnx : nxt + 16 < W) (hwd1 : 32 + untag wd < W)
    (hsum : wk + (32 + untag wd) < W) (hs : untag (wk + (32 + untag wd)) = s)
    (hf : k + 24 + s < W) :
    mm_coalesce h k = (k,
      wr (wr (removeFromList (removeFromList h k) nxt) (k + 16) (wk + (32 + untag wd)))
        (k + 24 + s) k) := by
  have e1 : padd k 16 = k + 16 := padd_eq hk
  have e2 : padd nxt 16 = nxt + 16 := padd_eq hnx
  have e3 : padd (padd HEADER_SIZE (untag wd)) FOOTER_SIZE = 32 + untag wd := by
    simp only [HEADER_SIZE, FOOTER_SIZE]
    rw [padd_eq (show 24 + untag wd < W by omega), padd_eq (by omega)]
    omega
  have e4 : padd wk (32 + untag wd) = wk + (32 + untag wd) := padd_eq hsum
  have e5 : padd (padd k HEADER_SIZE) s = k + 24 + s := by
    simp only [HEADER_SIZE]
    rw [padd_eq (show k + 24 < W by omega), padd_eq hf]
  unfold mm_coalesce
  simp only [hn, h_size, rd, e1, e2, hwk, hwd, e3, e4, set_size, wr_mem, if_true, hs, e5]

theorem Meta_merge {h h1 : Heap} {A : Abs} {pre post : List Blk} {k d : Blk}
    (hbl : A.blocks = pre ++ k :: d :: post) (hlo : h1.lo = h.lo) (f : Bool)
    (al fl : List Nat) (hadj : d.addr = k.addr + 32 + k.size) (a : Nat)
    (hm : Meta h1 ⟨pre ++ ⟨k.addr, k.size + 32 + d.size, f⟩ :: post, al, fl⟩ a) :
    Meta h A a := by
  rcases hm with ⟨y, hy, e⟩ | ⟨x, hx, e⟩
  · left
    refine ⟨y, ?_, e⟩
    simp only [nodes, hlo, List.map_append, List.map_cons, List.mem_cons, List.mem_append,
      List.mem_map] at hy ⊢
    rw [hbl]
    simp only [List.mem_append, List.mem_cons]
    rcases hy with e | e | ⟨z, hz, e⟩ | e | ⟨z, hz, e⟩
    · exact Or.inl e
    · exact Or.inr (Or.inl e)
    · exact Or.inr (Or.inr ⟨z, Or.inl hz, e⟩)
    · exact Or.inr (Or.inr ⟨k, Or.inr (Or.inl rfl), e.symm⟩)
    · exact Or.inr (Or.inr ⟨z, Or.inr (Or.inr (Or.inr hz)), e⟩)
  · right
    simp only [List.mem_append, List.mem_cons] at hx
    rcases hx with hx | hx | hx
    · exact ⟨x, by rw [hbl]; simp [hx], e⟩
    · subst hx
      simp only at e
      rcases e with e | e
      · exact ⟨k, by rw [hbl]; simp, Or.inl e⟩
      · exact ⟨d, by rw [hbl]; simp, Or.inr (by omega)⟩
    · exact ⟨x, by rw [hbl]; simp [hx], e⟩

/-! ## The forward merge of `mm_free` -/

theorem erase_mid_mem {xs1 xs2 : List Nat} {x a : Nat} (ha : a ∈ xs1 ++ x :: xs2)
    (hne : a ≠ x) : a ∈ xs1 ++ xs2 := by
  simp only [List.mem_append, List.mem_cons] at ha ⊢
  tauto

theorem erase_mid_sub {xs1 xs2 : List Nat} {x a : Nat} (ha : a ∈ xs1 ++ xs2) :
    a ∈ xs1 ++ x :: xs2 := by
  simp only [List.mem_append, List.mem_cons] at ha ⊢
  tauto

theorem erase_mid_not {xs1 xs2 : List Nat} {x : Nat} (hnd : (xs1 ++ x :: xs2).Nodup) :
    x ∉ xs1 ++ xs2 := by
  simp only [List.nodup_append, List.nodup_cons, List.mem_append, List.Disjoint,
    List.mem_cons] at hnd ⊢
  intro e
  rcases e with e | e
  · exact hnd.2.2 e (Or.inl rfl)
  · exact hnd.2.1.1 e

theorem Mid.fwd {h : Heap} {A : Abs} {x : Nat} (m : Mid h A x) (st : Stale h A x)
    {pre post : List Blk} {k d : Blk} {xs1 xs2 : List Nat}
    (hbl : A.blocks = pre ++ k :: d :: post) (hk : k.addr = x) (hkf : k.free = false)
    (hfl : A.fl = xs1 ++ d.addr :: xs2) :
    (mm_coalesce h x).1 = x ∧
    Mid (mm_coalesce h x).2
      ⟨pre ++ ⟨x, k.size + 32 + d.size, false⟩ :: post, A.al, xs1 ++ xs2⟩ x ∧
    Stale (mm_coalesce h x).2
      ⟨pre ++ ⟨x, k.size + 32 + d.size, false⟩ :: post, A.al, xs1 ++ xs2⟩ x ∧
    MetaFrame h (mm_coalesce h x).2 A ∧
    (∀ a, Meta (mm_coalesce h x).2
      ⟨pre ++ ⟨x, k.size + 32 + d.size, false⟩ :: post, A.al, xs1 ++ xs2⟩ a → Meta h A a) := by
  subst hk
  have c := m.core
  have hkin : k ∈ A.blocks := by rw [hbl]; simp
  have hdin : d ∈ A.blocks := by rw [hbl]; simp
  have bk := c.blk hkin
  have bd := c.blk hdin
  have hW := c.brk_lt
  have hxnode : k.addr ∈ nodes h A := Core.blk_node hkin
  have hdnode : d.addr ∈ nodes h A := Core.blk_node hdin
  have hxal : k.addr ∉ h.lo :: A.al := by
    intro e
    rcases List.mem_cons.1 e with e | e
    · omega
    · exact m.orph (List.mem_append_left _ e)
  have e0 : removeFromList h k.addr = h := removeFromList_stale c st hxnode hxal
  obtain ⟨c2, f1, f3⟩ := c.removeF hfl
  obtain ⟨np1, np2, np3⟩ := c.next_phy hbl
  have hkw : k.word = k.size := by simp [Blk.word, hkf]
  have hud : untag d.word = d.size := by rw [Blk.word, untag_word _ _ bd.2.2.1]
  have hcode := mm_coalesce_code h k.addr d.addr k.word d.word (k.size + 32 + d.size) np1
    (by rw [e0]; exact (c2.data k hkin).1) (by rw [e0]; exact (c2.data d hdin).1)
    (by omega) (by omega) (by rw [hud]; omega) (by rw [hud, hkw]; omega)
    (by rw [hud, hkw]; unfold untag; omega) (by omega)
  rw [hcode, e0, hud]
  have hnd := c.fl_nodup
  rw [hfl, List.nodup_cons] at hnd
  have hdn : d.addr ∉ A.al ++ (xs1 ++ xs2) := by
    intro e
    rcases List.mem_append.1 e with e | e
    · exact c.al_fl_ne (List.mem_cons_of_mem _ e)
        (List.mem_cons_of_mem _ (by rw [hfl]; simp)) rfl
    · exact erase_mid_not hnd.2 e
  have cm := c2.merge (A := ⟨A.blocks, A.al, xs1 ++ xs2⟩) hbl hdn
  rw [hkf] at cm
  have ew : k.word + (32 + d.size) = k.word + 32 + d.size := by omega
  rw [ew]
  obtain ⟨ar1, ar2⟩ := c.around (show A.blocks = pre ++ k :: (d :: post) from hbl)
  have hother : ∀ z ∈ pre ++ ⟨k.addr, k.size + 32 + d.size, false⟩ :: post,
      z.addr ≠ k.addr → z ∈ A.blocks ∧ z.addr ≠ d.addr := by
    intro z hz hne
    simp only [List.mem_append, List.mem_cons] at hz
    rcases hz with hz | hz | hz
    · have := ar1 z hz
      exact ⟨this.1, by omega⟩
    · rw [hz] at hne; exact absurd rfl hne
    · have hz1 : z ∈ A.blocks := by rw [hbl]; simp [hz]
      refine ⟨hz1, ?_⟩
      intro e
      have := Tiles_addr_inj c.tiles hz1 hdin e
      subst this
      have t := c.tiles
      rw [hbl] at t
      have t2 := (@Tiles_around _ _ (pre ++ [k]) post z
        (by simpa using t)).2 z hz
      omega
  have hfrm : ∀ a, a ≠ k.addr + 16 → a ≠ k.addr + 24 + (k.size + 32 + d.size) →
      (wr (wr (removeFromList h d.addr) (k.addr + 16) (k.word + 32 + d.size))
        (k.addr + 24 + (k.size + 32 + d.size)) k.addr).mem a = (removeFromList h d.addr).mem a := by
    intro a n1 n2
    simp [n1, n2]
  refine ⟨rfl, ⟨cm, ⟨⟨k.addr, k.size + 32 + d.size, false⟩, by simp, rfl⟩, ?_, ?_, ?_, ?_⟩,
    ?_, ?_, ?_⟩
  · intro e
    apply m.orph
    rcases List.mem_append.1 e with e | e
    · exact List.mem_append_left _ e
    · exact List.mem_append_right _ (by rw [hfl]; exact erase_mid_sub e)
  · intro z hz hne
    obtain ⟨z1, z2⟩ := hother z hz hne
    show z.addr ∈ A.al ++ (xs1 ++ xs2)
    rcases List.mem_append.1 (m.cover z z1 hne) with e | e
    · exact List.mem_append_left _ e
    · exact List.mem_append_right _ (erase_mid_mem (hfl ▸ e) z2)
  · intro z hz hne hf
    obtain ⟨z1, z2⟩ := hother z hz hne
    show z.addr ∈ xs1 ++ xs2
    exact erase_mid_mem (hfl ▸ m.tagF z z1 hne hf) z2
  · intro z hz hzf hsz
    have hzf1 : z.addr ∈ xs1 ++ xs2 := hzf
    have hne : z.addr ≠ k.addr := by
      intro e
      apply m.orph
      rw [← e]
      exact List.mem_append_right _ (by rw [hfl]; exact erase_mid_sub hzf1)
    obtain ⟨z1, z2⟩ := hother z hz hne
    exact m.tagS z z1 (by rw [hfl]; exact erase_mid_sub hzf1) hsz
  · refine @Stale_frame _ _ _ ⟨pre ++ ⟨k.addr, k.size + 32 + d.size, false⟩ :: post, A.al,
      xs1 ++ xs2⟩ _ st rfl (by simp) ?_ ?_
    · have hx1 : k.addr ∉ (h.lo + 24) :: (xs1 ++ xs2) := by
        intro e
        rcases List.mem_cons.1 e with e | e
        · omega
        · exact m.orph (List.mem_append_right _ (by rw [hfl]; exact erase_mid_sub e))
      have := f1 k.addr hxnode hx1
      rw [hfrm _ (by omega) (by omega), hfrm _ (by omega) (by omega)]
      exact this
    · intro y hy
      have hyn := c.al_node hy
      have hy1 : y ∉ (h.lo + 24) :: (xs1 ++ xs2) := by
        intro e
        have : y ∈ (h.lo + 24) :: A.fl := by
          rcases List.mem_cons.1 e with e | e
          · exact e ▸ List.mem_cons_self _ _
          · exact List.mem_cons_of_mem _ (by rw [hfl]; exact erase_mid_sub e)
        exact c.al_fl_ne hy this rfl
      have d1 := c.node_data hyn hkin
      have d2 := c.node_data hyn hdin
      rw [hfrm _ (by omega) (by omega), hfrm _ (by omega) (by omega)]
      exact f1 y hyn hy1
  · intro a ha
    have n1 : a ≠ k.addr + 16 := fun e => ha (Or.inr ⟨k, hkin, Or.inl e⟩)
    have n2 : a ≠ k.addr + 24 + (k.size + 32 + d.size) :=
      fun e => ha (Or.inr ⟨d, hdin, Or.inr (by omega)⟩)
    rw [hfrm a n1 n2]
    apply f3
    intro y hy
    exact ⟨fun e => ha (Or.inl ⟨y, hy, Or.inl e⟩), fun e => ha (Or.inl ⟨y, hy, Or.inr e⟩)⟩
  · intro a ha
    exact Meta_merge hbl (by simp) false A.al (xs1 ++ xs2) np2 a ha

/-! ## The backward merge of `mm_free` -/

theorem Mid.bwd {h : Heap} {A : Abs} {x : Nat} (m : Mid h A x) (st : Stale h A x)
    {pre post : List Blk} {e k : Blk} {xs1 xs2 : List Nat}
    (hbl : A.blocks = pre ++ e :: k :: post) (hk : k.addr = x) (hef : e.free = true)
    (hfl : A.fl = xs1 ++ e.addr :: xs2) :
    (mm_coalesce h e.addr).1 = e.addr ∧
    Mid (mm_coalesce h e.addr).2
      ⟨pre ++ ⟨e.addr, e.size + 32 + k.size, true⟩ :: post, A.al, xs1 ++ xs2⟩ e.addr ∧
    MetaFrame h (mm_coalesce h e.addr).2 A ∧
    (∀ a, Meta (mm_coalesce h e.addr).2
      ⟨pre ++ ⟨e.addr, e.size + 32 + k.size, true⟩ :: post, A.al, xs1 ++ xs2⟩ a →
        Meta h A a) := by
  subst hk
  have c := m.core
  have hkin : k ∈ A.blocks := by rw [hbl]; simp
  have hein : e ∈ A.blocks := by rw [hbl]; simp
  have bk := c.blk hkin
  have be := c.blk hein
  have hW := c.brk_lt
  have hxnode : k.addr ∈ nodes h A := Core.blk_node hkin
  have hefl : e.addr ∈ A.fl := by rw [hfl]; simp
  obtain ⟨c2, f1, f3⟩ := c.removeF hfl
  obtain ⟨np1, np2, np3⟩ := c.next_phy hbl
  have hnd := c.fl_nodup
  rw [hfl, List.nodup_cons] at hnd
  have hx1 : k.addr ∉ (h.lo + 24) :: (xs1 ++ xs2) := by
    intro e1
    rcases List.mem_cons.1 e1 with e1 | e1
    · omega
    · exact m.orph (List.mem_append_right _ (by rw [hfl]; exact erase_mid_sub e1))
  have hxal : k.addr ∉ h.lo :: A.al := by
    intro e1
    rcases List.mem_cons.1 e1 with e1 | e1
    · omega
    · exact m.orph (List.mem_append_left _ e1)
  have st2 : Stale (removeFromList h e.addr) ⟨A.blocks, A.al, xs1 ++ xs2⟩ k.addr := by
    refine Stale_frame st rfl (by simp) (f1 k.addr hxnode hx1) ?_
    intro y hy
    refine f1 y (c.al_node hy) ?_
    intro e1
    have : y ∈ (h.lo + 24) :: A.fl := by
      rcases List.mem_cons.1 e1 with e1 | e1
      · exact e1 ▸ List.mem_cons_self _ _
      · exact List.mem_cons_of_mem _ (by rw [hfl]; exact erase_mid_sub e1)
    exact c.al_fl_ne hy this rfl
  have e0 : removeFromList (removeFromList h e.addr) k.addr = removeFromList h e.addr :=
    removeFromList_stale c2 st2 (by simpa [nodes] using hxnode) (by simpa using hxal)
  have hew : e.word = e.size + 1 := by simp [Blk.word, hef]
  have huk : untag k.word = k.size := by rw [Blk.word, untag_word _ _ bk.2.2.1]
  have hcode := mm_coalesce_code h e.addr k.addr e.word k.word (e.size + 32 + k.size) np1
    (by rw [e0]; exact (c2.data e hein).1) (by rw [e0]; exact (c2.data k hkin).1)
    (by omega) (by omega) (by rw [huk]; omega) (by rw [huk, hew]; omega)
    (by rw [huk, hew]; unfold untag; omega) (by omega)
  rw [hcode, e0, huk]
  have hkn : k.addr ∉ A.al ++ (xs1 ++ xs2) := by
    intro e1
    apply m.orph
    rcases List.mem_append.1 e1 with e1 | e1
    · exact List.mem_append_left _ e1
    · exact List.mem_append_right _ (by rw [hfl]; exact erase_mid_sub e1)
  have cm := c2.merge (A := ⟨A.blocks, A.al, xs1 ++ xs2⟩) hbl hkn
  rw [hef] at cm
  have ew : e.word + (32 + k.size) = e.word + 32 + k.size := by omega
  rw [ew]
  obtain ⟨ar1, ar2⟩ := c.around (show A.blocks = pre ++ e :: (k :: post) from hbl)
  have hother : ∀ z ∈ pre ++ ⟨e.addr, e.size + 32 + k.size, true⟩ :: post,
      z.addr ≠ e.addr → z ∈ A.blocks ∧ z.addr ≠ k.addr := by
    intro z hz hne
    simp only [List.mem_append, List.mem_cons] at hz
    rcases hz with hz | hz | hz
    · have := ar1 z hz
      exact ⟨this.1, by omega⟩
    · rw [hz] at hne; exact absurd rfl hne
    · have hz1 : z ∈ A.blocks := by rw [hbl]; simp [hz]
      refine ⟨hz1, ?_⟩
      intro e1
      have := Tiles_addr_inj c.tiles hz1 hkin e1
      subst this
      have t := c.tiles
      rw [hbl] at t
      have t2 := (@Tiles_around _ _ (pre ++ [e]) post z
        (by simpa using t)).2 z hz
      omega
  have hfrm : ∀ a, a ≠ e.addr + 16 → a ≠ e.addr + 24 + (e.size + 32 + k.size) →
      (wr (wr (removeFromList h e.addr) (e.addr + 16) (e.word + 32 + k.size))
        (e.addr + 24 + (e.size + 32 + k.size)) e.addr).mem a = (removeFromList h e.addr).mem a := by
    intro a n1 n2
    simp [n1, n2]
  have heo : e.addr ∉ A.al ++ (xs1 ++ xs2) := by
    intro e1
    rcases List.mem_append.1 e1 with e1 | e1
    · exact c.al_fl_ne (List.mem_cons_of_mem _ e1) (List.mem_cons_of_mem _ hefl) rfl
    · exact erase_mid_not hnd.2 e1
  refine ⟨rfl, ⟨cm, ⟨⟨e.addr, e.size + 32 + k.size, true⟩, by simp, rfl⟩, heo, ?_, ?_, ?_⟩,
    ?_, ?_⟩
  · intro z hz hne
    obtain ⟨z1, z2⟩ := hother z hz hne
    show z.addr ∈ A.al ++ (xs1 ++ xs2)
    rcases List.mem_append.1 (m.cover z z1 z2) with e1 | e1
    · exact List.mem_append_left _ e1
    · exact List.mem_append_right _ (erase_mid_mem (hfl ▸ e1) hne)
  · intro z hz hne hf
    obtain ⟨z1, z2⟩ := hother z hz hne
    show z.addr ∈ xs1 ++ xs2
    exact erase_mid_mem (hfl ▸ m.tagF z z1 z2 hf) hne
  · intro z hz hzf hsz
    have hzf1 : z.addr ∈ xs1 ++ xs2 := hzf
    have hne : z.addr ≠ e.addr := by
      intro e1
      apply heo
      rw [← e1]
      exact List.mem_append_right _ hzf1
    obtain ⟨z1, z2⟩ := hother z hz hne
    exact m.tagS z z1 (by rw [hfl]; exact erase_mid_sub hzf1) hsz
  · intro a ha
    have n1 : a ≠ e.addr + 16 := fun e1 => ha (Or.inr ⟨e, hein, Or.inl e1⟩)
    have n2 : a ≠ e.addr + 24 + (e.size + 32 + k.size) :=
      fun e1 => ha (Or.inr ⟨k, hkin, Or.inr (by omega)⟩)
    rw [hfrm a n1 n2]
    apply f3
    intro y hy
    exact ⟨fun e1 => ha (Or.inl ⟨y, hy, Or.inl e1⟩), fun e1 => ha (Or.inl ⟨y, hy, Or.inr e1⟩)⟩
  · intro a ha
    exact Meta_merge hbl (by simp) true A.al (xs1 ++ xs2) np2 a ha

/-! ## The stages of `mm_free` -/

theorem mm_free_stages (h : Heap) (ptr : Nat) :
    mm_free h ptr =
      freeFinish (freeBwd (freeFwd (removeFromList h (psub ptr HEADER_SIZE))
        (psub ptr HEADER_SIZE))).2
        (freeBwd (freeFwd (removeFromList h (psub ptr HEADER_SIZE))
          (psub ptr HEADER_SIZE))).1 := rfl

theorem Rep.unlink {h : Heap} {A : Abs} (r : Rep h A) {x : Nat} {xs1 xs2 : List Nat}
    (hal : A.al = xs1 ++ x :: xs2) :
    Mid (removeFromList h x) ⟨A.blocks, xs1 ++ xs2, A.fl⟩ x ∧
    Stale (removeFromList h x) ⟨A.blocks, xs1 ++ xs2, A.fl⟩ x ∧
    MetaFrame h (removeFromList h x) A := by
  have c := r.toCore
  obtain ⟨c1, st, f3⟩ := c.removeA hal
  have hxal : x ∈ A.al := by rw [hal]; simp
  have hnd := (List.nodup_append.1 c.nodup).1
  rw [hal] at hnd
  refine ⟨⟨c1, c.sub x (List.mem_append_left _ hxal), ?_, ?_, ?_, ?_⟩, st, ?_⟩
  · intro e
    rcases List.mem_append.1 e with e | e
    · exact erase_mid_not hnd e
    · exact c.al_fl_ne (List.mem_cons_of_mem _ hxal) (List.mem_cons_of_mem _ e) rfl
  · intro d hd hne
    show d.addr ∈ (xs1 ++ xs2) ++ A.fl
    rcases List.mem_append.1 (r.cover d hd) with e | e
    · exact List.mem_append_left _ (erase_mid_mem (hal ▸ e) hne)
    · exact List.mem_append_right _ e
  · intro d hd _ hf
    exact r.tagF d hd hf
  · intro d hd hf hs
    exact r.tagS d hd hf hs
  · intro a ha
    apply f3
    intro y hy
    exact ⟨fun e => ha (Or.inl ⟨y, hy, Or.inl e⟩), fun e => ha (Or.inl ⟨y, hy, Or.inr e⟩)⟩

theorem Mid.finish {h : Heap} {A : Abs} {x : Nat} (m : Mid h A x) {pre post : List Blk}
    {k : Blk} (hbl : A.blocks = pre ++ k :: post) (hk : k.addr = x) :
    Rep (freeFinish h x)
      ⟨pre ++ ⟨x, k.size, decide (k.size ≠ 0) || k.free⟩ :: post, A.al, A.fl ++ [x]⟩ ∧
    MetaFrame h (freeFinish h x) A ∧ (freeFinish h x).lo = h.lo ∧
    (freeFinish h x).brk = h.brk := by
  subst hk
  have c := m.core
  have hkin : k ∈ A.blocks := by rw [hbl]; simp
  have bk := c.blk hkin
  have hW := c.brk_lt
  obtain ⟨c1, _, f3⟩ := c.addF (x := k.addr) ⟨k, hkin, rfl⟩ m.orph
  have hs := (c1.rd_size (b := k) hkin).1
  have hu : untag k.word = k.size := by rw [Blk.word, untag_word _ _ bk.2.2.1]
  obtain ⟨ar1, ar2⟩ := c.around hbl
  have hother : ∀ z ∈ pre ++ ⟨k.addr, k.size, decide (k.size ≠ 0) || k.free⟩ :: post,
      z.addr ≠ k.addr → z ∈ A.blocks := by
    intro z hz hne
    simp only [List.mem_append, List.mem_cons] at hz
    rcases hz with hz | hz | hz
    · exact (ar1 z hz).1
    · rw [hz] at hne; exact absurd rfl hne
    · exact (ar2 z hz).1
  have hf3 : MetaFrame h (addToFreeList h k.addr) A := by
    intro a ha
    apply f3
    intro y hy
    exact ⟨fun e => ha (Or.inl ⟨y, hy, Or.inl e⟩), fun e => ha (Or.inl ⟨y, hy, Or.inr e⟩)⟩
  have hcore : Core (freeFinish h k.addr)
      ⟨pre ++ ⟨k.addr, k.size, decide (k.size ≠ 0) || k.free⟩ :: post, A.al,
        A.fl ++ [k.addr]⟩ ∧ MetaFrame h (freeFinish h k.addr) A ∧
      (freeFinish h k.addr).lo = h.lo ∧ (freeFinish h k.addr).brk = h.brk := by
    unfold freeFinish
    simp only [hs, hu]
    by_cases hz : k.size = 0
    · simp only [hz, ne_eq, not_true_eq_false, if_false, decide_False, Bool.false_or]
      refine ⟨?_, hf3, by simp, by simp⟩
      have : (⟨k.addr, 0, k.free⟩ : Blk) = k := by
        cases k; simp only [Blk.mk.injEq, true_and, and_true]; exact hz.symm
      rw [this, ← hbl]
      exact c1
    · simp only [ne_eq, hz, not_false_eq_true, if_true, decide_True, Bool.true_or]
      have e1 : setTag k.word = k.size + 1 := by rw [Blk.word, setTag_word _ _ bk.2.2.1]
      rw [e1, set_size, padd_eq (by omega)]
      refine ⟨?_, ?_, by simp, by simp⟩
      · have := c1.settag (A := ⟨A.blocks, A.al, A.fl ++ [k.addr]⟩) hbl true
        simpa using this
      · intro a ha
        have n1 : a ≠ k.addr + 16 := fun e => ha (Or.inr ⟨k, hkin, Or.inl e⟩)
        simp only [wr_mem, if_neg n1]
        exact hf3 a ha
  obtain ⟨hc, hmf, hl, hb⟩ := hcore
  refine ⟨⟨hc, ?_, ?_, ?_⟩, hmf, hl, hb⟩
  · intro z hz
    show z.addr ∈ A.al ++ (A.fl ++ [k.addr])
    by_cases hne : z.addr = k.addr
    · rw [hne]
      exact List.mem_append_right _ (List.mem_append_right _ (List.mem_singleton.2 rfl))
    · rcases List.mem_append.1 (m.cover z (hother z hz hne) hne) with e | e
      · exact List.mem_append_left _ e
      · exact List.mem_append_right _ (List.mem_append_left _ e)
  · intro z hz hf
    show z.addr ∈ A.fl ++ [k.addr]
    by_cases hne : z.addr = k.addr
    · rw [hne]
      exact List.mem_append_right _ (List.mem_singleton.2 rfl)
    · exact List.mem_append_left _ (m.tagF z (hother z hz hne) hne hf)
  · intro z hz hzf hsz
    have hzf1 : z.addr ∈ A.fl ++ [k.addr] := hzf
    by_cases hne : z.addr = k.addr
    · simp only [List.mem_append, List.mem_cons] at hz
      rcases hz with hz | hz | hz
      · exact absurd hne (ar1 z hz).2.1
      · rw [hz] at hsz ⊢
        simp only at hsz
        simp [hsz]
      · exact absurd hne (ar2 z hz).2.1
    · have : z.addr ∈ A.fl := by
        rcases List.mem_append.1 hzf1 with e | e
        · exact e
        · exact absurd (List.mem_singleton.1 e) hne
      exact m.tagS z (hother z hz hne) this hsz

theorem Core.freeFwd_merge {h : Heap} {A : Abs} (c : Core h A) {pre post : List Blk}
    {k d : Blk} (hbl : A.blocks = pre ++ k :: d :: post) (hd : d.free = true) :
    freeFwd h k.addr = mm_coalesce h k.addr := by
  obtain ⟨n1, n2, n3⟩ := c.next_phy hbl
  have hdin : d ∈ A.blocks := by rw [hbl]; simp
  unfold freeFwd
  simp only [n1, (c.rd_size hdin).2.2, hd]
  simp [n3]

theorem Core.freeFwd_skip {h : Heap} {A : Abs} (c : Core h A) {pre post : List Blk}
    {k : Blk} (hbl : A.blocks = pre ++ k :: post) (hd : ∀ d ∈ post.head?, d.free = false) :
    freeFwd h k.addr = (k.addr, h) := by
  cases post with
  | nil =>
    unfold freeFwd
    simp [c.next_none hbl]
  | cons d post =>
    obtain ⟨n1, n2, n3⟩ := c.next_phy hbl
    have hdin : d ∈ A.blocks := by rw [hbl]; simp
    have hdf : d.free = false := hd d (by simp)
    unfold freeFwd
    simp only [n1, (c.rd_size hdin).2.2, hdf]
    simp

theorem Core.freeBwd_merge {h : Heap} {A : Abs} (c : Core h A) {pre post : List Blk}
    {e k : Blk} (hbl : A.blocks = pre ++ e :: k :: post) (he : e.free = true) :
    freeBwd (k.addr, h) = mm_coalesce h e.addr := by
  obtain ⟨n1, n2, n3⟩ := c.prev_phy hbl
  have hein : e ∈ A.blocks := by rw [hbl]; simp
  unfold freeBwd
  simp only [n1, (c.rd_size hein).2.2, he]
  simp [n3]

theorem Core.freeBwd_skip {h : Heap} {A : Abs} (c : Core h A) {pre post : List Blk}
    {k : Blk} (hbl : A.blocks = pre ++ k :: post) (he : ∀ e ∈ pre.getLast?, e.free = false) :
    freeBwd (k.addr, h) = (k.addr, h) := by
  rcases List.eq_nil_or_concat pre with hp | ⟨pre1, e, hp⟩
  · subst hp
    unfold freeBwd
    simp [c.prev_none (by simpa using hbl)]
  · subst hp
    have hbl1 : A.blocks = pre1 ++ e :: k :: post := by simp [hbl]
    obtain ⟨n1, n2, n3⟩ := c.prev_phy hbl1
    have hein : e ∈ A.blocks := by rw [hbl1]; simp
    have hef : e.free = false := he e (by simp)
    unfold freeBwd
    simp only [n1, (c.rd_size hein).2.2, hef]
    simp

/-! ## `mm_free`, case by case -/

theorem Meta_congr {h h1 : Heap} {A A1 : Abs} (hlo : h1.lo = h.lo)
    (hbl : A1.blocks = A.blocks) {a : Nat} (hm : Meta h1 A1 a) : Meta h A a := by
  unfold Meta nodes at *
  rw [hlo, hbl] at hm
  exact hm

theorem MetaFrame_trans {h h1 h2 : Heap} {A A1 : Abs} (f1 : MetaFrame h h1 A)
    (f2 : MetaFrame h1 h2 A1) (hsub : ∀ a, Meta h1 A1 a → Meta h A a) : MetaFrame h h2 A := by
  intro a ha
  rw [f2 a (fun e => ha (hsub a e)), f1 a ha]

theorem Rep.alloc_untagged {h : Heap} {A : Abs} (r : Rep h A) {b : Blk} (hb : b ∈ A.blocks)
    (hba : b.addr ∈ A.al) : b.free = false := by
  cases hf : b.free with
  | false => rfl
  | true =>
    exact absurd rfl (r.toCore.al_fl_ne (List.mem_cons_of_mem _ hba)
      (List.mem_cons_of_mem _ (r.tagF b hb hf)))

theorem psub_hdr {x : Nat} (hx : x + 24 < W) : psub (x + 24) HEADER_SIZE = x := by
  rw [HEADER_SIZE, psub_eq (by omega) hx]; omega

theorem Rep.free_nn {h : Heap} {A : Abs} (r : Rep h A) {pre post : List Blk} {b : Blk}
    {xs1 xs2 : List Nat} (hbl : A.blocks = pre ++ b :: post)
    (hal : A.al = xs1 ++ b.addr :: xs2) (hn : ∀ d ∈ post.head?, d.free = false)
    (hp : ∀ e ∈ pre.getLast?, e.free = false) :
    FreePost h A b.addr (mm_free h (b.addr + 24))
      ⟨pre ++ ⟨b.addr, b.size, decide (b.size ≠ 0)⟩ :: post, xs1 ++ xs2,
        A.fl ++ [b.addr]⟩ := by
  have c := r.toCore
  have hbin : b ∈ A.blocks := by rw [hbl]; simp
  have bb := c.blk hbin
  have hW := c.brk_lt
  have hbf : b.free = false := r.alloc_untagged hbin (by rw [hal]; simp)
  obtain ⟨m1, st1, mf1⟩ := r.unlink hal
  have e1 := m1.core.freeFwd_skip (A := ⟨A.blocks, xs1 ++ xs2, A.fl⟩) hbl hn
  have e2 := m1.core.freeBwd_skip (A := ⟨A.blocks, xs1 ++ xs2, A.fl⟩) hbl hp
  obtain ⟨r4, mf4, l4, b4⟩ := m1.finish (A := ⟨A.blocks, xs1 ++ xs2, A.fl⟩) hbl rfl
  rw [mm_free_stages, psub_hdr (by omega), e1, e2]
  simp only [hbf, Bool.or_false] at r4
  obtain ⟨ar1, ar2⟩ := c.around hbl
  refine ⟨r4, ⟨xs1, xs2, hal, rfl⟩, ?_, ?_, ?_, ?_⟩
  · intro d hd _ hne
    rw [hbl] at hd
    simp only [List.mem_append, List.mem_cons] at hd ⊢
    rcases hd with hd | hd | hd
    · exact Or.inl hd
    · rw [hd] at hne; exact absurd rfl hne
    · exact Or.inr (Or.inr hd)
  · exact MetaFrame_trans mf1 mf4 (fun a ha => Meta_congr (by simp) rfl ha)
  · rw [l4]; simp
  · rw [b4]; simp

@[simp] theorem mm_coalesce_fst (h : Heap) (k : Nat) : (mm_coalesce h k).1 = k := rfl

@[simp] theorem mm_coalesce_lo (h : Heap) (k : Nat) : (mm_coalesce h k).2.lo = h.lo := by
  simp [mm_coalesce, set_size]

@[simp] theorem mm_coalesce_brk (h : Heap) (k : Nat) : (mm_coalesce h k).2.brk = h.brk := by
  simp [mm_coalesce, set_size]

theorem mm_coalesce_pair (h : Heap) (k : Nat) : mm_coalesce h k = (k, (mm_coalesce h k).2) :=
  rfl

theorem Rep.free_fn {h : Heap} {A : Abs} (r : Rep h A) {pre post : List Blk} {b d : Blk}
    {xs1 xs2 ys1 ys2 : List Nat} (hbl : A.blocks = pre ++ b :: d :: post)
    (hal : A.al = xs1 ++ b.addr :: xs2) (hd : d.free = true)
    (hfl : A.fl = ys1 ++ d.addr :: ys2) (hp : ∀ e ∈ pre.getLast?, e.free = false) :
    FreePost h A b.addr (mm_free h (b.addr + 24))
      ⟨pre ++ ⟨b.addr, b.size + 32 + d.size, true⟩ :: post, xs1 ++ xs2,
        ys1 ++ ys2 ++ [b.addr]⟩ := by
  have c := r.toCore
  have hbin : b ∈ A.blocks := by rw [hbl]; simp
  have bb := c.blk hbin
  have hW := c.brk_lt
  have hbf : b.free = false := r.alloc_untagged hbin (by rw [hal]; simp)
  obtain ⟨m1, st1, mf1⟩ := r.unlink hal
  have e1 := m1.core.freeFwd_merge (A := ⟨A.blocks, xs1 ++ xs2, A.fl⟩) hbl hd
  obtain ⟨_, m2, _, mf2, ms2⟩ := m1.fwd (A := ⟨A.blocks, xs1 ++ xs2, A.fl⟩) st1 hbl rfl hbf hfl
  have e2 := m2.core.freeBwd_skip
    (A := ⟨pre ++ ⟨b.addr, b.size + 32 + d.size, false⟩ :: post, xs1 ++ xs2, ys1 ++ ys2⟩)
    (k := ⟨b.addr, b.size + 32 + d.size, false⟩) rfl hp
  obtain ⟨r4, mf4, l4, b4⟩ := m2.finish
    (A := ⟨pre ++ ⟨b.addr, b.size + 32 + d.size, false⟩ :: post, xs1 ++ xs2, ys1 ++ ys2⟩)
    (k := ⟨b.addr, b.size + 32 + d.size, false⟩) rfl rfl
  rw [mm_free_stages, psub_hdr (by omega), e1, mm_coalesce_pair, e2]
  have hsz : decide (b.size + 32 + d.size ≠ 0) = true := by simp
  simp only [hsz, Bool.true_or] at r4
  refine ⟨r4, ⟨xs1, xs2, hal, rfl⟩, ?_, ?_, ?_, ?_⟩
  · intro z hz hza hne
    rw [hbl] at hz
    simp only [List.mem_append, List.mem_cons] at hz ⊢
    rcases hz with hz | hz | hz | hz
    · exact Or.inl hz
    · rw [hz] at hne; exact absurd rfl hne
    · rw [hz] at hza
      exact absurd rfl (c.al_fl_ne (List.mem_cons_of_mem _ hza)
        (List.mem_cons_of_mem _ (by rw [hfl]; simp)))
    · exact Or.inr (Or.inr hz)
  · refine MetaFrame_trans mf1 (MetaFrame_trans mf2 mf4 ms2) ?_
    exact fun a ha => Meta_congr (by simp) rfl ha
  · rw [l4]; simp
  · rw [b4]; simp

theorem Rep.free_nb {h : Heap} {A : Abs} (r : Rep h A) {pre post : List Blk} {e b : Blk}
    {xs1 xs2 ys1 ys2 : List Nat} (hbl : A.blocks = pre ++ e :: b :: post)
    (hal : A.al = xs1 ++ b.addr :: xs2) (he : e.free = true)
    (hfl : A.fl = ys1 ++ e.addr :: ys2) (hn : ∀ d ∈ post.head?, d.free = false) :
    FreePost h A b.addr (mm_free h (b.addr + 24))
      ⟨pre ++ ⟨e.addr, e.size + 32 + b.size, true⟩ :: post, xs1 ++ xs2,
        ys1 ++ ys2 ++ [e.addr]⟩ := by
  have c := r.toCore
  have hbin : b ∈ A.blocks := by rw [hbl]; simp
  have bb := c.blk hbin
  have hW := c.brk_lt
  have hbl1 : A.blocks = (pre ++ [e]) ++ b :: post := by simp [hbl]
  obtain ⟨m1, st1, mf1⟩ := r.unlink hal
  have e1 := m1.core.freeFwd_skip (A := ⟨A.blocks, xs1 ++ xs2, A.fl⟩) hbl1 hn
  have e2 := m1.core.freeBwd_merge (A := ⟨A.blocks, xs1 ++ xs2, A.fl⟩) hbl he
  obtain ⟨_, m2, mf2, ms2⟩ := m1.bwd (A := ⟨A.blocks, xs1 ++ xs2, A.fl⟩) st1 hbl rfl he hfl
  obtain ⟨r4, mf4, l4, b4⟩ := m2.finish
    (A := ⟨pre ++ ⟨e.addr, e.size + 32 + b.size, true⟩ :: post, xs1 ++ xs2, ys1 ++ ys2⟩)
    (k := ⟨e.addr, e.size + 32 + b.size, true⟩) rfl rfl
  rw [mm_free_stages, psub_hdr (by omega), e1, e2, mm_coalesce_fst]
  simp only [Bool.or_true] at r4
  refine ⟨r4, ⟨xs1, xs2, hal, rfl⟩, ?_, ?_, ?_, ?_⟩
  · intro z hz hza hne
    rw [hbl] at hz
    simp only [List.mem_append, List.mem_cons] at hz ⊢
    rcases hz with hz | hz | hz | hz
    · exact Or.inl hz
    · rw [hz] at hza
      exact absurd rfl (c.al_fl_ne (List.mem_cons_of_mem _ hza)
        (List.mem_cons_of_mem _ (by rw [hfl]; simp)))
    · rw [hz] at hne; exact absurd rfl hne
    · exact Or.inr (Or.inr hz)
  · refine MetaFrame_trans mf1 (MetaFrame_trans mf2 mf4 ms2) ?_
    exact fun a ha => Meta_congr (by simp) rfl ha
  · rw [l4]; simp
  · rw [b4]; simp

theorem Rep.free_fb {h : Heap} {A : Abs} (r : Rep h A) {pre post : List Blk} {e b d : Blk}
    {xs1 xs2 ys1 ys2 zs1 zs2 : List Nat} (hbl : A.blocks = pre ++ e :: b :: d :: post)
    (hal : A.al = xs1 ++ b.addr :: xs2) (he : e.free = true) (hd : d.free = true)
    (hfl : A.fl = ys1 ++ d.addr :: ys2) (hfl2 : ys1 ++ ys2 = zs1 ++ e.addr :: zs2) :
    FreePost h A b.addr (mm_free h (b.addr + 24))
      ⟨pre ++ ⟨e.addr, e.size + 32 + (b.size + 32 + d.size), true⟩ :: post, xs1 ++ xs2,
        zs1 ++ zs2 ++ [e.addr]⟩ := by
  have c := r.toCore
  have hbin : b ∈ A.blocks := by rw [hbl]; simp
  have bb := c.blk hbin
  have hW := c.brk_lt
  have hbf : b.free = false := r.alloc_untagged hbin (by rw [hal]; simp)
  have hbl1 : A.blocks = (pre ++ [e]) ++ b :: d :: post := by simp [hbl]
  obtain ⟨m1, st1, mf1⟩ := r.unlink hal
  have e1 := m1.core.freeFwd_merge (A := ⟨A.blocks, xs1 ++ xs2, A.fl⟩) hbl1 hd
  obtain ⟨_, m2, st2, mf2, ms2⟩ :=
    m1.fwd (A := ⟨A.blocks, xs1 ++ xs2, A.fl⟩) st1 hbl1 rfl hbf hfl
  have hbl2 : (pre ++ [e]) ++ (⟨b.addr, b.size + 32 + d.size, false⟩ : Blk) :: post =
      pre ++ e :: ⟨b.addr, b.size + 32 + d.size, false⟩ :: post := by simp
  rw [hbl2] at m2 st2 ms2
  have e2 := m2.core.freeBwd_merge
    (A := ⟨pre ++ e :: ⟨b.addr, b.size + 32 + d.size, false⟩ :: post, xs1 ++ xs2,
      ys1 ++ ys2⟩) (k := ⟨b.addr, b.size + 32 + d.size, false⟩) rfl he
  obtain ⟨_, m3, mf3, ms3⟩ := m2.bwd
    (A := ⟨pre ++ e :: ⟨b.addr, b.size + 32 + d.size, false⟩ :: post, xs1 ++ xs2,
      ys1 ++ ys2⟩) (k := ⟨b.addr, b.size + 32 + d.size, false⟩) st2 rfl rfl he hfl2
  obtain ⟨r4, mf4, l4, b4⟩ := m3.finish
    (A := ⟨pre ++ ⟨e.addr, e.size + 32 + (b.size + 32 + d.size), true⟩ :: post, xs1 ++ xs2,
      zs1 ++ zs2⟩) (k := ⟨e.addr, e.size + 32 + (b.size + 32 + d.size), true⟩) rfl rfl
  rw [mm_free_stages, psub_hdr (by omega), e1, mm_coalesce_pair, e2, mm_coalesce_fst]
  simp only [Bool.or_true] at r4
  refine ⟨r4, ⟨xs1, xs2, hal, rfl⟩, ?_, ?_, ?_, ?_⟩
  · intro z hz hza hne
    rw [hbl] at hz
    simp only [List.mem_append, List.mem_cons] at hz ⊢
    rcases hz with hz | hz | hz | hz | hz
    · exact Or.inl hz
    · rw [hz] at hza
      have hefl : e.addr ∈ A.fl := by
        rw [hfl]
        exact erase_mid_sub (by rw [hfl2]; simp)
      exact absurd rfl (c.al_fl_ne (List.mem_cons_of_mem _ hza)
        (List.mem_cons_of_mem _ hefl))
    · rw [hz] at hne; exact absurd rfl hne
    · rw [hz] at hza
      exact absurd rfl (c.al_fl_ne (List.mem_cons_of_mem _ hza)
        (List.mem_cons_of_mem _ (by rw [hfl]; simp)))
    · exact Or.inr (Or.inr hz)
  · refine MetaFrame_trans mf1 (MetaFrame_trans mf2 (MetaFrame_trans mf3 mf4 ms3) ms2) ?_
    exact fun a ha => Meta_congr (by simp) rfl ha
  · rw [l4]; simp
  · rw [b4]; simp

/-! ## `mm_free` preserves the invariant -/

theorem head_untagged_or (post : List Blk) :
    (∀ d ∈ post.head?, d.free = false) ∨ ∃ d rest, post = d :: rest ∧ d.free = true := by
  cases post with
  | nil => left; simp
  | cons d rest =>
    cases hf : d.free with
    | false => left; simp [hf]
    | true => exact Or.inr ⟨d, rest, rfl, hf⟩

theorem last_untagged_or (pre : List Blk) :
    (∀ e ∈ pre.getLast?, e.free = false) ∨ ∃ init e, pre = init ++ [e] ∧ e.free = true := by
  rcases List.eq_nil_or_concat pre with hp | ⟨init, e, hp⟩
  · left; simp [hp]
  · cases hf : e.free with
    | false => left; simp [hp, hf]
    | true => exact Or.inr ⟨init, e, by simp [hp], hf⟩

theorem Rep.free {h : Heap} {A : Abs} (r : Rep h A) {b : Blk} (hb : b ∈ A.blocks)
    (hba : b.addr ∈ A.al) :
    ∃ A1, FreePost h A b.addr (mm_free h (b.addr + 24)) A1 ∧ FStep b.addr A A1 := by
  have c := r.toCore
  have hbf : b.free = false := r.alloc_untagged hb hba
  obtain ⟨pre, post, hbl⟩ := List.append_of_mem hb
  obtain ⟨xs1, xs2, hal⟩ := List.append_of_mem hba
  rcases head_untagged_or post with hn | ⟨d, rest, hpost, hd⟩ <;>
    rcases last_untagged_or pre with hp | ⟨init, e, hpre, he⟩
  · exact ⟨_, r.free_nn hbl hal hn hp, FStep.nn A pre post b xs1 xs2 rfl hbl hal hbf hn hp⟩
  · subst hpre
    have hbl1 : A.blocks = init ++ e :: b :: post := by simp [hbl]
    have hein : e ∈ A.blocks := by rw [hbl1]; simp
    obtain ⟨ys1, ys2, hfl⟩ := List.append_of_mem (r.tagF e hein he)
    exact ⟨_, r.free_nb hbl1 hal he hfl hn,
      FStep.nb A init post e b xs1 xs2 ys1 ys2 rfl hbl1 hal he hfl hn⟩
  · subst hpost
    have hdin : d ∈ A.blocks := by rw [hbl]; simp
    obtain ⟨ys1, ys2, hfl⟩ := List.append_of_mem (r.tagF d hdin hd)
    exact ⟨_, r.free_fn hbl hal hd hfl hp,
      FStep.fn A pre rest b d xs1 xs2 ys1 ys2 rfl hbl hal hd hfl hp⟩
  · subst hpost hpre
    have hbl1 : A.blocks = init ++ e :: b :: d :: rest := by simp [hbl]
    have hein : e ∈ A.blocks := by rw [hbl1]; simp
    have hdin : d ∈ A.blocks := by rw [hbl1]; simp
    obtain ⟨ys1, ys2, hfl⟩ := List.append_of_mem (r.tagF d hdin hd)
    have hne : e.addr ≠ d.addr := by
      intro e1
      have := Tiles_addr_inj c.tiles hein hdin e1
      subst this
      obtain ⟨n1, n2, _⟩ := c.next_phy (show A.blocks = init ++ e :: b :: (e :: rest) from hbl1)
      obtain ⟨_, n4, _⟩ := c.next_phy
        (show A.blocks = (init ++ [e]) ++ b :: e :: rest by simp [hbl1])
      omega
    have hefl := r.tagF e hein he
    rw [hfl] at hefl
    obtain ⟨zs1, zs2, hfl2⟩ := List.append_of_mem (erase_mid_mem hefl hne)
    exact ⟨_, r.free_fb hbl1 hal he hd hfl hfl2,
      FStep.fb A init rest e b d xs1 xs2 ys1 ys2 zs1 zs2 rfl hbl1 hal he hd hfl hfl2⟩

/-! ## `memcpy` -/

@[simp] theorem memcpyWords_lo (h0 : Heap) (dst src k : Nat) (h : Heap) :
    (memcpyWords h0 dst src k h).lo = h.lo := by
  induction k with
  | zero => rfl
  | succ k ih => simp [memcpyWords, ih]

@[simp] theorem memcpyWords_brk (h0 : Heap) (dst src k : Nat) (h : Heap) :
    (memcpyWords h0 dst src k h).brk = h.brk := by
  induction k with
  | zero => rfl
  | succ k ih => simp [memcpyWords, ih]

@[simp] theorem memcpyWords_cap (h0 : Heap) (dst src k : Nat) (h : Heap) :
    (memcpyWords h0 dst src k h).cap = h.cap := by
  induction k with
  | zero => rfl
  | succ k ih => simp [memcpyWords, ih]

@[simp] theorem memcpyWords_hiOff (h0 : Heap) (dst src k : Nat) (h : Heap) :
    (memcpyWords h0 dst src k h).hiOff = h.hiOff := by
  induction k with
  | zero => rfl
  | succ k ih => simp [memcpyWords, ih]

@[simp] theorem memcpyWords_enomem (h0 : Heap) (dst src k : Nat) (h : Heap) :
    (memcpyWords h0 dst src k h).enomem = h.enomem := by
  induction k with
  | zero => rfl
  | succ k ih => simp [memcpyWords, ih]

theorem memcpyWords_mem (h0 : Heap) (dst src : Nat) (h : Heap) (k : Nat)
    (hk : dst + 8 * k ≤ W) (a : Nat) :
    (memcpyWords h0 dst src k h).mem a =
      if dst ≤ a ∧ a < dst + 8 * k ∧ (a - dst) % 8 = 0 then h0.mem (padd src (a - dst))
      else h.mem a := by
  induction k with
  | zero =>
    simp only [memcpyWords, Nat.mul_zero, Nat.add_zero]
    rw [if_neg (by omega)]
  | succ k ih =>
    have e1 : padd dst (8 * k) = dst + 8 * k := padd_eq (by omega)
    simp only [memcpyWords, wr_mem, e1, rd]
    rw [ih (by omega)]
    by_cases ha : a = dst + 8 * k
    · subst ha
      have : dst + 8 * k - dst = 8 * k := by omega
      simp [this]
    · simp only [ha, if_false]
      by_cases hc : dst ≤ a ∧ a < dst + 8 * k ∧ (a - dst) % 8 = 0
      · rw [if_pos hc, if_pos ⟨hc.1, by omega, hc.2.2⟩]
      · rw [if_neg hc, if_neg]
        intro hc2
        apply hc
        refine ⟨hc2.1, ?_, hc2.2.2⟩
        omega

theorem memcpy_fields (h : Heap) (dst src n : Nat) :
    (memcpy h dst src n).lo = h.lo ∧ (memcpy h dst src n).brk = h.brk ∧
    (memcpy h dst src n).cap = h.cap ∧ (memcpy h dst src n).hiOff = h.hiOff ∧
    (memcpy h dst src n).enomem = h.enomem := by
  unfold memcpy
  simp only []
  split_ifs <;> simp

theorem memcpy_frame (h : Heap) (dst src n : Nat) (hW : dst + n + 8 ≤ W) (a : Nat)
    (ha : a < dst ∨ dst + (n + 7) / 8 * 8 ≤ a) : (memcpy h dst src n).mem a = h.mem a := by
  unfold memcpy
  simp only []
  split_ifs with hr
  · rw [memcpyWords_mem _ _ _ _ _ (by omega), if_neg (by omega)]
  · have e1 : padd dst (n / 8 * 8) = dst + n / 8 * 8 := padd_eq (by omega)
    rw [e1, wr_mem, if_neg (by omega), memcpyWords_mem _ _ _ _ _ (by omega), if_neg (by omega)]

/-! ## Heaps that agree on metadata -/

theorem Rep.of_meta_eq {h h2 : Heap} {A : Abs} (r : Rep h A) (e1 : h2.lo = h.lo)
    (e2 : h2.brk = h.brk) (e3 : h2.cap = h.cap) (e4 : h2.hiOff = h.hiOff)
    (e5 : h2.enomem = h.enomem) (hm : ∀ a, Meta h A a → h2.mem a = h.mem a) : Rep h2 A := by
  have c := r.toCore
  have hnode : ∀ y ∈ nodes h A, h2.mem y = h.mem y ∧ h2.mem (y + 8) = h.mem (y + 8) :=
    fun y hy => ⟨hm _ (Or.inl ⟨y, hy, Or.inl rfl⟩), hm _ (Or.inl ⟨y, hy, Or.inr rfl⟩)⟩
  refine ⟨⟨?_, ?_, ?_, ?_, ?_, ?_, ?_, c.ne, ?_, ?_, ?_, c.nodup, c.sub⟩, r.cover, r.tagF,
    r.tagS⟩
  · rw [e1]; exact c.lo_pos
  · rw [e1]; exact c.lo_al
  · rw [e2, e3]; exact c.brk_cap
  · rw [e3]; exact c.cap_lt
  · rw [e4]; exact c.hi
  · rw [e5]; exact c.ok
  · rw [e1, e2]; exact c.tiles
  · intro b hb
    rw [hm _ (Or.inr ⟨b, hb, Or.inl rfl⟩), hm _ (Or.inr ⟨b, hb, Or.inr rfl⟩)]
    exact c.data b hb
  · rw [e1]
    exact Ring_congr c.ringA fun a ha => hnode a (c.al_node ha)
  · rw [e1]
    exact Ring_congr c.ringF fun a ha => hnode a (c.fl_node ha)

theorem Core.meta_not_payload {h : Heap} {A : Abs} (c : Core h A) {d : Blk}
    (hd : d ∈ A.blocks) {a : Nat} (h1 : d.addr + 24 ≤ a) (h2 : a < d.addr + 24 + d.size) :
    ¬ Meta h A a := by
  intro hm
  rcases hm with ⟨y, hy, e⟩ | ⟨x, hx, e⟩
  · have := c.payload_node hd h1 h2 y hy
    rcases e with e | e
    · exact this.1 e
    · exact this.2 e
  · have := c.payload_data hd h1 h2 x hx
    rcases e with e | e
    · exact this.1 e
    · exact this.2 e

theorem MetaFrame.payload {h h1 : Heap} {A : Abs} (c : Core h A) (f : MetaFrame h h1 A) :
    PayloadFrame h h1 A :=
  fun _ hd _ _ h1 h2 => f _ (c.meta_not_payload hd h1 h2)

/-! ## `mm_free` keeps the provider's state -/

@[simp] theorem mm_coalesce_enomem (h : Heap) (k : Nat) :
    (mm_coalesce h k).2.enomem = h.enomem := by
  simp [mm_coalesce, set_size]

@[simp] theorem mm_coalesce_cap (h : Heap) (k : Nat) : (mm_coalesce h k).2.cap = h.cap := by
  simp [mm_coalesce, set_size]

theorem freeFwd_enomem (h : Heap) (x : Nat) : (freeFwd h x).2.enomem = h.enomem := by
  unfold freeFwd
  simp only []
  split_ifs
  · exact mm_coalesce_enomem h x
  · rfl

theorem freeBwd_enomem (r : Nat × Heap) : (freeBwd r).2.enomem = r.2.enomem := by
  unfold freeBwd
  simp only []
  split_ifs
  · exact mm_coalesce_enomem _ _
  · rfl

theorem freeFinish_enomem (h : Heap) (x : Nat) : (freeFinish h x).enomem = h.enomem := by
  unfold freeFinish
  simp only []
  split_ifs
  · rfl
  · rfl

theorem mm_free_enomem (h : Heap) (p : Nat) : (mm_free h p).enomem = h.enomem := by
  rw [mm_free_stages, freeFinish_enomem, freeBwd_enomem, freeFwd_enomem,
    removeFromList_enomem]

/-! ## `mm_realloc` -/

theorem SIZE_T_SIZE_eq : SIZE_T_SIZE = 8 := by
  unfold SIZE_T_SIZE ALIGN W; rfl

theorem ALIGN_ceil {n : Nat} (hv : ValidSize n) : ALIGN n = (n + 7) / 8 * 8 := by
  unfold ValidSize W at hv
  unfold ALIGN W
  rw [Nat.mod_eq_of_lt (by omega)]

theorem Rep.realloc {h : Heap} {A : Abs} (r : Rep h A) {b : Blk} (hb : b ∈ A.blocks)
    (hba : b.addr ∈ A.al) (n1 : Nat) (hv : ValidSize n1) :
    ∃ q h1, mm_realloc h (b.addr + 24) n1 = some (q, h1) ∧
      (h1.enomem = false → ∃ hm A1 A2, mm_malloc h n1 = some (q, hm) ∧
        MallocPost h A n1 q hm A1 ∧ MStep (ALIGN n1) A A1 ∧
        h1 = mm_free (memcpy hm q (b.addr + 24) (min n1 b.size)) (b.addr + 24) ∧
        Rep (memcpy hm q (b.addr + 24) (min n1 b.size)) A1 ∧
        FreePost (memcpy hm q (b.addr + 24) (min n1 b.size)) A1 b.addr h1 A2 ∧
        FStep b.addr A1 A2) := by
  have c := r.toCore
  have bb := c.blk hb
  have hW := c.brk_lt
  have hbf : b.free = false := r.alloc_untagged hb hba
  obtain ⟨q, hm, e1, hpost⟩ := r.malloc n1 hv
  have e8 : psub (b.addr + 24) SIZE_T_SIZE = b.addr + 16 := by
    rw [SIZE_T_SIZE_eq, psub_eq (by omega) (by omega)]; omega
  by_cases hen : hm.enomem = false
  · obtain ⟨A1, mp, ms⟩ := hpost hen
    obtain ⟨bq, hbq, eq, eal, s1, s2, f⟩ := mp.hdr
    have c1 := mp.rep.toCore
    have bbq := c1.blk hbq
    have hW1 := c1.brk_lt
    have hb1 : b ∈ A1.blocks := mp.keep b hb hba
    have hba1 : b.addr ∈ A1.al := by rw [eal]; exact List.mem_append_left _ hba
    have hq0 : q ≠ 0 := by omega
    have hcs : (if n1 < rd hm (psub (b.addr + 24) SIZE_T_SIZE) then n1
        else rd hm (psub (b.addr + 24) SIZE_T_SIZE)) = min n1 b.size := by
      rw [e8, rd, (c1.data b hb1).1, Blk.word, hbf]
      simp only [Bool.false_eq_true, if_false, Nat.add_zero]
      split_ifs with hlt
      · omega
      · omega
    have hre : mm_realloc h (b.addr + 24) n1 =
        some (q, mm_free (memcpy hm q (b.addr + 24) (min n1 b.size)) (b.addr + 24)) := by
      unfold mm_realloc
      rw [e1]
      simp only [hq0, if_false, hcs]
    have hceil : (min n1 b.size + 7) / 8 * 8 ≤ bq.size := by
      have := ALIGN_ceil hv
      have : (min n1 b.size + 7) / 8 * 8 ≤ (n1 + 7) / 8 * 8 := by
        have : min n1 b.size ≤ n1 := Nat.min_le_left _ _
        omega
      omega
    have hmin : min n1 b.size ≤ bq.size := by omega
    obtain ⟨g1, g2, g3, g4, g5⟩ := memcpy_fields hm q (b.addr + 24) (min n1 b.size)
    have r2 : Rep (memcpy hm q (b.addr + 24) (min n1 b.size)) A1 := by
      refine mp.rep.of_meta_eq g1 g2 g3 g4 g5 ?_
      intro a ha
      apply memcpy_frame _ _ _ _ (by omega)
      by_contra hn
      exact c1.meta_not_payload hbq (a := a) (by omega) (by omega) ha
    obtain ⟨A2, fp, fs⟩ := r2.free hb1 hba1
    refine ⟨q, _, hre, fun _ => ⟨hm, A1, A2, e1, mp, ms, rfl, r2, fp, fs⟩⟩
  · have hen1 : hm.enomem = true := by
      cases h5 : hm.enomem with
      | false => exact absurd h5 hen
      | true => rfl
    have hre : ∃ q1 h1, mm_realloc h (b.addr + 24) n1 = some (q1, h1) ∧ h1.enomem = true := by
      by_cases hq : q = 0
      · refine ⟨0, hm, ?_, hen1⟩
        simp [mm_realloc, e1, hq]
      · refine ⟨q, mm_free (memcpy hm q (b.addr + 24)
          (if n1 < rd hm (psub (b.addr + 24) SIZE_T_SIZE) then n1
            else rd hm (psub (b.addr + 24) SIZE_T_SIZE))) (b.addr + 24), ?_, ?_⟩
        · simp only [mm_realloc, e1, hq, if_false]
        · rw [mm_free_enomem, (memcpy_fields _ _ _ _).2.2.2.2, hen1]
    obtain ⟨q1, h1, e2, e3⟩ := hre
    refine ⟨q1, h1, e2, fun e4 => ?_⟩
    rw [e3] at e4
    exact Bool.noConfusion e4

/-! ## Invariants of the logical steps -/

theorem NoAdj_mid {pre post : List Blk} {b : Blk} :
    NoAdj (pre ++ b :: post) ↔ NoAdj pre ∧ NoAdj post ∧
      (∀ e ∈ pre.getLast?, ¬ (e.free = true ∧ b.free = true)) ∧
      (∀ d ∈ post.head?, ¬ (b.free = true ∧ d.free = true)) := by
  unfold NoAdj
  rw [List.chain'_append, List.chain'_cons']
  simp only [List.head?_cons, Option.mem_def, Option.some.injEq, forall_eq']
  tauto

theorem NoAdj_MStep {N : Nat} {A A1 : Abs} (st : MStep N A A1) (hn : NoAdj A.blocks) :
    NoAdj A1.blocks := by
  cases st with
  | reuse pre post b xs1 xs2 hbl hfl h1 h2 =>
    rw [hbl, NoAdj_mid] at hn
    show NoAdj (pre ++ ⟨b.addr, b.size, false⟩ :: post)
    rw [NoAdj_mid]
    refine ⟨hn.1, hn.2.1, ?_, ?_⟩
    · intro e _ hc; exact Bool.noConfusion hc.2
    · intro d _ hc; exact Bool.noConfusion hc.1
  | split pre post b hbl hbf hfree h2 =>
    rw [hbl, NoAdj_mid] at hn
    show NoAdj (pre ++ ⟨b.addr, b.size - N - 32, true⟩ ::
      ⟨b.addr + b.size - N, N, false⟩ :: post)
    rw [NoAdj_mid]
    refine ⟨hn.1, ?_, ?_, ?_⟩
    · have := (@NoAdj_mid [] post ⟨b.addr + b.size - N, N, false⟩).2
        ⟨List.chain'_nil, hn.2.1, by simp, by
          intro d _ hc; exact Bool.noConfusion hc.1⟩
      simpa using this
    · intro e he hc
      exact hn.2.2.1 e he ⟨hc.1, hfree⟩
    · intro d hd hc
      simp only [List.head?_cons, Option.mem_def, Option.some.injEq] at hd
      rw [← hd] at hc
      exact Bool.noConfusion hc.2
  | extend pre b xs1 xs2 hbl hfree hfl h2 =>
    rw [hbl, NoAdj_mid] at hn
    show NoAdj (pre ++ [⟨b.addr, N, false⟩])
    rw [NoAdj_mid]
    refine ⟨hn.1, hn.2.1, ?_, ?_⟩
    · intro e _ hc; exact Bool.noConfusion hc.2
    · intro d _ hc; exact Bool.noConfusion hc.1
  | append pre b hbl hfree =>
    show NoAdj (A.blocks ++ [⟨b.addr + 32 + b.size, N, false⟩])
    rw [NoAdj_mid]
    refine ⟨hn, List.chain'_nil, ?_, ?_⟩
    · intro e _ hc; exact Bool.noConfusion hc.2
    · intro d _ hc; exact Bool.noConfusion hc.1

theorem NoAdj_FStep {x : Nat} {A A1 : Abs} (st : FStep x A A1) (hn : NoAdj A.blocks) :
    NoAdj A1.blocks := by
  cases st with
  | nn pre post b xs1 xs2 hx hbl hal hbf hnx hpv =>
    rw [hbl, NoAdj_mid] at hn
    show NoAdj (pre ++ ⟨b.addr, b.size, decide (b.size ≠ 0)⟩ :: post)
    rw [NoAdj_mid]
    refine ⟨hn.1, hn.2.1, ?_, ?_⟩
    · intro e he hc
      rw [hpv e he] at hc
      exact Bool.noConfusion hc.1
    · intro d hd hc
      rw [hnx d hd] at hc
      exact Bool.noConfusion hc.2
  | fn pre post b d xs1 xs2 ys1 ys2 hx hbl hal hd hfl hpv =>
    rw [hbl, NoAdj_mid] at hn
    obtain ⟨n1, n2, n3, n4⟩ := hn
    have n5 := (@NoAdj_mid [] post d).1 (by simpa using n2)
    show NoAdj (pre ++ ⟨b.addr, b.size + 32 + d.size, true⟩ :: post)
    rw [NoAdj_mid]
    refine ⟨n1, n5.2.1, ?_, ?_⟩
    · intro e he hc
      rw [hpv e he] at hc
      exact Bool.noConfusion hc.1
    · intro z hz hc
      exact n5.2.2.2 z hz ⟨hd, hc.2⟩
  | nb pre post e b xs1 xs2 ys1 ys2 hx hbl hal he hfl hnx =>
    rw [hbl, NoAdj_mid] at hn
    obtain ⟨n1, n2, n3, n4⟩ := hn
    have n5 := (@NoAdj_mid [] post b).1 (by simpa using n2)
    show NoAdj (pre ++ ⟨e.addr, e.size + 32 + b.size, true⟩ :: post)
    rw [NoAdj_mid]
    refine ⟨n1, n5.2.1, ?_, ?_⟩
    · intro z hz hc
      exact n3 z hz ⟨hc.1, he⟩
    · intro z hz hc
      rw [hnx z hz] at hc
      exact Bool.noConfusion hc.2
  | fb pre post e b d xs1 xs2 ys1 ys2 zs1 zs2 hx hbl hal he hd hfl hfl2 =>
    rw [hbl, NoAdj_mid] at hn
    obtain ⟨n1, n2, n3, n4⟩ := hn
    have n5 := (@NoAdj_mid [] (d :: post) b).1 (by simpa using n2)
    have n6 := (@NoAdj_mid [] post d).1 (by simpa using n5.2.1)
    show NoAdj (pre ++ ⟨e.addr, e.size + 32 + (b.size + 32 + d.size), true⟩ :: post)
    rw [NoAdj_mid]
    refine ⟨n1, n6.2.1, ?_, ?_⟩
    · intro z hz hc
      exact n3 z hz ⟨hc.1, he⟩
    · intro z hz hc
      exact n6.2.2.2 z hz ⟨hd, hc.2⟩

theorem ZeroOnly_MStep {N lo : Nat} {A A1 : Abs} (hN : N ≠ 0) (st : MStep N A A1)
    (hz : ZeroOnly lo A.blocks) : ZeroOnly lo A1.blocks := by
  cases st with
  | reuse pre post b xs1 xs2 hbl hfl h1 h2 =>
    intro z hzm hs
    have hzm1 : z ∈ pre ++ ⟨b.addr, b.size, false⟩ :: post := hzm
    simp only [List.mem_append, List.mem_cons] at hzm1
    rcases hzm1 with e | e | e
    · exact hz z (by rw [hbl]; simp [e]) hs
    · rw [e] at hs ⊢
      exact hz b (by rw [hbl]; simp) hs
    · exact hz z (by rw [hbl]; simp [e]) hs
  | split pre post b hbl hbf hfree h2 =>
    intro z hzm hs
    have hzm1 : z ∈ pre ++ ⟨b.addr, b.size - N - 32, true⟩ ::
      ⟨b.addr + b.size - N, N, false⟩ :: post := hzm
    simp only [List.mem_append, List.mem_cons] at hzm1
    rcases hzm1 with e | e | e | e
    · exact hz z (by rw [hbl]; simp [e]) hs
    · rw [e] at hs; simp only at hs; omega
    · rw [e] at hs; exact absurd hs hN
    · exact hz z (by rw [hbl]; simp [e]) hs
  | extend pre b xs1 xs2 hbl hfree hfl h2 =>
    intro z hzm hs
    have hzm1 : z ∈ pre ++ [⟨b.addr, N, false⟩] := hzm
    simp only [List.mem_append, List.mem_singleton] at hzm1
    rcases hzm1 with e | e
    · exact hz z (by rw [hbl]; simp [e]) hs
    · rw [e] at hs; exact absurd hs hN
  | append pre b hbl hfree =>
    intro z hzm hs
    have hzm1 : z ∈ A.blocks ++ [⟨b.addr + 32 + b.size, N, false⟩] := hzm
    simp only [List.mem_append, List.mem_singleton] at hzm1
    rcases hzm1 with e | e
    · exact hz z e hs
    · rw [e] at hs; exact absurd hs hN

theorem ZeroOnly_FStep {x lo : Nat} {A A1 : Abs} (st : FStep x A A1)
    (hz : ZeroOnly lo A.blocks) : ZeroOnly lo A1.blocks := by
  cases st with
  | nn pre post b xs1 xs2 hx hbl hal hbf hnx hpv =>
    intro z hzm hs
    have hzm1 : z ∈ pre ++ ⟨b.addr, b.size, decide (b.size ≠ 0)⟩ :: post := hzm
    simp only [List.mem_append, List.mem_cons] at hzm1
    rcases hzm1 with e | e | e
    · exact hz z (by rw [hbl]; simp [e]) hs
    · rw [e] at hs ⊢
      exact hz b (by rw [hbl]; simp) hs
    · exact hz z (by rw [hbl]; simp [e]) hs
  | fn pre post b d xs1 xs2 ys1 ys2 hx hbl hal hd hfl hpv =>
    intro z hzm hs
    have hzm1 : z ∈ pre ++ ⟨b.addr, b.size + 32 + d.size, true⟩ :: post := hzm
    simp only [List.mem_append, List.mem_cons] at hzm1
    rcases hzm1 with e | e | e
    · exact hz z (by rw [hbl]; simp [e]) hs
    · rw [e] at hs; simp only at hs; omega
    · exact hz z (by rw [hbl]; simp [e]) hs
  | nb pre post e b xs1 xs2 ys1 ys2 hx hbl hal he hfl hnx =>
    intro z hzm hs
    have hzm1 : z ∈ pre ++ ⟨e.addr, e.size + 32 + b.size, true⟩ :: post := hzm
    simp only [List.mem_append, List.mem_cons] at hzm1
    rcases hzm1 with e1 | e1 | e1
    · exact hz z (by rw [hbl]; simp [e1]) hs
    · rw [e1] at hs; simp only at hs; omega
    · exact hz z (by rw [hbl]; simp [e1]) hs
  | fb pre post e b d xs1 xs2 ys1 ys2 zs1 zs2 hx hbl hal he hd hfl hfl2 =>
    intro z hzm hs
    have hzm1 : z ∈ pre ++ ⟨e.addr, e.size + 32 + (b.size + 32 + d.size), true⟩ :: post := hzm
    simp only [List.mem_append, List.mem_cons] at hzm1
    rcases hzm1 with e1 | e1 | e1
    · exact hz z (by rw [hbl]; simp [e1]) hs
    · rw [e1] at hs; simp only at hs; omega
    · exact hz z (by rw [hbl]; simp [e1]) hs

/-! ## The live list -/

theorem Live_malloc {h h1 : Heap} {A A1 : Abs} {n p : Nat} {L : List (Nat × Nat)}
    (hl : Live A L) (mp : MallocPost h A n p h1 A1) : Live A1 ((p, n) :: L) := by
  obtain ⟨b, hb, e1, e2, s1, s2, _⟩ := mp.hdr
  refine ⟨?_, ?_⟩
  · intro x
    rw [e2, List.mem_append, List.mem_singleton, hl.1 x]
    constructor
    · rintro (⟨m, hm⟩ | rfl)
      · exact ⟨m, List.mem_cons_of_mem _ hm⟩
      · exact ⟨n, by rw [e1]; exact List.mem_cons_self _ _⟩
    · rintro ⟨m, hm⟩
      rcases List.mem_cons.1 hm with e | e
      · right
        have := (Prod.mk.injEq _ _ _ _ ▸ e : x + 24 = p ∧ m = n).1
        omega
      · exact Or.inl ⟨m, e⟩
  · intro q m hq
    rcases List.mem_cons.1 hq with e | e
    · obtain ⟨rfl, rfl⟩ := (Prod.mk.injEq _ _ _ _ ▸ e : q = p ∧ m = n)
      exact ⟨b, hb, e1, s1, s2⟩
    · obtain ⟨d, hd, f1, f2, f3⟩ := hl.2 q m e
      have hda : d.addr ∈ A.al := (hl.1 d.addr).2 ⟨m, by rw [f1]; exact e⟩
      exact ⟨d, mp.keep d hd hda, f1, f2, f3⟩

theorem Live_free {h h1 : Heap} {A A1 : Abs} {x : Nat} {L : List (Nat × Nat)}
    (hl : Live A L) (r : Rep h A) (fp : FreePost h A x h1 A1) :
    Live A1 (L.filter fun e => decide (e.1 ≠ x + 24)) := by
  obtain ⟨xs1, xs2, e1, e2⟩ := fp.al
  have hnd := (List.nodup_append.1 r.toCore.nodup).1
  rw [e1] at hnd
  have hx : x ∉ xs1 ++ xs2 := erase_mid_not hnd
  refine ⟨?_, ?_⟩
  · intro y
    rw [e2]
    constructor
    · intro hy
      have hne : y ≠ x := fun e => hx (e ▸ hy)
      obtain ⟨m, hm⟩ := (hl.1 y).1 (by rw [e1]; exact erase_mid_sub hy)
      refine ⟨m, List.mem_filter.2 ⟨hm, ?_⟩⟩
      simp only [ne_eq, decide_not, Bool.not_eq_true', decide_eq_false_iff_not]
      omega
    · rintro ⟨m, hm⟩
      obtain ⟨hm1, hm2⟩ := List.mem_filter.1 hm
      simp only [ne_eq, decide_not, Bool.not_eq_true', decide_eq_false_iff_not] at hm2
      have := (hl.1 y).2 ⟨m, hm1⟩
      rw [e1] at this
      exact erase_mid_mem this (by omega)
  · intro q m hq
    obtain ⟨hm1, hm2⟩ := List.mem_filter.1 hq
    simp only [ne_eq, decide_not, Bool.not_eq_true', decide_eq_false_iff_not] at hm2
    obtain ⟨d, hd, f1, f2, f3⟩ := hl.2 q m hm1
    have hda : d.addr ∈ A.al := (hl.1 d.addr).2 ⟨m, by rw [f1]; exact hm1⟩
    exact ⟨d, fp.keep d hd hda (by omega), f1, f2, f3⟩

/-! ## The invariant holds in every reachable heap -/

theorem ALIGN_pos {n : Nat} (hv : ValidSize n) (hn : 1 ≤ n) : ALIGN n ≠ 0 := by
  have := ALIGN_of_valid hv
  omega

theorem ReachS.inv {S : Nat → Prop} (hS : ∀ n, S n → ValidSize n) {h : Heap}
    {L : List (Nat × Nat)} (hr : ReachS S h L) :
    ∃ A, Rep h A ∧ Live A L ∧ NoAdj A.blocks ∧
      ((∀ n, S n → 1 ≤ n) → ZeroOnly h.lo A.blocks) := by
  induction hr with
  | init h0 hf hok =>
    refine ⟨_, mm_init_rep h0 hf hok, ?_, ?_, ?_⟩
    · refine ⟨?_, ?_⟩
      · intro x; simp
      · intro p n hp; simp at hp
    · exact List.chain'_singleton _
    · intro _ b hb hs
      simp only [List.mem_singleton] at hb
      rw [hb]
      have hc : h0.brk + 80 ≤ h0.cap := by
        by_contra hn
        have := (mm_init_fail h0 hn).1
        rw [this] at hok
        exact Bool.noConfusion hok
      rw [(mm_init_fields h0 hc).2.1]
  | malloc h h1 L n p _ hs hm hen ih =>
    obtain ⟨A, r, hl, hna, hz⟩ := ih
    obtain ⟨p1, h2, e, post⟩ := r.malloc n (hS n hs)
    rw [hm] at e
    obtain ⟨rfl, rfl⟩ := (Prod.mk.injEq _ _ _ _ ▸ Option.some.inj e : p = p1 ∧ h1 = h2)
    obtain ⟨A1, mp, ms⟩ := post hen
    refine ⟨A1, mp.rep, Live_malloc hl mp, NoAdj_MStep ms hna, fun hp => ?_⟩
    rw [mp.lo]
    exact ZeroOnly_MStep (ALIGN_pos (hS n hs) (hp n hs)) ms (hz hp)
  | free h L p n _ hp ih =>
    obtain ⟨A, r, hl, hna, hz⟩ := ih
    obtain ⟨b, hb, e1, _, _⟩ := hl.2 p n hp
    have hba : b.addr ∈ A.al := (hl.1 b.addr).2 ⟨n, by rw [e1]; exact hp⟩
    obtain ⟨A1, fp, fs⟩ := r.free hb hba
    rw [← e1]
    refine ⟨A1, fp.rep, Live_free hl r fp, NoAdj_FStep fs hna, fun hq => ?_⟩
    rw [fp.lo]
    exact ZeroOnly_FStep fs (hz hq)
  | realloc h h1 L p n n1 q _ hp hs hm hen ih =>
    obtain ⟨A, r, hl, hna, hz⟩ := ih
    obtain ⟨b, hb, e1, _, _⟩ := hl.2 p n hp
    have hba : b.addr ∈ A.al := (hl.1 b.addr).2 ⟨n, by rw [e1]; exact hp⟩
    obtain ⟨q1, h2, e, post⟩ := r.realloc hb hba n1 (hS n1 hs)
    rw [e1, hm] at e
    obtain ⟨rfl, rfl⟩ := (Prod.mk.injEq _ _ _ _ ▸ Option.some.inj e : q = q1 ∧ h1 = h2)
    obtain ⟨hmid, A1, A2, _, mp, ms, _, r2, fp, fs⟩ := post hen
    obtain ⟨bq, hbq, f1, f2, _, _, _⟩ := mp.hdr
    have hnd := (List.nodup_append.1 mp.rep.toCore.nodup).1
    rw [f2] at hnd
    have hqp : q ≠ p := by
      intro e2
      have : bq.addr = b.addr := by omega
      rw [List.nodup_append] at hnd
      exact hnd.2.2 (this ▸ hba) (List.mem_singleton.2 rfl)
    have hl2 := Live_free (Live_malloc hl mp) r2 fp
    rw [e1, List.filter_cons] at hl2
    simp only [ne_eq, hqp, not_false_eq_true, decide_True, if_true] at hl2
    refine ⟨A2, fp.rep, ?_, NoAdj_FStep fs (NoAdj_MStep ms hna), fun hq => ?_⟩
    · simpa using hl2
    · rw [fp.lo, (memcpy_fields _ _ _ _).1, mp.lo]
      exact ZeroOnly_FStep fs (ZeroOnly_MStep (ALIGN_pos (hS n1 hs) (hq n1 hs)) ms (hz hq))

theorem Reach.rep_inv {h : Heap} {L : List (Nat × Nat)} (hr : Reach h L) :
    ∃ A, Rep h A ∧ Live A L ∧ NoAdj A.blocks :=
  let ⟨A, r, l, n, _⟩ := ReachS.inv (fun _ hn => hn) hr
  ⟨A, r, l, n⟩

theorem ReachS.mono {S T : Nat → Prop} (hST : ∀ n, S n → T n) {h : Heap}
    {L : List (Nat × Nat)} (hr : ReachS S h L) : ReachS T h L := by
  induction hr with
  | init h0 hf hok => exact ReachS.init h0 hf hok
  | malloc h h1 L n p _ hs hm hen ih => exact ReachS.malloc h h1 L n p ih (hST n hs) hm hen
  | free h L p n _ hp ih => exact ReachS.free h L p n ih hp
  | realloc h h1 L p n n1 q _ hp hs hm hen ih =>
    exact ReachS.realloc h h1 L p n n1 q ih hp (hST n1 hs) hm hen

/-! ## The physical walk -/

theorem physFrom_tiles {h : Heap} (bs : List Blk) (s fuel : Nat) (ht : Tiles s bs h.brk)
    (hd : ∀ b ∈ bs, payloadSize h b.addr = b.size) (hf : bs.length < fuel) :
    physFrom h fuel s = some (bs.map Blk.addr) := by
  induction bs generalizing s fuel with
  | nil =>
    cases fuel with
    | zero => simp at hf
    | succ f =>
      simp only [Tiles] at ht
      simp [physFrom, ht]
  | cons b r ih =>
    cases fuel with
    | zero => simp at hf
    | succ f =>
      obtain ⟨h1, h2, h3⟩ := ht
      have hle := Tiles_le h3
      have hb := hd b (by simp)
      subst h1
      rw [physFrom, if_neg (by omega), if_neg (by omega), hb]
      have : b.addr + HEADER_SIZE + b.size + FOOTER_SIZE = b.addr + 32 + b.size := by
        simp only [HEADER_SIZE, FOOTER_SIZE]; omega
      rw [this, ih _ f h3 (fun d hd1 => hd d (List.mem_cons_of_mem _ hd1))
        (by simpa using hf)]
      simp

theorem Tiles_length {s e : Nat} {bs : List Blk} (ht : Tiles s bs e) :
    s + 32 * bs.length ≤ e := by
  induction bs generalizing s with
  | nil => simp only [Tiles] at ht; simp [ht]
  | cons b r ih =>
    obtain ⟨h1, _, h3⟩ := ht
    have := ih h3
    simp only [List.length_cons]
    omega

theorem Core.blocks_length {h : Heap} {A : Abs} (c : Core h A) :
    A.blocks.length < h.brk + 1 := by
  have := Tiles_length c.tiles
  omega

theorem Core.physBlocks_eq {h : Heap} {A : Abs} (c : Core h A) :
    physBlocks h = some (A.blocks.map Blk.addr) := by
  unfold physBlocks
  have : h.lo + 2 * HEADER_SIZE = h.lo + 48 := by simp [HEADER_SIZE]
  rw [this]
  exact physFrom_tiles A.blocks _ _ c.tiles (fun b hb => (c.rd_size hb).2.1) c.blocks_length

/-! ## The block `mm_free` leaves -/

theorem Core.next_cond {h : Heap} {A : Abs} (c : Core h A) {pre post : List Blk} {k : Blk}
    (hbl : A.blocks = pre ++ k :: post) (hu : ∀ d ∈ post.head?, d.free = false) :
    getNextPhyBlk h k.addr = 0 ∨ tagBit (h_size h (getNextPhyBlk h k.addr)) = 0 := by
  cases post with
  | nil => exact Or.inl (c.next_none hbl)
  | cons d rest =>
    obtain ⟨np1, -, -⟩ := c.next_phy hbl
    have hd : d ∈ A.blocks := by rw [hbl]; simp
    right
    rw [np1, (c.rd_size hd).2.2, hu d (by simp)]
    rfl

theorem Core.prev_cond {h : Heap} {A : Abs} (c : Core h A) {pre post : List Blk} {k : Blk}
    (hbl : A.blocks = pre ++ k :: post) (hu : ∀ e ∈ pre.getLast?, e.free = false) :
    getPrevPhyBlk h k.addr = 0 ∨ tagBit (h_size h (getPrevPhyBlk h k.addr)) = 0 := by
  rcases List.eq_nil_or_concat pre with h0 | ⟨init, e, h0⟩
  · rw [h0] at hbl
    exact Or.inl (c.prev_none hbl)
  · have hbl1 : A.blocks = init ++ e :: k :: post := by rw [hbl, h0]; simp
    obtain ⟨pp1, -, -⟩ := c.prev_phy hbl1
    have he : e ∈ A.blocks := by rw [hbl1]; simp
    right
    rw [pp1, (c.rd_size he).2.2, hu e (by rw [h0]; simp)]
    rfl

theorem survivorOf_self {h : Heap} {x : Nat}
    (hp : getPrevPhyBlk h x = 0 ∨ tagBit (h_size h (getPrevPhyBlk h x)) = 0) :
    survivorOf h x = x := by
  unfold survivorOf
  rw [if_neg]
  intro hc
  rcases hp with hp | hp
  · exact hc.1 hp
  · exact hc.2 hp

theorem spanEnd_self {h : Heap} {x : Nat}
    (hn : getNextPhyBlk h x = 0 ∨ tagBit (h_size h (getNextPhyBlk h x)) = 0) :
    spanEnd h x = x + HEADER_SIZE + payloadSize h x + FOOTER_SIZE := by
  unfold spanEnd
  rw [if_neg]
  intro hc
  rcases hn with hn | hn
  · exact hc.1 hn
  · exact hc.2 hn

theorem Core.survivorOf_prev {h : Heap} {A : Abs} (c : Core h A) {pre post : List Blk}
    {e k : Blk} (hbl : A.blocks = pre ++ e :: k :: post) (he : e.free = true) :
    survivorOf h k.addr = e.addr := by
  obtain ⟨pp1, -, pp3⟩ := c.prev_phy hbl
  have hein : e ∈ A.blocks := by rw [hbl]; simp
  unfold survivorOf
  rw [pp1, if_pos]
  refine ⟨pp3, ?_⟩
  rw [(c.rd_size hein).2.2, he]
  decide

theorem Core.spanEnd_next {h : Heap} {A : Abs} (c : Core h A) {pre post : List Blk}
    {k d : Blk} (hbl : A.blocks = pre ++ k :: d :: post) (hd : d.free = true) :
    spanEnd h k.addr = k.addr + 32 + k.size + 24 + d.size + 8 := by
  obtain ⟨np1, np2, np3⟩ := c.next_phy hbl
  have hdin : d ∈ A.blocks := by rw [hbl]; simp
  unfold spanEnd
  rw [np1, if_pos, (c.rd_size hdin).2.1, np2]
  · rfl
  · refine ⟨np3, ?_⟩
    rw [(c.rd_size hdin).2.2, hd]
    decide

theorem NoAdj_after {pre post : List Blk} {d : Blk} (hn : NoAdj (pre ++ d :: post))
    (hd : d.free = true) : ∀ y ∈ post.head?, y.free = false := by
  intro y hy
  have := (NoAdj_mid.1 hn).2.2.2 y hy
  cases hf : y.free with
  | false => rfl
  | true => exact absurd ⟨hd, hf⟩ this

theorem NoAdj_before {pre post : List Blk} {e : Blk} (hn : NoAdj (pre ++ e :: post))
    (he : e.free = true) : ∀ y ∈ pre.getLast?, y.free = false := by
  intro y hy
  have := (NoAdj_mid.1 hn).2.2.1 y hy
  cases hf : y.free with
  | false => rfl
  | true => exact absurd ⟨hf, he⟩ this

theorem survivor_of_rep {h h1 : Heap} {x : Nat} {pre post : List Blk} {s : Blk}
    {al ys : List Nat} (r1 : Rep h1 ⟨pre ++ s :: post, al, ys ++ [s.addr]⟩)
    (hsv : survivorOf h x = s.addr) (hse : spanEnd h x = s.addr + 32 + s.size)
    (hp : ∀ e ∈ pre.getLast?, e.free = false) (hn : ∀ d ∈ post.head?, d.free = false)
    (hsub : ys.Sublist (freeList h)) :
    ∃ ys, freeList h1 = ys ++ [survivorOf h x] ∧ ys.Sublist (freeList h) ∧
      survivorOf h x + HEADER_SIZE + payloadSize h1 (survivorOf h x) + FOOTER_SIZE =
        spanEnd h x ∧
      (getPrevPhyBlk h1 (survivorOf h x) = 0 ∨
        tagBit (h_size h1 (getPrevPhyBlk h1 (survivorOf h x))) = 0) ∧
      (getNextPhyBlk h1 (survivorOf h x) = 0 ∨
        tagBit (h_size h1 (getNextPhyBlk h1 (survivorOf h x))) = 0) := by
  have c1 := r1.toCore
  have hs : s ∈ (⟨pre ++ s :: post, al, ys ++ [s.addr]⟩ : Abs).blocks := by simp
  rw [hsv, hse]
  refine ⟨ys, c1.freeList_eq, hsub, ?_, c1.prev_cond rfl hp, c1.next_cond rfl hn⟩
  rw [(c1.rd_size hs).2.1]
  unfold HEADER_SIZE FOOTER_SIZE
  omega

theorem Rep.free_survivor {h : Heap} {A : Abs} (r : Rep h A) (hna : NoAdj A.blocks) {b : Blk}
    (hb : b ∈ A.blocks) (hba : b.addr ∈ A.al) :
    ∃ ys, freeList (mm_free h (b.addr + 24)) = ys ++ [survivorOf h b.addr] ∧
      ys.Sublist (freeList h) ∧
      survivorOf h b.addr + HEADER_SIZE +
          payloadSize (mm_free h (b.addr + 24)) (survivorOf h b.addr) + FOOTER_SIZE =
        spanEnd h b.addr ∧
      (getPrevPhyBlk (mm_free h (b.addr + 24)) (survivorOf h b.addr) = 0 ∨
        tagBit (h_size (mm_free h (b.addr + 24))
          (getPrevPhyBlk (mm_free h (b.addr + 24)) (survivorOf h b.addr))) = 0) ∧
      (getNextPhyBlk (mm_free h (b.addr + 24)) (survivorOf h b.addr) = 0 ∨
        tagBit (h_size (mm_free h (b.addr + 24))
          (getNextPhyBlk (mm_free h (b.addr + 24)) (survivorOf h b.addr))) = 0) := by
  have c := r.toCore
  obtain ⟨pre, post, hbl⟩ := List.append_of_mem hb
  obtain ⟨xs1, xs2, hal⟩ := List.append_of_mem hba
  have hpay : payloadSize h b.addr = b.size := (c.rd_size hb).2.1
  rcases head_untagged_or post with hn | ⟨d, rest, hpost, hd⟩ <;>
    rcases last_untagged_or pre with hp | ⟨init, e, hpre, he⟩
  · have fp := r.free_nn hbl hal hn hp
    refine survivor_of_rep (s := ⟨b.addr, b.size, decide (b.size ≠ 0)⟩) fp.rep
      (survivorOf_self (c.prev_cond hbl hp)) ?_ hp hn ?_
    · rw [spanEnd_self (c.next_cond hbl hn), hpay]
      unfold HEADER_SIZE FOOTER_SIZE
      simp only
      omega
    · rw [c.freeList_eq]
  · subst hpre
    have hbl1 : A.blocks = init ++ e :: b :: post := by simp [hbl]
    have hein : e ∈ A.blocks := by rw [hbl1]; simp
    obtain ⟨ys1, ys2, hfl⟩ := List.append_of_mem (r.tagF e hein he)
    have fp := r.free_nb hbl1 hal he hfl hn
    obtain ⟨-, pp2, -⟩ := c.prev_phy hbl1
    have hsv : survivorOf h b.addr = e.addr := c.survivorOf_prev hbl1 he
    refine survivor_of_rep (s := ⟨e.addr, e.size + 32 + b.size, true⟩) fp.rep
      hsv ?_ (NoAdj_before (hbl1 ▸ hna) he) hn ?_
    · rw [spanEnd_self (c.next_cond hbl hn), hpay]
      unfold HEADER_SIZE FOOTER_SIZE
      simp only
      omega
    · rw [c.freeList_eq, hfl]
      exact List.Sublist.append (List.Sublist.refl _) (List.sublist_cons_self _ _)
  · subst hpost
    have hdin : d ∈ A.blocks := by rw [hbl]; simp
    obtain ⟨ys1, ys2, hfl⟩ := List.append_of_mem (r.tagF d hdin hd)
    have fp := r.free_fn hbl hal hd hfl hp
    have hbl2 : A.blocks = (pre ++ [b]) ++ d :: rest := by simp [hbl]
    refine survivor_of_rep (s := ⟨b.addr, b.size + 32 + d.size, true⟩) fp.rep
      (survivorOf_self (c.prev_cond hbl hp)) ?_ hp (NoAdj_after (hbl2 ▸ hna) hd) ?_
    · rw [c.spanEnd_next hbl hd]
      simp only
      omega
    · rw [c.freeList_eq, hfl]
      exact List.Sublist.append (List.Sublist.refl _) (List.sublist_cons_self _ _)
  · subst hpost hpre
    have hbl1 : A.blocks = init ++ e :: b :: d :: rest := by simp [hbl]
    have hbl2 : A.blocks = (init ++ [e, b]) ++ d :: rest := by simp [hbl]
    have hein : e ∈ A.blocks := by rw [hbl1]; simp
    have hdin : d ∈ A.blocks := by rw [hbl1]; simp
    obtain ⟨ys1, ys2, hfl⟩ := List.append_of_mem (r.tagF d hdin hd)
    have hne : e.addr ≠ d.addr := by
      intro e1
      have := Tiles_addr_inj c.tiles hein hdin e1
      subst this
      obtain ⟨n1, n2, _⟩ := c.next_phy (show A.blocks = init ++ e :: b :: (e :: rest) from hbl1)
      obtain ⟨_, n4, _⟩ := c.next_phy
        (show A.blocks = (init ++ [e]) ++ b :: e :: rest by simp [hbl1])
      omega
    have hefl := r.tagF e hein he
    rw [hfl] at hefl
    obtain ⟨zs1, zs2, hfl2⟩ := List.append_of_mem (erase_mid_mem hefl hne)
    have fp := r.free_fb hbl1 hal he hd hfl hfl2
    obtain ⟨-, pp2, -⟩ := c.prev_phy hbl1
    have hsv : survivorOf h b.addr = e.addr := c.survivorOf_prev hbl1 he
    refine survivor_of_rep (s := ⟨e.addr, e.size + 32 + (b.size + 32 + d.size), true⟩) fp.rep
      hsv ?_ (NoAdj_before (hbl1 ▸ hna) he)
      (NoAdj_after (hbl2 ▸ hna) hd) ?_
    · rw [c.spanEnd_next hbl hd]
      simp only
      omega
    · rw [c.freeList_eq, hfl]
      have s1 : (zs1 ++ zs2).Sublist (ys1 ++ ys2) := by
        rw [hfl2]
        exact List.Sublist.append (List.Sublist.refl _) (List.sublist_cons_self _ _)
      exact s1.trans (List.Sublist.append (List.Sublist.refl _) (List.sublist_cons_self _ _))

theorem Rep.survivor_code {h : Heap} {A : Abs} (r : Rep h A) {b : Blk} (hb : b ∈ A.blocks)
    (hba : b.addr ∈ A.al) :
    (freeBwd (freeFwd (removeFromList h b.addr) b.addr)).1 = survivorOf h b.addr := by
  have c := r.toCore
  have hbf : b.free = false := r.alloc_untagged hb hba
  obtain ⟨pre, post, hbl⟩ := List.append_of_mem hb
  obtain ⟨xs1, xs2, hal⟩ := List.append_of_mem hba
  obtain ⟨m1, st1, -⟩ := r.unlink hal
  rcases head_untagged_or post with hn | ⟨d, rest, hpost, hd⟩ <;>
    rcases last_untagged_or pre with hp | ⟨init, e, hpre, he⟩
  · have e1 := m1.core.freeFwd_skip (A := ⟨A.blocks, xs1 ++ xs2, A.fl⟩) hbl hn
    have e2 := m1.core.freeBwd_skip (A := ⟨A.blocks, xs1 ++ xs2, A.fl⟩) hbl hp
    rw [e1, e2]
    exact (survivorOf_self (c.prev_cond hbl hp)).symm
  · subst hpre
    have hbl1 : A.blocks = init ++ e :: b :: post := by simp [hbl]
    have e1 := m1.core.freeFwd_skip (A := ⟨A.blocks, xs1 ++ xs2, A.fl⟩) hbl hn
    have e2 := m1.core.freeBwd_merge (A := ⟨A.blocks, xs1 ++ xs2, A.fl⟩) hbl1 he
    rw [e1, e2, mm_coalesce_fst]
    exact (c.survivorOf_prev hbl1 he).symm
  · subst hpost
    have hdin : d ∈ A.blocks := by rw [hbl]; simp
    obtain ⟨ys1, ys2, hfl⟩ := List.append_of_mem (r.tagF d hdin hd)
    have e1 := m1.core.freeFwd_merge (A := ⟨A.blocks, xs1 ++ xs2, A.fl⟩) hbl hd
    obtain ⟨-, m2, -, -, -⟩ :=
      m1.fwd (A := ⟨A.blocks, xs1 ++ xs2, A.fl⟩) st1 hbl rfl hbf hfl
    have e2 := m2.core.freeBwd_skip
      (A := ⟨pre ++ ⟨b.addr, b.size + 32 + d.size, false⟩ :: rest, xs1 ++ xs2, ys1 ++ ys2⟩)
      (k := ⟨b.addr, b.size + 32 + d.size, false⟩) rfl hp
    rw [e1, mm_coalesce_pair, e2]
    exact (survivorOf_self (c.prev_cond hbl hp)).symm
  · subst hpost hpre
    have hbl1 : A.blocks = init ++ e :: b :: d :: rest := by simp [hbl]
    have hdin : d ∈ A.blocks := by rw [hbl]; simp
    obtain ⟨ys1, ys2, hfl⟩ := List.append_of_mem (r.tagF d hdin hd)
    have e1 := m1.core.freeFwd_merge (A := ⟨A.blocks, xs1 ++ xs2, A.fl⟩) hbl hd
    obtain ⟨-, m2, -, -, -⟩ :=
      m1.fwd (A := ⟨A.blocks, xs1 ++ xs2, A.fl⟩) st1 hbl rfl hbf hfl
    have hbl2 : (init ++ [e]) ++ (⟨b.addr, b.size + 32 + d.size, false⟩ : Blk) :: rest =
        init ++ e :: ⟨b.addr, b.size + 32 + d.size, false⟩ :: rest := by simp
    rw [hbl2] at m2
    have e2 := m2.core.freeBwd_merge
      (A := ⟨init ++ e :: ⟨b.addr, b.size + 32 + d.size, false⟩ :: rest, xs1 ++ xs2,
        ys1 ++ ys2⟩) (k := ⟨b.addr, b.size + 32 + d.size, false⟩) rfl he
    rw [e1, mm_coalesce_pair, e2, mm_coalesce_fst]
    exact (c.survivorOf_prev hbl1 he).symm

/-! ## Concrete reachable heaps -/

theorem some_pair_of {o : Option (Nat × Heap)} {p : Nat} {d : Nat × Heap}
    (h1 : o.isSome = true) (h2 : (o.getD d).1 = p) : o = some (p, (o.getD d).2) := by
  cases o with
  | none => simp at h1
  | some r =>
    simp only [Option.getD_some] at h2 ⊢
    rw [← h2]

theorem fresh_heap0 : Fresh heap0 := by
  unfold Fresh heap0 W
  decide

theorem valid_small {n : Nat} (hn : n ≤ 1000000) : ValidSize n := by
  unfold ValidSize W; omega

theorem reach_heapI : Reach heapI [] :=
  ReachS.init heap0 fresh_heap0 (by decide)

theorem malloc_heapI : mm_malloc heapI 16 = some (1072, heapA) :=
  some_pair_of (by decide) (by decide)

theorem reach_heapA : Reach heapA [(1072, 16)] :=
  ReachS.malloc heapI heapA [] 16 1072 reach_heapI (valid_small (by decide)) malloc_heapI
    (by decide)

theorem malloc_heapA : mm_malloc heapA 16 = some (1120, heapAB) :=
  some_pair_of (by decide) (by decide)

theorem reach_heapAB : Reach heapAB [(1120, 16), (1072, 16)] :=
  ReachS.malloc heapA heapAB [(1072, 16)] 16 1120 reach_heapA (valid_small (by decide))
    malloc_heapA (by decide)

theorem reach_heapZ : Reach heapZ [] :=
  ReachS.free _ [(1072, 0)] 1072 0
    (ReachS.malloc heapI _ [] 0 1072 reach_heapI (valid_small (by decide))
      (some_pair_of (by decide) (by decide)) (by decide))
    (by decide)

theorem reach_heapZZ : Reach heapZZ [(1104, 0), (1072, 0)] :=
  ReachS.malloc _ heapZZ [(1072, 0)] 0 1104
    (ReachS.malloc heapI _ [] 0 1072 reach_heapI (valid_small (by decide))
      (some_pair_of (by decide) (by decide)) (by decide))
    (valid_small (by decide)) (some_pair_of (by decide) (by decide)) (by decide)

theorem reach_heapZ8 : Reach heapZ8 [(1104, 8), (1072, 0)] :=
  ReachS.malloc _ heapZ8 [(1072, 0)] 8 1104
    (ReachS.malloc heapI _ [] 0 1072 reach_heapI (valid_small (by decide))
      (some_pair_of (by decide) (by decide)) (by decide))
    (valid_small (by decide)) (some_pair_of (by decide) (by decide)) (by decide)

theorem reach_heapA5 :
    Reach heapA5 [(1264, 16), (1216, 16), (1168, 16), (1120, 16), (1072, 16)] :=
  ReachS.malloc _ heapA5 _ 16 1264
    (ReachS.malloc _ _ _ 16 1216
      (ReachS.malloc heapAB _ _ 16 1168 reach_heapAB (valid_small (by decide))
        (some_pair_of (by decide) (by decide)) (by decide))
      (valid_small (by decide)) (some_pair_of (by decide) (by decide)) (by decide))
    (valid_small (by decide)) (some_pair_of (by decide) (by decide)) (by decide)

theorem reach_heapA5f : Reach heapA5f [(1264, 16), (1168, 16)] :=
  ReachS.free _ _ 1120 16
    (ReachS.free _ _ 1216 16 (ReachS.free heapA5 _ 1072 16 reach_heapA5 (by decide))
      (by decide))
    (by decide)

/-! ## Heaps reached through an oversized request -/

theorem any_size {n : Nat} (h : n < W) : (fun n => n < W) n := h

theorem reachAny_of_reach {h : Heap} {L : List (Nat × Nat)} (hr : Reach h L) :
    ReachAny h L :=
  ReachS.mono (fun n hv => by unfold ValidSize at hv; show n < W; omega) hr

theorem reachAny_heapO32 : ReachAny heapO32 [(1120, W - 32), (1072, 16)] :=
  ReachS.malloc heapA heapO32 [(1072, 16)] (W - 32) 1120 (reachAny_of_reach reach_heapA)
    (any_size (by decide)) (some_pair_of (by decide) (by decide)) (by decide)

theorem reachAny_heapO32b : ReachAny heapO32b [(1072, 16)] :=
  ReachS.free heapO32 _ 1120 (W - 32) reachAny_heapO32 (by decide)

theorem reachAny_heapO8 : ReachAny heapO8 [(1120, W - 8), (1072, 16)] :=
  ReachS.malloc heapA heapO8 [(1072, 16)] (W - 8) 1120 (reachAny_of_reach reach_heapA)
    (any_size (by decide)) (some_pair_of (by decide) (by decide)) (by decide)

theorem malloc_heapO8 : mm_malloc heapO8 16 = some (1144, heapO8m) :=
  some_pair_of (by decide) (by decide)

theorem reachAny_heapO8b :
    ReachAny heapO8b [(1184, 8), (1144, 8), (1120, W - 8), (1072, 16)] :=
  ReachS.malloc _ heapO8b _ 8 1184
    (ReachS.malloc heapO8 _ _ 8 1144 reachAny_heapO8 (any_size (by decide))
      (some_pair_of (by decide) (by decide)) (by decide))
    (any_size (by decide)) (some_pair_of (by decide) (by decide)) (by decide)

theorem reachAny_heapO8c : ReachAny heapO8c [(1144, 8), (1072, 16)] :=
  ReachS.free _ _ 1120 (W - 8) (ReachS.free heapO8b _ 1184 8 reachAny_heapO8b (by decide))
    (by decide)

theorem reachAny_heapO24 : ReachAny heapO24 [(1120, W - 24), (1072, 16)] :=
  ReachS.malloc heapA heapO24 [(1072, 16)] (W - 24) 1120 (reachAny_of_reach reach_heapA)
    (any_size (by decide)) (some_pair_of (by decide) (by decide)) (by decide)

/-! ## Properties: heap invariants -/

theorem Core.footer_eq {h : Heap} {A : Abs} (c : Core h A) {b : Blk} (hb : b ∈ A.blocks) :
    footerOf h b.addr = b.addr := by
  have h1 := c.blk hb
  have h2 := c.brk_lt
  unfold footerOf
  rw [(c.rd_size hb).2.1]
  unfold HEADER_SIZE rd
  rw [padd_eq (a := b.addr) (b := 24) (by omega), padd_eq (by omega)]
  exact (c.data b hb).2

/-- C17 (as stated, refuted): after `mm_init(); a = mm_malloc(16);
b = mm_malloc(2^64 - 32)`, every growth granted, the rounded size plus header and
footer wraps to 0, so the arena end stays at 1096: the walk from
`lo + 2*HEADER_SIZE` visits only the block at 1048, whose footer word holds 1096
and not 1048, while the block at 1096 is on the allocated list and outside the
walk.  After `mm_init(); a = mm_malloc(16); b = mm_malloc(2^64 - 8)` the walk does
not land on the arena end. -/
theorem C17_oversized_breaks_tiling :
    ReachAny heapO32 [(1120, W - 32), (1072, 16)] ∧ physBlocks heapO32 = some [1048] ∧
    footerOf heapO32 1048 = 1096 ∧ allocList heapO32 = [1048, 1096] ∧ heapO32.brk = 1096 ∧
    ReachAny heapO8 [(1120, W - 8), (1072, 16)] ∧ physBlocks heapO8 = none :=
  ⟨reachAny_heapO32, by decide, by decide, by decide, by decide, reachAny_heapO8, by decide⟩

/-- C17 (amended): in every heap reachable by valid calls whose request sizes are
all at most `2^64 - 40`, walking from `lo + 2*HEADER_SIZE` in steps of
`HEADER_SIZE + (h_size & ~1) + FOOTER_SIZE` lands exactly on the arena end; every
header visited lies inside the arena, its masked payload size is a multiple of 8,
and the footer word at `header + HEADER_SIZE + (h_size & ~1)` holds the header's
address. -/
theorem C17_tiling_footers (h : Heap) (hr : Reachable h) :
    ∃ bs, physBlocks h = some bs ∧
      ∀ b ∈ bs, h.lo + 2 * HEADER_SIZE ≤ b ∧
        b + HEADER_SIZE + payloadSize h b + FOOTER_SIZE ≤ h.brk ∧
        payloadSize h b % 8 = 0 ∧ footerOf h b = b := by
  obtain ⟨L, hL⟩ := hr
  obtain ⟨A, r, -, -⟩ := Reach.rep_inv hL
  refine ⟨_, r.toCore.physBlocks_eq, ?_⟩
  intro b hb
  obtain ⟨d, hd, rfl⟩ := List.mem_map.1 hb
  have h1 := r.toCore.blk hd
  rw [(r.toCore.rd_size hd).2.1, r.toCore.footer_eq hd]
  unfold HEADER_SIZE FOOTER_SIZE
  exact ⟨by omega, by omega, h1.2.2.1, rfl⟩

theorem C17_tiling_footers_witness :
    Reachable heapAB ∧ ∃ bs, physBlocks heapAB = some bs ∧
      ∀ b ∈ bs, heapAB.lo + 2 * HEADER_SIZE ≤ b ∧
        b + HEADER_SIZE + payloadSize heapAB b + FOOTER_SIZE ≤ heapAB.brk ∧
        payloadSize heapAB b % 8 = 0 ∧ footerOf heapAB b = b :=
  ⟨⟨_, reach_heapAB⟩, C17_tiling_footers heapAB ⟨_, reach_heapAB⟩⟩

theorem Core.tags_chain {h : Heap} {A : Abs} (c : Core h A) (hn : NoAdj A.blocks) :
    List.Chain' (fun a b => ¬ (tagBit (h_size h a) = 1 ∧ tagBit (h_size h b) = 1))
      (A.blocks.map Blk.addr) := by
  rw [List.chain'_map]
  unfold NoAdj at hn
  rw [List.Chain'.iff_mem] at hn
  refine hn.imp ?_
  intro a b ⟨ha, hb, hab⟩ ⟨t1, t2⟩
  rw [(c.rd_size ha).2.2] at t1
  rw [(c.rd_size hb).2.2] at t2
  apply hab
  constructor
  · by_contra hc
    simp [hc] at t1
  · by_contra hc
    simp [hc] at t2

/-- C15 (as stated, refuted): after `mm_init(); p = mm_malloc(0); mm_free(p)` the
zero-payload block at 1048 is on the free list with its tag bit clear, because
`mm_free` sets the tag only when `h_size & ~1` is non-zero. -/
theorem C15_untagged_free_entry :
    Reachable heapZ ∧ 1048 ∈ freeList heapZ ∧ tagBit (h_size heapZ 1048) = 0 ∧
    ¬ ∀ b ∈ freeList heapZ, tagBit (h_size heapZ b) = 1 :=
  ⟨⟨_, reach_heapZ⟩, by decide, by decide, by decide⟩

/-- C15 (amended): in every heap reachable by valid calls every physical block is
on exactly one of the two lists, neither list repeats a block, every block on
the allocated list has tag bit 0, every block with tag bit 1 is on the free
list, and every block on the free list whose payload size is not zero has tag
bit 1. -/
theorem C15_tag_list_agreement (h : Heap) (hr : Reachable h) :
    ∃ bs, physBlocks h = some bs ∧
      (∀ b ∈ bs, (b ∈ allocList h ∨ b ∈ freeList h) ∧ ¬ (b ∈ allocList h ∧ b ∈ freeList h)) ∧
      (∀ b ∈ allocList h ++ freeList h, b ∈ bs) ∧
      (allocList h).Nodup ∧ (freeList h).Nodup ∧
      (∀ b ∈ allocList h, tagBit (h_size h b) = 0) ∧
      (∀ b ∈ bs, tagBit (h_size h b) = 1 → b ∈ freeList h) ∧
      (∀ b ∈ freeList h, payloadSize h b ≠ 0 → tagBit (h_size h b) = 1) := by
  obtain ⟨L, hL⟩ := hr
  obtain ⟨A, r, -, -⟩ := Reach.rep_inv hL
  have c := r.toCore
  have nd := List.nodup_append.1 c.nodup
  refine ⟨_, c.physBlocks_eq, ?_⟩
  rw [c.allocList_eq, c.freeList_eq]
  refine ⟨?_, ?_, nd.1, nd.2.1, ?_, ?_, ?_⟩
  · intro b hb
    obtain ⟨d, hd, rfl⟩ := List.mem_map.1 hb
    exact ⟨List.mem_append.1 (r.cover d hd), fun hh => nd.2.2 hh.1 hh.2⟩
  · intro b hb
    obtain ⟨d, hd, rfl⟩ := c.sub b hb
    exact List.mem_map_of_mem _ hd
  · intro b hb
    obtain ⟨d, hd, rfl⟩ := c.sub b (List.mem_append_left _ hb)
    rw [(c.rd_size hd).2.2, r.alloc_untagged hd hb]
    rfl
  · intro b hb ht
    obtain ⟨d, hd, rfl⟩ := List.mem_map.1 hb
    rw [(c.rd_size hd).2.2] at ht
    apply r.tagF d hd
    by_contra hc
    simp [hc] at ht
  · intro b hb hs
    obtain ⟨d, hd, rfl⟩ := c.sub b (List.mem_append_right _ hb)
    rw [(c.rd_size hd).2.1] at hs
    rw [(c.rd_size hd).2.2, r.tagS d hd hb hs]
    rfl

theorem C15_tag_list_agreement_witness :
    Reachable heapZ ∧ ∃ bs, physBlocks heapZ = some bs ∧
      (∀ b ∈ bs, (b ∈ allocList heapZ ∨ b ∈ freeList heapZ) ∧
        ¬ (b ∈ allocList heapZ ∧ b ∈ freeList heapZ)) ∧
      (∀ b ∈ allocList heapZ ++ freeList heapZ, b ∈ bs) ∧
      (allocList heapZ).Nodup ∧ (freeList heapZ).Nodup ∧
      (∀ b ∈ allocList heapZ, tagBit (h_size heapZ b) = 0) ∧
      (∀ b ∈ bs, tagBit (h_size heapZ b) = 1 → b ∈ freeList heapZ) ∧
      (∀ b ∈ freeList heapZ, payloadSize heapZ b ≠ 0 → tagBit (h_size heapZ b) = 1) :=
  ⟨⟨_, reach_heapZ⟩, C15_tag_list_agreement heapZ ⟨_, reach_heapZ⟩⟩

/-- C18 (as stated, refuted): after `mm_init(); mm_malloc(0); mm_malloc(0)` the
arena holds the blocks 1048 and 1080, and the block at 1080, built by `sbrkBlk`
for the second request, has payload size 0 although it is not at
`lo + 2*HEADER_SIZE = 1048`. -/
theorem C18_second_zero_block :
    Reachable heapZZ ∧ physBlocks heapZZ = some [1048, 1080] ∧
    payloadSize heapZZ 1080 = 0 ∧ 1080 ≠ heapZZ.lo + 2 * HEADER_SIZE :=
  ⟨⟨_, reach_heapZZ⟩, by decide, by decide, by decide⟩

/-- C18 (amended): in every heap reachable by valid calls none of which requests
zero bytes, every block whose masked payload size is 0 has its header at
`lo + 2*HEADER_SIZE`. -/
theorem C18_zero_payload_origin (h : Heap) (hr : ReachablePos h) :
    ∃ bs, physBlocks h = some bs ∧
      ∀ b ∈ bs, payloadSize h b = 0 → b = h.lo + 2 * HEADER_SIZE := by
  obtain ⟨L, hL⟩ := hr
  obtain ⟨A, r, -, -, hz⟩ := ReachS.inv (fun n hn => hn.2) hL
  refine ⟨_, r.toCore.physBlocks_eq, ?_⟩
  intro b hb hs
  obtain ⟨d, hd, rfl⟩ := List.mem_map.1 hb
  rw [(r.toCore.rd_size hd).2.1] at hs
  exact hz (fun n hn => hn.1) d hd hs

theorem reachPos_heapA : ReachS (fun n => 1 ≤ n ∧ ValidSize n) heapA [(1072, 16)] :=
  ReachS.malloc heapI heapA [] 16 1072 (ReachS.init heap0 fresh_heap0 (by decide))
    ⟨by decide, valid_small (by decide)⟩ malloc_heapI (by decide)

theorem C18_zero_payload_origin_witness :
    ReachablePos heapA ∧ ∃ bs, physBlocks heapA = some bs ∧
      ∀ b ∈ bs, payloadSize heapA b = 0 → b = heapA.lo + 2 * HEADER_SIZE :=
  ⟨⟨_, reachPos_heapA⟩, C18_zero_payload_origin heapA ⟨_, reachPos_heapA⟩⟩

/-- C10: on a fresh arena with room for 80 bytes, `mm_init` returns 0 and moves
the high mark up by exactly `3*HEADER_SIZE + FOOTER_SIZE = 80`; afterwards the
allocated sentinel at `lo` has `h_next = h_prev = lo` and the allocated list is
empty, the free list holds exactly the header at `lo + 48`, whose size field has
payload 0 and the free tag set, and the footer word at `lo + 72` holds
`lo + 48`. -/
theorem C10_initial_state (h0 : Heap) (hf : Fresh h0) (hc : h0.lo + 80 ≤ h0.cap) :
    (mm_init h0).1 = 0 ∧ (mm_init h0).2.lo = h0.lo ∧
    (mm_init h0).2.brk = h0.brk + (3 * HEADER_SIZE + FOOTER_SIZE) ∧
    h_next (mm_init h0).2 h0.lo = h0.lo ∧ h_prev (mm_init h0).2 h0.lo = h0.lo ∧
    allocList (mm_init h0).2 = [] ∧
    freeList (mm_init h0).2 = [h0.lo + 2 * HEADER_SIZE] ∧
    payloadSize (mm_init h0).2 (h0.lo + 2 * HEADER_SIZE) = 0 ∧
    tagBit (h_size (mm_init h0).2 (h0.lo + 2 * HEADER_SIZE)) = 1 ∧
    rd (mm_init h0).2 (h0.lo + 3 * HEADER_SIZE) = h0.lo + 2 * HEADER_SIZE := by
  have hbrk := hf.2.2.1
  have hcap := hf.2.2.2.1
  have hen := hf.2.2.2.2.2
  have fl := mm_init_fields h0 (by omega)
  have r := mm_init_rep h0 hf (by rw [fl.2.2.2.2.2]; exact hen)
  have c := r.toCore
  have hb : (⟨h0.lo + 48, 0, true⟩ : Blk) ∈
      (⟨[⟨h0.lo + 48, 0, true⟩], [], [h0.lo + 48]⟩ : Abs).blocks := List.mem_singleton.2 rfl
  have hs := c.rd_size hb
  have hd := (c.data _ hb).2
  have ra := c.ringA
  rw [fl.2.1] at ra
  have hl : Lnk (mm_init h0).2 h0.lo h0.lo := by
    unfold Ring at ra
    exact List.chain'_pair.1 ra
  have e8 : padd h0.lo 8 = h0.lo + 8 := padd_eq (by omega)
  refine ⟨fl.1, fl.2.1, fl.2.2.1, ?_, hl.2, c.allocList_eq, c.freeList_eq, hs.2.1, hs.2.2, hd⟩
  unfold h_next rd
  rw [e8]
  exact hl.1

theorem C10_initial_state_witness :
    Fresh heap0 ∧ heap0.lo + 80 ≤ heap0.cap ∧
    (mm_init heap0).1 = 0 ∧ (mm_init heap0).2.lo = heap0.lo ∧
    (mm_init heap0).2.brk = heap0.brk + (3 * HEADER_SIZE + FOOTER_SIZE) ∧
    h_next (mm_init heap0).2 heap0.lo = heap0.lo ∧
    h_prev (mm_init heap0).2 heap0.lo = heap0.lo ∧
    allocList (mm_init heap0).2 = [] ∧
    freeList (mm_init heap0).2 = [heap0.lo + 2 * HEADER_SIZE] ∧
    payloadSize (mm_init heap0).2 (heap0.lo + 2 * HEADER_SIZE) = 0 ∧
    tagBit (h_size (mm_init heap0).2 (heap0.lo + 2 * HEADER_SIZE)) = 1 ∧
    rd (mm_init heap0).2 (heap0.lo + 3 * HEADER_SIZE) = heap0.lo + 2 * HEADER_SIZE :=
  ⟨fresh_heap0, by decide, C10_initial_state heap0 fresh_heap0 (by decide)⟩

/-! ## Properties: results of `mm_malloc` -/

theorem Live.live_blk {A : Abs} {L : List (Nat × Nat)} (hl : Live A L) {p n : Nat}
    (hp : (p, n) ∈ L) : ∃ b ∈ A.blocks, b.addr + 24 = p ∧ b.addr ∈ A.al ∧
      ALIGN n ≤ b.size ∧ b.size < ALIGN n + 40 := by
  obtain ⟨b, hb, e, h1, h2⟩ := hl.2 p n hp
  refine ⟨b, hb, e, (hl.1 b.addr).2 ⟨n, ?_⟩, h1, h2⟩
  rw [e]; exact hp

theorem MallocPost.fresh {h h1 : Heap} {A A1 : Abs} {n p : Nat}
    (mp : MallocPost h A n p h1 A1) :
    ∃ b ∈ A1.blocks, b.addr + 24 = p ∧ b.addr ∉ A.al ∧ ALIGN n ≤ b.size ∧
      payloadSize h1 (p - 24) = b.size ∧ h1.lo + 72 ≤ p ∧ p + b.size + 8 ≤ h1.brk ∧
      p % 8 = 0 := by
  obtain ⟨b, hb, e, hal, h1', -, -⟩ := mp.hdr
  have nd := mp.rep.toCore.al_nodup
  rw [hal] at nd
  have hn : b.addr ∉ A.al := by
    intro hc
    have := (List.nodup_cons.1 nd).2
    rw [List.nodup_append] at this
    exact this.2.2 hc (List.mem_singleton.2 rfl)
  have hk := mp.rep.toCore.blk hb
  have hs := (mp.rep.toCore.rd_size hb).2.1
  refine ⟨b, hb, e, hn, h1', ?_, by omega, by omega, by omega⟩
  rw [← e, Nat.add_sub_cancel]
  exact hs

/-- C14 (as stated, refuted): with a provider whose `mem_heap_hi()` is one past
the end, the heap `mm_init` leaves is tiled by the single block 1048 with footer
at 1072, but `ALIGN_DOWN(mem_heap_hi())` is 1080, the arena end, and the word
there is not the header of the last block. -/
theorem C14_past_end_lookup :
    mem_heap_hi heapPI = heapPI.brk ∧ heapPI.lo % 8 = 0 ∧
    physBlocks heapPI = some [1048] ∧ footerOf heapPI 1048 = 1048 ∧
    padd (padd 1048 HEADER_SIZE) (payloadSize heapPI 1048) = 1072 ∧
    ALIGN_DOWN (mem_heap_hi heapPI) = 1080 ∧
    rd heapPI (ALIGN_DOWN (mem_heap_hi heapPI)) ≠ 1048 :=
  ⟨by decide, by decide, by decide, by decide, by decide, by decide, by decide⟩

/-- C14 (amended): in every well-formed heap whose provider reports
`mem_heap_hi()` as the address of the last committed byte, the address `sbrkBlk`
reads as the last footer, `ALIGN_DOWN(mem_heap_hi())`, is the footer address of
the physically last block, and the word read there is that block's header. -/
theorem C14_last_block_lookup (h : Heap) (A : Abs) (c : Core h A) :
    ∃ bs l, physBlocks h = some (bs ++ [l]) ∧
      ALIGN_DOWN (mem_heap_hi h) = l + HEADER_SIZE + payloadSize h l ∧
      rd h (ALIGN_DOWN (mem_heap_hi h)) = l := by
  obtain ⟨pre, b, hbl, hend, hrd⟩ := c.last
  have hb : b ∈ A.blocks := by rw [hbl]; simp
  refine ⟨pre.map Blk.addr, b.addr, ?_, ?_, hrd⟩
  · rw [c.physBlocks_eq, hbl]; simp
  · rw [(c.rd_size hb).2.1, ALIGN_DOWN_hi h c.hi c.brk_mod (by have := c.brk_ge; omega)]
    unfold HEADER_SIZE
    omega

theorem C14_last_block_lookup_witness :
    Core heapI ⟨[⟨heap0.lo + 48, 0, true⟩], [], [heap0.lo + 48]⟩ ∧
    ∃ bs l, physBlocks heapI = some (bs ++ [l]) ∧
      ALIGN_DOWN (mem_heap_hi heapI) = l + HEADER_SIZE + payloadSize heapI l ∧
      rd heapI (ALIGN_DOWN (mem_heap_hi heapI)) = l :=
  ⟨(mm_init_rep heap0 fresh_heap0 (by decide)).toCore,
    C14_last_block_lookup heapI _ (mm_init_rep heap0 fresh_heap0 (by decide)).toCore⟩

theorem fresh_heapFull : Fresh heapFull := by
  unfold Fresh heapFull W
  decide

theorem fresh_heapTwo : Fresh heapTwo := by
  unfold Fresh heapTwo W
  decide

theorem reach_heapFI : Reach heapFI [] :=
  ReachS.init heapFull fresh_heapFull (by decide)

theorem reach_heapT : Reach heapT [(1072, 16)] :=
  ReachS.free _ [(1120, 16), (1072, 16)] 1120 16
    (ReachS.malloc _ _ [(1072, 16)] 16 1120
      (ReachS.malloc _ _ [] 16 1072 (ReachS.init heapTwo fresh_heapTwo (by decide))
        (valid_small (by decide)) (some_pair_of (by decide) (by decide)) (by decide))
      (valid_small (by decide)) (some_pair_of (by decide) (by decide)) (by decide))
    (by decide)

/-- C7 (divergence): on the heap `mm_init` leaves in an arena that is at its
limit, no free-list block fits `mm_malloc(16)` and the growth request of
`sbrkBlk` fails, yet `mm_malloc` returns the non-null address 1072 and the arena
end is unchanged. -/
theorem C7_growth_failure_unreported :
    Reach heapFI [] ∧ heapFI.enomem = false ∧ firstFit heapFI (ALIGN 16) = none ∧
    (mem_sbrk (removeFromList heapFI 1048) 16).1 = W - 1 ∧
    ∃ h1, mm_malloc heapFI 16 = some (1072, h1) ∧ h1.enomem = true ∧
      h1.brk = heapFI.brk ∧ 1072 ≠ 0 :=
  ⟨reach_heapFI, by decide, by decide, by decide, _,
    some_pair_of (d := (0, heapFI)) (by decide) (by decide), by decide, by decide, by decide⟩

/-- C11 (divergence): with the arena at its limit, block `a = 1072` live and the
only free block too small, the growth request inside `mm_realloc(a, 64)` fails,
yet `mm_realloc` returns the non-null address 1120 and releases `a`: its header
1048 leaves the allocated list and joins the free list. -/
theorem C11_resize_releases_on_failure :
    Reach heapT [(1072, 16)] ∧ heapT.enomem = false ∧ allocList heapT = [1048] ∧
    firstFit heapT (ALIGN 64) = none ∧
    ∃ h1, mm_realloc heapT 1072 64 = some (1120, h1) ∧ h1.enomem = true ∧
      h1.brk = heapT.brk ∧ 1048 ∉ allocList h1 ∧ 1048 ∈ freeList h1 :=
  ⟨reach_heapT, by decide, by decide, by decide, _,
    some_pair_of (d := (0, heapT)) (by decide) (by decide), by decide, by decide, by decide,
    by decide⟩

/-! ## Properties: the list primitives -/

theorem Core.ring_next {h : Heap} {A : Abs} (c : Core h A) {y : Nat} (hy : y ∈ A.al ++ A.fl) :
    h_next h y ≠ 0 := by
  obtain ⟨d, hd, rfl⟩ := c.sub y hy
  have bd := c.blk hd
  have hW := c.brk_lt
  unfold h_next rd
  rw [padd_eq (by omega)]
  rcases List.mem_append.1 hy with h1 | h1
  · obtain ⟨s, t, e⟩ := List.append_of_mem h1
    have hr := c.ringA
    rw [e] at hr
    obtain ⟨_, post, _, hpost⟩ := Ring_decomp hr
    have hin : h.mem (d.addr + 8) ∈ h.lo :: A.al := by
      have : h.mem (d.addr + 8) ∈ t ++ [h.lo] := by rw [hpost]; simp
      rw [e]
      simp only [List.mem_append, List.mem_singleton, List.mem_cons] at this ⊢
      tauto
    have := c.node_bd (c.al_node hin)
    omega
  · obtain ⟨s, t, e⟩ := List.append_of_mem h1
    have hr := c.ringF
    rw [e] at hr
    obtain ⟨_, post, _, hpost⟩ := Ring_decomp hr
    have hin : h.mem (d.addr + 8) ∈ (h.lo + 24) :: A.fl := by
      have : h.mem (d.addr + 8) ∈ t ++ [h.lo + 24] := by rw [hpost]; simp
      rw [e]
      simp only [List.mem_append, List.mem_singleton, List.mem_cons] at this ⊢
      tauto
    have := c.node_bd (c.fl_node hin)
    omega

theorem tagBit_free {h : Heap} {A : Abs} (c : Core h A) {d : Blk} (hd : d ∈ A.blocks)
    (ht : tagBit (h_size h d.addr) ≠ 0) : d.free = true := by
  rw [(c.rd_size hd).2.2] at ht
  by_contra hc
  simp [hc] at ht

theorem Mid.fwd_next {h : Heap} {A : Abs} {x : Nat} (m : Mid h A x) {pre post : List Blk}
    {k : Blk} (hbl : A.blocks = pre ++ k :: post) (hk : k.addr = x)
    (hn : getNextPhyBlk h x ≠ 0 ∧ tagBit (h_size h (getNextPhyBlk h x)) ≠ 0) :
    h_next h (getNextPhyBlk h x) ≠ 0 := by
  subst hk
  have c := m.core
  cases post with
  | nil => exact absurd (c.next_none hbl) hn.1
  | cons d rest =>
    obtain ⟨np1, np2, -⟩ := c.next_phy hbl
    rw [np1] at hn ⊢
    have hd : d ∈ A.blocks := by rw [hbl]; simp
    have hf := tagBit_free c hd hn.2
    exact c.ring_next (List.mem_append_right _ (m.tagF d hd (by omega) hf))

theorem Mid.bwd_prev {h : Heap} {A : Abs} {x : Nat} (m : Mid h A x) (st : Stale h A x)
    {pre post : List Blk} {k : Blk} (hbl : A.blocks = pre ++ k :: post) (hk : k.addr = x)
    (hn : getPrevPhyBlk h x ≠ 0 ∧ tagBit (h_size h (getPrevPhyBlk h x)) ≠ 0) :
    h_next h (getPrevPhyBlk h x) ≠ 0 ∧ getNextPhyBlk h (getPrevPhyBlk h x) = x ∧
    removeFromList (removeFromList h (getPrevPhyBlk h x)) x =
      removeFromList h (getPrevPhyBlk h x) ∧
    h_next (removeFromList h (getPrevPhyBlk h x)) x ≠ 0 := by
  subst hk
  have c := m.core
  rcases List.eq_nil_or_concat pre with h0 | ⟨init, e, h0⟩
  · rw [h0] at hbl
    exact absurd (c.prev_none hbl) hn.1
  · have hbl1 : A.blocks = init ++ e :: k :: post := by rw [hbl, h0]; simp
    obtain ⟨pp1, pp2, -⟩ := c.prev_phy hbl1
    rw [pp1] at hn ⊢
    have hkin : k ∈ A.blocks := by rw [hbl]; simp
    have hein : e ∈ A.blocks := by rw [hbl1]; simp
    have bk := c.blk hkin
    have be := c.blk hein
    have hW := c.brk_lt
    have hef := tagBit_free c hein hn.2
    have hefl := m.tagF e hein (by omega) hef
    obtain ⟨xs1, xs2, hfl⟩ := List.append_of_mem hefl
    have hxnode : k.addr ∈ nodes h A := Core.blk_node hkin
    obtain ⟨c2, f1, f3⟩ := c.removeF hfl
    obtain ⟨np1, np2, np3⟩ := c.next_phy hbl1
    have hx1 : k.addr ∉ (h.lo + 24) :: (xs1 ++ xs2) := by
      intro e1
      rcases List.mem_cons.1 e1 with e1 | e1
      · omega
      · exact m.orph (List.mem_append_right _ (by rw [hfl]; exact erase_mid_sub e1))
    have hxal : k.addr ∉ h.lo :: A.al := by
      intro e1
      rcases List.mem_cons.1 e1 with e1 | e1
      · omega
      · exact m.orph (List.mem_append_left _ e1)
    have st2 : Stale (removeFromList h e.addr) ⟨A.blocks, A.al, xs1 ++ xs2⟩ k.addr := by
      refine Stale_frame st rfl (by simp) (f1 k.addr hxnode hx1) ?_
      intro y hy
      refine f1 y (c.al_node hy) ?_
      intro e1
      have : y ∈ (h.lo + 24) :: A.fl := by
        rcases List.mem_cons.1 e1 with e1 | e1
        · exact e1 ▸ List.mem_cons_self _ _
        · exact List.mem_cons_of_mem _ (by rw [hfl]; exact erase_mid_sub e1)
      exact c.al_fl_ne hy this rfl
    have e0 : removeFromList (removeFromList h e.addr) k.addr = removeFromList h e.addr :=
      removeFromList_stale c2 st2 (by simpa [nodes] using hxnode) (by simpa using hxal)
    refine ⟨c.ring_next (List.mem_append_right _ hefl), np1, e0, ?_⟩
    have hin := st2.2.1
    have := c2.node_bd (c2.al_node hin)
    unfold h_next rd
    rw [padd_eq (by omega)]
    omega

theorem Mid.after_fwd {h : Heap} {A : Abs} {x : Nat} (m : Mid h A x) (st : Stale h A x)
    {pre post : List Blk} {k : Blk} (hbl : A.blocks = pre ++ k :: post) (hk : k.addr = x)
    (hkf : k.free = false) :
    ∃ Af k1 post1, (freeFwd h x).1 = x ∧ Mid (freeFwd h x).2 Af x ∧
      Stale (freeFwd h x).2 Af x ∧ Af.blocks = pre ++ k1 :: post1 ∧ k1.addr = x := by
  have c := m.core
  rcases head_untagged_or post with hd | ⟨d, rest, hpost, hd⟩
  · have e := c.freeFwd_skip hbl hd
    rw [hk] at e
    rw [e]
    exact ⟨A, k, post, rfl, m, st, hbl, hk⟩
  · rw [hpost] at hbl
    have e := c.freeFwd_merge hbl hd
    rw [hk] at e
    rw [e]
    have hdin : d ∈ A.blocks := by rw [hbl]; simp
    obtain ⟨-, np2, -⟩ := c.next_phy hbl
    have hdfl := m.tagF d hdin (by omega) hd
    obtain ⟨xs1, xs2, hfl⟩ := List.append_of_mem hdfl
    obtain ⟨w1, w2, w3, -, -⟩ := m.fwd st hbl hk hkf hfl
    exact ⟨_, ⟨x, k.size + 32 + d.size, false⟩, rest, w1, w2, w3, rfl, rfl⟩

theorem erase_mid {xs1 xs2 : List Nat} {x : Nat} (hnd : (xs1 ++ x :: xs2).Nodup) :
    (xs1 ++ x :: xs2).erase x = xs1 ++ xs2 := by
  have hx : x ∉ xs1 := by
    intro hc
    rw [List.nodup_append] at hnd
    exact hnd.2.2 hc (List.mem_cons_self _ _)
  rw [List.erase_append_right _ hx, List.erase_cons_head]

/-- C20 (as stated, refuted): after `mm_init(); a = mm_malloc(16);
p = mm_malloc(2^64 - 24)`, every growth granted, the footer of `p`'s block, whose
header is 1096, lands on the block's own `h_prev` field, so `h_prev` of 1096 is
1096.  The first unlink in `mm_free(p)` therefore leaves the link from 1048 to
1096 in place, and after `mm_free(p)` the allocated list is not the previous
list `[1048, 1096]` with 1096 removed: 1048 still leads to 1096. -/
theorem C20_oversized_unlink_fails :
    ReachAny heapO24 [(1120, W - 24), (1072, 16)] ∧
    (1120, W - 24) ∈ [(1120, W - 24), (1072, 16)] ∧ psub 1120 HEADER_SIZE = 1096 ∧
    allocList heapO24 = [1048, 1096] ∧ h_prev heapO24 1096 = 1096 ∧
    h_next (removeFromList heapO24 1096) 1048 = 1096 ∧
    h_next (mm_free heapO24 1120) 1048 = 1096 ∧
    (allocList heapO24).erase 1096 = [1048] ∧
    allocList (mm_free heapO24 1120) ≠ (allocList heapO24).erase 1096 :=
  ⟨reachAny_heapO24, by decide, by decide, by decide, by decide, by decide, by decide,
    by decide, by decide⟩

/-- C20 (amended): for every heap reachable by valid calls whose request sizes
are all at most `2^64 - 40` and every live `p`, with `x` the
header of `p`, `h1` the heap after the first statement of `mm_free(p)` (the first
unlink of `x`), and `r1` the state after the forward check: the first unlink does
not take the null-next branch; unlinking `x` again from `h1`, as the forward
`mm_coalesce` does, changes no memory word and does not take the null-next
branch, nor does the unlink of the successor; when the backward merge is taken,
the block `mm_coalesce` unlinks second is `x`, that unlink changes no memory word,
and neither unlink takes the null-next branch; and the allocated list after
`mm_free(p)` is the previous one with `x` erased. -/
theorem C20_repeated_unlink (h : Heap) (L : List (Nat × Nat)) (hr : Reach h L) (p n : Nat)
    (hp : (p, n) ∈ L) (x : Nat) (hx : x = psub p HEADER_SIZE) (h1 : Heap)
    (hh : h1 = removeFromList h x) (r1 : Nat × Heap) (hr1 : r1 = freeFwd h1 x) :
    h_next h x ≠ 0 ∧
    removeFromList h1 x = h1 ∧ h_next h1 x ≠ 0 ∧
    (getNextPhyBlk h1 x ≠ 0 ∧ tagBit (h_size h1 (getNextPhyBlk h1 x)) ≠ 0 →
      h_next h1 (getNextPhyBlk h1 x) ≠ 0) ∧
    r1.1 = x ∧
    (getPrevPhyBlk r1.2 x ≠ 0 ∧ tagBit (h_size r1.2 (getPrevPhyBlk r1.2 x)) ≠ 0 →
      h_next r1.2 (getPrevPhyBlk r1.2 x) ≠ 0 ∧
      getNextPhyBlk r1.2 (getPrevPhyBlk r1.2 x) = x ∧
      removeFromList (removeFromList r1.2 (getPrevPhyBlk r1.2 x)) x =
        removeFromList r1.2 (getPrevPhyBlk r1.2 x) ∧
      h_next (removeFromList r1.2 (getPrevPhyBlk r1.2 x)) x ≠ 0) ∧
    mm_free h p = freeFinish (freeBwd r1).2 (freeBwd r1).1 ∧
    x ∈ allocList h ∧ (allocList h).Nodup ∧
    allocList (mm_free h p) = (allocList h).erase x := by
  obtain ⟨A, r, hl, -⟩ := Reach.rep_inv hr
  have c := r.toCore
  obtain ⟨b, hb, rfl, hba, -, -⟩ := hl.live_blk hp
  have bb := c.blk hb
  have hW := c.brk_lt
  rw [psub_hdr (by omega)] at hx
  subst hx
  obtain ⟨xs1, xs2, hal⟩ := List.append_of_mem hba
  obtain ⟨pre, post, hbl⟩ := List.append_of_mem hb
  obtain ⟨m, st, -⟩ := r.unlink hal
  rw [← hh] at m st
  have hbl1 : (⟨A.blocks, xs1 ++ xs2, A.fl⟩ : Abs).blocks = pre ++ b :: post := hbl
  have hkf := r.alloc_untagged hb hba
  obtain ⟨Af, k1, post1, w1, w2, w3, w4, w5⟩ := m.after_fwd st hbl1 rfl hkf
  rw [← hr1] at w1 w2 w3
  have hnd := c.al_nodup
  have hxal : b.addr ∉ h1.lo :: (⟨A.blocks, xs1 ++ xs2, A.fl⟩ : Abs).al := by
    intro e
    rcases List.mem_cons.1 e with e | e
    · have := m.core.lo_pos
      have b2 := m.core.blk (show b ∈ (⟨A.blocks, xs1 ++ xs2, A.fl⟩ : Abs).blocks from hb)
      omega
    · exact m.orph (List.mem_append_left _ e)
  have hst := st.2.1
  have hb2 := m.core.node_bd (m.core.al_node hst)
  refine ⟨c.ring_next (List.mem_append_left _ hba),
    removeFromList_stale m.core st (Core.blk_node hb) hxal, ?_,
    m.fwd_next hbl1 rfl, w1, w2.bwd_prev w3 w4 w5, ?_, ?_, ?_, ?_⟩
  · unfold h_next rd
    rw [padd_eq (by omega)]
    omega
  · rw [mm_free_stages, psub_hdr (by omega), ← hh, ← hr1]
  · rw [c.allocList_eq]; exact hba
  · rw [c.allocList_eq]; exact (List.nodup_cons.1 hnd).2
  · obtain ⟨A1, fp, -⟩ := r.free hb hba
    obtain ⟨ys1, ys2, e1, e2⟩ := fp.al
    rw [c.allocList_eq, fp.rep.toCore.allocList_eq, e2, e1]
    have nd2 := (List.nodup_cons.1 hnd).2
    rw [e1] at nd2
    exact (erase_mid nd2).symm

theorem C20_repeated_unlink_witness :
    Reach heapAB [(1120, 16), (1072, 16)] ∧ (1072, 16) ∈ [(1120, 16), (1072, 16)] ∧
    removeFromList (removeFromList heapAB 1048) 1048 = removeFromList heapAB 1048 ∧
    allocList (mm_free heapAB 1072) = (allocList heapAB).erase 1048 :=
  ⟨reach_heapAB, by decide,
    (C20_repeated_unlink heapAB _ reach_heapAB 1072 16 (by decide) 1048 (by decide) _ rfl
      _ rfl).2.1,
    (C20_repeated_unlink heapAB _ reach_heapAB 1072 16 (by decide) 1048 (by decide) _ rfl
      _ rfl).2.2.2.2.2.2.2.2.2⟩

theorem tail_inserted {h h1 : Heap} {A : Abs} (c : Core h A) {s l x : Nat}
    (hs : s ∈ nodes h A) (hl : l ∈ nodes h A) (hx : x ∈ nodes h A)
    (hls : h.mem s = l) (hxs : x ≠ s) (hxl : x ≠ l)
    (hm : ∀ a, h1.mem a = if a = s then x else if a = l + 8 then x
      else if a = x then l else if a = x + 8 then s else h.mem a) :
    TailInserted h h1 A s x := by
  have sp := c.sep
  have bs := c.node_bd hs
  have bl := c.node_bd hl
  have bx := c.node_bd hx
  have s1 := sp x hx s hs
  have s2 := sp x hx l hl
  have s3 := sp l hl s hs
  unfold TailInserted h_next h_prev rd
  rw [hls, padd_eq (show x + 8 < W by omega), padd_eq (show l + 8 < W by omega)]
  refine ⟨?_, ?_, ?_, ?_, ?_, ?_⟩
  · rw [hm]
    have a1 : x + 8 ≠ s := by omega
    have a2 : x ≠ l := hxl
    have a3 : x + 8 ≠ x := by omega
    simp [a1, a2, a3]
  · rw [hm]; simp
  · rw [hm]
    have a1 : l + 8 ≠ s := by omega
    simp [a1]
  · rw [hm]
    have a1 : x ≠ l + 8 := by omega
    simp [hxs, a1]
  · intro y hy
    have by1 := c.node_bd hy
    have t1 := sp y hy s hs
    have t2 := sp y hy l hl
    have t3 := sp y hy x hx
    constructor
    · intro n1 n2
      rw [hm]
      have a1 : y ≠ l + 8 := by omega
      have a2 : y ≠ x + 8 := by omega
      simp [n1, n2, a1, a2]
    · intro n1 n2
      rw [padd_eq (show y + 8 < W by omega), hm]
      have a1 : y + 8 ≠ s := by omega
      have a2 : y + 8 ≠ x := by omega
      simp [n1, n2, a1, a2]
  · intro d hd
    have bd := c.blk hd
    have hW := c.brk_lt
    unfold h_size rd
    rw [padd_eq (show d.addr + 16 < W by omega), hm]
    have d1 := c.node_data hs hd
    have d2 := c.node_data hl hd
    have d3 := c.node_data hx hd
    have a1 : d.addr + 16 ≠ s := by omega
    have a2 : d.addr + 16 ≠ l + 8 := by omega
    have a3 : d.addr + 16 ≠ x := by omega
    have a4 : d.addr + 16 ≠ x + 8 := by omega
    simp [a1, a2, a3, a4]

/-- C19 (as stated, refuted): on the heap `mm_init` leaves, the allocated list is
a well-formed empty ring and block 1048 is not on it but on the free list;
`addToAllocList(1048)` rewrites the block's links, so the free list is no longer
`[1048]`: following `h_next` from the free sentinel now leads through 1048 to
the allocated sentinel.  And the free list is not ordered by release time: after
five calls `mm_malloc(16)`, which return 1072, 1120, 1168, 1216 and 1264, and
`mm_free(1072); mm_free(1216)` the free list is `[1048, 1192]`; `mm_free(1120)`
merges its block into 1048 and links 1048 in again at the tail, so the free list
is `[1192, 1048]`, and `mm_malloc(16)` takes 1192 and returns 1216, although the
block released first is free and large enough. -/
theorem C19_other_list_broken :
    allocList heapI = [] ∧ h_next heapI heapI.lo = heapI.lo ∧
    h_prev heapI heapI.lo = heapI.lo ∧ 1048 ∉ allocList heapI ∧ freeList heapI = [1048] ∧
    allocList (addToAllocList heapI 1048) = [1048] ∧
    h_next (addToAllocList heapI 1048) 1048 = heapI.lo ∧
    freeList (addToAllocList heapI 1048) ≠ freeList heapI ∧
    Reach heapA5f [(1264, 16), (1168, 16)] ∧
    freeList (mm_free (mm_free heapA5 1072) 1216) = [1048, 1192] ∧
    freeList heapA5f = [1192, 1048] ∧ ALIGN 16 ≤ payloadSize heapA5f 1048 ∧
    firstFit heapA5f (ALIGN 16) = some 1192 ∧
    (mm_malloc heapA5f 16).map Prod.fst = some 1216 :=
  ⟨by decide, by decide, by decide, by decide, by decide, by decide, by decide, by decide,
    reach_heapA5f, by decide, by decide, by decide, by decide, by decide⟩

theorem getLast_of_ring {h : Heap} {s : Nat} {xs : List Nat} (hr : Ring h s xs) :
    (s :: xs).getLast? = some (h_prev h s) := by
  obtain ⟨pre, hpre, -⟩ := Ring_last hr
  rw [hpre, List.getLast?_concat]
  rfl

theorem Core.tail_insert {h : Heap} {A : Abs} (c : Core h A) {b : Blk} (hb : b ∈ A.blocks)
    (hn : b.addr ∉ allocList h ++ freeList h) :
    (allocList (addToAllocList h b.addr) = allocList h ++ [b.addr] ∧
      freeList (addToAllocList h b.addr) = freeList h ∧
      (h.lo :: allocList h).getLast? = some (h_prev h h.lo) ∧
      TailInserted h (addToAllocList h b.addr) A h.lo b.addr) ∧
    (freeList (addToFreeList h b.addr) = freeList h ++ [b.addr] ∧
      allocList (addToFreeList h b.addr) = allocList h ∧
      ((h.lo + HEADER_SIZE) :: freeList h).getLast? = some (h_prev h (h.lo + HEADER_SIZE)) ∧
      TailInserted h (addToFreeList h b.addr) A (h.lo + HEADER_SIZE) b.addr) := by
  rw [c.allocList_eq, c.freeList_eq] at hn ⊢
  have hx : ∃ d ∈ A.blocks, d.addr = b.addr := ⟨b, hb, rfl⟩
  have bb := c.blk hb
  have hxnode : b.addr ∈ nodes h A := Core.blk_node hb
  have bx := c.node_bd hxnode
  have sp := c.sep
  constructor
  · obtain ⟨c1, -, -⟩ := c.addA hx hn
    obtain ⟨pre, hpre, -⟩ := Ring_last c.ringA
    have hl : h.mem h.lo ∈ h.lo :: A.al := by rw [hpre]; simp
    have hln := c.al_node hl
    have hsn : h.lo ∈ nodes h A := by simp [nodes]
    have hxa : b.addr ∉ h.lo :: A.al := by
      intro e
      rcases List.mem_cons.1 e with e | e
      · omega
      · exact hn (List.mem_append_left _ e)
    have hlx : h.mem h.lo ≠ b.addr := fun e => hxa (e ▸ hl)
    have hxs : b.addr ≠ h.lo := fun e => hxa (by simp [e])
    have b2 := c.node_bd hln
    have s1 := sp _ hxnode _ hsn
    have hm := addToAllocList_mem h b.addr (by omega) (by omega) (by omega) hlx
    exact ⟨c1.allocList_eq, c1.freeList_eq, getLast_of_ring c.ringA,
      tail_inserted c hsn hln hxnode rfl hxs (fun e => hlx e.symm) hm⟩
  · obtain ⟨c1, -, -⟩ := c.addF hx hn
    obtain ⟨pre, hpre, -⟩ := Ring_last c.ringF
    have hl : h.mem (h.lo + 24) ∈ (h.lo + 24) :: A.fl := by rw [hpre]; simp
    have hln := c.fl_node hl
    have hsn : h.lo + 24 ∈ nodes h A := by simp [nodes]
    have hxa : b.addr ∉ (h.lo + 24) :: A.fl := by
      intro e
      rcases List.mem_cons.1 e with e | e
      · omega
      · exact hn (List.mem_append_right _ e)
    have hlx : h.mem (h.lo + 24) ≠ b.addr := fun e => hxa (e ▸ hl)
    have hxs : b.addr ≠ h.lo + 24 := fun e => hxa (by simp [e])
    have b2 := c.node_bd hln
    have b3 := c.node_bd hsn
    have s1 := sp _ hxnode _ hsn
    have hm := addToFreeList_mem h b.addr (by omega) (by omega) (by omega) (by omega) hlx
    unfold HEADER_SIZE
    exact ⟨c1.freeList_eq, c1.allocList_eq, getLast_of_ring c.ringF,
      tail_inserted c hsn hln hxnode rfl hxs (fun e => hlx e.symm) hm⟩

theorem free_at_tail (g : Heap) (L : List (Nat × Nat)) (p n : Nat) (hr : Reach g L)
    (hp : (p, n) ∈ L) :
    ∃ ys, freeList (mm_free g p) = ys ++ [survivorOf g (psub p HEADER_SIZE)] ∧
      ys.Sublist (freeList g) := by
  obtain ⟨A, r, hl, hn⟩ := Reach.rep_inv hr
  obtain ⟨b, hb, rfl, hba, -, -⟩ := hl.live_blk hp
  have bb := r.toCore.blk hb
  have hW := r.toCore.brk_lt
  rw [psub_hdr (by omega)]
  obtain ⟨ys, e1, e2, -⟩ := r.free_survivor hn hb hba
  exact ⟨ys, e1, e2⟩

/-- C19 (amended): in a well-formed heap, for every block `b` that is on neither
list, `addToAllocList(b)` makes the allocated list the old sequence followed by
`b`, with `b->h_next` the sentinel, the sentinel's `h_prev` and the old last
node's `h_next` equal to `b`, and `b->h_prev` the old last node; it changes no
other link field and no size field and leaves the free list as it was; and
`addToFreeList(b)` does the same with the two lists exchanged.  Hence, in every
heap reachable by valid calls whose request sizes are all at most `2^64 - 40`,
`mm_free(p)` leaves a free list that is a subsequence of the old one followed by
the one block it linked in, which is the physical predecessor of `p`'s block when
that was tagged free and `p`'s block otherwise. -/
theorem C19_tail_insertion (h : Heap) (A : Abs) (c : Core h A) (b : Blk) (hb : b ∈ A.blocks)
    (hn : b.addr ∉ allocList h ++ freeList h) :
    (allocList (addToAllocList h b.addr) = allocList h ++ [b.addr] ∧
      freeList (addToAllocList h b.addr) = freeList h ∧
      (h.lo :: allocList h).getLast? = some (h_prev h h.lo) ∧
      TailInserted h (addToAllocList h b.addr) A h.lo b.addr) ∧
    (freeList (addToFreeList h b.addr) = freeList h ++ [b.addr] ∧
      allocList (addToFreeList h b.addr) = allocList h ∧
      ((h.lo + HEADER_SIZE) :: freeList h).getLast? = some (h_prev h (h.lo + HEADER_SIZE)) ∧
      TailInserted h (addToFreeList h b.addr) A (h.lo + HEADER_SIZE) b.addr) ∧
    (∀ (g : Heap) (L : List (Nat × Nat)) (p n : Nat), Reach g L → (p, n) ∈ L →
      ∃ ys, freeList (mm_free g p) = ys ++ [survivorOf g (psub p HEADER_SIZE)] ∧
        ys.Sublist (freeList g)) :=
  ⟨(c.tail_insert hb hn).1, (c.tail_insert hb hn).2, free_at_tail⟩

theorem core_unlinked :
    Core (removeFromList heapI 1048) ⟨[⟨heap0.lo + 48, 0, true⟩], [], [] ++ []⟩ :=
  ((mm_init_rep heap0 fresh_heap0 (by decide)).toCore.removeF
    (show [heap0.lo + 48] = [] ++ 1048 :: [] from rfl)).1

theorem C19_tail_insertion_witness :
    1048 ∉ allocList (removeFromList heapI 1048) ++ freeList (removeFromList heapI 1048) ∧
    allocList (addToAllocList (removeFromList heapI 1048) 1048) =
      allocList (removeFromList heapI 1048) ++ [1048] ∧
    freeList (addToFreeList (removeFromList heapI 1048) 1048) =
      freeList (removeFromList heapI 1048) ++ [1048] ∧
    ∃ ys, freeList (mm_free heapAB 1072) = ys ++ [survivorOf heapAB (psub 1072 HEADER_SIZE)] ∧
      ys.Sublist (freeList heapAB) :=
  ⟨by decide,
    (C19_tail_insertion _ _ core_unlinked ⟨heap0.lo + 48, 0, true⟩
      (List.mem_singleton.2 rfl) (by decide)).1.1,
    (C19_tail_insertion _ _ core_unlinked ⟨heap0.lo + 48, 0, true⟩
      (List.mem_singleton.2 rfl) (by decide)).2.1.1,
    (C19_tail_insertion _ _ core_unlinked ⟨heap0.lo + 48, 0, true⟩
      (List.mem_singleton.2 rfl) (by decide)).2.2 heapAB _ 1072 16 reach_heapAB (by decide)⟩

/-! ## Properties: how `mm_malloc` chooses -/

theorem append_singleton_inj {l : List Nat} {a b : Nat} (h : l ++ [a] = l ++ [b]) : a = b := by
  have := List.append_cancel_left h
  exact List.singleton_inj.1 this

theorem Rep.fit_reuse {h : Heap} {A : Abs} (r : Rep h A) {b : Blk} {pre post : List Blk}
    {xs1 xs2 : List Nat} (hbl : A.blocks = pre ++ b :: post)
    (hfl : A.fl = xs1 ++ b.addr :: xs2) (n : Nat) (h1 : ALIGN n ≤ b.size)
    (h2 : b.size < ALIGN n + 40) :
    (mallocFit h (ALIGN n) b.addr).1 = b.addr + 24 ∧
    Rep (mallocFit h (ALIGN n) b.addr).2
      ⟨pre ++ ⟨b.addr, b.size, false⟩ :: post, A.al ++ [b.addr], xs1 ++ xs2⟩ := by
  have mp := r.malloc_reuse hbl hfl n h1 h2
  refine ⟨?_, mp.rep⟩
  obtain ⟨d, -, e, hal, -⟩ := mp.hdr
  have : A.al ++ [b.addr] = A.al ++ [d.addr] := hal
  rw [← e, ← append_singleton_inj this]

theorem Rep.fit_split {h : Heap} {A : Abs} (r : Rep h A) {b : Blk} {pre post : List Blk}
    (hbl : A.blocks = pre ++ b :: post) (hbf : b.addr ∈ A.fl) (n : Nat)
    (h2 : ALIGN n + 40 ≤ b.size) :
    (mallocFit h (ALIGN n) b.addr).1 = b.addr + b.size - ALIGN n + 24 ∧
    Rep (mallocFit h (ALIGN n) b.addr).2
      ⟨pre ++ ⟨b.addr, b.size - ALIGN n - 32, true⟩ ::
        ⟨b.addr + b.size - ALIGN n, ALIGN n, false⟩ :: post,
        A.al ++ [b.addr + b.size - ALIGN n], A.fl⟩ := by
  have mp := r.malloc_split hbl hbf n h2
  refine ⟨?_, mp.rep⟩
  obtain ⟨d, -, e, hal, -⟩ := mp.hdr
  have : A.al ++ [b.addr + b.size - ALIGN n] = A.al ++ [d.addr] := hal
  rw [← e, ← append_singleton_inj this]

theorem Rep.grow {h : Heap} {A : Abs} (r : Rep h A) (n : Nat) (hv : ValidSize n)
    (hnf : ∀ y ∈ A.fl, payloadSize h y < ALIGN n)
    (hen : (sbrkBlk h (ALIGN n)).2.enomem = false) :
    ∃ pre b, A.blocks = pre ++ [b] ∧ rd h (ALIGN_DOWN (mem_heap_hi h)) = b.addr ∧
      b.addr + 32 + b.size = h.brk ∧
      (b.free = true → b.size < ALIGN n ∧ (sbrkBlk h (ALIGN n)).1 = b.addr ∧
        (sbrkBlk h (ALIGN n)).2.brk = h.brk + (ALIGN n - b.size) ∧
        ∃ xs1 xs2, A.fl = xs1 ++ b.addr :: xs2 ∧
          Rep (sbrkBlk h (ALIGN n)).2
            ⟨pre ++ [⟨b.addr, ALIGN n, false⟩], A.al ++ [b.addr], xs1 ++ xs2⟩) ∧
      (b.free = false → (sbrkBlk h (ALIGN n)).1 = h.brk ∧
        (sbrkBlk h (ALIGN n)).2.brk = h.brk + (ALIGN n + 32) ∧
        Rep (sbrkBlk h (ALIGN n)).2
          ⟨A.blocks ++ [⟨h.brk, ALIGN n, false⟩], A.al ++ [h.brk], A.fl⟩) := by
  have c := r.toCore
  have hN := ALIGN_of_valid hv
  obtain ⟨pre, b, hbl, hend, hrd⟩ := c.last
  have hb : b ∈ A.blocks := by rw [hbl]; simp
  have bb := c.blk hb
  obtain ⟨q1, q2, q3⟩ := c.rd_size hb
  refine ⟨pre, b, hbl, hrd, hend, ?_, ?_⟩
  · intro hfree
    have hbf := r.tagF b hb hfree
    have hlt : b.size < ALIGN n := by
      have := hnf b.addr hbf
      rw [q2] at this
      exact this
    obtain ⟨xs1, xs2, hfl⟩ := List.append_of_mem hbf
    have hok : h.brk + (ALIGN n - b.size) ≤ h.cap := by
      by_contra hok
      have := sbrkBlk_fail_extend h (ALIGN n) (by rw [hrd, q3, hfree]; simp)
        (by
          rw [hrd, q1, Blk.word, untag_word _ _ bb.2.2.1, psub_eq (by omega) (by omega)]
          exact hok)
      rw [this] at hen
      exact Bool.noConfusion hen
    obtain ⟨e1, e2, e3, -⟩ := r.extend hbl hfree hfl (ALIGN_mod n) (by omega) hlt hok
    exact ⟨hlt, e1, e2, xs1, xs2, hfl, e3⟩
  · intro hfree
    have hok : h.brk + (ALIGN n + 32) ≤ h.cap := by
      by_contra hok
      have := sbrkBlk_fail_append h (ALIGN n) (by rw [hrd, q3, hfree]; simp)
        (by rw [ALIGN_pad _ (ALIGN_mod n) hN.2.2]; exact hok)
      rw [this] at hen
      exact Bool.noConfusion hen
    obtain ⟨e1, e2, e3, -⟩ := r.append hbl hfree (ALIGN_mod n) hN.2.2 hok
    exact ⟨e1, e2, e3⟩

theorem firstFit_of_front {h : Heap} {N t : Nat} {xs1 xs2 : List Nat}
    (hfl : freeList h = xs1 ++ t :: xs2) (hpre : ∀ y ∈ xs1, payloadSize h y < N)
    (ht : N ≤ payloadSize h t) : firstFit h N = some t := by
  unfold firstFit
  rw [List.find?_eq_some]
  refine ⟨by simpa using ht, xs1, xs2, hfl, ?_⟩
  intro a ha
  have := hpre a ha
  simp only [Bool.not_eq_true', decide_eq_false_iff_not]
  omega

theorem firstFit_none {h : Heap} {N : Nat} (hnf : ∀ y ∈ freeList h, payloadSize h y < N) :
    firstFit h N = none := by
  unfold firstFit
  rw [List.find?_eq_none]
  intro x hx
  have := hnf x hx
  simp only [decide_eq_true_eq]
  omega

theorem firstFit_some {h : Heap} {N t : Nat} (hf : firstFit h N = some t) :
    N ≤ payloadSize h t ∧ ∃ xs1 xs2, freeList h = xs1 ++ t :: xs2 ∧
      ∀ y ∈ xs1, payloadSize h y < N := by
  unfold firstFit at hf
  rw [List.find?_eq_some] at hf
  obtain ⟨h1, xs1, xs2, h2, h3⟩ := hf
  refine ⟨by simpa using h1, xs1, xs2, h2, ?_⟩
  intro y hy
  have := h3 y hy
  simp only [Bool.not_eq_true', decide_eq_false_iff_not] at this
  omega

theorem keep_size {h h1 : Heap} {A A1 : Abs} (c : Core h A) (c1 : Core h1 A1) {d : Blk}
    (hd : d ∈ A.blocks) (hd1 : d ∈ A1.blocks) : h_size h1 d.addr = h_size h d.addr := by
  rw [(c.rd_size hd).1, (c1.rd_size hd1).1]

theorem malloc_fit_eq {h : Heap} {A : Abs} (c : Core h A) {n t p : Nat} {h1 : Heap}
    (hf : firstFit h (ALIGN n) = some t) (hm : mm_malloc h n = some (p, h1)) :
    p = (mallocFit h (ALIGN n) t).1 ∧ h1 = (mallocFit h (ALIGN n) t).2 := by
  have e := c.mm_malloc_eq n
  rw [hf, hm] at e
  exact Prod.mk.inj (Option.some.inj e)

theorem malloc_grow_eq {h : Heap} {A : Abs} (c : Core h A) {n p : Nat} {h1 : Heap}
    (hf : firstFit h (ALIGN n) = none) (hm : mm_malloc h n = some (p, h1)) :
    p = padd (sbrkBlk h (ALIGN n)).1 HEADER_SIZE ∧ h1 = (sbrkBlk h (ALIGN n)).2 := by
  have e := c.mm_malloc_eq n
  rw [hf, hm] at e
  exact Prod.mk.inj (Option.some.inj e)

theorem first_fit_body (h : Heap) (L : List (Nat × Nat)) (hr : Reach h L) (n p : Nat)
    (h1 : Heap) (hm : mm_malloc h n = some (p, h1)) :
    (∀ xs1 t xs2, freeList h = xs1 ++ t :: xs2 →
      (∀ y ∈ xs1, payloadSize h y < ALIGN n) → ALIGN n ≤ payloadSize h t →
      (p, h1) = mallocFit h (ALIGN n) t ∧
      t + HEADER_SIZE ≤ p ∧ p + ALIGN n ≤ t + HEADER_SIZE + payloadSize h t ∧
      h1.brk = h.brk ∧ h1.enomem = false ∧
      (∃ rest, freeList h1 = xs1 ++ rest) ∧ ∀ y ∈ xs1, h_size h1 y = h_size h y) ∧
    ((∀ y ∈ freeList h, payloadSize h y < ALIGN n) →
      (p, h1) = (padd (sbrkBlk h (ALIGN n)).1 HEADER_SIZE, (sbrkBlk h (ALIGN n)).2) ∧
      (ValidSize n → h.brk < h1.brk ∨ h1.enomem = true)) := by
  obtain ⟨A, r, -, -⟩ := Reach.rep_inv hr
  have c := r.toCore
  unfold HEADER_SIZE
  constructor
  · intro xs1 t xs2 hfl hpre ht
    obtain ⟨rfl, rfl⟩ := malloc_fit_eq c (firstFit_of_front hfl hpre ht) hm
    rw [c.freeList_eq] at hfl
    have htf : t ∈ A.fl := by rw [hfl]; simp
    obtain ⟨b, hb, rfl⟩ := c.sub t (List.mem_append_right _ htf)
    rw [(c.rd_size hb).2.1] at ht ⊢
    obtain ⟨pre, post, hbl⟩ := List.append_of_mem hb
    have hnd := (List.nodup_cons.1 c.fl_nodup).2
    rw [hfl] at hnd
    have hsz : ∀ (A1 : Abs), Core (mallocFit h (ALIGN n) b.addr).2 A1 →
        (∀ d ∈ A.blocks, d ≠ b → d ∈ A1.blocks) →
        ∀ y ∈ xs1, h_size (mallocFit h (ALIGN n) b.addr).2 y = h_size h y := by
      intro A1 c1 hk y hy
      obtain ⟨d, hd, rfl⟩ := c.sub y (List.mem_append_right _ (by rw [hfl]; simp [hy]))
      refine keep_size c c1 hd (hk d hd ?_)
      intro e
      rw [e] at hy
      rw [List.nodup_append] at hnd
      exact hnd.2.2 hy (List.mem_cons_self _ _)
    by_cases hsp : b.size < ALIGN n + 40
    · obtain ⟨e1, r1⟩ := r.fit_reuse hbl hfl n ht hsp
      refine ⟨rfl, by omega, by omega, mallocFit_brk _ _ _, r1.toCore.ok,
        ⟨xs2, r1.toCore.freeList_eq⟩, hsz _ r1.toCore ?_⟩
      intro d hd hne
      rw [hbl] at hd
      show d ∈ pre ++ ⟨b.addr, b.size, false⟩ :: post
      simp only [List.mem_append, List.mem_cons] at hd ⊢
      rcases hd with hd | hd | hd
      · exact Or.inl hd
      · exact absurd hd hne
      · exact Or.inr (Or.inr hd)
    · obtain ⟨e1, r1⟩ := r.fit_split hbl htf n (by omega)
      refine ⟨rfl, by omega, by omega, mallocFit_brk _ _ _, r1.toCore.ok,
        ⟨b.addr :: xs2, by rw [r1.toCore.freeList_eq, hfl]⟩, hsz _ r1.toCore ?_⟩
      intro d hd hne
      rw [hbl] at hd
      show d ∈ pre ++ ⟨b.addr, b.size - ALIGN n - 32, true⟩ ::
        ⟨b.addr + b.size - ALIGN n, ALIGN n, false⟩ :: post
      simp only [List.mem_append, List.mem_cons] at hd ⊢
      rcases hd with hd | hd | hd
      · exact Or.inl hd
      · exact absurd hd hne
      · exact Or.inr (Or.inr (Or.inr hd))
  · intro hnf
    obtain ⟨rfl, rfl⟩ := malloc_grow_eq c (firstFit_none hnf) hm
    refine ⟨rfl, ?_⟩
    intro hv
    cases hen : (sbrkBlk h (ALIGN n)).2.enomem with
    | true => exact Or.inr rfl
    | false =>
      left
      rw [c.freeList_eq] at hnf
      obtain ⟨pre, b, -, -, -, g1, g2⟩ := r.grow n hv hnf hen
      cases hfree : b.free with
      | true =>
        obtain ⟨hlt, -, e2, -⟩ := g1 hfree
        rw [e2]; omega
      | false =>
        obtain ⟨-, e2, -⟩ := g2 hfree
        rw [e2]; omega

theorem Core.malloc_returns {h : Heap} {A : Abs} (c : Core h A) (n : Nat) :
    ∃ p h1, mm_malloc h n = some (p, h1) := by
  have e := c.mm_malloc_eq n
  cases hff : firstFit h (ALIGN n) with
  | some t =>
    rw [hff] at e
    exact ⟨_, _, e⟩
  | none =>
    rw [hff] at e
    exact ⟨_, _, e⟩

/-- C12 (as stated, refuted): after `mm_init(); mm_malloc(16); b = mm_malloc(2^64 - 8);
mm_malloc(8); d = mm_malloc(8); mm_free(d); mm_free(b)`, every growth granted, the
free list is `[1160, 1096]` with payload sizes 8 and 1096.  `mm_malloc(1032)`
passes over 1160 and serves the request from 1096, yet the earlier entry 1160 is
not left untouched: its size word changes from 9 to 1032, because the size word
of 1096 describes a payload that runs over the blocks behind it. -/
theorem C12_earlier_entry_clobbered :
    ReachAny heapO8c [(1144, 8), (1072, 16)] ∧ freeList heapO8c = [1160, 1096] ∧
    payloadSize heapO8c 1160 = 8 ∧ payloadSize heapO8c 1096 = 1096 ∧
    payloadSize heapO8c 1160 < ALIGN 1032 ∧ ALIGN 1032 ≤ payloadSize heapO8c 1096 ∧
    mm_malloc heapO8c 1032 = some (1184, heapO8d) ∧ heapO8d.enomem = false ∧
    h_size heapO8c 1160 = 9 ∧ h_size heapO8d 1160 = 1032 :=
  ⟨reachAny_heapO8c, by decide, by decide, by decide, by decide, by decide,
    some_pair_of (by decide) (by decide), by decide, by decide, by decide⟩

/-- C12 (amended): for every heap reachable by valid calls whose request sizes
are all at most `2^64 - 40` and every request `n` with `N = ALIGN(n)`,
`mm_malloc(n)` returns, and: if `t` is the first free-list entry, in link order
from the free sentinel's `h_next`, whose masked payload size is at least `N`,
then the result is the loop body applied to `t`, the returned payload lies inside
`t`'s old payload, the arena end is unchanged and no growth fails, and the
entries before `t` stay at the front of the free list with their size words
unchanged; if no free-list entry has payload at least `N`, the result is that of
`sbrkBlk`, which calls `mem_sbrk` on either path, and for `n ≤ 2^64 - 40` the
arena end moves up or the growth request fails. -/
theorem C12_first_fit (h : Heap) (L : List (Nat × Nat)) (hr : Reach h L) (n : Nat) :
    ∃ p h1, mm_malloc h n = some (p, h1) ∧
    (∀ xs1 t xs2, freeList h = xs1 ++ t :: xs2 →
      (∀ y ∈ xs1, payloadSize h y < ALIGN n) → ALIGN n ≤ payloadSize h t →
      (p, h1) = mallocFit h (ALIGN n) t ∧
      t + HEADER_SIZE ≤ p ∧ p + ALIGN n ≤ t + HEADER_SIZE + payloadSize h t ∧
      h1.brk = h.brk ∧ h1.enomem = false ∧
      (∃ rest, freeList h1 = xs1 ++ rest) ∧ ∀ y ∈ xs1, h_size h1 y = h_size h y) ∧
    ((∀ y ∈ freeList h, payloadSize h y < ALIGN n) →
      (p, h1) = (padd (sbrkBlk h (ALIGN n)).1 HEADER_SIZE, (sbrkBlk h (ALIGN n)).2) ∧
      (ValidSize n → h.brk < h1.brk ∨ h1.enomem = true)) := by
  obtain ⟨A, r, -, -⟩ := Reach.rep_inv hr
  obtain ⟨p, h1, hm⟩ := r.toCore.malloc_returns n
  exact ⟨p, h1, hm, first_fit_body h L hr n p h1 hm⟩

theorem C12_first_fit_witness :
    Reach heapA [(1072, 16)] ∧
    ∃ p h1, mm_malloc heapA 16 = some (p, h1) ∧
    (∀ xs1 t xs2, freeList heapA = xs1 ++ t :: xs2 →
      (∀ y ∈ xs1, payloadSize heapA y < ALIGN 16) → ALIGN 16 ≤ payloadSize heapA t →
      (p, h1) = mallocFit heapA (ALIGN 16) t ∧
      t + HEADER_SIZE ≤ p ∧ p + ALIGN 16 ≤ t + HEADER_SIZE + payloadSize heapA t ∧
      h1.brk = heapA.brk ∧ h1.enomem = false ∧
      (∃ rest, freeList h1 = xs1 ++ rest) ∧ ∀ y ∈ xs1, h_size h1 y = h_size heapA y) ∧
    ((∀ y ∈ freeList heapA, payloadSize heapA y < ALIGN 16) →
      (p, h1) =
        (padd (sbrkBlk heapA (ALIGN 16)).1 HEADER_SIZE, (sbrkBlk heapA (ALIGN 16)).2) ∧
      (ValidSize 16 → heapA.brk < h1.brk ∨ h1.enomem = true)) :=
  ⟨reach_heapA, C12_first_fit heapA _ reach_heapA 16⟩

theorem split_threshold_body (h : Heap) (L : List (Nat × Nat)) (hr : Reach h L) (n p t : Nat)
    (h1 : Heap) (ht : firstFit h (ALIGN n) = some t)
    (hm : mm_malloc h n = some (p, h1)) :
    t ∈ freeList h ∧ t ∉ allocList h ∧ ALIGN n ≤ payloadSize h t ∧
    (payloadSize h t < ALIGN n + (8 + HEADER_SIZE + FOOTER_SIZE) →
      p = t + HEADER_SIZE ∧ payloadSize h1 t = payloadSize h t ∧
      tagBit (h_size h1 t) = 0 ∧ t ∈ allocList h1 ∧ t ∉ freeList h1) ∧
    (ALIGN n + (8 + HEADER_SIZE + FOOTER_SIZE) ≤ payloadSize h t →
      t ∈ freeList h1 ∧ t ∉ allocList h1 ∧ tagBit (h_size h1 t) = 1 ∧
      payloadSize h1 t = payloadSize h t - ALIGN n - (HEADER_SIZE + FOOTER_SIZE) ∧
      8 ≤ payloadSize h1 t ∧ footerOf h1 t = t ∧
      p = t + payloadSize h t - ALIGN n + HEADER_SIZE ∧
      payloadSize h1 (t + payloadSize h t - ALIGN n) = ALIGN n ∧
      tagBit (h_size h1 (t + payloadSize h t - ALIGN n)) = 0 ∧
      t + payloadSize h t - ALIGN n ∈ allocList h1 ∧
      footerOf h1 (t + payloadSize h t - ALIGN n) = t + payloadSize h t - ALIGN n ∧
      rd h1 (t + HEADER_SIZE + payloadSize h t) = t + payloadSize h t - ALIGN n) := by
  obtain ⟨A, r, -, -⟩ := Reach.rep_inv hr
  have c := r.toCore
  obtain ⟨rfl, rfl⟩ := malloc_fit_eq c ht hm
  obtain ⟨hfit, xs1, xs2, hfl, -⟩ := firstFit_some ht
  rw [c.freeList_eq] at hfl ⊢
  rw [c.allocList_eq]
  have htf : t ∈ A.fl := by rw [hfl]; simp
  obtain ⟨b, hb, rfl⟩ := c.sub t (List.mem_append_right _ htf)
  rw [(c.rd_size hb).2.1] at hfit ⊢
  obtain ⟨pre, post, hbl⟩ := List.append_of_mem hb
  have hna : b.addr ∉ A.al := fun e => (List.nodup_append.1 c.nodup).2.2 e htf
  unfold HEADER_SIZE FOOTER_SIZE
  refine ⟨htf, hna, hfit, ?_, ?_⟩
  · intro hsp
    obtain ⟨e1, r1⟩ := r.fit_reuse hbl hfl n hfit (by omega)
    have c1 := r1.toCore
    have hb1 : (⟨b.addr, b.size, false⟩ : Blk) ∈
        (⟨pre ++ ⟨b.addr, b.size, false⟩ :: post, A.al ++ [b.addr], xs1 ++ xs2⟩ : Abs).blocks := by
      show _ ∈ pre ++ _ :: post
      simp
    obtain ⟨-, q2, q3⟩ := c1.rd_size hb1
    have hal1 : b.addr ∈ A.al ++ [b.addr] := by simp
    rw [c1.allocList_eq, c1.freeList_eq]
    exact ⟨e1, q2, q3, hal1, fun e => (List.nodup_append.1 c1.nodup).2.2 hal1 e⟩
  · intro hsp
    obtain ⟨e1, r1⟩ := r.fit_split hbl htf n (by omega)
    have c1 := r1.toCore
    have hb1 : (⟨b.addr, b.size - ALIGN n - 32, true⟩ : Blk) ∈
        (⟨pre ++ ⟨b.addr, b.size - ALIGN n - 32, true⟩ ::
          ⟨b.addr + b.size - ALIGN n, ALIGN n, false⟩ :: post,
          A.al ++ [b.addr + b.size - ALIGN n], A.fl⟩ : Abs).blocks := by
      show _ ∈ pre ++ _ :: _ :: post
      simp
    have hb2 : (⟨b.addr + b.size - ALIGN n, ALIGN n, false⟩ : Blk) ∈
        (⟨pre ++ ⟨b.addr, b.size - ALIGN n - 32, true⟩ ::
          ⟨b.addr + b.size - ALIGN n, ALIGN n, false⟩ :: post,
          A.al ++ [b.addr + b.size - ALIGN n], A.fl⟩ : Abs).blocks := by
      show _ ∈ pre ++ _ :: _ :: post
      simp
    obtain ⟨-, q2, q3⟩ := c1.rd_size hb1
    obtain ⟨-, p2, p3⟩ := c1.rd_size hb2
    have f1 := c1.footer_eq hb1
    have f2 := c1.footer_eq hb2
    have d2 := (c1.data _ hb2).2
    have hal1 : b.addr + b.size - ALIGN n ∈ A.al ++ [b.addr + b.size - ALIGN n] := by simp
    have hfl1 : b.addr ∈ A.fl := htf
    rw [c1.allocList_eq, c1.freeList_eq]
    refine ⟨hfl1, fun e => (List.nodup_append.1 c1.nodup).2.2 e hfl1, q3, q2, ?_, f1, e1, p2,
      p3, hal1, f2, ?_⟩
    · rw [q2]; show 8 ≤ b.size - ALIGN n - 32; omega
    · have e : b.addr + 24 + b.size = b.addr + b.size - ALIGN n + 24 + ALIGN n := by omega
      unfold rd
      rw [e]
      exact d2

theorem reach_heapABf : Reach heapABf [(1120, 16)] :=
  ReachS.free heapAB _ 1072 16 reach_heapAB (by decide)

theorem malloc_heapABf : mm_malloc heapABf 16 = some (1072, heapC) :=
  some_pair_of (by decide) (by decide)

/-- C8 (as stated, refuted): after `mm_init(); mm_malloc(16);
b = mm_malloc(2^64 - 32); mm_free(b)`, every growth granted, the first-fit
candidate of `mm_malloc(16)` is 1096 with payload `P = 2^64 - 32 ≥ N + 40`, yet
the candidate is not split: `currentFreeSize = P + HEADER_SIZE + FOOTER_SIZE`
wraps to 0 in the threshold test, the call returns the candidate's own payload
address 1120, and the candidate leaves the free list with its payload size
unchanged. -/
theorem C8_oversized_not_split :
    ReachAny heapO32b [(1072, 16)] ∧ firstFit heapO32b (ALIGN 16) = some 1096 ∧
    payloadSize heapO32b 1096 = W - 32 ∧
    ALIGN 16 + (8 + HEADER_SIZE + FOOTER_SIZE) ≤ payloadSize heapO32b 1096 ∧
    mm_malloc heapO32b 16 = some (1120, heapO32c) ∧ heapO32c.enomem = false ∧
    1120 = 1096 + HEADER_SIZE ∧ 1096 ∉ freeList heapO32c ∧ 1096 ∈ allocList heapO32c ∧
    payloadSize heapO32c 1096 = W - 32 ∧
    payloadSize heapO32c 1096 ≠
      payloadSize heapO32b 1096 - ALIGN 16 - (HEADER_SIZE + FOOTER_SIZE) :=
  ⟨reachAny_heapO32b, by decide, by decide, by decide, some_pair_of (by decide) (by decide),
    by decide, by decide, by decide, by decide, by decide, by decide⟩

/-- C8 (amended): let `N = ALIGN(n)` for a request on a heap reachable by valid
calls whose request sizes are all at most `2^64 - 40`, `t` the first-fit
candidate and `P` its payload size.  The call returns.  If `P < N + 40` it
returns `t + HEADER_SIZE`, and afterwards `t` has payload `P`, tag bit 0, is on
the allocated list and not on the free list.  If `P ≥ N + 40`, `t` stays on the
free list tagged free with payload `P - N - 32 ≥ 8` and a footer referring to it,
and the returned block has its header at `t + P - N`, payload exactly `N`, tag
bit 0, is on the allocated list, and its footer, at the original footer's
address `t + HEADER_SIZE + P`, refers to the new header. -/
theorem C8_split_threshold (h : Heap) (L : List (Nat × Nat)) (hr : Reach h L) (n t : Nat)
    (ht : firstFit h (ALIGN n) = some t) :
    ∃ p h1, mm_malloc h n = some (p, h1) ∧
    t ∈ freeList h ∧ t ∉ allocList h ∧ ALIGN n ≤ payloadSize h t ∧
    (payloadSize h t < ALIGN n + (8 + HEADER_SIZE + FOOTER_SIZE) →
      p = t + HEADER_SIZE ∧ payloadSize h1 t = payloadSize h t ∧
      tagBit (h_size h1 t) = 0 ∧ t ∈ allocList h1 ∧ t ∉ freeList h1) ∧
    (ALIGN n + (8 + HEADER_SIZE + FOOTER_SIZE) ≤ payloadSize h t →
      t ∈ freeList h1 ∧ t ∉ allocList h1 ∧ tagBit (h_size h1 t) = 1 ∧
      payloadSize h1 t = payloadSize h t - ALIGN n - (HEADER_SIZE + FOOTER_SIZE) ∧
      8 ≤ payloadSize h1 t ∧ footerOf h1 t = t ∧
      p = t + payloadSize h t - ALIGN n + HEADER_SIZE ∧
      payloadSize h1 (t + payloadSize h t - ALIGN n) = ALIGN n ∧
      tagBit (h_size h1 (t + payloadSize h t - ALIGN n)) = 0 ∧
      t + payloadSize h t - ALIGN n ∈ allocList h1 ∧
      footerOf h1 (t + payloadSize h t - ALIGN n) = t + payloadSize h t - ALIGN n ∧
      rd h1 (t + HEADER_SIZE + payloadSize h t) = t + payloadSize h t - ALIGN n) := by
  obtain ⟨A, r, -, -⟩ := Reach.rep_inv hr
  obtain ⟨p, h1, hm⟩ := r.toCore.malloc_returns n
  exact ⟨p, h1, hm, split_threshold_body h L hr n p t h1 ht hm⟩

theorem C8_split_threshold_witness :
    Reach heapABf [(1120, 16)] ∧ firstFit heapABf (ALIGN 16) = some 1048 ∧
    ∃ p h1, mm_malloc heapABf 16 = some (p, h1) ∧
    1048 ∈ freeList heapABf ∧ 1048 ∉ allocList heapABf ∧
    ALIGN 16 ≤ payloadSize heapABf 1048 ∧
    (payloadSize heapABf 1048 < ALIGN 16 + (8 + HEADER_SIZE + FOOTER_SIZE) →
      p = 1048 + HEADER_SIZE ∧ payloadSize h1 1048 = payloadSize heapABf 1048 ∧
      tagBit (h_size h1 1048) = 0 ∧ 1048 ∈ allocList h1 ∧ 1048 ∉ freeList h1) ∧
    (ALIGN 16 + (8 + HEADER_SIZE + FOOTER_SIZE) ≤ payloadSize heapABf 1048 →
      1048 ∈ freeList h1 ∧ 1048 ∉ allocList h1 ∧ tagBit (h_size h1 1048) = 1 ∧
      payloadSize h1 1048 =
        payloadSize heapABf 1048 - ALIGN 16 - (HEADER_SIZE + FOOTER_SIZE) ∧
      8 ≤ payloadSize h1 1048 ∧ footerOf h1 1048 = 1048 ∧
      p = 1048 + payloadSize heapABf 1048 - ALIGN 16 + HEADER_SIZE ∧
      payloadSize h1 (1048 + payloadSize heapABf 1048 - ALIGN 16) = ALIGN 16 ∧
      tagBit (h_size h1 (1048 + payloadSize heapABf 1048 - ALIGN 16)) = 0 ∧
      1048 + payloadSize heapABf 1048 - ALIGN 16 ∈ allocList h1 ∧
      footerOf h1 (1048 + payloadSize heapABf 1048 - ALIGN 16) =
        1048 + payloadSize heapABf 1048 - ALIGN 16 ∧
      rd h1 (1048 + HEADER_SIZE + payloadSize heapABf 1048) =
        1048 + payloadSize heapABf 1048 - ALIGN 16) :=
  ⟨reach_heapABf, by decide, C8_split_threshold heapABf _ reach_heapABf 16 1048 (by decide)⟩

/-! ## Properties: release and reuse -/

/-- C16 (as stated, refuted): after `mm_init(); a = mm_malloc(16);
b = mm_malloc(2^64 - 32); mm_free(a); mm_free(b)`, every growth granted, the block
at 1096 starts where the block at 1048 ends, both are on the free list and both
have the free tag bit set.  After `mm_init(); A = mm_malloc(0); B = mm_malloc(8);
mm_free(A); mm_free(B)` the block `mm_free(B)` leaves is 1080; its physical
predecessor 1048 is on the free list, but has payload 0 and therefore no free
tag, and the backward check did not merge it: the free run 1048, 1080 stays in
two blocks. -/
theorem C16_free_neighbours_unmerged :
    ReachAny (mm_free (mm_free heapO32 1072) 1120) [] ∧
    freeList (mm_free (mm_free heapO32 1072) 1120) = [1048, 1096] ∧
    1048 + HEADER_SIZE + payloadSize (mm_free (mm_free heapO32 1072) 1120) 1048 + FOOTER_SIZE =
      1096 ∧
    tagBit (h_size (mm_free (mm_free heapO32 1072) 1120) 1048) = 1 ∧
    tagBit (h_size (mm_free (mm_free heapO32 1072) 1120) 1096) = 1 ∧
    Reach (mm_free (mm_free heapZ8 1072) 1104) [] ∧
    physBlocks (mm_free (mm_free heapZ8 1072) 1104) = some [1048, 1080] ∧
    freeList (mm_free (mm_free heapZ8 1072) 1104) = [1048, 1080] ∧
    survivorOf (mm_free heapZ8 1072) 1080 = 1080 ∧
    getPrevPhyBlk (mm_free (mm_free heapZ8 1072) 1104) 1080 = 1048 ∧
    payloadSize (mm_free (mm_free heapZ8 1072) 1104) 1048 = 0 ∧
    tagBit (h_size (mm_free (mm_free heapZ8 1072) 1104) 1048) = 0 :=
  ⟨ReachS.free _ _ 1120 (W - 32) (ReachS.free heapO32 _ 1072 16 reachAny_heapO32 (by decide))
      (by decide),
    by decide, by decide, by decide, by decide,
    ReachS.free _ _ 1104 8 (ReachS.free heapZ8 _ 1072 0 reach_heapZ8 (by decide)) (by decide),
    by decide, by decide, by decide, by decide, by decide, by decide⟩

/-- C16 (amended): in every heap reachable by valid calls whose request sizes are
all at most `2^64 - 40`, no two physically adjacent blocks both have the free tag
bit set; in particular this holds of the heap `mm_free(p)` leaves, for every live
`p`.  The block that call leaves, the value of `thisBlk` after the forward and
the backward check, is the last entry of the free list; it starts at the
released block's physical predecessor when that was tagged free and at the
released block otherwise, it ends where the physical successor ended when that
was tagged free and where the released block ended otherwise, and neither its
physical predecessor nor its physical successor is tagged free: the forward
check followed by the backward check merges the maximal run of tagged-free
blocks around the released block. -/
theorem C16_no_adjacent_free (h : Heap) (L : List (Nat × Nat)) (hr : Reach h L) :
    (∃ bs, physBlocks h = some bs ∧
      List.Chain' (fun a b => ¬ (tagBit (h_size h a) = 1 ∧ tagBit (h_size h b) = 1)) bs) ∧
    ∀ p n, (p, n) ∈ L →
      (∃ bs, physBlocks (mm_free h p) = some bs ∧
        List.Chain' (fun a b => ¬ (tagBit (h_size (mm_free h p) a) = 1 ∧
          tagBit (h_size (mm_free h p) b) = 1)) bs) ∧
      (freeBwd (freeFwd (removeFromList h (psub p HEADER_SIZE)) (psub p HEADER_SIZE))).1 =
        survivorOf h (psub p HEADER_SIZE) ∧
      (freeList (mm_free h p)).getLast? = some (survivorOf h (psub p HEADER_SIZE)) ∧
      survivorOf h (psub p HEADER_SIZE) + HEADER_SIZE +
          payloadSize (mm_free h p) (survivorOf h (psub p HEADER_SIZE)) + FOOTER_SIZE =
        spanEnd h (psub p HEADER_SIZE) ∧
      (getPrevPhyBlk (mm_free h p) (survivorOf h (psub p HEADER_SIZE)) = 0 ∨
        tagBit (h_size (mm_free h p)
          (getPrevPhyBlk (mm_free h p) (survivorOf h (psub p HEADER_SIZE)))) = 0) ∧
      (getNextPhyBlk (mm_free h p) (survivorOf h (psub p HEADER_SIZE)) = 0 ∨
        tagBit (h_size (mm_free h p)
          (getNextPhyBlk (mm_free h p) (survivorOf h (psub p HEADER_SIZE)))) = 0) := by
  constructor
  · obtain ⟨A, r, -, hn⟩ := Reach.rep_inv hr
    exact ⟨_, r.toCore.physBlocks_eq, r.toCore.tags_chain hn⟩
  · intro p n hp
    constructor
    · obtain ⟨A, r, -, hn⟩ := Reach.rep_inv (ReachS.free h L p n hr hp)
      exact ⟨_, r.toCore.physBlocks_eq, r.toCore.tags_chain hn⟩
    · obtain ⟨A, r, hl, hn⟩ := Reach.rep_inv hr
      obtain ⟨b, hb, rfl, hba, -, -⟩ := hl.live_blk hp
      have bb := r.toCore.blk hb
      have hW := r.toCore.brk_lt
      rw [psub_hdr (by omega)]
      obtain ⟨ys, e1, -, e3, e4, e5⟩ := r.free_survivor hn hb hba
      exact ⟨r.survivor_code hb hba, by rw [e1, List.getLast?_concat], e3, e4, e5⟩

theorem C16_no_adjacent_free_witness :
    Reach heapAB [(1120, 16), (1072, 16)] ∧
    (∃ bs, physBlocks heapAB = some bs ∧
      List.Chain' (fun a b => ¬ (tagBit (h_size heapAB a) = 1 ∧
        tagBit (h_size heapAB b) = 1)) bs) ∧
    ∀ p n, (p, n) ∈ [(1120, 16), (1072, 16)] →
      (∃ bs, physBlocks (mm_free heapAB p) = some bs ∧
        List.Chain' (fun a b => ¬ (tagBit (h_size (mm_free heapAB p) a) = 1 ∧
          tagBit (h_size (mm_free heapAB p) b) = 1)) bs) ∧
      (freeBwd (freeFwd (removeFromList heapAB (psub p HEADER_SIZE))
        (psub p HEADER_SIZE))).1 = survivorOf heapAB (psub p HEADER_SIZE) ∧
      (freeList (mm_free heapAB p)).getLast? = some (survivorOf heapAB (psub p HEADER_SIZE)) ∧
      survivorOf heapAB (psub p HEADER_SIZE) + HEADER_SIZE +
          payloadSize (mm_free heapAB p) (survivorOf heapAB (psub p HEADER_SIZE)) +
            FOOTER_SIZE =
        spanEnd heapAB (psub p HEADER_SIZE) ∧
      (getPrevPhyBlk (mm_free heapAB p) (survivorOf heapAB (psub p HEADER_SIZE)) = 0 ∨
        tagBit (h_size (mm_free heapAB p)
          (getPrevPhyBlk (mm_free heapAB p) (survivorOf heapAB (psub p HEADER_SIZE)))) = 0) ∧
      (getNextPhyBlk (mm_free heapAB p) (survivorOf heapAB (psub p HEADER_SIZE)) = 0 ∨
        tagBit (h_size (mm_free heapAB p)
          (getNextPhyBlk (mm_free heapAB p) (survivorOf heapAB (psub p HEADER_SIZE)))) = 0) :=
  ⟨reach_heapAB, C16_no_adjacent_free heapAB _ reach_heapAB⟩

/-- C1 (as stated, refuted): after `mm_init(); a = mm_malloc(16);
p = mm_malloc(2^64 - 8)`, every growth granted, the free list is empty and
`p = 1120` is live; the footer of `p`'s block lands on its own size field, which
then reads 1096.  `mm_free(p)` followed by `mm_malloc(2^64 - 8)` finds the freed
block too small, grows the arena and returns 1144, not `p`. -/
theorem C1_oversized_not_reused :
    ReachAny heapO8 [(1120, W - 8), (1072, 16)] ∧ freeList heapO8 = [] ∧
    (1120, W - 8) ∈ [(1120, W - 8), (1072, 16)] ∧
    (∃ h2, mm_malloc (mm_free heapO8 1120) (W - 8) = some (1144, h2) ∧ h2.enomem = false) ∧
    ¬ ∃ h2, mm_malloc (mm_free heapO8 1120) (W - 8) = some (1120, h2) :=
  ⟨reachAny_heapO8, by decide, by decide,
    ⟨_, some_pair_of (d := (0, heapO8)) (by decide) (by decide), by decide⟩,
    fun ⟨_, e⟩ => by
      have e1 := congrArg (Option.map Prod.fst) e
      simp only [Option.map_some'] at e1
      exact absurd e1 (by decide)⟩

/-- C1 (amended): for every heap reachable by valid calls whose request sizes are
all at most `2^64 - 40`, whose free list is empty, and every live block `p` that
was returned for a request of `n` bytes, `mm_free(p)` followed by `mm_malloc(n)`
returns exactly `p`. -/
theorem C1_reuse_determinism (h : Heap) (L : List (Nat × Nat)) (hr : Reach h L)
    (hfl : freeList h = []) (p n : Nat) (hp : (p, n) ∈ L) :
    ∃ h2, mm_malloc (mm_free h p) n = some (p, h2) := by
  obtain ⟨A, r, hl, -⟩ := Reach.rep_inv hr
  have c := r.toCore
  rw [c.freeList_eq] at hfl
  obtain ⟨b, hb, rfl, hba, s1, s2⟩ := hl.live_blk hp
  obtain ⟨pre, post, hbl⟩ := List.append_of_mem hb
  obtain ⟨xs1, xs2, hal⟩ := List.append_of_mem hba
  have hnf : ∀ d ∈ A.blocks, d.free = false := by
    intro d hd
    cases hf : d.free with
    | false => rfl
    | true =>
      have := r.tagF d hd hf
      rw [hfl] at this
      simp at this
  have fp := r.free_nn hbl hal
    (fun d hd => hnf d (by rw [hbl]; simp [List.mem_of_mem_head? hd]))
    (fun e he => hnf e (by rw [hbl]; simp [List.mem_of_mem_getLast? he]))
  have r1 := fp.rep
  have c1 := r1.toCore
  have hb1 : (⟨b.addr, b.size, decide (b.size ≠ 0)⟩ : Blk) ∈
      (⟨pre ++ ⟨b.addr, b.size, decide (b.size ≠ 0)⟩ :: post, xs1 ++ xs2,
        A.fl ++ [b.addr]⟩ : Abs).blocks := by
    show _ ∈ pre ++ _ :: post
    simp
  have q2 := (c1.rd_size hb1).2.1
  have hfl1 : freeList (mm_free h (b.addr + 24)) = [] ++ b.addr :: [] := by
    rw [c1.freeList_eq]
    show A.fl ++ [b.addr] = _
    rw [hfl]
  have ff := firstFit_of_front (N := ALIGN n) hfl1 (by simp) (by rw [q2]; exact s1)
  have e := c1.mm_malloc_eq n
  rw [ff] at e
  have hfl2 : (⟨pre ++ ⟨b.addr, b.size, decide (b.size ≠ 0)⟩ :: post, xs1 ++ xs2,
      A.fl ++ [b.addr]⟩ : Abs).fl = A.fl ++ b.addr :: [] := rfl
  obtain ⟨e1, -⟩ := @Rep.fit_reuse _ _ r1 ⟨b.addr, b.size, decide (b.size ≠ 0)⟩ pre post
    A.fl [] rfl hfl2 n s1 s2
  refine ⟨(mallocFit (mm_free h (b.addr + 24)) (ALIGN n) b.addr).2, ?_⟩
  rw [e]
  exact congrArg some (Prod.ext e1 rfl)

theorem C1_reuse_determinism_witness :
    Reach heapAB [(1120, 16), (1072, 16)] ∧ freeList heapAB = [] ∧
    (1072, 16) ∈ [(1120, 16), (1072, 16)] ∧
    ∃ h2, mm_malloc (mm_free heapAB 1072) 16 = some (1072, h2) :=
  ⟨reach_heapAB, by decide, by decide,
    C1_reuse_determinism heapAB _ reach_heapAB (by decide) 1072 16 (by decide)⟩

/-- C4 (as stated, refuted): after `mm_init(); A = mm_malloc(0); B = mm_malloc(8)`
the blocks 1048 and 1080 are adjacent, allocated, and have no physical
neighbours; `mm_free(A); mm_free(B)` leaves two free-list entries, and the block
at 1048 still has payload 0 and no free tag, because `mm_free` does not tag a
zero-payload block and the backward check of `mm_free(B)` therefore skips it.
And after `mm_init(); A = mm_malloc(16); B = mm_malloc(2^64 - 32)`, every growth
granted, the blocks 1048 and 1096 are adjacent, allocated, with non-zero payload
and no outer neighbours, the second beginning at the arena end; releasing them in
either order leaves two free-list entries, and 1048 keeps payload 16. -/
theorem C4_pair_not_merged :
    Reach heapZ8 [(1104, 8), (1072, 0)] ∧ physBlocks heapZ8 = some [1048, 1080] ∧
    allocList heapZ8 = [1048, 1080] ∧ freeList heapZ8 = [] ∧
    getPrevPhyBlk heapZ8 1048 = 0 ∧ getNextPhyBlk heapZ8 1080 = 0 ∧
    physBlocks (mm_free (mm_free heapZ8 1072) 1104) = some [1048, 1080] ∧
    freeList (mm_free (mm_free heapZ8 1072) 1104) = [1048, 1080] ∧
    payloadSize (mm_free (mm_free heapZ8 1072) 1104) 1048 = 0 ∧
    tagBit (h_size (mm_free (mm_free heapZ8 1072) 1104) 1048) = 0 ∧
    ReachAny heapO32 [(1120, W - 32), (1072, 16)] ∧ allocList heapO32 = [1048, 1096] ∧
    freeList heapO32 = [] ∧
    1072 + payloadSize heapO32 (1072 - HEADER_SIZE) + FOOTER_SIZE + HEADER_SIZE = 1120 ∧
    payloadSize heapO32 (1072 - HEADER_SIZE) = 16 ∧
    payloadSize heapO32 (1120 - HEADER_SIZE) = W - 32 ∧
    getPrevPhyBlk heapO32 (1072 - HEADER_SIZE) = 0 ∧
    getNextPhyBlk heapO32 (1120 - HEADER_SIZE) = 0 ∧
    freeList (mm_free (mm_free heapO32 1072) 1120) = [1048, 1096] ∧
    freeList (mm_free (mm_free heapO32 1120) 1072) = [1096, 1048] ∧
    payloadSize (mm_free (mm_free heapO32 1072) 1120) 1048 = 16 ∧
    payloadSize (mm_free (mm_free heapO32 1120) 1072) 1048 = 16 :=
  ⟨reach_heapZ8, by decide, by decide, by decide, by decide, by decide, by decide, by decide,
    by decide, by decide, reachAny_heapO32, by decide, by decide, by decide, by decide,
    by decide, by decide, by decide, by decide, by decide, by decide, by decide⟩

theorem Core.prev_untagged {h : Heap} {A : Abs} (c : Core h A) {pre post : List Blk} {k : Blk}
    (hbl : A.blocks = pre ++ k :: post)
    (hp : getPrevPhyBlk h k.addr = 0 ∨ tagBit (h_size h (getPrevPhyBlk h k.addr)) = 0) :
    ∀ e ∈ pre.getLast?, e.free = false := by
  rcases List.eq_nil_or_concat pre with h0 | ⟨init, e, h0⟩
  · rw [h0]; simp
  · have hbl1 : A.blocks = init ++ e :: k :: post := by rw [hbl, h0]; simp
    obtain ⟨pp1, -, pp3⟩ := c.prev_phy hbl1
    rw [pp1] at hp
    have hein : e ∈ A.blocks := by rw [hbl1]; simp
    have q3 := (c.rd_size hein).2.2
    intro e1 he1
    rw [h0] at he1
    simp at he1
    subst he1
    rcases hp with hp | hp
    · exact absurd hp pp3
    · rw [q3] at hp
      cases hf : e.free with
      | false => rfl
      | true => rw [hf] at hp; simp at hp

theorem Core.next_untagged {h : Heap} {A : Abs} (c : Core h A) {pre post : List Blk} {k : Blk}
    (hbl : A.blocks = pre ++ k :: post)
    (hn : getNextPhyBlk h k.addr = 0 ∨ tagBit (h_size h (getNextPhyBlk h k.addr)) = 0) :
    ∀ d ∈ post.head?, d.free = false := by
  cases post with
  | nil => simp
  | cons d rest =>
    obtain ⟨np1, -, np3⟩ := c.next_phy hbl
    rw [np1] at hn
    have hdin : d ∈ A.blocks := by rw [hbl]; simp
    have q3 := (c.rd_size hdin).2.2
    intro d1 hd1
    simp only [List.head?_cons, Option.mem_def, Option.some.injEq] at hd1
    subst hd1
    rcases hn with hn | hn
    · exact absurd hn np3
    · rw [q3] at hn
      cases hf : d.free with
      | false => rfl
      | true => rw [hf] at hn; simp at hn

theorem Rep.free_pair {h : Heap} {A : Abs} (r : Rep h A) {pre post : List Blk} {a b : Blk}
    (hbl : A.blocks = pre ++ a :: b :: post) (haa : a.addr ∈ A.al) (hba : b.addr ∈ A.al)
    (hza : a.size ≠ 0) (hzb : b.size ≠ 0) (hp : ∀ e ∈ pre.getLast?, e.free = false)
    (hn : ∀ d ∈ post.head?, d.free = false) :
    (∃ al2, Rep (mm_free (mm_free h (a.addr + 24)) (b.addr + 24))
      ⟨pre ++ ⟨a.addr, a.size + 32 + b.size, true⟩ :: post, al2, A.fl ++ [a.addr]⟩) ∧
    (∃ al2, Rep (mm_free (mm_free h (b.addr + 24)) (a.addr + 24))
      ⟨pre ++ ⟨a.addr, a.size + 32 + b.size, true⟩ :: post, al2, A.fl ++ [a.addr]⟩) := by
  have c := r.toCore
  have hain : a ∈ A.blocks := by rw [hbl]; simp
  have hbin : b ∈ A.blocks := by rw [hbl]; simp
  have hfa := r.alloc_untagged hain haa
  have hfb := r.alloc_untagged hbin hba
  obtain ⟨-, np2, -⟩ := c.next_phy hbl
  have hne : b.addr ≠ a.addr := by omega
  have hda : decide (a.size ≠ 0) = true := by simpa using hza
  have hdb : decide (b.size ≠ 0) = true := by simpa using hzb
  constructor
  · obtain ⟨xs1, xs2, hal⟩ := List.append_of_mem haa
    have fp1 := @Rep.free_nn _ _ r pre (b :: post) a xs1 xs2 hbl hal
      (fun d hd => by
        simp only [List.head?_cons, Option.mem_def, Option.some.injEq] at hd
        rw [← hd]; exact hfb) hp
    rw [hda] at fp1
    have r1 := fp1.rep
    have hb1 : b.addr ∈ xs1 ++ xs2 := erase_mid_mem (hal ▸ hba) hne
    obtain ⟨ys1, ys2, hal1⟩ := List.append_of_mem hb1
    have fp2 := @Rep.free_nb _ _ r1 pre post ⟨a.addr, a.size, true⟩ b ys1 ys2 A.fl []
      rfl hal1 rfl rfl hn
    refine ⟨ys1 ++ ys2, ?_⟩
    have := fp2.rep
    simpa using this
  · obtain ⟨xs1, xs2, hal⟩ := List.append_of_mem hba
    have hbl2 : A.blocks = (pre ++ [a]) ++ b :: post := by rw [hbl]; simp
    have fp1 := r.free_nn hbl2 hal hn
      (fun e he => by
        simp at he
        rw [← he]; exact hfa)
    rw [hdb] at fp1
    have r1 := fp1.rep
    have ha1 : a.addr ∈ xs1 ++ xs2 := erase_mid_mem (hal ▸ haa) (Ne.symm hne)
    obtain ⟨ys1, ys2, hal1⟩ := List.append_of_mem ha1
    have fp2 := @Rep.free_fn _ _ r1 pre post a ⟨b.addr, b.size, true⟩ ys1 ys2 A.fl []
      (by simp) hal1 rfl rfl hp
    refine ⟨ys1 ++ ys2, ?_⟩
    have := fp2.rep
    simpa using this

/-- C4 (amended): on a heap reachable by valid calls whose request sizes are all
at most `2^64 - 40`, let `A` and `B` be live blocks with non-zero payloads, `B`
physically following `A`, such that the physical predecessor of `A` and the physical successor of `B` are absent or not
tagged free.  After `mm_free(A); mm_free(B)` and after `mm_free(B); mm_free(A)`
the two blocks are one physical block whose header is `A`'s, with payload
`payload(A) + payload(B) + HEADER_SIZE + FOOTER_SIZE`, tagged free, on the free
list and the only free-list entry inside the span, and the footer at the end of
the span holds `A`'s header. -/
theorem C4_coalescing (h : Heap) (L : List (Nat × Nat)) (hr : Reach h L)
    (pa na pb nb : Nat) (hpa : (pa, na) ∈ L) (hpb : (pb, nb) ∈ L)
    (hadj : pa + payloadSize h (pa - HEADER_SIZE) + FOOTER_SIZE + HEADER_SIZE = pb)
    (hza : payloadSize h (pa - HEADER_SIZE) ≠ 0) (hzb : payloadSize h (pb - HEADER_SIZE) ≠ 0)
    (hprev : getPrevPhyBlk h (pa - HEADER_SIZE) = 0 ∨
      tagBit (h_size h (getPrevPhyBlk h (pa - HEADER_SIZE))) = 0)
    (hnext : getNextPhyBlk h (pb - HEADER_SIZE) = 0 ∨
      tagBit (h_size h (getNextPhyBlk h (pb - HEADER_SIZE))) = 0)
    (h2 : Heap) (hh : h2 = mm_free (mm_free h pa) pb ∨ h2 = mm_free (mm_free h pb) pa) :
    payloadSize h2 (pa - HEADER_SIZE) =
      payloadSize h (pa - HEADER_SIZE) + payloadSize h (pb - HEADER_SIZE) +
        (HEADER_SIZE + FOOTER_SIZE) ∧
    tagBit (h_size h2 (pa - HEADER_SIZE)) = 1 ∧
    pa - HEADER_SIZE ∈ freeList h2 ∧
    (∀ y ∈ freeList h2, pa - HEADER_SIZE ≤ y →
      y < pb + payloadSize h (pb - HEADER_SIZE) + FOOTER_SIZE → y = pa - HEADER_SIZE) ∧
    rd h2 (pb + payloadSize h (pb - HEADER_SIZE)) = pa - HEADER_SIZE ∧
    ∃ bs1 bs2, physBlocks h = some (bs1 ++ (pa - HEADER_SIZE) :: (pb - HEADER_SIZE) :: bs2) ∧
      physBlocks h2 = some (bs1 ++ (pa - HEADER_SIZE) :: bs2) := by
  obtain ⟨A, r, hl, -⟩ := Reach.rep_inv hr
  have c := r.toCore
  obtain ⟨a, ha, rfl, haa, -, -⟩ := hl.live_blk hpa
  obtain ⟨b, hb, rfl, hba, -, -⟩ := hl.live_blk hpb
  unfold HEADER_SIZE FOOTER_SIZE at *
  simp only [Nat.add_sub_cancel] at *
  rw [(c.rd_size ha).2.1] at hadj hza ⊢
  rw [(c.rd_size hb).2.1] at hzb ⊢
  have ba := c.blk ha
  have bb := c.blk hb
  obtain ⟨pre0, post, hbl0⟩ := List.append_of_mem hb
  have hbl : ∃ pre, A.blocks = pre ++ a :: b :: post := by
    rcases List.eq_nil_or_concat pre0 with h0 | ⟨init, e, h0⟩
    · exfalso
      have t := c.tiles
      rw [hbl0, h0] at t
      have := t.1
      omega
    · have hbl1 : A.blocks = init ++ e :: b :: post := by rw [hbl0, h0]; simp
      obtain ⟨-, pp2, -⟩ := c.prev_phy hbl1
      have hein : e ∈ A.blocks := by rw [hbl1]; simp
      rcases Tiles_sep c.tiles hein ha with e1 | e1 | e1
      · exact ⟨init, by rw [hbl1, e1]⟩
      · omega
      · omega
  obtain ⟨pre, hbl⟩ := hbl
  have hbl2 : A.blocks = (pre ++ [a]) ++ b :: post := by rw [hbl]; simp
  have hp1 := @Core.prev_untagged _ _ c pre (b :: post) a hbl hprev
  have hn1 := c.next_untagged hbl2 hnext
  obtain ⟨⟨al1, r1⟩, ⟨al2, r2⟩⟩ := r.free_pair hbl haa hba hza hzb hp1 hn1
  have key : ∀ (h2 : Heap) (al : List Nat),
      Rep h2 ⟨pre ++ ⟨a.addr, a.size + 32 + b.size, true⟩ :: post, al, A.fl ++ [a.addr]⟩ →
      payloadSize h2 a.addr = a.size + b.size + (24 + 8) ∧
      tagBit (h_size h2 a.addr) = 1 ∧ a.addr ∈ freeList h2 ∧
      (∀ y ∈ freeList h2, a.addr ≤ y → y < b.addr + 24 + b.size + 8 → y = a.addr) ∧
      rd h2 (b.addr + 24 + b.size) = a.addr ∧
      ∃ bs1 bs2, physBlocks h = some (bs1 ++ a.addr :: b.addr :: bs2) ∧
        physBlocks h2 = some (bs1 ++ a.addr :: bs2) := by
    intro h2 al r2
    have c2 := r2.toCore
    have hm : (⟨a.addr, a.size + 32 + b.size, true⟩ : Blk) ∈
        (⟨pre ++ ⟨a.addr, a.size + 32 + b.size, true⟩ :: post, al,
          A.fl ++ [a.addr]⟩ : Abs).blocks := by
      show _ ∈ pre ++ _ :: post
      simp
    obtain ⟨-, q2, q3⟩ := c2.rd_size hm
    have d2 := (c2.data _ hm).2
    rw [c2.freeList_eq]
    refine ⟨by rw [q2]; show a.size + 32 + b.size = _; omega, q3, ?_, ?_, ?_, ?_⟩
    · show a.addr ∈ A.fl ++ [a.addr]
      simp
    · intro y hy h1 h2'
      obtain ⟨d, hd, rfl⟩ := c2.sub y (List.mem_append_right _ hy)
      rcases Tiles_sep c2.tiles hd hm with e1 | e1 | e1
      · rw [e1]
      · have e2 : d.addr + 32 + d.size ≤ a.addr := e1
        omega
      · have e2 : a.addr + 32 + (a.size + 32 + b.size) ≤ d.addr := e1
        omega
    · have e : b.addr + 24 + b.size = a.addr + 24 + (a.size + 32 + b.size) := by omega
      unfold rd
      rw [e]
      exact d2
    · refine ⟨pre.map Blk.addr, post.map Blk.addr, ?_, ?_⟩
      · rw [c.physBlocks_eq, hbl]; simp
      · rw [c2.physBlocks_eq]; simp
  rcases hh with rfl | rfl
  · exact key _ _ r1
  · exact key _ _ r2

theorem C4_coalescing_witness :
    Reach heapAB [(1120, 16), (1072, 16)] ∧
    payloadSize (mm_free (mm_free heapAB 1072) 1120) (1072 - HEADER_SIZE) =
      payloadSize heapAB (1072 - HEADER_SIZE) + payloadSize heapAB (1120 - HEADER_SIZE) +
        (HEADER_SIZE + FOOTER_SIZE) ∧
    tagBit (h_size (mm_free (mm_free heapAB 1072) 1120) (1072 - HEADER_SIZE)) = 1 :=
  ⟨reach_heapAB,
    (C4_coalescing heapAB _ reach_heapAB 1072 16 1120 16 (by decide) (by decide) (by decide)
      (by decide) (by decide) (by decide) (by decide) _ (Or.inl rfl)).1,
    (C4_coalescing heapAB _ reach_heapAB 1072 16 1120 16 (by decide) (by decide) (by decide)
      (by decide) (by decide) (by decide) (by decide) _ (Or.inl rfl)).2.1⟩

/-- C5 (as stated, refuted): with `s1 = 2^64 - 1` and `s2 = 8`, `ALIGN(s1)` wraps
to 0, so `a` is the zero-payload block, which `mm_free(a)` leaves untagged and
`mm_free(b)` does not merge with; `mm_malloc(16)`, whose rounded size 16 is at
most `ALIGN(s1) + ALIGN(s2) + 32 = 40`, then finds no fit and moves the arena
end up. -/
theorem C5_wrapped_size_grows :
    1 ≤ W - 1 ∧ W - 1 < W ∧ mm_malloc heapI (W - 1) = some (1072, heapW) ∧
    mm_malloc heapW 8 = some (1104, heapW8) ∧ heapW8.enomem = false ∧
    ALIGN 16 ≤ ALIGN (W - 1) + ALIGN 8 + 32 ∧
    ∃ q h2, mm_malloc (mm_free (mm_free heapW8 1072) 1104) 16 = some (q, h2) ∧
      (mm_free (mm_free heapW8 1072) 1104).brk < h2.brk :=
  ⟨by decide, by decide, some_pair_of (by decide) (by decide),
    some_pair_of (by decide) (by decide), by decide, by decide, 1104, _,
    some_pair_of (d := (0, heapI)) (by decide) (by decide), by decide⟩

theorem singleton_eq_concat {α : Type} {x b : α} {pre : List α} (h : [x] = pre ++ [b]) :
    pre = [] ∧ b = x := by
  cases pre with
  | nil => simp at h; exact ⟨rfl, h.symm⟩
  | cons c r =>
    have := congrArg List.length h
    simp at this

theorem singleton_eq_mid {α : Type} {x y : α} {xs1 xs2 : List α}
    (h : [x] = xs1 ++ y :: xs2) : xs1 = [] ∧ xs2 = [] := by
  have := congrArg List.length h
  simp at this
  have h1 : xs1.length = 0 := by omega
  have h2 : xs2.length = 0 := by omega
  exact ⟨List.length_eq_zero.1 h1, List.length_eq_zero.1 h2⟩

/-- C5 (amended): for all request sizes `s1, s2` with `1 ≤ s ≤ 2^64 - 40`, on a
fresh arena where `mm_init` and the two allocations are granted their growth:
after `mm_init(); a = mm_malloc(s1); b = mm_malloc(s2); mm_free(a); mm_free(b)`,
every `mm_malloc(n)` with `ALIGN(n) ≤ ALIGN(s1) + ALIGN(s2) + 32` returns a
non-null address with no growth failing, leaves the arena end unchanged, and the
returned payload lies between `a` and the end of the payload of `b`. -/
theorem C5_coalesce_room (h0 : Heap) (hf : Fresh h0) (s1 s2 a b : Nat) (ha hb : Heap)
    (p1 : 1 ≤ s1) (p2 : 1 ≤ s2) (v1 : ValidSize s1) (v2 : ValidSize s2)
    (hi : (mm_init h0).2.enomem = false)
    (ma : mm_malloc (mm_init h0).2 s1 = some (a, ha)) (oa : ha.enomem = false)
    (mb : mm_malloc ha s2 = some (b, hb)) (ob : hb.enomem = false)
    (n : Nat) (hn : ALIGN n ≤ ALIGN s1 + ALIGN s2 + 32) :
    ∃ q h2, mm_malloc (mm_free (mm_free hb a) b) n = some (q, h2) ∧
      h2.brk = (mm_free (mm_free hb a) b).brk ∧ h2.brk = hb.brk ∧ h2.enomem = false ∧
      q ≠ 0 ∧ a ≤ q ∧ q + ALIGN n ≤ b + ALIGN s2 := by
  have r0 := mm_init_rep h0 hf hi
  have c0 := r0.toCore
  have hW0 := c0.brk_lt
  have hb0 : (⟨h0.lo + 48, 0, true⟩ : Blk) ∈
      (⟨[⟨h0.lo + 48, 0, true⟩], [], [h0.lo + 48]⟩ : Abs).blocks := List.mem_singleton.2 rfl
  have bb0 : _ ∧ h0.lo + 48 + 32 + 0 ≤ (mm_init h0).2.brk ∧ _ ∧ _ := c0.blk hb0
  have N1 := ALIGN_pos v1 p1
  have N2 := ALIGN_pos v2 p2
  -- first allocation: the initial block is extended
  have hnf0 : ∀ y ∈ ([h0.lo + 48] : List Nat),
      payloadSize (mm_init h0).2 y < ALIGN s1 := by
    intro y hy
    rw [List.mem_singleton.1 hy, (c0.rd_size hb0).2.1]
    show 0 < ALIGN s1
    omega
  have ff0 : firstFit (mm_init h0).2 (ALIGN s1) = none :=
    firstFit_none (by rw [c0.freeList_eq]; exact hnf0)
  obtain ⟨ea, eha⟩ := malloc_grow_eq c0 ff0 ma
  rw [eha] at oa
  obtain ⟨pre, k, hk, -, -, g1, -⟩ := r0.grow s1 v1 hnf0 oa
  obtain ⟨rfl, rfl⟩ := singleton_eq_concat (show [_] = pre ++ [k] from hk)
  obtain ⟨-, e1, -, xs1, xs2, hx, r1⟩ := g1 rfl
  obtain ⟨rfl, rfl⟩ := singleton_eq_mid (show [_] = xs1 ++ _ :: xs2 from hx)
  have r1' : Rep ha ⟨[⟨h0.lo + 48, ALIGN s1, false⟩], [h0.lo + 48], []⟩ := by
    rw [eha]; simpa using r1
  have ea' : a = h0.lo + 48 + 24 := by
    rw [ea, e1]
    exact padd_eq (by simp only [HEADER_SIZE]; omega)
  clear r1 hx e1 ea
  -- second allocation: a new block is appended
  have c1 := r1'.toCore
  have ff1 : firstFit ha (ALIGN s2) = none :=
    firstFit_none (by rw [c1.freeList_eq]; simp)
  obtain ⟨eb, ehb⟩ := malloc_grow_eq c1 ff1 mb
  rw [ehb] at ob
  obtain ⟨pre, k, hk, -, hend, -, g2⟩ := r1'.grow s2 v2 (by simp) ob
  obtain ⟨rfl, rfl⟩ := singleton_eq_concat (show [_] = pre ++ [k] from hk)
  obtain ⟨e2, -, r2⟩ := g2 rfl
  have hend' : ha.brk = h0.lo + 48 + 32 + ALIGN s1 := hend.symm
  have hW1 := c1.brk_lt
  have hcap1 := c1.cap_lt
  have hbc1 := c1.brk_cap
  have eb' : b = h0.lo + 48 + 32 + ALIGN s1 + 24 := by
    rw [eb, e2, hend']
    exact padd_eq (by simp only [HEADER_SIZE]; omega)
  have r2' : Rep hb ⟨[] ++ ⟨h0.lo + 48, ALIGN s1, false⟩ ::
      ⟨h0.lo + 48 + 32 + ALIGN s1, ALIGN s2, false⟩ :: [], [h0.lo + 48,
        h0.lo + 48 + 32 + ALIGN s1], []⟩ := by
    rw [ehb, ← hend']; simpa using r2
  clear r2 e2 eb
  -- the two releases merge the blocks
  obtain ⟨⟨al3, r3⟩, -⟩ := @Rep.free_pair _ _ r2' [] [] ⟨h0.lo + 48, ALIGN s1, false⟩
    ⟨h0.lo + 48 + 32 + ALIGN s1, ALIGN s2, false⟩ rfl (by simp) (by simp) N1 N2
    (by simp) (by simp)
  rw [← ea', ← eb'] at r3
  have c3 := r3.toCore
  have hm : (⟨h0.lo + 48, ALIGN s1 + 32 + ALIGN s2, true⟩ : Blk) ∈
      (⟨[] ++ ⟨h0.lo + 48, ALIGN s1 + 32 + ALIGN s2, true⟩ :: [], al3,
        [] ++ [h0.lo + 48]⟩ : Abs).blocks := List.mem_singleton.2 rfl
  have q2 := (c3.rd_size hm).2.1
  have hbrk3 : (mm_free (mm_free hb a) b).brk = hb.brk := by
    have t3 := c3.tiles
    have t2 := r2'.toCore.tiles
    simp only [List.nil_append, Tiles] at t3 t2
    omega
  have hbrkb : hb.brk = h0.lo + 48 + 32 + ALIGN s1 + 32 + ALIGN s2 := by
    have t2 := r2'.toCore.tiles
    simp only [List.nil_append, Tiles] at t2
    omega
  -- the request is served from the merged block
  have ff3 : firstFit (mm_free (mm_free hb a) b) (ALIGN n) = some (h0.lo + 48) :=
    @firstFit_of_front _ _ _ [] [] (by rw [c3.freeList_eq]) (by simp)
      (by rw [q2]; show ALIGN n ≤ ALIGN s1 + 32 + ALIGN s2; omega)
  have e : mm_malloc (mm_free (mm_free hb a) b) n =
      some (mallocFit (mm_free (mm_free hb a) b) (ALIGN n) (h0.lo + 48)) := by
    rw [c3.mm_malloc_eq n, ff3]
  refine ⟨(mallocFit (mm_free (mm_free hb a) b) (ALIGN n) (h0.lo + 48)).1,
    (mallocFit (mm_free (mm_free hb a) b) (ALIGN n) (h0.lo + 48)).2, e,
    mallocFit_brk _ _ _, ?_⟩
  rw [mallocFit_brk, hbrk3]
  by_cases hsp : ALIGN s1 + 32 + ALIGN s2 < ALIGN n + 40
  · obtain ⟨e5, r5⟩ := @Rep.fit_reuse _ _ r3 ⟨h0.lo + 48, ALIGN s1 + 32 + ALIGN s2, true⟩
      [] [] [] [] rfl rfl n (by show ALIGN n ≤ ALIGN s1 + 32 + ALIGN s2; omega) hsp
    refine ⟨rfl, r5.toCore.ok, ?_⟩
    have e6 : (mallocFit (mm_free (mm_free hb a) b) (ALIGN n) (h0.lo + 48)).1 =
        h0.lo + 48 + 24 := e5
    rw [e6]
    omega
  · obtain ⟨e5, r5⟩ := @Rep.fit_split _ _ r3 ⟨h0.lo + 48, ALIGN s1 + 32 + ALIGN s2, true⟩
      [] [] rfl (by simp) n (by show ALIGN n + 40 ≤ ALIGN s1 + 32 + ALIGN s2; omega)
    refine ⟨rfl, r5.toCore.ok, ?_⟩
    have e6 : (mallocFit (mm_free (mm_free hb a) b) (ALIGN n) (h0.lo + 48)).1 =
        h0.lo + 48 + (ALIGN s1 + 32 + ALIGN s2) - ALIGN n + 24 := e5
    rw [e6]
    omega

theorem C5_coalesce_room_witness :
    Fresh heap0 ∧ mm_malloc (mm_init heap0).2 8 = some (1072, heapS) ∧
    mm_malloc heapS 8 = some (1112, heapSS) ∧ ALIGN 24 ≤ ALIGN 8 + ALIGN 8 + 32 ∧
    (∃ q h2, mm_malloc (mm_free (mm_free heapSS 1072) 1112) 24 = some (q, h2) ∧
      h2.brk = (mm_free (mm_free heapSS 1072) 1112).brk ∧ h2.brk = heapSS.brk ∧
      h2.enomem = false ∧ q ≠ 0 ∧ 1072 ≤ q ∧ q + ALIGN 24 ≤ 1112 + ALIGN 8) ∧
    (mm_malloc (mm_free (mm_free heapSS 1072) 1112) 24).map Prod.fst = some 1072 :=
  ⟨fresh_heap0, some_pair_of (by decide) (by decide), some_pair_of (by decide) (by decide),
    by decide,
    C5_coalesce_room heap0 fresh_heap0 8 8 1072 1112 heapS heapSS (by decide) (by decide)
      (valid_small (by decide)) (valid_small (by decide)) (by decide)
      (some_pair_of (by decide) (by decide)) (by decide)
      (some_pair_of (by decide) (by decide)) (by decide) 24 (by decide),
    by decide⟩

/-! ## Properties: `mm_realloc` -/

theorem sbrkBlk_fst (h : Heap) (N : Nat) :
    (tagBit (h_size h (rd h (ALIGN_DOWN (mem_heap_hi h)))) ≠ 0 →
      (sbrkBlk h N).1 = rd h (ALIGN_DOWN (mem_heap_hi h))) ∧
    (tagBit (h_size h (rd h (ALIGN_DOWN (mem_heap_hi h)))) = 0 →
      (sbrkBlk h N).1 = (mem_sbrk h (ALIGN (padd (padd N FOOTER_SIZE) HEADER_SIZE))).1) := by
  constructor
  · intro htag
    unfold sbrkBlk
    simp only [htag, ne_eq, not_false_eq_true, if_true]
  · intro htag
    unfold sbrkBlk
    simp only [htag, ne_eq, not_true_eq_false, if_false]

theorem MallocPost.disjoint {h h1 : Heap} {A A1 : Abs} {n p : Nat} (c : Core h A)
    (mp : MallocPost h A n p h1 A1) {d : Nat} (hd : d ∈ A.al) :
    p + payloadSize h1 (p - 24) ≤ d + 24 ∨ d + 24 + payloadSize h d ≤ p := by
  obtain ⟨b, hb, e, hn, -, hs, -, -, -⟩ := mp.fresh
  obtain ⟨dd, hdd, rfl⟩ := c.sub d (List.mem_append_left _ hd)
  have hk := mp.keep dd hdd hd
  rw [hs, (c.rd_size hdd).2.1]
  rcases Tiles_sep mp.rep.toCore.tiles hb hk with e1 | e1 | e1
  · rw [e1] at hn; exact absurd hd hn
  · left; omega
  · right; omega

theorem Rep.malloc_disjoint {h : Heap} {A : Abs} (r : Rep h A) {n p : Nat} {h1 : Heap}
    (hm : mm_malloc h n = some (p, h1)) (hok : h1.enomem = false) {d : Nat}
    (hd : d ∈ A.al) :
    p + payloadSize h1 (p - 24) ≤ d + 24 ∨ d + 24 + payloadSize h d ≤ p := by
  have c := r.toCore
  cases hff : firstFit h (ALIGN n) with
  | some t =>
    obtain ⟨rfl, rfl⟩ := malloc_fit_eq c hff hm
    obtain ⟨hfit, xs1, xs2, hfl, -⟩ := firstFit_some hff
    rw [c.freeList_eq] at hfl
    have htf : t ∈ A.fl := by rw [hfl]; simp
    obtain ⟨b, hb, rfl⟩ := c.sub t (List.mem_append_right _ htf)
    rw [(c.rd_size hb).2.1] at hfit
    obtain ⟨pre, post, hbl⟩ := List.append_of_mem hb
    by_cases hsp : b.size < ALIGN n + 40
    · exact (r.malloc_reuse hbl hfl n hfit hsp).disjoint c hd
    · exact (r.malloc_split hbl htf n (by omega)).disjoint c hd
  | none =>
    obtain ⟨rfl, rfl⟩ := malloc_grow_eq c hff hm
    right
    obtain ⟨pre, b, hbl, hend, hrd⟩ := c.last
    have hb : b ∈ A.blocks := by rw [hbl]; simp
    have bb := c.blk hb
    have hcap := c.cap_lt
    have hbc := c.brk_cap
    obtain ⟨dd, hdd, rfl⟩ := c.sub d (List.mem_append_left _ hd)
    have bd := c.blk hdd
    rw [(c.rd_size hdd).2.1]
    obtain ⟨f1, f2⟩ := sbrkBlk_fst h (ALIGN n)
    unfold HEADER_SIZE
    by_cases htag : tagBit (h_size h (rd h (ALIGN_DOWN (mem_heap_hi h)))) = 0
    · rw [f2 htag]
      by_cases hg : h.brk + ALIGN (padd (padd (ALIGN n) FOOTER_SIZE) HEADER_SIZE) ≤ h.cap
      · rw [(mem_sbrk_ok h _ hg).1, padd_eq (by omega)]
        omega
      · rw [sbrkBlk_fail_append h (ALIGN n) htag hg] at hok
        exact Bool.noConfusion hok
    · rw [f1 htag, hrd, padd_eq (by omega)]
      have hfree : b.free = true := tagBit_free c hb (by rw [← hrd]; exact htag)
      have hne : dd ≠ b := by
        intro e
        rw [e] at hd
        rw [r.alloc_untagged hb hd] at hfree
        exact Bool.noConfusion hfree
      rcases Tiles_sep c.tiles hdd hb with e1 | e1 | e1
      · exact absurd e1 hne
      · omega
      · omega

/-- C2 (as stated, refuted): after `mm_init(); a = mm_malloc(16);
b = mm_malloc(2^64 - 8); c = mm_malloc(16)`, every growth granted, the blocks at
1096 and 1120 are both on the allocated list; the footer of `b`'s block landed on
its own size field, so its payload size reads 1096 and its payload range
`[1120, 2216)` contains the payload range `[1144, 1160)` of `c`, which the granted
third call returned while `b` was live. -/
theorem C2_oversized_overlap :
    ReachAny heapO8m [(1144, 16), (1120, W - 8), (1072, 16)] ∧
    mm_malloc heapO8 16 = some (1144, heapO8m) ∧ heapO8m.enomem = false ∧
    allocList heapO8 = [1048, 1096] ∧ allocList heapO8m = [1048, 1096, 1120] ∧
    payloadSize heapO8 1096 = 1096 ∧ payloadSize heapO8m 1096 = 1096 ∧
    payloadSize heapO8m 1120 = 16 ∧
    ¬ (1096 + HEADER_SIZE + payloadSize heapO8m 1096 ≤ 1120 + HEADER_SIZE ∨
       1120 + HEADER_SIZE + payloadSize heapO8m 1120 ≤ 1096 + HEADER_SIZE) ∧
    ¬ (1144 + payloadSize heapO8m (1144 - HEADER_SIZE) ≤ 1096 + HEADER_SIZE ∨
       1096 + HEADER_SIZE + payloadSize heapO8 1096 ≤ 1144) :=
  ⟨ReachS.malloc heapO8 heapO8m _ 16 1144 reachAny_heapO8 (any_size (by decide))
      malloc_heapO8 (by decide),
    malloc_heapO8, by decide, by decide, by decide, by decide, by decide, by decide, by decide,
    by decide⟩

/-- C2 (amended): in every heap reachable by valid calls whose request sizes are
all at most `2^64 - 40`, the payload ranges of two distinct blocks on the
allocated list are disjoint, and for every request size `n` the payload range of
the block a granted `mm_malloc(n)` returns is disjoint from the payload range of
every block that was on the allocated list before the call. -/
theorem C2_no_overlap (h : Heap) (L : List (Nat × Nat)) (hr : Reach h L) :
    (∀ a ∈ allocList h, ∀ b ∈ allocList h, a ≠ b →
      a + HEADER_SIZE + payloadSize h a ≤ b + HEADER_SIZE ∨
      b + HEADER_SIZE + payloadSize h b ≤ a + HEADER_SIZE) ∧
    (∀ n p h1, mm_malloc h n = some (p, h1) → h1.enomem = false →
      ∀ d ∈ allocList h, p + payloadSize h1 (p - HEADER_SIZE) ≤ d + HEADER_SIZE ∨
        d + HEADER_SIZE + payloadSize h d ≤ p) := by
  obtain ⟨A, r, -, -⟩ := Reach.rep_inv hr
  have c := r.toCore
  rw [c.allocList_eq]
  unfold HEADER_SIZE
  constructor
  · intro a ha b hb hab
    obtain ⟨da, hda, rfl⟩ := c.sub a (List.mem_append_left _ ha)
    obtain ⟨db, hdb, rfl⟩ := c.sub b (List.mem_append_left _ hb)
    rw [(c.rd_size hda).2.1, (c.rd_size hdb).2.1]
    rcases Tiles_sep c.tiles hda hdb with e | e | e
    · exact absurd (congrArg Blk.addr e) hab
    · left; omega
    · right; omega
  · intro n p h1 hm hok d hd
    exact r.malloc_disjoint hm hok hd

theorem C2_no_overlap_witness :
    Reach heapAB [(1120, 16), (1072, 16)] ∧
    (∀ a ∈ allocList heapAB, ∀ b ∈ allocList heapAB, a ≠ b →
      a + HEADER_SIZE + payloadSize heapAB a ≤ b + HEADER_SIZE ∨
      b + HEADER_SIZE + payloadSize heapAB b ≤ a + HEADER_SIZE) ∧
    (∀ n p h1, mm_malloc heapAB n = some (p, h1) → h1.enomem = false →
      ∀ d ∈ allocList heapAB, p + payloadSize h1 (p - HEADER_SIZE) ≤ d + HEADER_SIZE ∨
        d + HEADER_SIZE + payloadSize heapAB d ≤ p) :=
  ⟨reach_heapAB, C2_no_overlap heapAB _ reach_heapAB⟩

end MallocLab
